import Mathlib

/-!
# Ordered set backed by a red-black tree (`src/set/set.h`)

The C++ class `Set<ValueType>` keeps its nodes on the heap and links them with
raw `left_`, `right_` and `parent_` pointers; one shared sentinel node `nil_`
stands for every missing child and for the parent of the root.

The embedding keeps that shape.  A pointer is a natural number, the heap is a
total map from addresses to `Node` records, and every member function is a
function on the explicit state `Set α`.  Address `0` plays the part of
`nullptr`.  `new` hands out the address `next` and increments it; `delete`
records the address in `freed`.  The comparison `operator<` of the value type
is the parameter `lt`.

Every `while` loop is a recursive function on a step budget.  The budget a
member function hands to its loops is the number of addresses handed out so
far (`next`): no simple pointer path through live cells is longer than that.
A run that exhausts the budget yields `none`.

`size_` is a `size_t`.  It counts live nodes, which occupy pairwise distinct
addresses, so `++size_` is taken on `Nat` without wrap-around; `--size_` wraps
at zero as the machine type does.
-/

namespace RBSet

/-- The two node colours of `enum class Color`. -/
inductive Color where
  | RED
  | BLACK
deriving DecidableEq, Repr

/-- A heap cell: `struct Node` with its five fields. -/
structure Node (α : Type) where
  value_ : α
  left_ : Nat
  right_ : Nat
  parent_ : Nat
  color_ : Color

/-- The object state of a `Set<ValueType>` together with the heap it lives in. -/
structure Set (α : Type) where
  heap : Nat → Node α
  root_ : Nat
  nil_ : Nat
  size_ : Nat
  next : Nat
  freed : List Nat

variable {α : Type}

/-! ## Field reads and writes -/

/-- Reads `a->value_`. -/
def Set.value (s : Set α) (a : Nat) : α := (s.heap a).value_
/-- Reads `a->left_`. -/
def Set.left (s : Set α) (a : Nat) : Nat := (s.heap a).left_
/-- Reads `a->right_`. -/
def Set.right (s : Set α) (a : Nat) : Nat := (s.heap a).right_
/-- Reads `a->parent_`. -/
def Set.parent (s : Set α) (a : Nat) : Nat := (s.heap a).parent_
/-- Reads `a->color_`. -/
def Set.color (s : Set α) (a : Nat) : Color := (s.heap a).color_

/-- Performs `a->left_ = p`. -/
def Set.setLeft (s : Set α) (a p : Nat) : Set α :=
  { s with heap := fun b => if b = a then { s.heap a with left_ := p } else s.heap b }
/-- Performs `a->right_ = p`. -/
def Set.setRight (s : Set α) (a p : Nat) : Set α :=
  { s with heap := fun b => if b = a then { s.heap a with right_ := p } else s.heap b }
/-- Performs `a->parent_ = p`. -/
def Set.setParent (s : Set α) (a p : Nat) : Set α :=
  { s with heap := fun b => if b = a then { s.heap a with parent_ := p } else s.heap b }
/-- Performs `a->color_ = c`. -/
def Set.setColor (s : Set α) (a : Nat) (c : Color) : Set α :=
  { s with heap := fun b => if b = a then { s.heap a with color_ := c } else s.heap b }
/-- Performs `root_ = p`. -/
def Set.setRoot (s : Set α) (p : Nat) : Set α := { s with root_ := p }

/-- The largest `size_t` value plus one. -/
def SIZE_WRAP : Nat := 2 ^ 64

/-- The constructor `Set()`: allocates the BLACK sentinel holding `ValueType()`
and points its three links and `root_` at it.  The heap it starts from is
empty: address `0` is `nullptr`, the sentinel gets address `1`. -/
def Set.new (dflt : α) : Set α :=
  let cell : Node α := { value_ := dflt, left_ := 0, right_ := 0, parent_ := 0, color_ := Color.BLACK }
  let s : Set α := { heap := fun _ => cell, root_ := 0, nil_ := 1, size_ := 0, next := 2, freed := [] }
  let s := s.setRoot s.nil_
  let s := s.setParent s.nil_ s.nil_
  let s := s.setRight s.nil_ s.nil_
  s.setLeft s.nil_ s.nil_

/-- The expression `new Node(value)`: a RED cell with null links at a fresh address. -/
def Set.alloc (s : Set α) (value : α) : Set α × Nat :=
  let cell : Node α := { value_ := value, left_ := 0, right_ := 0, parent_ := 0, color_ := Color.RED }
  ({ s with heap := fun b => if b = s.next then cell else s.heap b, next := s.next + 1 }, s.next)

/-! ## Private helpers of the class -/

/-- Member `Equal`: neither value is less than the other. -/
def Equal (lt : α → α → Bool) (lhs rhs : α) : Bool := !(lt lhs rhs) && !(lt rhs lhs)

/-- Member `RedFlag`. -/
def RedFlag (s : Set α) (node : Nat) : Bool := s.color node == Color.RED
/-- Member `BlackFlag`. -/
def BlackFlag (s : Set α) (node : Nat) : Bool := s.color node == Color.BLACK
/-- Member `PaintRed`. -/
def PaintRed (s : Set α) (node : Nat) : Set α := s.setColor node Color.RED
/-- Member `PaintBlack`. -/
def PaintBlack (s : Set α) (node : Nat) : Set α := s.setColor node Color.BLACK

/-- The loop of `FindByValue`. -/
def FindByValueLoop (lt : α → α → Bool) (s : Set α) (value : α) : Nat → Nat → Option Nat
  | 0, _ => none
  | fuel + 1, current_node =>
    if current_node ≠ s.nil_ then
      if Equal lt (s.value current_node) value then some current_node
      else if lt value (s.value current_node) then
        FindByValueLoop lt s value fuel (s.left current_node)
      else
        FindByValueLoop lt s value fuel (s.right current_node)
    else some current_node

/-- Member `FindByValue`: descent from the root, the sentinel when absent. -/
def FindByValue (lt : α → α → Bool) (s : Set α) (value : α) : Option Nat :=
  FindByValueLoop lt s value s.next s.root_

/-- Member `MinValueNode`, the loop on its budget. -/
def MinValueNodeLoop (s : Set α) : Nat → Nat → Option Nat
  | 0, _ => none
  | fuel + 1, min_val_node =>
    if s.left min_val_node ≠ s.nil_ then MinValueNodeLoop s fuel (s.left min_val_node)
    else some min_val_node

/-- Member `MinValueNode`. -/
def MinValueNode (s : Set α) (root : Nat) : Option Nat := MinValueNodeLoop s s.next root

/-- Member `MaxValueNode`, the loop on its budget. -/
def MaxValueNodeLoop (s : Set α) : Nat → Nat → Option Nat
  | 0, _ => none
  | fuel + 1, max_val_node =>
    if s.right max_val_node ≠ s.nil_ then MaxValueNodeLoop s fuel (s.right max_val_node)
    else some max_val_node

/-- Member `MaxValueNode`. -/
def MaxValueNode (s : Set α) (root : Nat) : Option Nat := MaxValueNodeLoop s s.next root

/-- The upward walk of `Successor`. -/
def SuccessorLoop (s : Set α) : Nat → Nat → Nat → Option Nat
  | 0, _, _ => none
  | fuel + 1, node, y_node =>
    if y_node ≠ s.nil_ ∧ node = s.right y_node then SuccessorLoop s fuel y_node (s.parent y_node)
    else some y_node

/-- Member `Successor`. -/
def Successor (s : Set α) (node : Nat) : Option Nat :=
  if s.right node ≠ s.nil_ then MinValueNode s (s.right node)
  else SuccessorLoop s s.next node (s.parent node)

/-- The upward walk of `Predecessor`. -/
def PredecessorLoop (s : Set α) : Nat → Nat → Nat → Option Nat
  | 0, _, _ => none
  | fuel + 1, node, y_node =>
    if y_node ≠ s.nil_ ∧ node = s.left y_node then PredecessorLoop s fuel y_node (s.parent y_node)
    else some y_node

/-- Member `Predecessor`. -/
def Predecessor (s : Set α) (node : Nat) : Option Nat :=
  if s.left node ≠ s.nil_ then MaxValueNode s (s.left node)
  else PredecessorLoop s s.next node (s.parent node)

/-! ## Rotations -/

/-- Member `LeftRotate`. -/
def LeftRotate (s : Set α) (x_node : Nat) : Set α :=
  let y_node := s.right x_node
  let s := s.setRight x_node (s.left y_node)
  let s := if s.left y_node ≠ s.nil_ then s.setParent (s.left y_node) x_node else s
  let s := s.setParent y_node (s.parent x_node)
  let s :=
    if s.parent x_node = s.nil_ then s.setRoot y_node
    else if x_node = s.left (s.parent x_node) then s.setLeft (s.parent x_node) y_node
    else s.setRight (s.parent x_node) y_node
  let s := s.setLeft y_node x_node
  s.setParent x_node y_node

/-- Member `RightRotate`. -/
def RightRotate (s : Set α) (x_node : Nat) : Set α :=
  let y_node := s.left x_node
  let s := s.setLeft x_node (s.right y_node)
  let s := if s.right y_node ≠ s.nil_ then s.setParent (s.right y_node) x_node else s
  let s := s.setParent y_node (s.parent x_node)
  let s :=
    if s.parent x_node = s.nil_ then s.setRoot y_node
    else if x_node = s.left (s.parent x_node) then s.setLeft (s.parent x_node) y_node
    else s.setRight (s.parent x_node) y_node
  let s := s.setRight y_node x_node
  s.setParent x_node y_node

/-! ## Insertion -/

/-- The loop of `RBInsertFixup`; the result is the state when the loop exits. -/
def RBInsertFixupLoop : Nat → Set α → Nat → Option (Set α)
  | 0, _, _ => none
  | fuel + 1, s, z_node =>
    if RedFlag s (s.parent z_node) then
      if s.parent z_node = s.left (s.parent (s.parent z_node)) then
        let y_node := s.right (s.parent (s.parent z_node))
        if RedFlag s y_node then
          let s := PaintBlack s (s.parent z_node)
          let s := PaintBlack s y_node
          let s := PaintRed s (s.parent (s.parent z_node))
          let z_node := s.parent (s.parent z_node)
          RBInsertFixupLoop fuel s z_node
        else
          let sz : Set α × Nat :=
            if z_node = s.right (s.parent z_node) then
              let z_node := s.parent z_node
              (LeftRotate s z_node, z_node)
            else (s, z_node)
          let s := sz.1
          let z_node := sz.2
          let s := PaintBlack s (s.parent z_node)
          let s := PaintRed s (s.parent (s.parent z_node))
          let s := RightRotate s (s.parent (s.parent z_node))
          RBInsertFixupLoop fuel s z_node
      else
        let y_node := s.left (s.parent (s.parent z_node))
        if RedFlag s y_node then
          let s := PaintBlack s (s.parent z_node)
          let s := PaintBlack s y_node
          let s := PaintRed s (s.parent (s.parent z_node))
          let z_node := s.parent (s.parent z_node)
          RBInsertFixupLoop fuel s z_node
        else
          let sz : Set α × Nat :=
            if z_node = s.left (s.parent z_node) then
              let z_node := s.parent z_node
              (RightRotate s z_node, z_node)
            else (s, z_node)
          let s := sz.1
          let z_node := sz.2
          let s := PaintBlack s (s.parent z_node)
          let s := PaintRed s (s.parent (s.parent z_node))
          let s := LeftRotate s (s.parent (s.parent z_node))
          RBInsertFixupLoop fuel s z_node
    else some s

/-- Member `RBInsertFixup`: the loop, then `PaintBlack(root_)`. -/
def RBInsertFixup (s : Set α) (z_node : Nat) : Option (Set α) :=
  match RBInsertFixupLoop s.next s z_node with
  | none => none
  | some s => some (PaintBlack s s.root_)

/-- The descent loop of `RBInsert`; the result is the final `y_node`. -/
def RBInsertDescend (lt : α → α → Bool) (s : Set α) (z_node : Nat) : Nat → Nat → Nat → Option Nat
  | 0, _, _ => none
  | fuel + 1, y_node, x_node =>
    if x_node ≠ s.nil_ then
      if lt (s.value z_node) (s.value x_node) then
        RBInsertDescend lt s z_node fuel x_node (s.left x_node)
      else
        RBInsertDescend lt s z_node fuel x_node (s.right x_node)
    else some y_node

/-- The writes of `RBInsert` between its descent loop and the call of
`RBInsertFixup`: `z_node` is hung below `y_node` as a RED leaf. -/
def RBInsertLink (lt : α → α → Bool) (s : Set α) (z_node y_node : Nat) : Set α :=
  let s := s.setParent z_node y_node
  let s :=
    if y_node = s.nil_ then s.setRoot z_node
    else if lt (s.value z_node) (s.value y_node) then s.setLeft y_node z_node
    else s.setRight y_node z_node
  let s := s.setLeft z_node s.nil_
  let s := s.setRight z_node s.nil_
  PaintRed s z_node

/-- Member `RBInsert`. -/
def RBInsert (lt : α → α → Bool) (s : Set α) (z_node : Nat) : Option (Set α) :=
  match RBInsertDescend lt s z_node s.next s.nil_ s.root_ with
  | none => none
  | some y_node =>
    let s := RBInsertLink lt s z_node y_node
    match RBInsertFixup s z_node with
    | none => none
    | some s => some { s with size_ := s.size_ + 1 }

/-- Member `insert`. -/
def insert (lt : α → α → Bool) (s : Set α) (value : α) : Option (Set α) :=
  match FindByValue lt s value with
  | none => none
  | some found =>
    if found ≠ s.nil_ then some s
    else
      let sn := s.alloc value
      RBInsert lt sn.1 sn.2

/-! ## Deletion -/

/-- Member `RBTransplant`.  Both parameters are references in the source; every
call site passes for `y_node` either a local variable or a child field of a
node whose own child fields the body does not overwrite with another value, so
the pointer is passed by value here. -/
def RBTransplant (s : Set α) (x_node y_node : Nat) : Set α :=
  let s :=
    if s.parent x_node = s.nil_ then s.setRoot y_node
    else if x_node = s.left (s.parent x_node) then s.setLeft (s.parent x_node) y_node
    else s.setRight (s.parent x_node) y_node
  s.setParent y_node (s.parent x_node)

/-- The loop of `RBDeleteFixup`; the result is the state and the final `x_node`. -/
def RBDeleteFixupLoop : Nat → Set α → Nat → Option (Set α × Nat)
  | 0, _, _ => none
  | fuel + 1, s, x_node =>
    if x_node ≠ s.root_ ∧ BlackFlag s x_node then
      if x_node = s.left (s.parent x_node) then
        let w_node := s.right (s.parent x_node)
        let sw : Set α × Nat :=
          if RedFlag s w_node then
            let s := PaintBlack s w_node
            let s := PaintRed s (s.parent x_node)
            let s := LeftRotate s (s.parent x_node)
            (s, s.right (s.parent x_node))
          else (s, w_node)
        let s := sw.1
        let w_node := sw.2
        if BlackFlag s (s.left w_node) ∧ BlackFlag s (s.right w_node) then
          let s := PaintRed s w_node
          let x_node := s.parent x_node
          RBDeleteFixupLoop fuel s x_node
        else
          let sw : Set α × Nat :=
            if BlackFlag s (s.right w_node) then
              let s := PaintBlack s (s.left w_node)
              let s := PaintRed s w_node
              let s := RightRotate s w_node
              (s, s.right (s.parent x_node))
            else (s, w_node)
          let s := sw.1
          let w_node := sw.2
          let s := s.setColor w_node (s.color (s.parent x_node))
          let s := PaintBlack s (s.parent x_node)
          let s := PaintBlack s (s.right w_node)
          let s := LeftRotate s (s.parent x_node)
          let x_node := s.root_
          RBDeleteFixupLoop fuel s x_node
      else
        let w_node := s.left (s.parent x_node)
        let sw : Set α × Nat :=
          if RedFlag s w_node then
            let s := PaintBlack s w_node
            let s := PaintRed s (s.parent x_node)
            let s := RightRotate s (s.parent x_node)
            (s, s.left (s.parent x_node))
          else (s, w_node)
        let s := sw.1
        let w_node := sw.2
        if BlackFlag s (s.left w_node) ∧ BlackFlag s (s.right w_node) then
          let s := PaintRed s w_node
          let x_node := s.parent x_node
          RBDeleteFixupLoop fuel s x_node
        else
          let sw : Set α × Nat :=
            if BlackFlag s (s.left w_node) then
              let s := PaintBlack s (s.right w_node)
              let s := PaintRed s w_node
              let s := LeftRotate s w_node
              (s, s.left (s.parent x_node))
            else (s, w_node)
          let s := sw.1
          let w_node := sw.2
          let s := s.setColor w_node (s.color (s.parent x_node))
          let s := PaintBlack s (s.parent x_node)
          let s := PaintBlack s (s.left w_node)
          let s := RightRotate s (s.parent x_node)
          let x_node := s.root_
          RBDeleteFixupLoop fuel s x_node
    else some (s, x_node)

/-- Member `RBDeleteFixup`: the loop, then `PaintBlack(x_node)`. -/
def RBDeleteFixup (s : Set α) (x_node : Nat) : Option (Set α) :=
  match RBDeleteFixupLoop s.next s x_node with
  | none => none
  | some sx => some (PaintBlack sx.1 sx.2)

/-- Lines 485 and 486 of `RBDelete`: the successor `y_node`, already cut out of
its place, takes over the right subtree of `z_node`. -/
def RBDeleteAdopt (s : Set α) (z_node y_node : Nat) : Set α :=
  let s := s.setRight y_node (s.right z_node)
  s.setParent (s.right y_node) y_node

/-- Lines 489 to 492 of `RBDelete`: `y_node` takes the place, the left subtree
and the colour of `z_node`. -/
def RBDeleteReplace (s : Set α) (z_node y_node : Nat) : Set α :=
  let s := RBTransplant s z_node y_node
  let s := s.setLeft y_node (s.left z_node)
  let s := s.setParent (s.left y_node) y_node
  s.setColor y_node (s.color z_node)

/-- The splice phase of `RBDelete`: everything before the test of
`y_original_color`.  The result is the state, `x_node` and `y_original_color`. -/
def RBDeleteSplice (s : Set α) (z_node : Nat) : Option (Set α × Nat × Color) :=
  let y_node := z_node
  let y_original_color := s.color y_node
  if s.left z_node = s.nil_ then
    let x_node := s.right z_node
    let s := RBTransplant s z_node (s.right z_node)
    some (s, x_node, y_original_color)
  else if s.right z_node = s.nil_ then
    let x_node := s.left z_node
    let s := RBTransplant s z_node (s.left z_node)
    some (s, x_node, y_original_color)
  else
    match MinValueNode s (s.right z_node) with
    | none => none
    | some y_node =>
      let y_original_color := s.color y_node
      let x_node := s.right y_node
      let s :=
        if s.parent y_node = z_node then s.setParent x_node y_node
        else
          let s := RBTransplant s y_node (s.right y_node)
          RBDeleteAdopt s z_node y_node
      let s := RBDeleteReplace s z_node y_node
      some (s, x_node, y_original_color)

/-- Member `RBDelete`. -/
def RBDelete (s : Set α) (z_node : Nat) : Option (Set α) :=
  match RBDeleteSplice s z_node with
  | none => none
  | some (s, x_node, y_original_color) =>
    let fixed : Option (Set α) :=
      if y_original_color = Color.BLACK then RBDeleteFixup s x_node else some s
    match fixed with
    | none => none
    | some s =>
      some { s with size_ := (if s.size_ = 0 then SIZE_WRAP - 1 else s.size_ - 1),
                    freed := z_node :: s.freed }

/-- Member `erase`. -/
def erase (lt : α → α → Bool) (s : Set α) (value : α) : Option (Set α) :=
  match FindByValue lt s value with
  | none => none
  | some node => if node ≠ s.nil_ then RBDelete s node else some s

/-! ## Queries and iterators

An iterator is the pair of the set and a node pointer; the set is the state
at hand, so an iterator is modelled by its node pointer. -/

/-- Member `find`. -/
def find (lt : α → α → Bool) (s : Set α) (value : α) : Option Nat := FindByValue lt s value

/-- Member `end`: the sentinel. -/
def end_ (s : Set α) : Nat := s.nil_

/-- Member `begin`: the leftmost node from the root. -/
def begin_ (s : Set α) : Option Nat := MinValueNode s s.root_

/-- Member `size`. -/
def size (s : Set α) : Nat := s.size_

/-- Member `empty`. -/
def empty (s : Set α) : Bool := s.size_ == 0

/-- The descent loop of `lower_bound`; the result is the pair
`(current_node, current_parent)` when the loop exits. -/
def lowerBoundLoop (lt : α → α → Bool) (s : Set α) (value : α) : Nat → Nat → Nat → Option (Nat × Nat)
  | 0, _, _ => none
  | fuel + 1, current_node, current_parent =>
    if current_node ≠ s.nil_ ∧ !(Equal lt (s.value current_node) value) then
      if lt value (s.value current_node) then
        lowerBoundLoop lt s value fuel (s.left current_node) current_node
      else
        lowerBoundLoop lt s value fuel (s.right current_node) current_node
    else some (current_node, current_parent)

/-- Member `lower_bound`. -/
def lower_bound (lt : α → α → Bool) (s : Set α) (value : α) : Option Nat :=
  match lowerBoundLoop lt s value s.next s.root_ s.root_ with
  | none => none
  | some (current_node, current_parent) =>
    if current_node ≠ s.nil_ then some current_node
    else if lt (s.value current_parent) value then Successor s current_parent
    else some current_parent

/-- The iterator `operator++`. -/
def iterNext (s : Set α) (node : Nat) : Option Nat := Successor s node

/-- The iterator `operator--`. -/
def iterPrev (s : Set α) (node : Nat) : Option Nat :=
  if node ≠ s.nil_ then Predecessor s node else MaxValueNode s s.root_

/-- The iterator `operator*`. -/
def iterDeref (s : Set α) (node : Nat) : α := s.value node

/-- The values met by `for (it = begin(); it != end(); ++it)`, on a budget. -/
def traverseLoop (s : Set α) : Nat → Nat → Option (List α)
  | 0, _ => none
  | fuel + 1, it =>
    if it ≠ end_ s then
      match iterNext s it with
      | none => none
      | some nxt =>
        match traverseLoop s fuel nxt with
        | none => none
        | some rest => some (iterDeref s it :: rest)
    else some []

/-- The ascending traversal of the set through its iterators. -/
def traversal (s : Set α) : Option (List α) :=
  match begin_ s with
  | none => none
  | some it => traverseLoop s s.next it

/-! ## The range constructors -/

/-- The loop `while (first != last) { insert(*first); ++first; }` of the range
constructor; the input range is the list of the values it yields. -/
def rangeLoop (lt : α → α → Bool) : Set α → List α → Option (Set α)
  | s, [] => some s
  | s, value :: rest =>
    match insert lt s value with
    | none => none
    | some s2 => rangeLoop lt s2 rest

/-- The constructor `Set(Iterator first, Iterator last)`: the default
constructor, then one `insert` for every value of the range. -/
def Set.ofRange (lt : α → α → Bool) (dflt : α) (range : List α) : Option (Set α) :=
  rangeLoop lt (Set.new dflt) range

/-- The constructor `Set(std::initializer_list<ValueType>)`: it delegates to the
range constructor. -/
def Set.ofInitList (lt : α → α → Bool) (dflt : α) (init_list : List α) : Option (Set α) :=
  Set.ofRange lt dflt init_list

/-! ## Destruction and copy assignment -/

/-- Member `ClearAll`: `delete` of the cells below `root` in post-order, then of
`root` itself.  The recursion is on a budget.  The parameter is a reference to
a pointer in the source; the body only reads it, so it is passed by value. -/
def ClearAll : Nat → Set α → Nat → Option (Set α)
  | 0, _, _ => none
  | fuel + 1, s, root =>
    match (if s.left root ≠ s.nil_ then ClearAll fuel s (s.left root) else some s) with
    | none => none
    | some s1 =>
      match (if s1.right root ≠ s1.nil_ then ClearAll fuel s1 (s1.right root) else some s1) with
      | none => none
      | some s2 => some { s2 with freed := root :: s2.freed }

/-- The loop `while (itr != rhs.end()) { insert(*itr); ++itr; }` of `operator=`,
on a budget; `rhs` is only read. -/
def assignLoop (lt : α → α → Bool) (rhs : Set α) : Nat → Set α → Nat → Option (Set α)
  | 0, _, _ => none
  | fuel + 1, s, itr =>
    if itr ≠ end_ rhs then
      match insert lt s (iterDeref rhs itr) with
      | none => none
      | some s2 =>
        match iterNext rhs itr with
        | none => none
        | some nxt => assignLoop lt rhs fuel s2 nxt
    else some s

/-- The copy assignment `operator=`.  `same` tells whether `this == &rhs`.  The
right-hand side is a `const` reference that the body only reads through
`begin`, `end`, `operator++` and `operator*`; it lives in cells of its own,
which is why it is a state of its own here. -/
def Set.assign (lt : α → α → Bool) (s rhs : Set α) (same : Bool) : Option (Set α) :=
  if same then some s
  else
    match ClearAll s.next s s.root_ with
    | none => none
    | some s =>
      let s := s.setRoot s.nil_
      match begin_ rhs with
      | none => none
      | some itr =>
        match assignLoop lt rhs rhs.next s itr with
        | none => none
        | some s => some { s with size_ := rhs.size_ }

/-! ## The fixup loops, iteration by iteration

The two fixup loops once more, with the body of the loop as a function of its
own that also returns the calls it makes, and with a run that keeps one record
per iteration.  `RBInsertFixupLoop` and `RBDeleteFixupLoop` are the runs
without the records. -/

/-- A call a fixup loop makes, or a value it assigns to `w_node`.  The pivot of a
rotation is the child that takes the place of the node: the right child for
`LeftRotate`, the left child for `RightRotate`, read when the call is made.
`setColor` is the assignment `w_node->color_ = x_node->parent_->color_`. -/
inductive Event where
  | paintRed (node : Nat) : Event
  | paintBlack (node : Nat) : Event
  | setColor (node : Nat) (color : Color) : Event
  | leftRotate (x_node pivot : Nat) : Event
  | rightRotate (x_node pivot : Nat) : Event
  | sibling (w_node : Nat) : Event
  deriving DecidableEq, Repr

/-- The record of one iteration of a fixup loop: the state and the node
(`z_node` or `x_node`) it starts with, the calls it makes, and the state and
the node it ends with. -/
structure Iteration (α : Type) where
  pre : Set α
  node : Nat
  events : List Event
  post : Set α
  next : Nat

/-- The body of the loop of `RBInsertFixup`: `none` when the loop condition
fails, else the state and `z_node` after the body, with the calls made. -/
def RBInsertFixupStep (s : Set α) (z_node : Nat) : Option (Set α × Nat × List Event) :=
  if RedFlag s (s.parent z_node) then
    if s.parent z_node = s.left (s.parent (s.parent z_node)) then
      let y_node := s.right (s.parent (s.parent z_node))
      if RedFlag s y_node then
        let log := [Event.paintBlack (s.parent z_node)]
        let s := PaintBlack s (s.parent z_node)
        let log := log ++ [Event.paintBlack y_node]
        let s := PaintBlack s y_node
        let log := log ++ [Event.paintRed (s.parent (s.parent z_node))]
        let s := PaintRed s (s.parent (s.parent z_node))
        let z_node := s.parent (s.parent z_node)
        some (s, z_node, log)
      else
        let szl : Set α × Nat × List Event :=
          if z_node = s.right (s.parent z_node) then
            let z_node := s.parent z_node
            (LeftRotate s z_node, z_node, [Event.leftRotate z_node (s.right z_node)])
          else (s, z_node, [])
        let s := szl.1
        let z_node := szl.2.1
        let log := szl.2.2
        let log := log ++ [Event.paintBlack (s.parent z_node)]
        let s := PaintBlack s (s.parent z_node)
        let log := log ++ [Event.paintRed (s.parent (s.parent z_node))]
        let s := PaintRed s (s.parent (s.parent z_node))
        let log := log ++ [Event.rightRotate (s.parent (s.parent z_node))
          (s.left (s.parent (s.parent z_node)))]
        let s := RightRotate s (s.parent (s.parent z_node))
        some (s, z_node, log)
    else
      let y_node := s.left (s.parent (s.parent z_node))
      if RedFlag s y_node then
        let log := [Event.paintBlack (s.parent z_node)]
        let s := PaintBlack s (s.parent z_node)
        let log := log ++ [Event.paintBlack y_node]
        let s := PaintBlack s y_node
        let log := log ++ [Event.paintRed (s.parent (s.parent z_node))]
        let s := PaintRed s (s.parent (s.parent z_node))
        let z_node := s.parent (s.parent z_node)
        some (s, z_node, log)
      else
        let szl : Set α × Nat × List Event :=
          if z_node = s.left (s.parent z_node) then
            let z_node := s.parent z_node
            (RightRotate s z_node, z_node, [Event.rightRotate z_node (s.left z_node)])
          else (s, z_node, [])
        let s := szl.1
        let z_node := szl.2.1
        let log := szl.2.2
        let log := log ++ [Event.paintBlack (s.parent z_node)]
        let s := PaintBlack s (s.parent z_node)
        let log := log ++ [Event.paintRed (s.parent (s.parent z_node))]
        let s := PaintRed s (s.parent (s.parent z_node))
        let log := log ++ [Event.leftRotate (s.parent (s.parent z_node))
          (s.right (s.parent (s.parent z_node)))]
        let s := LeftRotate s (s.parent (s.parent z_node))
        some (s, z_node, log)
  else none

/-- The loop of `RBInsertFixup` with one record per iteration. -/
def RBInsertFixupRun : Nat → Set α → Nat → Option (Set α × List (Iteration α))
  | 0, _, _ => none
  | fuel + 1, s, z_node =>
    match RBInsertFixupStep s z_node with
    | none => some (s, [])
    | some (s2, z2, events) =>
      match RBInsertFixupRun fuel s2 z2 with
      | none => none
      | some (s3, log) =>
        some (s3, { pre := s, node := z_node, events := events, post := s2, next := z2 } :: log)

/-- Lines 515 to 532 of `RBDeleteFixup`: what the body does for a left child
`x_node` after the statement that deals with a RED sibling.  `log` holds the
events of the body so far. -/
def RBDeleteFixupLeftRest (s : Set α) (x_node w_node : Nat) (log : List Event) :
    Set α × Nat × List Event :=
  if BlackFlag s (s.left w_node) ∧ BlackFlag s (s.right w_node) then
    let log := log ++ [Event.paintRed w_node]
    let s := PaintRed s w_node
    let x_node := s.parent x_node
    (s, x_node, log)
  else
    let swl : Set α × Nat × List Event :=
      if BlackFlag s (s.right w_node) then
        let log := log ++ [Event.paintBlack (s.left w_node)]
        let s := PaintBlack s (s.left w_node)
        let log := log ++ [Event.paintRed w_node]
        let s := PaintRed s w_node
        let log := log ++ [Event.rightRotate w_node (s.left w_node)]
        let s := RightRotate s w_node
        (s, s.right (s.parent x_node), log ++ [Event.sibling (s.right (s.parent x_node))])
      else (s, w_node, log)
    let s := swl.1
    let w_node := swl.2.1
    let log := swl.2.2
    let log := log ++ [Event.setColor w_node (s.color (s.parent x_node))]
    let s := s.setColor w_node (s.color (s.parent x_node))
    let log := log ++ [Event.paintBlack (s.parent x_node)]
    let s := PaintBlack s (s.parent x_node)
    let log := log ++ [Event.paintBlack (s.right w_node)]
    let s := PaintBlack s (s.right w_node)
    let log := log ++ [Event.leftRotate (s.parent x_node) (s.right (s.parent x_node))]
    let s := LeftRotate s (s.parent x_node)
    let x_node := s.root_
    (s, x_node, log)

/-- Lines 543 to 559 of `RBDeleteFixup`: what the body does for a right child
`x_node` after the statement that deals with a RED sibling. -/
def RBDeleteFixupRightRest (s : Set α) (x_node w_node : Nat) (log : List Event) :
    Set α × Nat × List Event :=
  if BlackFlag s (s.left w_node) ∧ BlackFlag s (s.right w_node) then
    let log := log ++ [Event.paintRed w_node]
    let s := PaintRed s w_node
    let x_node := s.parent x_node
    (s, x_node, log)
  else
    let swl : Set α × Nat × List Event :=
      if BlackFlag s (s.left w_node) then
        let log := log ++ [Event.paintBlack (s.right w_node)]
        let s := PaintBlack s (s.right w_node)
        let log := log ++ [Event.paintRed w_node]
        let s := PaintRed s w_node
        let log := log ++ [Event.leftRotate w_node (s.right w_node)]
        let s := LeftRotate s w_node
        (s, s.left (s.parent x_node), log ++ [Event.sibling (s.left (s.parent x_node))])
      else (s, w_node, log)
    let s := swl.1
    let w_node := swl.2.1
    let log := swl.2.2
    let log := log ++ [Event.setColor w_node (s.color (s.parent x_node))]
    let s := s.setColor w_node (s.color (s.parent x_node))
    let log := log ++ [Event.paintBlack (s.parent x_node)]
    let s := PaintBlack s (s.parent x_node)
    let log := log ++ [Event.paintBlack (s.left w_node)]
    let s := PaintBlack s (s.left w_node)
    let log := log ++ [Event.rightRotate (s.parent x_node) (s.left (s.parent x_node))]
    let s := RightRotate s (s.parent x_node)
    let x_node := s.root_
    (s, x_node, log)

/-- The body of the loop of `RBDeleteFixup`: `none` when the loop condition
fails, else the state and `x_node` after the body, with the calls made and the
values assigned to `w_node`. -/
def RBDeleteFixupStep (s : Set α) (x_node : Nat) : Option (Set α × Nat × List Event) :=
  if x_node ≠ s.root_ ∧ BlackFlag s x_node then
    if x_node = s.left (s.parent x_node) then
      let w_node := s.right (s.parent x_node)
      let log := [Event.sibling w_node]
      let swl : Set α × Nat × List Event :=
        if RedFlag s w_node then
          let log := log ++ [Event.paintBlack w_node]
          let s := PaintBlack s w_node
          let log := log ++ [Event.paintRed (s.parent x_node)]
          let s := PaintRed s (s.parent x_node)
          let log := log ++ [Event.leftRotate (s.parent x_node) (s.right (s.parent x_node))]
          let s := LeftRotate s (s.parent x_node)
          (s, s.right (s.parent x_node), log ++ [Event.sibling (s.right (s.parent x_node))])
        else (s, w_node, log)
      some (RBDeleteFixupLeftRest swl.1 x_node swl.2.1 swl.2.2)
    else
      let w_node := s.left (s.parent x_node)
      let log := [Event.sibling w_node]
      let swl : Set α × Nat × List Event :=
        if RedFlag s w_node then
          let log := log ++ [Event.paintBlack w_node]
          let s := PaintBlack s w_node
          let log := log ++ [Event.paintRed (s.parent x_node)]
          let s := PaintRed s (s.parent x_node)
          let log := log ++ [Event.rightRotate (s.parent x_node) (s.left (s.parent x_node))]
          let s := RightRotate s (s.parent x_node)
          (s, s.left (s.parent x_node), log ++ [Event.sibling (s.left (s.parent x_node))])
        else (s, w_node, log)
      some (RBDeleteFixupRightRest swl.1 x_node swl.2.1 swl.2.2)
  else none

/-- The loop of `RBDeleteFixup` with one record per iteration. -/
def RBDeleteFixupRun : Nat → Set α → Nat → Option (Set α × Nat × List (Iteration α))
  | 0, _, _ => none
  | fuel + 1, s, x_node =>
    match RBDeleteFixupStep s x_node with
    | none => some (s, x_node, [])
    | some (s2, x2, events) =>
      match RBDeleteFixupRun fuel s2 x2 with
      | none => none
      | some (s3, x3, log) =>
        some (s3, x3,
          { pre := s, node := x_node, events := events, post := s2, next := x2 } :: log)

/-- The records of the fixup loop that `RBInsert` runs. -/
def RBInsertLog (lt : α → α → Bool) (s : Set α) (z_node : Nat) : Option (List (Iteration α)) :=
  match RBInsertDescend lt s z_node s.next s.nil_ s.root_ with
  | none => none
  | some y_node =>
    let s := RBInsertLink lt s z_node y_node
    match RBInsertFixupRun s.next s z_node with
    | none => none
    | some r => some r.2

/-- The records of the fixup loop that `insert` runs; none when the value is found. -/
def insertLog (lt : α → α → Bool) (s : Set α) (value : α) : Option (List (Iteration α)) :=
  match FindByValue lt s value with
  | none => none
  | some found =>
    if found ≠ s.nil_ then some []
    else
      let sn := s.alloc value
      RBInsertLog lt sn.1 sn.2

/-- The records of the fixup loop that `RBDelete` runs; none when
`y_original_color` is RED. -/
def RBDeleteLog (s : Set α) (z_node : Nat) : Option (List (Iteration α)) :=
  match RBDeleteSplice s z_node with
  | none => none
  | some (s, x_node, y_original_color) =>
    if y_original_color = Color.BLACK then
      match RBDeleteFixupRun s.next s x_node with
      | none => none
      | some r => some r.2.2
    else some []

/-- The records of the fixup loop that `erase` runs; none when the value is absent. -/
def eraseLog (lt : α → α → Bool) (s : Set α) (value : α) : Option (List (Iteration α)) :=
  match FindByValue lt s value with
  | none => none
  | some node => if node ≠ s.nil_ then RBDeleteLog s node else some []

end RBSet

/-!
## The tree a heap stores

The pointer structure below `root_` is read back as an algebraic tree whose
nodes carry their heap address.  The red-black invariants, the search-tree
order and the in-order sequence are stated on that tree; `Set.Shape` ties the
tree to the heap cell by cell.
-/

namespace RBSet

variable {α : Type}

/-- A binary tree whose nodes record address, colour and value. -/
inductive Tree (α : Type) where
  | leaf : Tree α
  | node (a : Nat) (c : Color) (l : Tree α) (v : α) (r : Tree α) : Tree α

namespace Tree

/-- The pointer that designates a tree: its root address, the sentinel for a leaf. -/
def ptr (nil : Nat) : Tree α → Nat
  | leaf => nil
  | node a _ _ _ _ => a

/-- The colour of the root; the sentinel is BLACK. -/
def color : Tree α → Color
  | leaf => Color.BLACK
  | node _ c _ _ _ => c

/-- The node addresses in in-order. -/
def addrs : Tree α → List Nat
  | leaf => []
  | node a _ l _ r => l.addrs ++ a :: r.addrs

/-- The values in in-order. -/
def inorder : Tree α → List α
  | leaf => []
  | node _ _ l v r => l.inorder ++ v :: r.inorder

/-- The cells in in-order: each node as the pair of its address and its value. -/
def cells : Tree α → List (Nat × α)
  | leaf => []
  | node a _ l v r => l.cells ++ (a, v) :: r.cells

/-- The number of nodes. -/
def count : Tree α → Nat
  | leaf => 0
  | node _ _ l _ r => l.count + 1 + r.count

/-- The number of nodes on the longest path from the root to a sentinel. -/
def height : Tree α → Nat
  | leaf => 0
  | node _ _ l _ r => max l.height r.height + 1

/-- The number of BLACK nodes on the leftmost path to a sentinel. -/
def bh : Tree α → Nat
  | leaf => 0
  | node _ c l _ _ => l.bh + (if c = Color.BLACK then 1 else 0)

/-- No RED node has a RED child. -/
def NoRedRed : Tree α → Prop
  | leaf => True
  | node _ c l _ r =>
    (c = Color.RED → l.color = Color.BLACK ∧ r.color = Color.BLACK) ∧ l.NoRedRed ∧ r.NoRedRed

/-- Every path from the root to a sentinel holds the same number of BLACK nodes:
at each node the two subtrees have the same black count. -/
def Balanced : Tree α → Prop
  | leaf => True
  | node _ _ l _ r => l.bh = r.bh ∧ l.Balanced ∧ r.Balanced

/-- The numbers of BLACK nodes on the paths from the root to the sentinels, one
entry for every such path, from left to right. -/
def blackCounts : Tree α → List Nat
  | leaf => [0]
  | node _ c l _ r =>
    (l.blackCounts ++ r.blackCounts).map (fun n => n + (if c = Color.BLACK then 1 else 0))

/-- The tree with its root painted BLACK. -/
def blacken : Tree α → Tree α
  | leaf => leaf
  | node a _ l v r => node a Color.BLACK l v r

/-- The three red-black invariants: BLACK root, no RED-RED pair, uniform black height. -/
def RedBlack (t : Tree α) : Prop := t.color = Color.BLACK ∧ t.NoRedRed ∧ t.Balanced

/-- The search-tree order under `lt`: every value of the left subtree is below
the node value, every value of the right subtree above it. -/
def BST (lt : α → α → Bool) : Tree α → Prop
  | leaf => True
  | node _ _ l v r =>
    (∀ x ∈ l.inorder, lt x v = true) ∧ (∀ x ∈ r.inorder, lt v x = true) ∧ l.BST lt ∧ r.BST lt

end Tree

/-- The heap stores tree `t` below a cell whose parent link is `par`. -/
def Repr (s : Set α) : Tree α → Nat → Prop
  | .leaf, _ => True
  | .node a c l v r, par =>
    a ≠ s.nil_ ∧ s.value a = v ∧ s.color a = c ∧ s.left a = l.ptr s.nil_ ∧
      s.right a = r.ptr s.nil_ ∧ s.parent a = par ∧ Repr s l a ∧ Repr s r a

/-- One step of a path from a subtree up to the root: the parent cell and the sibling. -/
inductive Frame (α : Type) where
  | left (a : Nat) (c : Color) (v : α) (r : Tree α) : Frame α
  | right (a : Nat) (c : Color) (l : Tree α) (v : α) : Frame α

/-- A path from a subtree to the root, innermost frame first. -/
abbrev Path (α : Type) := List (Frame α)

namespace Frame

/-- The address of the parent cell. -/
def addr : Frame α → Nat
  | left a _ _ _ => a
  | right a _ _ _ => a

/-- The colour of the parent cell. -/
def color : Frame α → Color
  | left _ c _ _ => c
  | right _ c _ _ => c

/-- The sibling subtree. -/
def sib : Frame α → Tree α
  | left _ _ _ r => r
  | right _ _ l _ => l

/-- The frame with its parent cell recoloured. -/
def paint (c2 : Color) : Frame α → Frame α
  | left a _ v r => left a c2 v r
  | right a _ l v => right a c2 l v

/-- The tree obtained by hanging `t` below the frame. -/
def fill : Frame α → Tree α → Tree α
  | left a c v r, t => Tree.node a c t v r
  | right a c l v, t => Tree.node a c l v t

end Frame

/-- The whole tree obtained by putting `t` into the hole of the path. -/
def plug : Path α → Tree α → Tree α
  | [], t => t
  | f :: p, t => plug p (f.fill t)

/-- The pointer to the innermost parent cell; the sentinel at the root. -/
def pathPtr (nil : Nat) : Path α → Nat
  | [] => nil
  | f :: _ => f.addr

/-- The colour of the innermost parent cell; BLACK at the root. -/
def pathColor : Path α → Color
  | [] => Color.BLACK
  | f :: _ => f.color

/-- The addresses on a path, siblings included. -/
def pathAddrs : Path α → List Nat
  | [] => []
  | f :: p => f.addr :: f.sib.addrs ++ pathAddrs p

/-- The cells of a path that come before its hole in in-order. -/
def cellsL : Path α → List (Nat × α)
  | [] => []
  | .left _ _ _ _ :: p => cellsL p
  | .right a _ l v :: p => cellsL p ++ (l.cells ++ [(a, v)])

/-- The cells of a path that come after its hole in in-order. -/
def cellsR : Path α → List (Nat × α)
  | [] => []
  | .left a _ v r :: p => ((a, v) :: r.cells) ++ cellsR p
  | .right _ _ _ _ :: p => cellsR p

/-- The red-black conditions on a path whose hole takes a subtree of black
height `n`: every sibling is a valid subtree of the matching black height, a
RED parent cell has a BLACK sibling below it and a BLACK cell above it, and it
is not the root. -/
def PathRB : Path α → Nat → Prop
  | [], _ => True
  | f :: p, n =>
    f.sib.NoRedRed ∧ f.sib.Balanced ∧ f.sib.bh = n ∧
      (f.color = Color.RED → f.sib.color = Color.BLACK ∧ pathColor p = Color.BLACK ∧ p ≠ []) ∧
      PathRB p (n + (if f.color = Color.BLACK then 1 else 0))

/-- The path the descent loop of `RBInsert` walks for a value `v`, on top of `acc`. -/
def insPath (lt : α → α → Bool) (v : α) : Tree α → Path α → Path α
  | .leaf, acc => acc
  | .node a c l w r, acc =>
    if lt v w then insPath lt v l (.left a c w r :: acc)
    else insPath lt v r (.right a c l w :: acc)

/-- The descent of `FindByValue` for a value `v`, on top of `acc`: the path
walked and the subtree at which the loop stops (a leaf when `v` is absent). -/
def zoom (lt : α → α → Bool) (v : α) : Tree α → Path α → Path α × Tree α
  | .leaf, acc => (acc, .leaf)
  | .node a c l w r, acc =>
    if Equal lt w v then (acc, .node a c l w r)
    else if lt v w then zoom lt v l (.left a c w r :: acc)
    else zoom lt v r (.right a c l w :: acc)

/-- The innermost frame of the path lies on the side `RBInsert` picks for `v`. -/
def sideOK (lt : α → α → Bool) (v : α) : Path α → Prop
  | [] => True
  | .left _ _ w _ :: _ => lt v w = true
  | .right _ _ _ w :: _ => lt v w = false

/-- The path, relative to the root of the tree, that `MinValueNode` walks: left
frames down to the leftmost node. -/
def minPath : Tree α → Path α
  | .leaf => []
  | .node _ _ .leaf _ _ => []
  | .node a c (.node la lc ll lv lr) v r => minPath (.node la lc ll lv lr) ++ [.left a c v r]

/-- The subtree at the leftmost node of a tree. -/
def minTree : Tree α → Tree α
  | .leaf => .leaf
  | .node a c .leaf v r => .node a c .leaf v r
  | .node _ _ (.node la lc ll lv lr) _ _ => minTree (.node la lc ll lv lr)

/-- The heap stores the path whose hole is designated by `hole`. -/
def ReprPath (s : Set α) : Path α → Nat → Prop
  | [], hole => s.root_ = hole
  | .left a c v r :: p, hole =>
    a ≠ s.nil_ ∧ s.value a = v ∧ s.color a = c ∧ s.left a = hole ∧
      s.right a = r.ptr s.nil_ ∧ s.parent a = pathPtr s.nil_ p ∧ Repr s r a ∧ ReprPath s p a
  | .right a c l v :: p, hole =>
    a ≠ s.nil_ ∧ s.value a = v ∧ s.color a = c ∧ s.left a = l.ptr s.nil_ ∧
      s.right a = hole ∧ s.parent a = pathPtr s.nil_ p ∧ Repr s l a ∧ ReprPath s p a

/-- The sentinel is BLACK and its two child links point to itself. -/
structure NilOK (s : Set α) : Prop where
  left : s.left s.nil_ = s.nil_
  right : s.right s.nil_ = s.nil_
  color : s.color s.nil_ = Color.BLACK
  lt_next : s.nil_ < s.next

/-- The part of the state no rebalancing step touches. -/
def SameMeta (s s2 : Set α) : Prop :=
  s2.nil_ = s.nil_ ∧ s2.next = s.next ∧ s2.size_ = s.size_ ∧ s2.freed = s.freed ∧
    ∀ a, s2.value a = s.value a

/-- The heap is the focused tree `plug p t`, seen from the subtree `t`. -/
structure Zip (s : Set α) (p : Path α) (t : Tree α) : Prop where
  path : ReprPath s p (t.ptr s.nil_)
  sub : Repr s t (pathPtr s.nil_ p)
  nodup : (t.addrs ++ pathAddrs p).Nodup
  fresh : ∀ a ∈ t.addrs ++ pathAddrs p, a < s.next
  nil : NilOK s

/-- The state stores exactly the tree `t`: `root_` designates it, every cell
agrees with it, all its addresses are distinct and were handed out by `new`,
and the sentinel is intact. -/
structure Set.Shape (s : Set α) (t : Tree α) : Prop where
  root : s.root_ = t.ptr s.nil_
  repr : Repr s t s.nil_
  nodup : t.addrs.Nodup
  fresh : ∀ a ∈ t.addrs, a < s.next
  nil : NilOK s

/-- What `RBDeleteFixup` achieves when started at the subtree `x` below the path
`p`: it returns, and the state it leaves stores a red-black tree with the same
cells in the same order; when that tree is empty the parent link of the
sentinel points to the sentinel. -/
def DelFixOK (s : Set α) (fuel : Nat) (p : Path α) (x : Tree α) : Prop :=
  ∃ s2 x2 t2, RBDeleteFixupLoop fuel s (x.ptr s.nil_) = some (s2, x2) ∧
    SameMeta s (PaintBlack s2 x2) ∧ (PaintBlack s2 x2).Shape t2 ∧ t2.RedBlack ∧
    t2.cells = (plug p x).cells ∧ (t2 = Tree.leaf → s2.parent s2.nil_ = s2.nil_)

/-- What the splice phase of `RBDelete` achieves for the node `z`: it returns a
state that stores a tree with the cells `cs`, focused at the subtree `x` that
took the place of the removed cell, with the parent link of `x_node` set even
when `x` is the sentinel; `z` is no longer in the tree.  When the recorded
colour is RED the tree is a red-black tree, when it is BLACK the subtree `x` is
one BLACK node short. -/
def SpliceOK (s : Set α) (z : Nat) (cs : List (Nat × α)) : Prop :=
  ∃ (s1 : Set α) (p : Path α) (x : Tree α) (oc : Color),
    RBDeleteSplice s z = some (s1, x.ptr s.nil_, oc) ∧ SameMeta s s1 ∧ Zip s1 p x ∧
    s1.parent (x.ptr s.nil_) = pathPtr s.nil_ p ∧ z ∉ (plug p x).addrs ∧
    (plug p x).cells = cs ∧
    (oc = Color.BLACK → PathRB p (x.bh + 1) ∧ x.NoRedRed ∧ x.Balanced) ∧
    (oc = Color.RED → (plug p x).RedBlack)

/-- The comparison is a strict total order. -/
structure StrictTotal (lt : α → α → Bool) : Prop where
  irrefl : ∀ a, lt a a = false
  trans : ∀ a b c, lt a b = true → lt b c = true → lt a c = true
  total : ∀ a b, lt a b = false → lt b a = false → a = b

/-- The sets that inserts and erases build from a freshly constructed one. -/
inductive Reachable (lt : α → α → Bool) : Set α → Prop where
  | new (dflt : α) : Reachable lt (Set.new dflt)
  | insert {s s2 : Set α} (v : α) : Reachable lt s → insert lt s v = some s2 → Reachable lt s2
  | erase {s s2 : Set α} (v : α) : Reachable lt s → erase lt s v = some s2 → Reachable lt s2

/-- The list is strictly ascending under `lt`. -/
def Ascending (lt : α → α → Bool) (L : List α) : Prop := L.Pairwise (fun a b => lt a b = true)

/-- The cell at which the upward walk of `Successor` stops when it starts below
the path: the parent cell of the first frame that is entered from its left
child, the sentinel when there is none. -/
def succUp (nil : Nat) : Path α → Nat
  | [] => nil
  | .left a _ _ _ :: _ => a
  | .right _ _ _ _ :: p => succUp nil p

/-- The address of the first cell of a list of cells, the sentinel when the list is empty. -/
def headAddr (nil : Nat) : List (Nat × α) → Nat
  | [] => nil
  | c :: _ => c.1

/-- What holds of every set built from a fresh one by inserts and erases: the
heap stores a red-black tree whose in-order sequence is strictly ascending,
`size_` counts its nodes, and the parent link of the sentinel points to the
sentinel whenever the tree is empty. -/
structure Inv (lt : α → α → Bool) (s : Set α) (t : Tree α) : Prop where
  shape : s.Shape t
  rb : t.RedBlack
  asc : Ascending lt t.inorder
  size : s.size_ = t.count
  nilpar : t = Tree.leaf → s.parent s.nil_ = s.nil_

/-- The cells `cs` are what an iterator has still to visit: the list is empty, or
its first cell is a node the heap is focused at and the rest is the right
subtree of that node followed by what lies right of the path. -/
def Cursor (s : Set α) (cs : List (Nat × α)) : Prop :=
  cs = [] ∨ ∃ (p : Path α) (a : Nat) (c : Color) (l : Tree α) (v : α) (r : Tree α),
    Zip s p (Tree.node a c l v r) ∧ cs = (a, v) :: (r.cells ++ cellsR p)

/-- The part of the invariant of reachable sets that holds whatever the
comparison is: the heap stores a red-black tree, `size_` counts its nodes, and
the parent link of the sentinel points to the sentinel whenever the tree is empty. -/
structure Inv0 (s : Set α) (t : Tree α) : Prop where
  shape : s.Shape t
  rb : t.RedBlack
  size : s.size_ = t.count
  nilpar : t = Tree.leaf → s.parent s.nil_ = s.nil_

/-- The path, relative to the root of the tree, that `MaxValueNode` walks: right
frames down to the rightmost node. -/
def maxPath : Tree α → Path α
  | .leaf => []
  | .node _ _ _ _ .leaf => []
  | .node a c l v (.node ra rc rl rv rr) => maxPath (.node ra rc rl rv rr) ++ [.right a c l v]

/-- The subtree at the rightmost node of a tree. -/
def maxTree : Tree α → Tree α
  | .leaf => .leaf
  | .node a c l v .leaf => .node a c l v .leaf
  | .node _ _ _ _ (.node ra rc rl rv rr) => maxTree (.node ra rc rl rv rr)

/-- The cell at which the upward walk of `Predecessor` stops when it starts
below the path: the parent cell of the first frame that is entered from its
right child, the sentinel when there is none. -/
def predUp (nil : Nat) : Path α → Nat
  | [] => nil
  | .right a _ _ _ :: _ => a
  | .left _ _ _ _ :: p => predUp nil p

/-- The address of the last cell of a list of cells, the sentinel when the list is empty. -/
def lastAddr (nil : Nat) (cs : List (Nat × α)) : Nat := headAddr nil cs.reverse

/-- The iterator after `k` applications of `operator++`. -/
def iterAdvance (s : Set α) : Nat → Nat → Option Nat
  | 0, it => some it
  | k + 1, it =>
    match iterNext s it with
    | none => none
    | some nxt => iterAdvance s k nxt

/-- The calls `erase(v)` for the values of a list in turn. -/
def eraseEach (lt : α → α → Bool) : Set α → List α → Option (Set α)
  | s, [] => some s
  | s, v :: rest =>
    match erase lt s v with
    | none => none
    | some s2 => eraseEach lt s2 rest

/-- The event is a call of `LeftRotate` or `RightRotate`. -/
def Event.isRotation : Event → Bool
  | .leftRotate _ _ => true
  | .rightRotate _ _ => true
  | _ => false

/-- The number of rotations among the events. -/
def rotationCount (events : List Event) : Nat := (events.filter Event.isRotation).length

/-- The event does not touch the sentinel `nil`: a colour other than through
`PaintBlack` is not written into it, a rotation is issued neither at it nor
with it as pivot, and it is not a value of `w_node`. -/
def Event.Safe (nil : Nat) : Event → Prop
  | .paintRed a => a ≠ nil
  | .paintBlack _ => True
  | .setColor a _ => a ≠ nil
  | .leftRotate x pivot => x ≠ nil ∧ pivot ≠ nil
  | .rightRotate x pivot => x ≠ nil ∧ pivot ≠ nil
  | .sibling w => w ≠ nil

/-- The uncle `y_node` that an iteration of `RBInsertFixup` reads for `z_node`. -/
def uncleOf (s : Set α) (z_node : Nat) : Nat :=
  if s.parent z_node = s.left (s.parent (s.parent z_node)) then
    s.right (s.parent (s.parent z_node))
  else s.left (s.parent (s.parent z_node))

/-- The state in which the loop of `RBDeleteFixup` stands before an iteration:
the heap is focused, below the path `p`, at the subtree designated by `x`,
which is one BLACK node short in an otherwise valid tree; the parent link of
`x` is set even when `x` is the sentinel. -/
def DelInv (s : Set α) (p : Path α) (x : Nat) : Prop :=
  ∃ X : Tree α, x = X.ptr s.nil_ ∧ Zip s p X ∧
    (X = Tree.leaf → s.parent s.nil_ = pathPtr s.nil_ p) ∧ PathRB p (X.bh + 1) ∧ X.Balanced ∧
    X.blacken.NoRedRed

/-- What the records of a run of the loop of `RBInsertFixup` look like: no event
touches the sentinel `nil`, which is BLACK before and after every iteration; an
iteration that finds the uncle RED moves `z_node` to its grandparent and
rotates nothing; an iteration that finds the uncle BLACK rotates once or twice,
leaves the parent of `z_node` BLACK and is the last one. -/
def InsLogOK (nil : Nat) : List (Iteration α) → Prop
  | [] => True
  | it :: rest =>
    (∀ e ∈ it.events, e.Safe nil) ∧ it.pre.nil_ = nil ∧ it.post.nil_ = nil ∧
    it.pre.color nil = Color.BLACK ∧ it.post.color nil = Color.BLACK ∧
    ((RedFlag it.pre (uncleOf it.pre it.node) = true ∧
        it.next = it.pre.parent (it.pre.parent it.node) ∧ rotationCount it.events = 0 ∧
        InsLogOK nil rest) ∨
      (RedFlag it.pre (uncleOf it.pre it.node) = false ∧ 1 ≤ rotationCount it.events ∧
        rotationCount it.events ≤ 2 ∧ BlackFlag it.post (it.post.parent it.next) = true ∧
        rest = []))

/-- What the records of a run of the loop of `RBDeleteFixup` look like: no event
touches the sentinel `nil`, which is BLACK before and after every iteration; an
iteration moves `x_node` to its parent, without a rotation, or with one
rotation and then it is the last one; or it ends with `x_node` at the root
after one to three rotations and is the last one. -/
def DelLogOK (nil : Nat) : List (Iteration α) → Prop
  | [] => True
  | it :: rest =>
    (∀ e ∈ it.events, e.Safe nil) ∧ it.pre.nil_ = nil ∧ it.post.nil_ = nil ∧
    it.pre.color nil = Color.BLACK ∧ it.post.color nil = Color.BLACK ∧
    ((it.next = it.pre.parent it.node ∧ rotationCount it.events = 0 ∧ DelLogOK nil rest) ∨
      (it.next = it.pre.parent it.node ∧ rotationCount it.events = 1 ∧ rest = []) ∨
      (it.next = it.post.root_ ∧ 1 ≤ rotationCount it.events ∧ rotationCount it.events ≤ 3 ∧
        rest = []))

/-- The order `<` on natural numbers as a comparison function. -/
def ltN (a b : Nat) : Bool := decide (a < b)

/-- The state after the calls `insert(v)` for the values of `vs` in turn on a
freshly constructed set; a call that does not return leaves the state as it is. -/
def build (lt : α → α → Bool) (dflt : α) (vs : List α) : Set α :=
  vs.foldl (fun s v => (insert lt s v).getD s) (Set.new dflt)

/-- The state after the calls `erase(v)` for the values of `vs` in turn on `s`;
a call that does not return leaves the state as it is. -/
def eraseAll (lt : α → α → Bool) (s : Set α) (vs : List α) : Set α :=
  vs.foldl (fun s v => (erase lt s v).getD s) s

/-- The set of the first scenario: the values 5, 3, 8, 1, 4, 7, 9 inserted in
that order into a fresh set of natural numbers. -/
def demoSet : Set Nat := build ltN 0 [5, 3, 8, 1, 4, 7, 9]

/-- The tree `demoSet` stores; the cells were handed out in the order of the inserts. -/
def demoTree : Tree Nat :=
  Tree.node 2 Color.BLACK
    (Tree.node 3 Color.BLACK (Tree.node 5 Color.RED Tree.leaf 1 Tree.leaf) 3
      (Tree.node 6 Color.RED Tree.leaf 4 Tree.leaf)) 5
    (Tree.node 4 Color.BLACK (Tree.node 7 Color.RED Tree.leaf 7 Tree.leaf) 8
      (Tree.node 8 Color.RED Tree.leaf 9 Tree.leaf))

/-- The set of the second scenario: the values 5, 3, 8, 1 inserted in that order
into a fresh set of natural numbers. -/
def smallSet : Set Nat := build ltN 0 [5, 3, 8, 1]

/-- The tree `smallSet` stores. -/
def smallTree : Tree Nat :=
  Tree.node 2 Color.BLACK
    (Tree.node 3 Color.BLACK (Tree.node 5 Color.RED Tree.leaf 1 Tree.leaf) 3 Tree.leaf) 5
    (Tree.node 4 Color.BLACK Tree.leaf 8 Tree.leaf)

end RBSet

/-!
# The variadic tuple (`src/tuple/main.cpp`)

`Tuple<Args...>` is defined by recursion on its list of element types:
`Tuple<>` is the empty struct and `Tuple<Head, Tail...>` holds a `head_` of type
`Head` and a `tail_` of type `Tuple<Tail...>`.  The comparison operators of a
tuple call the operators `<` and `>` of its element types; an element type
comes with the two as functions.
-/

namespace TupleModel

/-- An element type of a tuple, with its `operator<` and its `operator>`. -/
structure Elem where
  T : Type
  lt : T → T → Bool
  gt : T → T → Bool

/-- The class `Tuple<Args...>`: the empty struct for `Tuple<>`, the pair of
`head_` and `tail_` for `Tuple<Head, Tail...>`. -/
def Tuple : List Elem → Type
  | [] => Unit
  | Head :: Tail => Head.T × Tuple Tail

/-- The member `head_` of `Tuple<Head, Tail...>`. -/
def Tuple.head_ {Head : Elem} {Tail : List Elem} (t : Tuple (Head :: Tail)) : Head.T := t.1

/-- The member `tail_` of `Tuple<Head, Tail...>`. -/
def Tuple.tail_ {Head : Elem} {Tail : List Elem} (t : Tuple (Head :: Tail)) : Tuple Tail := t.2

/-- The member `operator<`: `false` for `Tuple<>`, and
`head_ < other.head_ || tail_ < other.tail_` for `Tuple<Head, Tail...>`. -/
def Tuple.less : (Args : List Elem) → Tuple Args → Tuple Args → Bool
  | [], _, _ => false
  | Head :: Tail, t, other =>
    Head.lt t.head_ other.head_ || Tuple.less Tail t.tail_ other.tail_

/-- The member `operator>`: `false` for `Tuple<>`, and
`head_ > other.head_ || tail_ > other.tail_` for `Tuple<Head, Tail...>`. -/
def Tuple.greater : (Args : List Elem) → Tuple Args → Tuple Args → Bool
  | [], _, _ => false
  | Head :: Tail, t, other =>
    Head.gt t.head_ other.head_ || Tuple.greater Tail t.tail_ other.tail_

/-- The member `operator==`: `true` for `Tuple<>`, and
`!(*this < other) && !(*this > other)` for `Tuple<Head, Tail...>`. -/
def Tuple.equal : (Args : List Elem) → Tuple Args → Tuple Args → Bool
  | [], _, _ => true
  | Head :: Tail, t, other =>
    !(Tuple.less (Head :: Tail) t other) && !(Tuple.greater (Head :: Tail) t other)

/-- The member `operator>=`. -/
def Tuple.greaterEq : (Args : List Elem) → Tuple Args → Tuple Args → Bool
  | [], _, _ => true
  | Head :: Tail, t, other => !(Tuple.less (Head :: Tail) t other)

/-- The member `operator<=`. -/
def Tuple.lessEq : (Args : List Elem) → Tuple Args → Tuple Args → Bool
  | [], _, _ => true
  | Head :: Tail, t, other => !(Tuple.greater (Head :: Tail) t other)

/-- The function `makeTuple` for two arguments. -/
def makeTuple2 {A B : Elem} (a : A.T) (b : B.T) : Tuple [A, B] := (a, b, ())

/-- The strict lexicographic order on tuples of the same type: at the first
index at which the two tuples differ the element of the first is less than the
element of the second. -/
def LexLess : (Args : List Elem) → Tuple Args → Tuple Args → Prop
  | [], _, _ => False
  | Head :: Tail, t, other =>
    Head.lt t.head_ other.head_ = true ∨
      (t.head_ = other.head_ ∧ LexLess Tail t.tail_ other.tail_)

/-- Some element of the first tuple is less than the element of the second at
the same index. -/
def SomeLess : (Args : List Elem) → Tuple Args → Tuple Args → Prop
  | [], _, _ => False
  | Head :: Tail, t, other =>
    Head.lt t.head_ other.head_ = true ∨ SomeLess Tail t.tail_ other.tail_

/-- The comparison of an element type is a strict total order. -/
def Elem.Total (e : Elem) : Prop :=
  (∀ a, e.lt a a = false) ∧ (∀ a b c, e.lt a b = true → e.lt b c = true → e.lt a c = true) ∧
    (∀ a b, e.lt a b = false → e.lt b a = false → a = b) ∧ ∀ a b, e.gt a b = e.lt b a

/-- The element type `int` with its built-in comparisons, on the integers. -/
@[reducible] def intElem : Elem :=
  { T := Int, lt := fun a b => decide (a < b), gt := fun a b => decide (a > b) }

end TupleModel

/-!
# The bucketed hash map (`src/map/hash_map.h`)

`HashMap<KeyType, ValueType, Hash>` keeps a `std::vector` of buckets, each a
`std::list` of key-value pairs, the hash functor and the number of pairs.  A
vector and a list are lists here, the hash functor is a function into the
natural numbers (`size_t` values), and `operator==` of the key type is
equality.  A list iterator is the pair of the index of its bucket and its
position in the bucket, the length of the bucket for `end()`; all iterators at
hand belong to the one map, so the member `hash_map_` is left out.

`size_` counts the pairs, which are live list nodes, so `++size_` is taken
without wrap-around; `--size_` wraps at zero.  The test
`size_ > 0.5 * table_.size()` compares two numbers that `double` represents
exactly, so it is the test `2 * size_ > table_.size()`.
-/

namespace HashMapModel

/-- The constant `table_size`. -/
def table_size : Nat := 64

/-- The largest `size_t` value plus one. -/
def MAP_SIZE_WRAP : Nat := 2 ^ 64

/-- The object state of a `HashMap<KeyType, ValueType, Hash>`. -/
structure HashMap (K V : Type) where
  table_ : List (List (K × V))
  hash_ : K → Nat
  size_ : Nat

/-- The class `HashMap::iterator`: the position `table_iter_` in the vector and
the list iterator `list_iter_`. -/
structure Iterator where
  table_iter_ : Nat
  list_iter_ : Nat × Nat
deriving DecidableEq, Repr

variable {K V : Type}

/-- The constructor `HashMap(Hash hash)`: `table_size` empty buckets. -/
def HashMap.new (hash : K → Nat) : HashMap K V :=
  { table_ := List.replicate table_size [], hash_ := hash, size_ := 0 }

/-- The bucket `table_[idx]`. -/
def HashMap.bucket (m : HashMap K V) (idx : Nat) : List (K × V) := m.table_.getD idx []

/-- Member `end`: `iterator(this, table_.end(), table_.front().end())`. -/
def end_ (m : HashMap K V) : Iterator :=
  { table_iter_ := m.table_.length, list_iter_ := (0, (m.bucket 0).length) }

/-- The iterator `operator==`. -/
def Iterator.equal (a rhs : Iterator) : Bool :=
  a.table_iter_ == rhs.table_iter_ && a.list_iter_ == rhs.list_iter_

/-- The iterator `operator*`: the pair the list iterator stands at; none past
the last pair of its bucket. -/
def deref (m : HashMap K V) (it : Iterator) : Option (K × V) :=
  (m.bucket it.list_iter_.1)[it.list_iter_.2]?

/-- Member `size`. -/
def size (m : HashMap K V) : Nat := m.size_

/-- Member `empty`. -/
def empty (m : HashMap K V) : Bool := size m == 0

/-- The loop of `find` over a bucket from position `pos` on: the position of the
first pair with the key. -/
def findLoop [DecidableEq K] (key : K) : List (K × V) → Nat → Option Nat
  | [], _ => none
  | item :: rest, pos => if item.1 = key then some pos else findLoop key rest (pos + 1)

/-- Member `find`. -/
def find [DecidableEq K] (m : HashMap K V) (key : K) : Iterator :=
  let table_idx := m.hash_ key % m.table_.length
  match findLoop key (m.bucket table_idx) 0 with
  | some pos => { table_iter_ := table_idx, list_iter_ := (table_idx, pos) }
  | none => end_ m

/-- The statement `table[idx].push_front(item)`. -/
def pushFront (table : List (List (K × V))) (idx : Nat) (item : K × V) : List (List (K × V)) :=
  table.set idx (item :: table.getD idx [])

/-- Member `rehash`: every pair of every bucket, in order, is pushed to the front
of its bucket in a new vector of `size_rehashed` buckets. -/
def rehash (m : HashMap K V) (size_rehashed : Nat) : HashMap K V :=
  let table_rehashed : List (List (K × V)) := List.replicate size_rehashed []
  let table_rehashed := m.table_.foldl (fun tbl list =>
    list.foldl (fun tbl item => pushFront tbl (m.hash_ item.1 % tbl.length) item) tbl)
    table_rehashed
  { m with table_ := table_rehashed }

/-- Member `insert`. -/
def insert [DecidableEq K] (m : HashMap K V) (pair : K × V) : HashMap K V :=
  if (find m pair.1).equal (end_ m) then
    let m := { m with table_ := pushFront m.table_ (m.hash_ pair.1 % m.table_.length) pair }
    let m := { m with size_ := m.size_ + 1 }
    if 2 * m.size_ > m.table_.length then rehash m (2 * m.table_.length) else m
  else m

/-- The loop of `erase` over a bucket: the bucket without the first pair with the
key, none when no pair has the key. -/
def eraseLoop [DecidableEq K] (key : K) : List (K × V) → Option (List (K × V))
  | [] => none
  | item :: rest =>
    if item.1 = key then some rest
    else
      match eraseLoop key rest with
      | none => none
      | some rest2 => some (item :: rest2)

/-- Member `erase`. -/
def erase [DecidableEq K] (m : HashMap K V) (key : K) : HashMap K V :=
  let hash_idx := m.hash_ key % m.table_.length
  match eraseLoop key (m.bucket hash_idx) with
  | none => m
  | some list =>
    { m with table_ := m.table_.set hash_idx list,
             size_ := (if m.size_ = 0 then MAP_SIZE_WRAP - 1 else m.size_ - 1) }

/-- Member `operator[]`; `dflt` is `ValueType()`.  The result is the state and the
iterator at whose pair the returned reference `itr->second` points. -/
def subscript [DecidableEq K] (m : HashMap K V) (key : K) (dflt : V) : HashMap K V × Iterator :=
  let itr := find m key
  if !(itr.equal (end_ m)) then (m, itr)
  else
    let m := { m with table_ := pushFront m.table_ (m.hash_ key % m.table_.length) (key, dflt) }
    let m := { m with size_ := m.size_ + 1 }
    let m := if 2 * m.size_ ≥ m.table_.length then rehash m (2 * m.table_.length) else m
    (m, find m key)

/-- An assignment through the reference that `operator[]` returned: the mapped
value of the pair the iterator stands at is replaced. -/
def store (m : HashMap K V) (it : Iterator) (value : V) : HashMap K V :=
  let idx := it.list_iter_.1
  let pos := it.list_iter_.2
  match (m.bucket idx)[pos]? with
  | none => m
  | some item => { m with table_ := m.table_.set idx ((m.bucket idx).set pos (item.1, value)) }

/-- The maps that calls of `insert`, `erase` and `operator[]`, and assignments
through the references `operator[]` returns, buildMap from a freshly constructed
one with the hash function `hash`. -/
inductive ReachableMap [DecidableEq K] (hash : K → Nat) (dflt : V) : HashMap K V → Prop where
  | new : ReachableMap hash dflt (HashMap.new hash)
  | insert {m : HashMap K V} (pair : K × V) : ReachableMap hash dflt m →
      ReachableMap hash dflt (insert m pair)
  | erase {m : HashMap K V} (key : K) : ReachableMap hash dflt m → ReachableMap hash dflt (erase m key)
  | subscript {m : HashMap K V} (key : K) : ReachableMap hash dflt m →
      ReachableMap hash dflt (subscript m key dflt).1
  | assign {m : HashMap K V} (key : K) (value : V) : ReachableMap hash dflt m →
      ReachableMap hash dflt (store (subscript m key dflt).1 (subscript m key dflt).2 value)

/-- Every pair of the vector of buckets sits in the bucket of its hash value. -/
def Placed (hash : K → Nat) (T : List (List (K × V))) : Prop :=
  ∀ (i : Nat) (b : List (K × V)), T[i]? = some b → ∀ item ∈ b, hash item.1 % T.length = i

/-- What holds of every reachable map: there is a bucket, every pair sits in the
bucket of its hash value, and no two pairs have the same key. -/
structure WF (m : HashMap K V) : Prop where
  pos : 0 < m.table_.length
  place : Placed m.hash_ m.table_
  nodup : (m.table_.flatten.map Prod.fst).Nodup

/-- The map built from an empty one with the hash function `hash` by the
inserts of the pairs `(k, 10 * k)` for the keys of the list. -/
def buildMap (hash : Nat → Nat) (keys : List Nat) : HashMap Nat Nat :=
  keys.foldl (fun m k => insert m (k, 10 * k)) (HashMap.new hash)

end HashMapModel

/-!
# The persistent vector (`src/immutable_vector/main.cpp`)

`Vector<T>` is a trie of fixed depth: five levels of `PtrNode`s, each with up
to `kWidth` children, over `ValueNode`s with up to `kWidth` values.  An index
selects a child by five of its bits at every level.  The nodes live on the
heap and are shared between vectors through `std::shared_ptr`.

A pointer is a natural number, `0` is `nullptr`, the heap is a map from
addresses to nodes, and `new` hands out the address `next`.  The release of
nodes by `shared_ptr` is not modelled.  A `dynamic_cast` to the wrong node
class yields `nullptr`, whose dereference is undefined, and so is an access
to a `std::vector` past its end: such a run yields `none`.

The parameter `left` of the recursive member functions takes the values
`25, 20, .., 0`: it is `kNumOfBits * level`, and the functions here recurse on
`level`; the call `f(.., left - kNumOfBits, ..)` is the call at `level - 1`,
the test `left == 0` is `level = 0`.
-/

namespace ImmutableVector

/-- The constant `kWidth`. -/
def kWidth : Nat := 32
/-- The constant `kNumOfBits`. -/
def kNumOfBits : Nat := 5
/-- The constant `kStartingBit`. -/
def kStartingBit : Nat := 30
/-- The level of the root: `kStartingBit - kNumOfBits` is `kNumOfBits * kRootLevel`. -/
def kRootLevel : Nat := 5
/-- The largest `size_t` value plus one. -/
def VEC_SIZE_WRAP : Nat := 2 ^ 64

/-- A heap cell: a `ValueNode` with its vector `value` or a `PtrNode` with its
vector `children`. -/
inductive Node (T : Type) where
  | ValueNode (value : List T) : Node T
  | PtrNode (children : List Nat) : Node T

/-- The heap the nodes live in. -/
structure Heap (T : Type) where
  cells : Nat → Node T
  next : Nat

/-- The object state of a `Vector<T>`. -/
structure Vector where
  root_ : Nat
  size_ : Nat
deriving DecidableEq, Repr

variable {T : Type}

/-- The heap before any allocation. -/
def Heap.empty : Heap T := { cells := fun _ => Node.ValueNode [], next := 1 }

/-- The expression `new ...`: the node is put at a fresh address. -/
def Heap.alloc (h : Heap T) (node : Node T) : Heap T × Nat :=
  ({ cells := fun a => if a = h.next then node else h.cells a, next := h.next + 1 }, h.next)

/-- An assignment to the vector of the node at `a`. -/
def Heap.write (h : Heap T) (a : Nat) (node : Node T) : Heap T :=
  { h with cells := fun b => if b = a then node else h.cells b }

/-- The access `dynamic_cast<PtrNode*>(a.get())->children`. -/
def Heap.children (h : Heap T) (a : Nat) : Option (List Nat) :=
  if a = 0 then none
  else
    match h.cells a with
    | Node.PtrNode children => some children
    | Node.ValueNode _ => none

/-- The access `dynamic_cast<ValueNode*>(a.get())->value`. -/
def Heap.value (h : Heap T) (a : Nat) : Option (List T) :=
  if a = 0 then none
  else
    match h.cells a with
    | Node.ValueNode value => some value
    | Node.PtrNode _ => none

/-- The loop of `CountBits`; `fuel` is the number of iterations left. -/
def CountBitsLoop (number left : Nat) : Nat → Nat → Nat → Nat
  | 0, _, result => result
  | fuel + 1, right, result =>
    if left < right then
      let current := (number >>> (right - 1)) &&& 1
      CountBitsLoop number left fuel (right - 1) (result * 2 + current)
    else result

/-- Member `CountBits`: the bits `left .. right - 1` of `number` as a number. -/
def CountBits (number left right : Nat) : Nat :=
  CountBitsLoop number left (right - left) right 0

/-- The child index of `number` at a level: `CountBits(number, left, left + kNumOfBits)`
for `left = kNumOfBits * level`. -/
def levelBits (number level : Nat) : Nat :=
  CountBits number (kNumOfBits * level) (kNumOfBits * level + kNumOfBits)

/-- The statement `node->children.push_back(child)`. -/
def Heap.pushBack (h : Heap T) (node child : Nat) : Heap T :=
  match h.cells node with
  | Node.PtrNode children => h.write node (Node.PtrNode (children ++ [child]))
  | Node.ValueNode _ => h

/-- The loop `for (i = 0; i < n; ++i) node->children.push_back(mk())`. -/
def pushChildren (mk : Heap T → Heap T × Nat) : Nat → Heap T → Nat → Heap T
  | 0, h, _ => h
  | n + 1, h, node => pushChildren mk n ((mk h).1.pushBack node (mk h).2) node

/-- Member `CreateNodeWithValue`. -/
def CreateNodeWithValue (value : T) : Nat → Heap T → Heap T × Nat
  | 0, h => h.alloc (Node.ValueNode (List.replicate kWidth value))
  | level + 1, h =>
    let r := h.alloc (Node.PtrNode [])
    (pushChildren (CreateNodeWithValue value level) kWidth r.1 r.2, r.2)

/-- Member `CreateNodePartialWithValue`. -/
def CreateNodePartialWithValue (value : T) (number : Nat) : Nat → Heap T → Heap T × Nat
  | 0, h => h.alloc (Node.ValueNode (List.replicate (levelBits number 0) value))
  | level + 1, h =>
    let count_bits := levelBits number (level + 1)
    let r := h.alloc (Node.PtrNode [])
    let h := pushChildren (CreateNodeWithValue value level) count_bits r.1 r.2
    let last := CreateNodePartialWithValue value number level h
    (last.1.pushBack r.2 last.2, r.2)

/-- Member `CreateNode`; `reserve` changes no value. -/
def CreateNode : Nat → Heap T → Heap T × Nat
  | 0, h => h.alloc (Node.ValueNode [])
  | level + 1, h =>
    let r := h.alloc (Node.PtrNode [])
    (pushChildren (CreateNode level) kWidth r.1 r.2, r.2)

/-- Member `CreateNodePartial`. -/
def CreateNodePartial (number : Nat) : Nat → Heap T → Heap T × Nat
  | 0, h => h.alloc (Node.ValueNode [])
  | level + 1, h =>
    let count_bits := levelBits number (level + 1)
    let r := h.alloc (Node.PtrNode [])
    let h := pushChildren (CreateNode level) count_bits r.1 r.2
    let last := CreateNodePartial number level h
    (last.1.pushBack r.2 last.2, r.2)

/-- Member `Change`: a new node with the vector of `node`, in which the entry at
the child index of `number` is `value`, at a leaf, or the changed child. -/
def Change (number : Nat) (value : T) : Nat → Nat → Heap T → Option (Heap T × Nat)
  | 0, node, h =>
    let count_bits := levelBits number 0
    let r := h.alloc (Node.ValueNode [])
    match h.value node with
    | none => none
    | some vs => some (r.1.write r.2 (Node.ValueNode (vs.set count_bits value)), r.2)
  | level + 1, node, h =>
    let count_bits := levelBits number (level + 1)
    let r := h.alloc (Node.PtrNode [])
    match h.children node with
    | none => none
    | some cs =>
      match cs[count_bits]? with
      | none => some (r.1.write r.2 (Node.PtrNode cs), r.2)
      | some c =>
        match Change number value level c r.1 with
        | none => none
        | some (h2, c2) => some (h2.write r.2 (Node.PtrNode (cs.set count_bits c2)), r.2)

/-- Member `AddValue`: the value is appended, in place, below `node`. -/
def AddValue (pos : Nat) (value : T) : Nat → Nat → Heap T → Option (Heap T)
  | 0, node, h =>
    match h.value node with
    | none => none
    | some vs => some (h.write node (Node.ValueNode (vs ++ [value])))
  | level + 1, node, h =>
    let count_bits := levelBits pos (level + 1)
    match h.children node with
    | none => none
    | some cs =>
      if cs.length = count_bits then
        let r := h.alloc (if level = 0 then Node.ValueNode [] else Node.PtrNode [])
        AddValue pos value level r.2 (r.1.write node (Node.PtrNode (cs ++ [r.2])))
      else
        match cs[count_bits]? with
        | none => none
        | some c => AddValue pos value level c h

/-- Member `AddNewValue`. -/
def AddNewValue (pos : Nat) (value : T) : Nat → Nat → Heap T → Option (Heap T × Nat)
  | 0, node, h =>
    match h.value node with
    | none => none
    | some vs => some (h.alloc (Node.ValueNode (vs ++ [value])))
  | level + 1, node, h =>
    let current_bits := levelBits pos (level + 1)
    match h.children node with
    | none => none
    | some cs =>
      let r := h.alloc (Node.PtrNode cs)
      if cs.length = current_bits then
        let r2 := r.1.alloc (if level = 0 then Node.ValueNode [] else Node.PtrNode [])
        match AddValue pos value level r2.2 (r2.1.write r.2 (Node.PtrNode (cs ++ [r2.2]))) with
        | none => none
        | some h2 => some (h2, r.2)
      else
        match cs.getLast? with
        | none => none
        | some back =>
          match AddNewValue pos value level back r.1 with
          | none => none
          | some (h2, c2) => some (h2.write r.2 (Node.PtrNode (cs.dropLast ++ [c2])), r.2)

/-- Member `PopValue`; the result `0` is `nullptr`. -/
def PopValue (pos : Nat) : Nat → Nat → Heap T → Option (Heap T × Nat)
  | 0, node, h =>
    match h.value node with
    | none => none
    | some vs =>
      if vs.length = 1 ∧ pos ≠ 0 then some (h, 0)
      else some (h.alloc (Node.ValueNode vs.dropLast))
  | level + 1, node, h =>
    match h.children node with
    | none => none
    | some cs =>
      let r := h.alloc (Node.PtrNode cs)
      match cs.getLast? with
      | none => none
      | some back =>
        match PopValue pos level back r.1 with
        | none => none
        | some (h2, c2) =>
          if c2 = 0 then
            if cs.length = 1 then some (h2, 0)
            else some (h2.write r.2 (Node.PtrNode cs.dropLast), r.2)
          else some (h2.write r.2 (Node.PtrNode (cs.dropLast ++ [c2])), r.2)

/-- The loop and the last statements of `Get`, from the node `result` at a level. -/
def GetLoop (h : Heap T) (index : Nat) : Nat → Nat → Option T
  | 0, result =>
    match h.value result with
    | none => none
    | some vs => vs[levelBits index 0]?
  | level + 1, result =>
    match h.children result with
    | none => none
    | some cs =>
      match cs[levelBits index (level + 1)]? with
      | none => none
      | some c => GetLoop h index level c

/-- The constructor `Vector()`. -/
def Vector.new (h : Heap T) : Heap T × Vector :=
  let r := CreateNodePartial 0 kRootLevel h
  (r.1, { root_ := r.2, size_ := 0 })

/-- The constructor `Vector(size_t count, const T& value)`. -/
def Vector.ofCount (h : Heap T) (count : Nat) (value : T) : Heap T × Vector :=
  let r := CreateNodePartialWithValue value count kRootLevel h
  (r.1, { root_ := r.2, size_ := count })

/-- The loop `for (i = 0; i < size_; ++i) AddValue(root_, .., i, *it)` of the
constructors from a range, over the values still to add. -/
def addValues (root : Nat) : List T → Nat → Heap T → Option (Heap T)
  | [], _, h => some h
  | x :: rest, i, h =>
    match AddValue i x kRootLevel root h with
    | none => none
    | some h2 => addValues root rest (i + 1) h2

/-- The constructor `Vector(std::initializer_list<T> l)`; the constructor from a
pair of iterators does the same. -/
def Vector.ofList (h : Heap T) (l : List T) : Option (Heap T × Vector) :=
  let r := CreateNodePartial l.length kRootLevel h
  match addValues r.2 l 0 r.1 with
  | none => none
  | some h2 => some (h2, { root_ := r.2, size_ := l.length })

/-- Member `Set`. -/
def Vector.Set (h : Heap T) (v : Vector) (index : Nat) (value : T) : Option (Heap T × Vector) :=
  match Change index value kRootLevel v.root_ h with
  | none => none
  | some (h2, root) => some (h2, { root_ := root, size_ := v.size_ })

/-- Member `Get`. -/
def Vector.Get (h : Heap T) (v : Vector) (index : Nat) : Option T :=
  GetLoop h index kRootLevel v.root_

/-- Member `PushBack`. -/
def Vector.PushBack (h : Heap T) (v : Vector) (value : T) : Option (Heap T × Vector) :=
  match AddNewValue v.size_ value kRootLevel v.root_ h with
  | none => none
  | some (h2, root) => some (h2, { root_ := root, size_ := (v.size_ + 1) % VEC_SIZE_WRAP })

/-- Member `PopBack`. -/
def Vector.PopBack (h : Heap T) (v : Vector) : Option (Heap T × Vector) :=
  let last := (v.size_ + VEC_SIZE_WRAP - 1) % VEC_SIZE_WRAP
  match PopValue last kRootLevel v.root_ h with
  | none => none
  | some (h2, root) => some (h2, { root_ := root, size_ := last })

/-- Member `Size`. -/
def Vector.Size (v : Vector) : Nat := v.size_

/-- The heap stores, at the address `a`, a trie of the given level all of whose
nodes lie in the region `A`: a node above the lowest level is a `PtrNode`, a
node at the lowest level is a `ValueNode`, and no node is at `nullptr`. -/
def Stored (h : Heap T) (A : Nat → Prop) : Nat → Nat → Prop
  | 0, a => a ≠ 0 ∧ A a ∧ ∃ vs, h.cells a = Node.ValueNode vs
  | level + 1, a =>
    a ≠ 0 ∧ A a ∧ ∃ cs, h.cells a = Node.PtrNode cs ∧ ∀ c ∈ cs, Stored h A level c

/-- The vector designates a trie of the heap whose nodes were all handed out by `new`. -/
def Vector.Valid (h : Heap T) (v : Vector) : Prop :=
  Stored h (fun b => b < h.next) kRootLevel v.root_

/-- A check of `Stored` for the region of the addresses below `n` that can be run. -/
def checkStored (h : Heap T) (n : Nat) : Nat → Nat → Bool
  | 0, a =>
    a != 0 && decide (a < n) &&
      (match h.cells a with
        | Node.ValueNode _ => true
        | Node.PtrNode _ => false)
  | level + 1, a =>
    a != 0 && decide (a < n) &&
      (match h.cells a with
        | Node.ValueNode _ => false
        | Node.PtrNode cs => cs.all (checkStored h n level))

/-- The heap and the vector after `Vector<int> v(3, 7)` on an empty heap. -/
def smallVector : Heap Nat × Vector := Vector.ofCount Heap.empty 3 7

/-- The heap and the vector after `Vector<int> v(1073741825, 0)`, a count of
`2 ^ 30 + 1`, on an empty heap. -/
def bigVector : Heap Nat × Vector := Vector.ofCount Heap.empty (2 ^ 30 + 1) 0

/-- The heap and the vector after `Vector<int> v(32, 0)` on an empty heap. -/
def fullLeafVector : Heap Nat × Vector := Vector.ofCount Heap.empty 32 0

/-- The heap and the vector after `Vector<int> v{0, 1, .., 31}` on an empty heap. -/
def listVector : Option (Heap Nat × Vector) := Vector.ofList Heap.empty (List.range 32)

/-- The calls `PopBack()` and then `PushBack(value)` in turn. -/
def popThenPush (hv : Heap T × Vector) (value : T) : Option (Heap T × Vector) :=
  match Vector.PopBack hv.1 hv.2 with
  | none => none
  | some r => Vector.PushBack r.1 r.2 value

end ImmutableVector

namespace ImmutableVector
variable {T : Type}

/-- The number of values a trie of a level holds when it is full: `kWidth ^ (level + 1)`. -/
def cap (level : Nat) : Nat := kWidth ^ (level + 1)

/-- The values of `xs` that the child `j` of a node holds when each child before
the last holds `W` values. -/
def chunk (xs : List T) (W j : Nat) : List T := (xs.drop (j * W)).take W

/-- The heap stores, at the address `a`, a trie of the given level that holds
exactly the values `xs`, in the layout that `PushBack` and `PopBack` keep: a
leaf holds up to `kWidth` values; a node has between one and `kWidth` children,
the child `j` holds the `j`-th run of `cap level` values, every child before
the last one is full, and the last child of a node with more than one child
holds a value.  All the nodes lie in the region `A` of addresses. -/
def Holds (h : Heap T) (A : Nat → Prop) : Nat → Nat → List T → Prop
  | 0, a, xs => a ≠ 0 ∧ A a ∧ h.cells a = Node.ValueNode xs ∧ xs.length ≤ kWidth
  | level + 1, a, xs => a ≠ 0 ∧ A a ∧ ∃ cs, h.cells a = Node.PtrNode cs ∧
      0 < cs.length ∧ cs.length ≤ kWidth ∧ xs.length ≤ cs.length * cap level ∧
      (1 < cs.length → (cs.length - 1) * cap level < xs.length) ∧
      ∀ j c, cs[j]? = some c → Holds h A level c (chunk xs (cap level) j)

/-- The vector `v` of the heap `h` holds exactly the values `xs`. -/
def Rep (h : Heap T) (v : Vector) (xs : List T) : Prop :=
  Holds h (fun b => b < h.next) kRootLevel v.root_ xs ∧ v.size_ = xs.length

/-- The vectors, each with the heap it lives in, that are obtained from the
constructor `Vector()`, or from the constructor `Vector(count, value)` with a
count below `2 ^ kStartingBit` that is zero or not a multiple of `kWidth`, by
calls of `Set`, of `PushBack` on a vector with fewer than `2 ^ kStartingBit`
values, and of `PopBack` on a vector that is not empty. -/
inductive Built : Heap T × Vector → Prop where
  | new (h : Heap T) : 0 < h.next → Built (Vector.new h)
  | count (h : Heap T) (count : Nat) (value : T) : 0 < h.next →
      (count % kWidth ≠ 0 ∨ count = 0) → count < 2 ^ kStartingBit →
      Built (Vector.ofCount h count value)
  | set {h : Heap T} {v : Vector} {r : Heap T × Vector} (index : Nat) (value : T) :
      Built (h, v) → Vector.Set h v index value = some r → Built r
  | push {h : Heap T} {v : Vector} {r : Heap T × Vector} (value : T) :
      Built (h, v) → v.Size < 2 ^ kStartingBit → Vector.PushBack h v value = some r → Built r
  | pop {h : Heap T} {v : Vector} {r : Heap T × Vector} :
      Built (h, v) → 0 < v.Size → Vector.PopBack h v = some r → Built r

end ImmutableVector

namespace ImmutableVector
variable {T : Type}

/-- The heap and the vector after the call `PushBack(value)`; a call that does not
return leaves them as they are. -/
def afterPush (hv : Heap T × Vector) (value : T) : Heap T × Vector :=
  (Vector.PushBack hv.1 hv.2 value).getD hv

/-- The heap and the vector after the call `PopBack()`; a call that does not
return leaves them as they are. -/
def afterPop (hv : Heap T × Vector) : Heap T × Vector :=
  (Vector.PopBack hv.1 hv.2).getD hv

/-- The heap and the vector after the calls `PushBack(x)` for the values of the
list in turn. -/
def pushAll (hv : Heap T × Vector) (values : List T) : Heap T × Vector :=
  values.foldl afterPush hv

/-- The heap and the vector after `Vector<int> v;`, the calls `PushBack(0)`, ..,
`PushBack(32)` and two calls of `PopBack()`: 31 values, one short of a full leaf. -/
def leafBoundary : Heap Nat × Vector :=
  afterPop (afterPop (pushAll (Vector.new Heap.empty) (List.range 33)))

/-- The heap and the vector after `Vector<int> v(33, 0);` and two calls of
`PopBack()`: 31 values, one short of a full leaf. -/
def countBoundary : Heap Nat × Vector :=
  afterPop (afterPop (Vector.ofCount Heap.empty 33 0))

end ImmutableVector

namespace RBSet

variable {α : Type}

/-! ## Constructor rules for the projections of trees, frames and paths -/

@[simp] theorem ptr_leaf (nil : Nat) : (Tree.leaf : Tree α).ptr nil = nil := rfl
@[simp] theorem ptr_node (nil a : Nat) (c : Color) (l : Tree α) (v : α) (r : Tree α) :
    (Tree.node a c l v r).ptr nil = a := rfl
@[simp] theorem color_leaf : (Tree.leaf : Tree α).color = Color.BLACK := rfl
@[simp] theorem color_node (a : Nat) (c : Color) (l : Tree α) (v : α) (r : Tree α) :
    (Tree.node a c l v r).color = c := rfl
@[simp] theorem blacken_leaf : (Tree.leaf : Tree α).blacken = Tree.leaf := rfl
@[simp] theorem blacken_node (a : Nat) (c : Color) (l : Tree α) (v : α) (r : Tree α) :
    (Tree.node a c l v r).blacken = Tree.node a Color.BLACK l v r := rfl
@[simp] theorem addr_left (a : Nat) (c : Color) (v : α) (r : Tree α) :
    (Frame.left a c v r).addr = a := rfl
@[simp] theorem addr_right (a : Nat) (c : Color) (l : Tree α) (v : α) :
    (Frame.right a c l v).addr = a := rfl
@[simp] theorem fcolor_left (a : Nat) (c : Color) (v : α) (r : Tree α) :
    (Frame.left a c v r).color = c := rfl
@[simp] theorem fcolor_right (a : Nat) (c : Color) (l : Tree α) (v : α) :
    (Frame.right a c l v).color = c := rfl
@[simp] theorem sib_left (a : Nat) (c : Color) (v : α) (r : Tree α) :
    (Frame.left a c v r).sib = r := rfl
@[simp] theorem sib_right (a : Nat) (c : Color) (l : Tree α) (v : α) :
    (Frame.right a c l v).sib = l := rfl
@[simp] theorem fill_left (a : Nat) (c : Color) (v : α) (r t : Tree α) :
    (Frame.left a c v r).fill t = Tree.node a c t v r := rfl
@[simp] theorem fill_right (a : Nat) (c : Color) (l : Tree α) (v : α) (t : Tree α) :
    (Frame.right a c l v).fill t = Tree.node a c l v t := rfl
@[simp] theorem paint_left (c2 : Color) (a : Nat) (c : Color) (v : α) (r : Tree α) :
    (Frame.left a c v r).paint c2 = Frame.left a c2 v r := rfl
@[simp] theorem paint_right (c2 : Color) (a : Nat) (c : Color) (l : Tree α) (v : α) :
    (Frame.right a c l v).paint c2 = Frame.right a c2 l v := rfl
@[simp] theorem pathPtr_nil (nil : Nat) : pathPtr nil ([] : Path α) = nil := rfl
@[simp] theorem pathPtr_cons (nil : Nat) (f : Frame α) (p : Path α) :
    pathPtr nil (f :: p) = f.addr := rfl
@[simp] theorem pathColor_nil : pathColor ([] : Path α) = Color.BLACK := rfl
@[simp] theorem pathColor_cons (f : Frame α) (p : Path α) : pathColor (f :: p) = f.color := rfl
@[simp] theorem plug_nil (t : Tree α) : plug [] t = t := rfl
@[simp] theorem plug_cons (f : Frame α) (p : Path α) (t : Tree α) :
    plug (f :: p) t = plug p (f.fill t) := rfl
@[simp] theorem pathAddrs_nil : pathAddrs ([] : Path α) = [] := rfl
@[simp] theorem pathAddrs_cons (f : Frame α) (p : Path α) :
    pathAddrs (f :: p) = f.addr :: f.sib.addrs ++ pathAddrs p := rfl
@[simp] theorem addrs_leaf : (Tree.leaf : Tree α).addrs = [] := rfl
@[simp] theorem addrs_node (a : Nat) (c : Color) (l : Tree α) (v : α) (r : Tree α) :
    (Tree.node a c l v r).addrs = l.addrs ++ a :: r.addrs := rfl

/-- Non-membership in a cons, with the disequality in both orientations. -/
theorem nmem_cons {a b : Nat} {l : List Nat} : a ∉ b :: l ↔ (¬ a = b ∧ ¬ b = a) ∧ a ∉ l := by
  simp only [List.mem_cons, not_or]
  constructor
  · rintro ⟨h1, h2⟩
    exact ⟨⟨h1, fun e => h1 e.symm⟩, h2⟩
  · rintro ⟨⟨h1, _⟩, h2⟩
    exact ⟨h1, h2⟩

/-! ## Reads after writes -/

@[simp] theorem value_setLeft (s : Set α) (a : Nat) (p : Nat) (b : Nat) :
    (s.setLeft a p).value b = s.value b := by
  unfold Set.setLeft Set.value; dsimp only; split
  · next h => subst h; rfl
  · rfl

@[simp] theorem left_setLeft (s : Set α) (a : Nat) (p : Nat) (b : Nat) :
    (s.setLeft a p).left b = if b = a then p else s.left b := by
  unfold Set.setLeft Set.left; dsimp only; split <;> rfl

@[simp] theorem right_setLeft (s : Set α) (a : Nat) (p : Nat) (b : Nat) :
    (s.setLeft a p).right b = s.right b := by
  unfold Set.setLeft Set.right; dsimp only; split
  · next h => subst h; rfl
  · rfl

@[simp] theorem parent_setLeft (s : Set α) (a : Nat) (p : Nat) (b : Nat) :
    (s.setLeft a p).parent b = s.parent b := by
  unfold Set.setLeft Set.parent; dsimp only; split
  · next h => subst h; rfl
  · rfl

@[simp] theorem color_setLeft (s : Set α) (a : Nat) (p : Nat) (b : Nat) :
    (s.setLeft a p).color b = s.color b := by
  unfold Set.setLeft Set.color; dsimp only; split
  · next h => subst h; rfl
  · rfl

@[simp] theorem root_setLeft (s : Set α) (a : Nat) (p : Nat) : (s.setLeft a p).root_ = s.root_ := rfl

@[simp] theorem nil_setLeft (s : Set α) (a : Nat) (p : Nat) : (s.setLeft a p).nil_ = s.nil_ := rfl

@[simp] theorem size_setLeft (s : Set α) (a : Nat) (p : Nat) : (s.setLeft a p).size_ = s.size_ := rfl

@[simp] theorem next_setLeft (s : Set α) (a : Nat) (p : Nat) : (s.setLeft a p).next = s.next := rfl

@[simp] theorem freed_setLeft (s : Set α) (a : Nat) (p : Nat) : (s.setLeft a p).freed = s.freed := rfl

@[simp] theorem value_setRight (s : Set α) (a : Nat) (p : Nat) (b : Nat) :
    (s.setRight a p).value b = s.value b := by
  unfold Set.setRight Set.value; dsimp only; split
  · next h => subst h; rfl
  · rfl

@[simp] theorem left_setRight (s : Set α) (a : Nat) (p : Nat) (b : Nat) :
    (s.setRight a p).left b = s.left b := by
  unfold Set.setRight Set.left; dsimp only; split
  · next h => subst h; rfl
  · rfl

@[simp] theorem right_setRight (s : Set α) (a : Nat) (p : Nat) (b : Nat) :
    (s.setRight a p).right b = if b = a then p else s.right b := by
  unfold Set.setRight Set.right; dsimp only; split <;> rfl

@[simp] theorem parent_setRight (s : Set α) (a : Nat) (p : Nat) (b : Nat) :
    (s.setRight a p).parent b = s.parent b := by
  unfold Set.setRight Set.parent; dsimp only; split
  · next h => subst h; rfl
  · rfl

@[simp] theorem color_setRight (s : Set α) (a : Nat) (p : Nat) (b : Nat) :
    (s.setRight a p).color b = s.color b := by
  unfold Set.setRight Set.color; dsimp only; split
  · next h => subst h; rfl
  · rfl

@[simp] theorem root_setRight (s : Set α) (a : Nat) (p : Nat) : (s.setRight a p).root_ = s.root_ := rfl

@[simp] theorem nil_setRight (s : Set α) (a : Nat) (p : Nat) : (s.setRight a p).nil_ = s.nil_ := rfl

@[simp] theorem size_setRight (s : Set α) (a : Nat) (p : Nat) : (s.setRight a p).size_ = s.size_ := rfl

@[simp] theorem next_setRight (s : Set α) (a : Nat) (p : Nat) : (s.setRight a p).next = s.next := rfl

@[simp] theorem freed_setRight (s : Set α) (a : Nat) (p : Nat) : (s.setRight a p).freed = s.freed := rfl

@[simp] theorem value_setParent (s : Set α) (a : Nat) (p : Nat) (b : Nat) :
    (s.setParent a p).value b = s.value b := by
  unfold Set.setParent Set.value; dsimp only; split
  · next h => subst h; rfl
  · rfl

@[simp] theorem left_setParent (s : Set α) (a : Nat) (p : Nat) (b : Nat) :
    (s.setParent a p).left b = s.left b := by
  unfold Set.setParent Set.left; dsimp only; split
  · next h => subst h; rfl
  · rfl

@[simp] theorem right_setParent (s : Set α) (a : Nat) (p : Nat) (b : Nat) :
    (s.setParent a p).right b = s.right b := by
  unfold Set.setParent Set.right; dsimp only; split
  · next h => subst h; rfl
  · rfl

@[simp] theorem parent_setParent (s : Set α) (a : Nat) (p : Nat) (b : Nat) :
    (s.setParent a p).parent b = if b = a then p else s.parent b := by
  unfold Set.setParent Set.parent; dsimp only; split <;> rfl

@[simp] theorem color_setParent (s : Set α) (a : Nat) (p : Nat) (b : Nat) :
    (s.setParent a p).color b = s.color b := by
  unfold Set.setParent Set.color; dsimp only; split
  · next h => subst h; rfl
  · rfl

@[simp] theorem root_setParent (s : Set α) (a : Nat) (p : Nat) : (s.setParent a p).root_ = s.root_ := rfl

@[simp] theorem nil_setParent (s : Set α) (a : Nat) (p : Nat) : (s.setParent a p).nil_ = s.nil_ := rfl

@[simp] theorem size_setParent (s : Set α) (a : Nat) (p : Nat) : (s.setParent a p).size_ = s.size_ := rfl

@[simp] theorem next_setParent (s : Set α) (a : Nat) (p : Nat) : (s.setParent a p).next = s.next := rfl

@[simp] theorem freed_setParent (s : Set α) (a : Nat) (p : Nat) : (s.setParent a p).freed = s.freed := rfl

@[simp] theorem value_setColor (s : Set α) (a : Nat) (p : Color) (b : Nat) :
    (s.setColor a p).value b = s.value b := by
  unfold Set.setColor Set.value; dsimp only; split
  · next h => subst h; rfl
  · rfl

@[simp] theorem left_setColor (s : Set α) (a : Nat) (p : Color) (b : Nat) :
    (s.setColor a p).left b = s.left b := by
  unfold Set.setColor Set.left; dsimp only; split
  · next h => subst h; rfl
  · rfl

@[simp] theorem right_setColor (s : Set α) (a : Nat) (p : Color) (b : Nat) :
    (s.setColor a p).right b = s.right b := by
  unfold Set.setColor Set.right; dsimp only; split
  · next h => subst h; rfl
  · rfl

@[simp] theorem parent_setColor (s : Set α) (a : Nat) (p : Color) (b : Nat) :
    (s.setColor a p).parent b = s.parent b := by
  unfold Set.setColor Set.parent; dsimp only; split
  · next h => subst h; rfl
  · rfl

@[simp] theorem color_setColor (s : Set α) (a : Nat) (p : Color) (b : Nat) :
    (s.setColor a p).color b = if b = a then p else s.color b := by
  unfold Set.setColor Set.color; dsimp only; split <;> rfl

@[simp] theorem root_setColor (s : Set α) (a : Nat) (p : Color) : (s.setColor a p).root_ = s.root_ := rfl

@[simp] theorem nil_setColor (s : Set α) (a : Nat) (p : Color) : (s.setColor a p).nil_ = s.nil_ := rfl

@[simp] theorem size_setColor (s : Set α) (a : Nat) (p : Color) : (s.setColor a p).size_ = s.size_ := rfl

@[simp] theorem next_setColor (s : Set α) (a : Nat) (p : Color) : (s.setColor a p).next = s.next := rfl

@[simp] theorem freed_setColor (s : Set α) (a : Nat) (p : Color) : (s.setColor a p).freed = s.freed := rfl

@[simp] theorem value_setRoot (s : Set α) (p : Nat) (b : Nat) : (s.setRoot p).value b = s.value b := rfl

@[simp] theorem left_setRoot (s : Set α) (p : Nat) (b : Nat) : (s.setRoot p).left b = s.left b := rfl

@[simp] theorem right_setRoot (s : Set α) (p : Nat) (b : Nat) : (s.setRoot p).right b = s.right b := rfl

@[simp] theorem parent_setRoot (s : Set α) (p : Nat) (b : Nat) : (s.setRoot p).parent b = s.parent b := rfl

@[simp] theorem color_setRoot (s : Set α) (p : Nat) (b : Nat) : (s.setRoot p).color b = s.color b := rfl

@[simp] theorem root_setRoot (s : Set α) (p : Nat) : (s.setRoot p).root_ = p := rfl

@[simp] theorem nil_setRoot (s : Set α) (p : Nat) : (s.setRoot p).nil_ = s.nil_ := rfl

@[simp] theorem size_setRoot (s : Set α) (p : Nat) : (s.setRoot p).size_ = s.size_ := rfl

@[simp] theorem next_setRoot (s : Set α) (p : Nat) : (s.setRoot p).next = s.next := rfl

@[simp] theorem freed_setRoot (s : Set α) (p : Nat) : (s.setRoot p).freed = s.freed := rfl

/-! ## Frame rules: a write outside a tree or path leaves its representation alone -/

theorem Repr_setLeft {s : Set α} {t : Tree α} {par a p : Nat} (h : a ∉ t.addrs) :
    Repr (s.setLeft a p) t par ↔ Repr s t par := by
  induction t generalizing par with
  | leaf => simp [Repr]
  | node b c l v r ihl ihr =>
    simp only [addrs_node, List.mem_append, List.mem_cons, not_or] at h
    obtain ⟨hl, hb, hr⟩ := h
    have hb2 : b ≠ a := fun e => hb e.symm
    simp [Repr, ihl hl, ihr hr, hb2]

theorem Repr_setRight {s : Set α} {t : Tree α} {par a p : Nat} (h : a ∉ t.addrs) :
    Repr (s.setRight a p) t par ↔ Repr s t par := by
  induction t generalizing par with
  | leaf => simp [Repr]
  | node b c l v r ihl ihr =>
    simp only [addrs_node, List.mem_append, List.mem_cons, not_or] at h
    obtain ⟨hl, hb, hr⟩ := h
    have hb2 : b ≠ a := fun e => hb e.symm
    simp [Repr, ihl hl, ihr hr, hb2]

theorem Repr_setParent {s : Set α} {t : Tree α} {par a p : Nat} (h : a ∉ t.addrs) :
    Repr (s.setParent a p) t par ↔ Repr s t par := by
  induction t generalizing par with
  | leaf => simp [Repr]
  | node b c l v r ihl ihr =>
    simp only [addrs_node, List.mem_append, List.mem_cons, not_or] at h
    obtain ⟨hl, hb, hr⟩ := h
    have hb2 : b ≠ a := fun e => hb e.symm
    simp [Repr, ihl hl, ihr hr, hb2]

theorem Repr_setColor {s : Set α} {t : Tree α} {par a : Nat} {c : Color} (h : a ∉ t.addrs) :
    Repr (s.setColor a c) t par ↔ Repr s t par := by
  induction t generalizing par with
  | leaf => simp [Repr]
  | node b c l v r ihl ihr =>
    simp only [addrs_node, List.mem_append, List.mem_cons, not_or] at h
    obtain ⟨hl, hb, hr⟩ := h
    have hb2 : b ≠ a := fun e => hb e.symm
    simp [Repr, ihl hl, ihr hr, hb2]

@[simp] theorem Repr_setRoot {s : Set α} {t : Tree α} {par p : Nat} :
    Repr (s.setRoot p) t par ↔ Repr s t par := by
  induction t generalizing par with
  | leaf => simp [Repr]
  | node b c l v r ihl ihr => simp [Repr, ihl, ihr]

theorem ReprPath_setLeft {s : Set α} {q : Path α} {hole a : Nat} {p : Nat} (h : a ∉ pathAddrs q) :
    ReprPath (s.setLeft a p) q hole ↔ ReprPath s q hole := by
  induction q generalizing hole with
  | nil => simp [ReprPath]
  | cons f q ih =>
    cases f with
    | left b c v r =>
      simp only [pathAddrs_cons, addr_left, addr_right, sib_left, sib_right, List.mem_append, List.mem_cons, not_or] at h
      obtain ⟨⟨hb, hr⟩, hq⟩ := h
      have hb2 : b ≠ a := fun e => hb e.symm
      simp [ReprPath, ih hq, Repr_setLeft hr, hb2]
    | right b c l v =>
      simp only [pathAddrs_cons, addr_left, addr_right, sib_left, sib_right, List.mem_append, List.mem_cons, not_or] at h
      obtain ⟨⟨hb, hr⟩, hq⟩ := h
      have hb2 : b ≠ a := fun e => hb e.symm
      simp [ReprPath, ih hq, Repr_setLeft hr, hb2]

theorem ReprPath_setRight {s : Set α} {q : Path α} {hole a : Nat} {p : Nat} (h : a ∉ pathAddrs q) :
    ReprPath (s.setRight a p) q hole ↔ ReprPath s q hole := by
  induction q generalizing hole with
  | nil => simp [ReprPath]
  | cons f q ih =>
    cases f with
    | left b c v r =>
      simp only [pathAddrs_cons, addr_left, addr_right, sib_left, sib_right, List.mem_append, List.mem_cons, not_or] at h
      obtain ⟨⟨hb, hr⟩, hq⟩ := h
      have hb2 : b ≠ a := fun e => hb e.symm
      simp [ReprPath, ih hq, Repr_setRight hr, hb2]
    | right b c l v =>
      simp only [pathAddrs_cons, addr_left, addr_right, sib_left, sib_right, List.mem_append, List.mem_cons, not_or] at h
      obtain ⟨⟨hb, hr⟩, hq⟩ := h
      have hb2 : b ≠ a := fun e => hb e.symm
      simp [ReprPath, ih hq, Repr_setRight hr, hb2]

theorem ReprPath_setParent {s : Set α} {q : Path α} {hole a : Nat} {p : Nat} (h : a ∉ pathAddrs q) :
    ReprPath (s.setParent a p) q hole ↔ ReprPath s q hole := by
  induction q generalizing hole with
  | nil => simp [ReprPath]
  | cons f q ih =>
    cases f with
    | left b c v r =>
      simp only [pathAddrs_cons, addr_left, addr_right, sib_left, sib_right, List.mem_append, List.mem_cons, not_or] at h
      obtain ⟨⟨hb, hr⟩, hq⟩ := h
      have hb2 : b ≠ a := fun e => hb e.symm
      simp [ReprPath, ih hq, Repr_setParent hr, hb2]
    | right b c l v =>
      simp only [pathAddrs_cons, addr_left, addr_right, sib_left, sib_right, List.mem_append, List.mem_cons, not_or] at h
      obtain ⟨⟨hb, hr⟩, hq⟩ := h
      have hb2 : b ≠ a := fun e => hb e.symm
      simp [ReprPath, ih hq, Repr_setParent hr, hb2]

theorem ReprPath_setColor {s : Set α} {q : Path α} {hole a : Nat} {p : Color} (h : a ∉ pathAddrs q) :
    ReprPath (s.setColor a p) q hole ↔ ReprPath s q hole := by
  induction q generalizing hole with
  | nil => simp [ReprPath]
  | cons f q ih =>
    cases f with
    | left b c v r =>
      simp only [pathAddrs_cons, addr_left, addr_right, sib_left, sib_right, List.mem_append, List.mem_cons, not_or] at h
      obtain ⟨⟨hb, hr⟩, hq⟩ := h
      have hb2 : b ≠ a := fun e => hb e.symm
      simp [ReprPath, ih hq, Repr_setColor hr, hb2]
    | right b c l v =>
      simp only [pathAddrs_cons, addr_left, addr_right, sib_left, sib_right, List.mem_append, List.mem_cons, not_or] at h
      obtain ⟨⟨hb, hr⟩, hq⟩ := h
      have hb2 : b ≠ a := fun e => hb e.symm
      simp [ReprPath, ih hq, Repr_setColor hr, hb2]

/-! ## Fields the rotations leave alone -/

@[simp] theorem nil_LeftRotate (s : Set α) (x : Nat) : (LeftRotate s x).nil_ = s.nil_ := by
  unfold LeftRotate; dsimp only; split <;> split <;> try split
  all_goals rfl

@[simp] theorem nil_RightRotate (s : Set α) (x : Nat) : (RightRotate s x).nil_ = s.nil_ := by
  unfold RightRotate; dsimp only; split <;> split <;> try split
  all_goals rfl

@[simp] theorem next_LeftRotate (s : Set α) (x : Nat) : (LeftRotate s x).next = s.next := by
  unfold LeftRotate; dsimp only; split <;> split <;> try split
  all_goals rfl

@[simp] theorem next_RightRotate (s : Set α) (x : Nat) : (RightRotate s x).next = s.next := by
  unfold RightRotate; dsimp only; split <;> split <;> try split
  all_goals rfl

@[simp] theorem size_LeftRotate (s : Set α) (x : Nat) : (LeftRotate s x).size_ = s.size_ := by
  unfold LeftRotate; dsimp only; split <;> split <;> try split
  all_goals rfl

@[simp] theorem size_RightRotate (s : Set α) (x : Nat) : (RightRotate s x).size_ = s.size_ := by
  unfold RightRotate; dsimp only; split <;> split <;> try split
  all_goals rfl

@[simp] theorem freed_LeftRotate (s : Set α) (x : Nat) : (LeftRotate s x).freed = s.freed := by
  unfold LeftRotate; dsimp only; split <;> split <;> try split
  all_goals rfl

@[simp] theorem freed_RightRotate (s : Set α) (x : Nat) : (RightRotate s x).freed = s.freed := by
  unfold RightRotate; dsimp only; split <;> split <;> try split
  all_goals rfl

@[simp] theorem value_LeftRotate (s : Set α) (x b : Nat) : (LeftRotate s x).value b = s.value b := by
  unfold LeftRotate; dsimp only; split <;> split <;> try split
  all_goals simp

@[simp] theorem value_RightRotate (s : Set α) (x b : Nat) : (RightRotate s x).value b = s.value b := by
  unfold RightRotate; dsimp only; split <;> split <;> try split
  all_goals simp

@[simp] theorem color_LeftRotate (s : Set α) (x b : Nat) : (LeftRotate s x).color b = s.color b := by
  unfold LeftRotate; dsimp only; split <;> split <;> try split
  all_goals simp

@[simp] theorem color_RightRotate (s : Set α) (x b : Nat) : (RightRotate s x).color b = s.color b := by
  unfold RightRotate; dsimp only; split <;> split <;> try split
  all_goals simp

/-- An address that is neither the sentinel nor in a tree does not designate the tree. -/
theorem eq_ptr_false {t : Tree α} {a nil : Nat} (h1 : ¬ a = nil) (h2 : a ∉ t.addrs) :
    (a = t.ptr nil) ↔ False := by
  cases t with
  | leaf => simpa using h1
  | node b c l v r =>
    simp only [addrs_node, List.mem_append, nmem_cons, not_or] at h2
    simp [h2.2.1.1]

/-- The mirror of `eq_ptr_false`. -/
theorem ptr_eq_false {t : Tree α} {a nil : Nat} (h1 : ¬ a = nil) (h2 : a ∉ t.addrs) :
    (t.ptr nil = a) ↔ False := by
  rw [eq_comm]; exact eq_ptr_false h1 h2

end RBSet

namespace RBSet
variable {α : Type}

/-! ## Moving the focus -/

theorem Zip.up {s : Set α} {f : Frame α} {p : Path α} {t : Tree α} (h : Zip s (f :: p) t) :
    Zip s p (f.fill t) := by
  obtain ⟨hp, hs, hn, hf, h0⟩ := h
  have hperm : List.Perm (t.addrs ++ pathAddrs (f :: p)) ((f.fill t).addrs ++ pathAddrs p) := by
    cases f
    all_goals
      simp only [pathAddrs_cons, fill_left, fill_right, addrs_node, addr_left, addr_right, sib_left,
        sib_right]
      rw [← Multiset.coe_eq_coe]
      simp only [← Multiset.coe_add, ← Multiset.cons_coe, ← Multiset.singleton_add]
      abel
  refine ⟨?_, ?_, hperm.nodup_iff.mp hn, fun a ha => hf a (hperm.mem_iff.mpr ha), h0⟩
  all_goals
    cases f
    all_goals
      simp only [ReprPath] at hp
      simp only [pathPtr_cons, addr_left, addr_right] at hs
      simp only [fill_left, fill_right, Repr, ptr_node]
      tauto

theorem Zip.down {s : Set α} {f : Frame α} {p : Path α} {t : Tree α} (h : Zip s p (f.fill t)) :
    Zip s (f :: p) t := by
  obtain ⟨hp, hs, hn, hf, h0⟩ := h
  have hperm : List.Perm ((f.fill t).addrs ++ pathAddrs p) (t.addrs ++ pathAddrs (f :: p)) := by
    cases f
    all_goals
      simp only [pathAddrs_cons, fill_left, fill_right, addrs_node, addr_left, addr_right, sib_left,
        sib_right]
      rw [← Multiset.coe_eq_coe]
      simp only [← Multiset.coe_add, ← Multiset.cons_coe, ← Multiset.singleton_add]
      abel
  refine ⟨?_, ?_, hperm.nodup_iff.mp hn, fun a ha => hf a (hperm.mem_iff.mpr ha), h0⟩
  all_goals
    cases f
    all_goals
      simp only [fill_left, fill_right, Repr] at hs
      simp only [fill_left, fill_right, ptr_node] at hp
      simp only [ReprPath, pathPtr_cons, addr_left, addr_right]
      tauto

theorem Zip.top {s : Set α} {p : Path α} {t : Tree α} (h : Zip s p t) : Zip s [] (plug p t) := by
  induction p generalizing t with
  | nil => exact h
  | cons f p ih => exact ih h.up

theorem Zip.focus {s : Set α} {p : Path α} {t : Tree α} (h : Zip s [] (plug p t)) : Zip s p t := by
  induction p generalizing t with
  | nil => exact h
  | cons f p ih => exact (ih h).down

theorem Set.Shape.zip {s : Set α} {t : Tree α} (h : s.Shape t) : Zip s [] t :=
  ⟨h.root, h.repr, by simpa using h.nodup, by simpa using h.fresh, h.nil⟩

theorem Zip.shape {s : Set α} {t : Tree α} (h : Zip s [] t) : s.Shape t :=
  ⟨h.path, h.sub, by simpa using h.nodup, by simpa using h.fresh, h.nil⟩

/-! ## The primitive writes, seen at the focus -/

/-- Painting the focused node. -/
theorem Zip.paint {s : Set α} {p : Path α} {a : Nat} {c : Color} {l r : Tree α} {v : α}
    (h : Zip s p (Tree.node a c l v r)) (c2 : Color) :
    Zip (s.setColor a c2) p (Tree.node a c2 l v r) := by
  obtain ⟨hp, hs, hn, hf, h0⟩ := h
  have hn2 := hn
  simp only [addrs_node, List.nodup_append, List.nodup_cons, List.mem_append, nmem_cons, not_or,
    List.disjoint_append_left, List.disjoint_append_right, List.disjoint_cons_left,
    List.disjoint_cons_right] at hn2
  simp only [Repr] at hs
  have ha0 : ¬ s.nil_ = a := fun e => hs.1 e.symm
  refine ⟨?_, ?_, hn, hf, ?_⟩
  · simp only [ptr_node] at hp
    simp [ReprPath_setColor, *]
  · simp [Repr, Repr_setColor, *]
  · obtain ⟨n1, n2, n3, n4⟩ := h0
    constructor <;> simp [*]

/-- A left rotation at the focused node. -/
theorem Zip.rotateLeft {s : Set α} {p : Path α} {x y : Nat} {cx cy : Color} {a b d : Tree α}
    {vx vy : α} (h : Zip s p (Tree.node x cx a vx (Tree.node y cy b vy d))) :
    Zip (LeftRotate s x) p (Tree.node y cy (Tree.node x cx a vx b) vy d) := by
  obtain ⟨hp, hs, hn, hf, h0⟩ := h
  have hn2 := hn
  have hperm : List.Perm ((Tree.node x cx a vx (Tree.node y cy b vy d)).addrs ++ pathAddrs p)
      ((Tree.node y cy (Tree.node x cx a vx b) vy d).addrs ++ pathAddrs p) := by
    simp only [addrs_node]
    rw [← Multiset.coe_eq_coe]
    simp only [← Multiset.coe_add, ← Multiset.cons_coe, ← Multiset.singleton_add]
    abel
  obtain ⟨n1, n2, n3, n4⟩ := h0
  refine ⟨?_, ?_, hperm.nodup_iff.mp hn, fun q hq => by simpa using hf q (hperm.mem_iff.mpr hq),
    ⟨?_, ?_, ?_, by simpa using n4⟩⟩
  all_goals
    rcases p with _ | ⟨f, p⟩
    rotate_left
    cases f
    all_goals
      cases b
      all_goals
        simp only [Repr, ptr_node, ptr_leaf, pathPtr_cons, pathPtr_nil, addr_left, addr_right] at hs
        simp only [ReprPath, ptr_node] at hp
        try have hq0 := Ne.symm hp.1
        simp only [addrs_node, addrs_leaf, pathAddrs_cons, pathAddrs_nil, addr_left, sib_left,
          addr_right, sib_right, List.nodup_append, List.nodup_cons, List.mem_append,
          nmem_cons, not_or, List.disjoint_append_left, List.disjoint_append_right,
          List.disjoint_cons_left, List.disjoint_cons_right] at hn2
        have hx0 : ¬ s.nil_ = x := fun e => hs.1 e.symm
        have hy0 : ¬ s.nil_ = y := fun e => hs.2.2.2.2.2.2.2.1 e.symm
        simp [LeftRotate, Repr, ReprPath, Repr_setLeft, Repr_setRight, Repr_setParent,
          ReprPath_setLeft, ReprPath_setRight, ReprPath_setParent, eq_ptr_false, ptr_eq_false, *]

/-- A right rotation at the focused node. -/
theorem Zip.rotateRight {s : Set α} {p : Path α} {x y : Nat} {cx cy : Color} {a b d : Tree α}
    {vx vy : α} (h : Zip s p (Tree.node x cx (Tree.node y cy a vy b) vx d)) :
    Zip (RightRotate s x) p (Tree.node y cy a vy (Tree.node x cx b vx d)) := by
  obtain ⟨hp, hs, hn, hf, h0⟩ := h
  have hn2 := hn
  have hperm : List.Perm ((Tree.node x cx (Tree.node y cy a vy b) vx d).addrs ++ pathAddrs p)
      ((Tree.node y cy a vy (Tree.node x cx b vx d)).addrs ++ pathAddrs p) := by
    simp only [addrs_node]
    rw [← Multiset.coe_eq_coe]
    simp only [← Multiset.coe_add, ← Multiset.cons_coe, ← Multiset.singleton_add]
    abel
  obtain ⟨n1, n2, n3, n4⟩ := h0
  refine ⟨?_, ?_, hperm.nodup_iff.mp hn, fun q hq => by simpa using hf q (hperm.mem_iff.mpr hq),
    ⟨?_, ?_, ?_, by simpa using n4⟩⟩
  all_goals
    rcases p with _ | ⟨f, p⟩
    rotate_left
    cases f
    all_goals
      cases b
      all_goals
        simp only [Repr, ptr_node, ptr_leaf, pathPtr_cons, pathPtr_nil, addr_left, addr_right] at hs
        simp only [ReprPath, ptr_node] at hp
        try have hq0 := Ne.symm hp.1
        simp only [addrs_node, addrs_leaf, pathAddrs_cons, pathAddrs_nil, addr_left, sib_left,
          addr_right, sib_right, List.nodup_append, List.nodup_cons, List.mem_append,
          nmem_cons, not_or, List.disjoint_append_left, List.disjoint_append_right,
          List.disjoint_cons_left, List.disjoint_cons_right] at hn2
        have hx0 : ¬ s.nil_ = x := fun e => hs.1 e.symm
        have hy0 : ¬ s.nil_ = y := fun e => hs.2.2.2.2.2.2.1.1 e.symm
        simp [RightRotate, Repr, ReprPath, Repr_setLeft, Repr_setRight, Repr_setParent,
          ReprPath_setLeft, ReprPath_setRight, ReprPath_setParent, eq_ptr_false, ptr_eq_false, *]

end RBSet

namespace RBSet
variable {α : Type}

/-! ## Pure facts about trees and paths -/

@[simp] theorem cells_leaf : (Tree.leaf : Tree α).cells = [] := rfl
@[simp] theorem cells_node (a : Nat) (c : Color) (l : Tree α) (v : α) (r : Tree α) :
    (Tree.node a c l v r).cells = l.cells ++ (a, v) :: r.cells := rfl

theorem inorder_eq_cells (t : Tree α) : t.inorder = t.cells.map Prod.snd := by
  induction t with
  | leaf => rfl
  | node a c l v r ihl ihr => simp [Tree.inorder, ihl, ihr]

theorem addrs_eq_cells (t : Tree α) : t.addrs = t.cells.map Prod.fst := by
  induction t with
  | leaf => rfl
  | node a c l v r ihl ihr => simp [ihl, ihr]

theorem count_eq_cells (t : Tree α) : t.count = t.cells.length := by
  induction t with
  | leaf => rfl
  | node a c l v r ihl ihr => simp [Tree.count, ihl, ihr]; omega

theorem cells_plug (p : Path α) (t : Tree α) :
    (plug p t).cells = cellsL p ++ t.cells ++ cellsR p := by
  induction p generalizing t with
  | nil => simp [cellsL, cellsR]
  | cons f p ih =>
    cases f <;> simp [ih, cellsL, cellsR]

theorem height_le_count (t : Tree α) : t.height ≤ t.count := by
  induction t with
  | leaf => simp [Tree.height, Tree.count]
  | node a c l v r ihl ihr => simp only [Tree.height, Tree.count]; omega

theorem length_le_pathAddrs (p : Path α) : p.length ≤ (pathAddrs p).length := by
  induction p with
  | nil => simp
  | cons f p ih => simp; omega

/-- Distinct addresses below `n` that avoid one address below `n` are fewer than `n`. -/
theorem length_lt_of_nodup {l : List Nat} {n z : Nat} (hn : l.Nodup) (hlt : ∀ a ∈ l, a < n)
    (hz : z ∉ l) (hzn : z < n) : l.length + 1 ≤ n := by
  have h1 : (z :: l).Nodup := List.nodup_cons.mpr ⟨hz, hn⟩
  have h2 : (z :: l).toFinset ⊆ Finset.range n := by
    intro a ha
    simp only [List.toFinset_cons, Finset.mem_insert, List.mem_toFinset] at ha
    rcases ha with rfl | ha
    · simpa using hzn
    · simpa using hlt a ha
  have h3 := Finset.card_le_card h2
  rw [List.toFinset_card_of_nodup h1] at h3
  simpa using h3

theorem Repr.nil_not_mem {s : Set α} {t : Tree α} {par : Nat} (h : Repr s t par) :
    s.nil_ ∉ t.addrs := by
  induction t generalizing par with
  | leaf => simp
  | node a c l v r ihl ihr =>
    simp only [Repr] at h
    simp only [addrs_node, List.mem_append, List.mem_cons, not_or]
    exact ⟨ihl h.2.2.2.2.2.2.1, fun e => h.1 e.symm, ihr h.2.2.2.2.2.2.2⟩

theorem ReprPath.nil_not_mem_path {s : Set α} {p : Path α} {hole : Nat} (h : ReprPath s p hole) :
    s.nil_ ∉ pathAddrs p := by
  induction p generalizing hole with
  | nil => simp
  | cons f p ih =>
    cases f
    all_goals
      simp only [ReprPath] at h
      simp only [pathAddrs_cons, addr_left, addr_right, sib_left, sib_right, List.mem_append,
        List.mem_cons, not_or]
      exact ⟨⟨fun e => h.1 e.symm, h.2.2.2.2.2.2.1.nil_not_mem⟩, ih h.2.2.2.2.2.2.2⟩

/-- The step budget `next` covers every descent and every climb in the tree. -/
theorem Zip.budget {s : Set α} {p : Path α} {t : Tree α} (h : Zip s p t) :
    t.height + p.length + 1 ≤ s.next := by
  have h1 := length_lt_of_nodup h.nodup h.fresh
    (by simp only [List.mem_append, not_or]; exact ⟨h.sub.nil_not_mem, h.path.nil_not_mem_path⟩)
    h.nil.lt_next
  have h2 := height_le_count t
  have h3 := length_le_pathAddrs p
  rw [count_eq_cells] at h2
  rw [List.length_append, addrs_eq_cells, List.length_map] at h1
  omega

/-! ## Red-black conditions along a path -/

theorem color_cases (c : Color) : c = Color.RED ∨ c = Color.BLACK := by
  cases c <;> simp

@[simp] theorem bh_leaf : (Tree.leaf : Tree α).bh = 0 := rfl
@[simp] theorem bh_node (a : Nat) (c : Color) (l : Tree α) (v : α) (r : Tree α) :
    (Tree.node a c l v r).bh = l.bh + (if c = Color.BLACK then 1 else 0) := rfl
@[simp] theorem noRedRed_leaf : (Tree.leaf : Tree α).NoRedRed := trivial
@[simp] theorem noRedRed_node (a : Nat) (c : Color) (l : Tree α) (v : α) (r : Tree α) :
    (Tree.node a c l v r).NoRedRed ↔
      (c = Color.RED → l.color = Color.BLACK ∧ r.color = Color.BLACK) ∧ l.NoRedRed ∧ r.NoRedRed :=
  Iff.rfl
@[simp] theorem balanced_leaf : (Tree.leaf : Tree α).Balanced := trivial
@[simp] theorem balanced_node (a : Nat) (c : Color) (l : Tree α) (v : α) (r : Tree α) :
    (Tree.node a c l v r).Balanced ↔ l.bh = r.bh ∧ l.Balanced ∧ r.Balanced := Iff.rfl
@[simp] theorem pathRB_nil (n : Nat) : PathRB ([] : Path α) n := trivial
@[simp] theorem pathRB_cons (f : Frame α) (p : Path α) (n : Nat) :
    PathRB (f :: p) n ↔ (f.sib.NoRedRed ∧ f.sib.Balanced ∧ f.sib.bh = n ∧
      (f.color = Color.RED → f.sib.color = Color.BLACK ∧ pathColor p = Color.BLACK ∧ p ≠ []) ∧
      PathRB p (n + (if f.color = Color.BLACK then 1 else 0))) := Iff.rfl

/-- Filling a path: the plugged tree has no RED-RED pair, uniform black height
and (unless the path is empty) a BLACK root exactly when path and subtree fit. -/
theorem plug_rb (p : Path α) (t : Tree α) :
    ((plug p t).NoRedRed ∧ (plug p t).Balanced ∧ (p ≠ [] → (plug p t).color = Color.BLACK)) ↔
      (PathRB p t.bh ∧ t.NoRedRed ∧ t.Balanced ∧ (pathColor p = Color.RED → t.color = Color.BLACK)) := by
  induction p generalizing t with
  | nil => simp
  | cons f p ih =>
    rw [plug_cons]
    have h1 : ((plug p (f.fill t)).NoRedRed ∧ (plug p (f.fill t)).Balanced ∧
        (f :: p ≠ [] → (plug p (f.fill t)).color = Color.BLACK)) ↔
        (((plug p (f.fill t)).NoRedRed ∧ (plug p (f.fill t)).Balanced ∧
        (p ≠ [] → (plug p (f.fill t)).color = Color.BLACK)) ∧ (p = [] → f.color = Color.BLACK)) := by
      rcases p with _ | ⟨g, p⟩
      · cases f <;> simp [and_assoc]
      · simp
    rw [h1, ih]
    clear ih h1
    rcases p with _ | ⟨g, p⟩
    · cases f with
      | left a c v r =>
        rcases color_cases c with rfl | rfl <;> simp
        generalize t.bh = n1
        generalize r.bh = n2
        constructor <;> (intro h; aesop)
      | right a c l v =>
        rcases color_cases c with rfl | rfl <;> simp
        generalize t.bh = n1
        generalize l.bh = n2
        constructor <;> (intro h; aesop)
    · cases f with
      | left a c v r =>
        rcases color_cases c with rfl | rfl <;> rcases color_cases g.color with hg | hg <;>
          simp [hg] <;> generalize t.bh = n1 <;> generalize r.bh = n2 <;>
          generalize g.sib.bh = n3 <;> constructor <;> (intro h; aesop)
      | right a c l v =>
        rcases color_cases c with rfl | rfl <;> rcases color_cases g.color with hg | hg <;>
          simp [hg] <;> generalize t.bh = n1 <;> generalize l.bh = n2 <;>
          generalize g.sib.bh = n3 <;> constructor <;> (intro h; aesop)

end RBSet

namespace RBSet
variable {α : Type}

/-! ## Bookkeeping: what a step leaves alone -/

theorem SameMeta.refl (s : Set α) : SameMeta s s := ⟨rfl, rfl, rfl, rfl, fun _ => rfl⟩

theorem SameMeta.trans {s s2 s3 : Set α} (h1 : SameMeta s s2) (h2 : SameMeta s2 s3) :
    SameMeta s s3 :=
  ⟨h2.1.trans h1.1, h2.2.1.trans h1.2.1, h2.2.2.1.trans h1.2.2.1, h2.2.2.2.1.trans h1.2.2.2.1,
    fun a => (h2.2.2.2.2 a).trans (h1.2.2.2.2 a)⟩

theorem SameMeta.setColor (s : Set α) (a : Nat) (c : Color) : SameMeta s (s.setColor a c) :=
  ⟨rfl, rfl, rfl, rfl, fun _ => by simp⟩

theorem SameMeta.setParent (s : Set α) (a p : Nat) : SameMeta s (s.setParent a p) :=
  ⟨rfl, rfl, rfl, rfl, fun _ => by simp⟩

theorem SameMeta.leftRotate (s : Set α) (x : Nat) : SameMeta s (LeftRotate s x) :=
  ⟨by simp, by simp, by simp, by simp, fun _ => by simp⟩

theorem SameMeta.rightRotate (s : Set α) (x : Nat) : SameMeta s (RightRotate s x) :=
  ⟨by simp, by simp, by simp, by simp, fun _ => by simp⟩

/-! ## Reading the cells at the focus -/

theorem Zip.parent_eq {s : Set α} {p : Path α} {a : Nat} {c : Color} {l r : Tree α} {v : α}
    (h : Zip s p (Tree.node a c l v r)) : s.parent a = pathPtr s.nil_ p := by
  have := h.sub
  simp only [Repr] at this
  exact this.2.2.2.2.2.1

theorem Zip.color_pathPtr {s : Set α} {p : Path α} {t : Tree α} (h : Zip s p t) :
    s.color (pathPtr s.nil_ p) = pathColor p := by
  rcases p with _ | ⟨f, p⟩
  · simpa using h.nil.color
  · have := h.path
    cases f <;> simp only [ReprPath] at this <;> simp [this.2.2.1]

theorem Repr.color_ptr {s : Set α} {t : Tree α} {par : Nat} (h : Repr s t par) (h0 : NilOK s) :
    s.color (t.ptr s.nil_) = t.color := by
  cases t with
  | leaf => simpa using h0.color
  | node a c l v r =>
    simp only [Repr] at h
    simpa using h.2.2.1

/-! ## `RBInsertFixup` -/

/-- The loop of `RBInsertFixup` stops at a node whose parent is BLACK. -/
theorem RBInsertFixupLoop_exit {s : Set α} {p : Path α} {a : Nat} {c : Color} {l r : Tree α}
    {v : α} (h : Zip s p (Tree.node a c l v r)) (hc : pathColor p = Color.BLACK) (fuel : Nat) :
    RBInsertFixupLoop (fuel + 1) s a = some s := by
  simp [RBInsertFixupLoop, RedFlag, h.parent_eq, h.color_pathPtr, hc]

/-- Case A, parent on the left: a RED uncle is recoloured and the loop moves two levels up. -/
theorem RBInsertFixupLoop_caseA_left {s : Set α} {p : Path α} {f : Frame α} {z ga y : Nat}
    {l r ul ur : Tree α} {v gv uv : α} (fuel : Nat) (hf : f.color = Color.RED)
    (h : Zip s (f :: Frame.left ga Color.BLACK gv (Tree.node y Color.RED ul uv ur) :: p)
      (Tree.node z Color.RED l v r)) :
    ∃ s2, RBInsertFixupLoop (fuel + 1) s z = RBInsertFixupLoop fuel s2 ga ∧ SameMeta s s2 ∧
      Zip s2 p (Tree.node ga Color.RED ((f.paint Color.BLACK).fill (Tree.node z Color.RED l v r)) gv
        (Tree.node y Color.BLACK ul uv ur)) := by
  have hz := h.parent_eq
  have h1 := h.up
  have h2 := h1.up
  have hs2 := h2.sub
  refine ⟨((s.setColor f.addr Color.BLACK).setColor y Color.BLACK).setColor ga Color.RED, ?_,
    ((SameMeta.setColor _ _ _).trans (SameMeta.setColor _ _ _)).trans (SameMeta.setColor _ _ _), ?_⟩
  · cases f
    all_goals
      simp only [fcolor_left, fcolor_right] at hf
      subst hf
      simp only [fill_left, fill_right, Repr, ptr_node] at hs2
      simp only [pathPtr_cons, addr_left, addr_right] at hz
      simp [RBInsertFixupLoop, RedFlag, PaintBlack, PaintRed, *]
  · cases f
    all_goals
      simp only [fill_left, fill_right, paint_left, paint_right, addr_left, addr_right] at h1 ⊢
      have h3 := (h1.paint Color.BLACK).up
      have h4 := (Zip.down (f := Frame.right ga Color.BLACK _ gv) h3).paint Color.BLACK
      exact (Zip.up h4).paint Color.RED

/-- Case C, parent on the left and node on the left: one right rotation at the
grandparent ends the loop. -/
theorem RBInsertFixupLoop_caseC_left {s : Set α} {p : Path α} {z pa ga : Nat}
    {l r pr u : Tree α} {v pv gv : α} (fuel : Nat) (hu : u.color = Color.BLACK)
    (h : Zip s (Frame.left pa Color.RED pv pr :: Frame.left ga Color.BLACK gv u :: p)
      (Tree.node z Color.RED l v r)) :
    ∃ s2, RBInsertFixupLoop (fuel + 2) s z = some s2 ∧ SameMeta s s2 ∧
      Zip s2 p (Tree.node pa Color.BLACK (Tree.node z Color.RED l v r) pv
        (Tree.node ga Color.RED pr gv u)) := by
  have hz := h.parent_eq
  have h1 := h.up
  have h2 := h1.up
  have hs2 := h2.sub
  have hn2 := h2.nodup
  have h0 := h.nil
  simp only [fill_left, fill_right] at h1 h2 hs2 hn2
  have h3 := (h1.paint Color.BLACK).up
  simp only [fill_left, fill_right] at h3
  have h4 := (h3.paint Color.RED).rotateRight
  have h5 := Zip.down (f := Frame.left pa Color.BLACK pv _) h4
  refine ⟨_, ?_, ((SameMeta.setColor _ _ _).trans (SameMeta.setColor _ _ _)).trans
    (SameMeta.rightRotate _ _), h4⟩
  rw [← RBInsertFixupLoop_exit h5 rfl fuel]
  simp only [Repr, ptr_node] at hs2
  have huc := hs2.2.2.2.2.2.2.2.color_ptr h0
  simp only [addrs_node, List.nodup_append, List.nodup_cons, List.mem_append, nmem_cons, not_or,
    List.disjoint_append_left, List.disjoint_append_right, List.disjoint_cons_left,
    List.disjoint_cons_right] at hn2
  simp only [pathPtr_cons, addr_left, addr_right] at hz
  have hz0 : ¬ z = s.nil_ := hs2.2.2.2.2.2.2.1.2.2.2.2.2.2.1.1
  rw [RBInsertFixupLoop]
  simp [RedFlag, PaintBlack, PaintRed, eq_ptr_false, ptr_eq_false, *]

/-- Case B then C, parent on the left and node on the right: a left rotation at
the parent, then a right rotation at the grandparent, end the loop. -/
theorem RBInsertFixupLoop_caseB_left {s : Set α} {p : Path α} {z pa ga : Nat}
    {l r pl u : Tree α} {v pv gv : α} (fuel : Nat) (hu : u.color = Color.BLACK)
    (h : Zip s (Frame.right pa Color.RED pl pv :: Frame.left ga Color.BLACK gv u :: p)
      (Tree.node z Color.RED l v r)) :
    ∃ s2, RBInsertFixupLoop (fuel + 2) s z = some s2 ∧ SameMeta s s2 ∧
      Zip s2 p (Tree.node z Color.BLACK (Tree.node pa Color.RED pl pv l) v
        (Tree.node ga Color.RED r gv u)) := by
  have hz := h.parent_eq
  have h1 := h.up
  have h2 := h1.up
  have hs2 := h2.sub
  have hn2 := h2.nodup
  have h0 := h.nil
  simp only [fill_left, fill_right] at h1 h2 hs2 hn2
  have h3 := h1.rotateLeft
  have hs3 := h3.up.sub
  have h4 := (h3.paint Color.BLACK).up
  simp only [fill_left, fill_right] at h4 hs3
  have h5 := (h4.paint Color.RED).rotateRight
  have h6 := Zip.down (f := Frame.left z Color.BLACK v _) h5
  refine ⟨_, ?_, (((SameMeta.leftRotate _ _).trans (SameMeta.setColor _ _ _)).trans
    (SameMeta.setColor _ _ _)).trans (SameMeta.rightRotate _ _), h5⟩
  rw [← RBInsertFixupLoop_exit h6 rfl fuel]
  simp only [Repr, ptr_node] at hs2 hs3
  have huc := hs2.2.2.2.2.2.2.2.color_ptr h0
  simp only [addrs_node, List.nodup_append, List.nodup_cons, List.mem_append, nmem_cons, not_or,
    List.disjoint_append_left, List.disjoint_append_right, List.disjoint_cons_left,
    List.disjoint_cons_right] at hn2
  simp only [pathPtr_cons, addr_left, addr_right] at hz
  rw [RBInsertFixupLoop]
  simp [RedFlag, PaintBlack, PaintRed, eq_ptr_false, ptr_eq_false, *]

/-- Case A, parent on the right. -/
theorem RBInsertFixupLoop_caseA_right {s : Set α} {p : Path α} {f : Frame α} {z ga y : Nat}
    {l r ul ur : Tree α} {v gv uv : α} (fuel : Nat) (hf : f.color = Color.RED)
    (h : Zip s (f :: Frame.right ga Color.BLACK (Tree.node y Color.RED ul uv ur) gv :: p)
      (Tree.node z Color.RED l v r)) :
    ∃ s2, RBInsertFixupLoop (fuel + 1) s z = RBInsertFixupLoop fuel s2 ga ∧ SameMeta s s2 ∧
      Zip s2 p (Tree.node ga Color.RED (Tree.node y Color.BLACK ul uv ur) gv
        ((f.paint Color.BLACK).fill (Tree.node z Color.RED l v r))) := by
  have hz := h.parent_eq
  have h1 := h.up
  have h2 := h1.up
  have hs2 := h2.sub
  have hn2 := h2.nodup
  refine ⟨((s.setColor f.addr Color.BLACK).setColor y Color.BLACK).setColor ga Color.RED, ?_,
    ((SameMeta.setColor _ _ _).trans (SameMeta.setColor _ _ _)).trans (SameMeta.setColor _ _ _), ?_⟩
  · cases f
    all_goals
      simp only [fcolor_left, fcolor_right] at hf
      subst hf
      simp only [fill_left, fill_right, Repr, ptr_node] at hs2
      simp only [fill_left, fill_right, addrs_node, List.nodup_append, List.nodup_cons,
        List.mem_append, nmem_cons, not_or,
        List.disjoint_append_left, List.disjoint_append_right, List.disjoint_cons_left,
        List.disjoint_cons_right] at hn2
      simp only [pathPtr_cons, addr_left, addr_right] at hz
      simp [RBInsertFixupLoop, RedFlag, PaintBlack, PaintRed, *]
  · cases f
    all_goals
      simp only [fill_left, fill_right, paint_left, paint_right, addr_left, addr_right] at h1 ⊢
      have h3 := (h1.paint Color.BLACK).up
      have h4 := (Zip.down (f := Frame.left ga Color.BLACK gv _) h3).paint Color.BLACK
      exact (Zip.up h4).paint Color.RED

/-- Case C, parent on the right and node on the right. -/
theorem RBInsertFixupLoop_caseC_right {s : Set α} {p : Path α} {z pa ga : Nat}
    {l r pl u : Tree α} {v pv gv : α} (fuel : Nat) (hu : u.color = Color.BLACK)
    (h : Zip s (Frame.right pa Color.RED pl pv :: Frame.right ga Color.BLACK u gv :: p)
      (Tree.node z Color.RED l v r)) :
    ∃ s2, RBInsertFixupLoop (fuel + 2) s z = some s2 ∧ SameMeta s s2 ∧
      Zip s2 p (Tree.node pa Color.BLACK (Tree.node ga Color.RED u gv pl) pv
        (Tree.node z Color.RED l v r)) := by
  have hz := h.parent_eq
  have h1 := h.up
  have h2 := h1.up
  have hs2 := h2.sub
  have hn2 := h2.nodup
  have h0 := h.nil
  simp only [fill_left, fill_right] at h1 h2 hs2 hn2
  have h3 := (h1.paint Color.BLACK).up
  simp only [fill_left, fill_right] at h3
  have h4 := (h3.paint Color.RED).rotateLeft
  have h5 := Zip.down (f := Frame.right pa Color.BLACK _ pv) h4
  refine ⟨_, ?_, ((SameMeta.setColor _ _ _).trans (SameMeta.setColor _ _ _)).trans
    (SameMeta.leftRotate _ _), h4⟩
  rw [← RBInsertFixupLoop_exit h5 rfl fuel]
  simp only [Repr, ptr_node] at hs2
  have huc := hs2.2.2.2.2.2.2.1.color_ptr h0
  simp only [addrs_node, List.nodup_append, List.nodup_cons, List.mem_append, nmem_cons, not_or,
    List.disjoint_append_left, List.disjoint_append_right, List.disjoint_cons_left,
    List.disjoint_cons_right] at hn2
  simp only [pathPtr_cons, addr_left, addr_right] at hz
  rw [RBInsertFixupLoop]
  simp [RedFlag, PaintBlack, PaintRed, eq_ptr_false, ptr_eq_false, *]

/-- Case B then C, parent on the right and node on the left. -/
theorem RBInsertFixupLoop_caseB_right {s : Set α} {p : Path α} {z pa ga : Nat}
    {l r pr u : Tree α} {v pv gv : α} (fuel : Nat) (hu : u.color = Color.BLACK)
    (h : Zip s (Frame.left pa Color.RED pv pr :: Frame.right ga Color.BLACK u gv :: p)
      (Tree.node z Color.RED l v r)) :
    ∃ s2, RBInsertFixupLoop (fuel + 2) s z = some s2 ∧ SameMeta s s2 ∧
      Zip s2 p (Tree.node z Color.BLACK (Tree.node ga Color.RED u gv l) v
        (Tree.node pa Color.RED r pv pr)) := by
  have hz := h.parent_eq
  have h1 := h.up
  have h2 := h1.up
  have hs2 := h2.sub
  have hn2 := h2.nodup
  have h0 := h.nil
  simp only [fill_left, fill_right] at h1 h2 hs2 hn2
  have h3 := h1.rotateRight
  have hs3 := h3.up.sub
  have h4 := (h3.paint Color.BLACK).up
  simp only [fill_left, fill_right] at h4 hs3
  have h5 := (h4.paint Color.RED).rotateLeft
  have h6 := Zip.down (f := Frame.right z Color.BLACK _ v) h5
  refine ⟨_, ?_, (((SameMeta.rightRotate _ _).trans (SameMeta.setColor _ _ _)).trans
    (SameMeta.setColor _ _ _)).trans (SameMeta.leftRotate _ _), h5⟩
  rw [← RBInsertFixupLoop_exit h6 rfl fuel]
  simp only [Repr, ptr_node] at hs2 hs3
  have huc := hs2.2.2.2.2.2.2.1.color_ptr h0
  simp only [addrs_node, List.nodup_append, List.nodup_cons, List.mem_append, nmem_cons, not_or,
    List.disjoint_append_left, List.disjoint_append_right, List.disjoint_cons_left,
    List.disjoint_cons_right] at hn2
  simp only [pathPtr_cons, addr_left, addr_right] at hz
  rw [RBInsertFixupLoop]
  simp [RedFlag, PaintBlack, PaintRed, eq_ptr_false, ptr_eq_false, *]

end RBSet

namespace RBSet
variable {α : Type}

@[simp] theorem cells_paint_fill (f : Frame α) (c : Color) (t : Tree α) :
    ((f.paint c).fill t).cells = (f.fill t).cells := by
  cases f <;> simp

theorem cells_plug_congr (p : Path α) {t t2 : Tree α} (h : t.cells = t2.cells) :
    (plug p t).cells = (plug p t2).cells := by
  rw [cells_plug, cells_plug, h]

theorem color_node_of_red {t : Tree α} (h : t.color = Color.RED) :
    ∃ a l v r, t = Tree.node a Color.RED l v r := by
  cases t with
  | leaf => simp at h
  | node a c l v r => simp at h; subst h; exact ⟨a, l, v, r, rfl⟩

/-- Case A keeps the path above the grandparent valid for the recoloured subtree. -/
theorem caseA_pure_left {f : Frame α} {p : Path α} {z ga y : Nat} {l r ul ur : Tree α}
    {v gv uv : α} (hf : f.color = Color.RED)
    (hp : PathRB (f :: Frame.left ga Color.BLACK gv (Tree.node y Color.RED ul uv ur) :: p) l.bh)
    (hnr : (Tree.node z Color.RED l v r).NoRedRed) (hbal : (Tree.node z Color.RED l v r).Balanced) :
    PathRB p ((f.paint Color.BLACK).fill (Tree.node z Color.RED l v r)).bh ∧
    (Tree.node ga Color.RED ((f.paint Color.BLACK).fill (Tree.node z Color.RED l v r)) gv
        (Tree.node y Color.BLACK ul uv ur)).NoRedRed ∧
    (Tree.node ga Color.RED ((f.paint Color.BLACK).fill (Tree.node z Color.RED l v r)) gv
        (Tree.node y Color.BLACK ul uv ur)).Balanced := by
  cases f
  all_goals
    simp at hf; subst hf
    simp at hp hnr hbal ⊢
    casesm* _ ∧ _
    split_ands <;> first | assumption | omega | (convert ‹PathRB _ _› using 2 <;> omega)

/-- The mirror of `caseA_pure_left`. -/
theorem caseA_pure_right {f : Frame α} {p : Path α} {z ga y : Nat} {l r ul ur : Tree α}
    {v gv uv : α} (hf : f.color = Color.RED)
    (hp : PathRB (f :: Frame.right ga Color.BLACK (Tree.node y Color.RED ul uv ur) gv :: p) l.bh)
    (hnr : (Tree.node z Color.RED l v r).NoRedRed) (hbal : (Tree.node z Color.RED l v r).Balanced) :
    PathRB p (Tree.node y Color.BLACK ul uv ur).bh ∧
    (Tree.node ga Color.RED (Tree.node y Color.BLACK ul uv ur) gv
        ((f.paint Color.BLACK).fill (Tree.node z Color.RED l v r))).NoRedRed ∧
    (Tree.node ga Color.RED (Tree.node y Color.BLACK ul uv ur) gv
        ((f.paint Color.BLACK).fill (Tree.node z Color.RED l v r))).Balanced := by
  cases f
  all_goals
    simp at hf; subst hf
    simp at hp hnr hbal ⊢
    casesm* _ ∧ _
    split_ands <;> first | assumption | omega | (convert ‹PathRB _ _› using 2 <;> omega)

/-- The tree case C leaves (parent left, node left) fits the path above the grandparent. -/
theorem caseC_pure_left {p : Path α} {z pa ga : Nat} {l r ps u : Tree α} {v pv gv : α}
    (hu : u.color = Color.BLACK)
    (hp : PathRB (Frame.left pa Color.RED pv ps :: Frame.left ga Color.BLACK gv u :: p) l.bh)
    (hnr : (Tree.node z Color.RED l v r).NoRedRed) (hbal : (Tree.node z Color.RED l v r).Balanced) :
    PathRB p (Tree.node pa Color.BLACK (Tree.node z Color.RED l v r) pv (Tree.node ga Color.RED ps gv u)).bh ∧ (Tree.node pa Color.BLACK (Tree.node z Color.RED l v r) pv (Tree.node ga Color.RED ps gv u)).NoRedRed ∧ (Tree.node pa Color.BLACK (Tree.node z Color.RED l v r) pv (Tree.node ga Color.RED ps gv u)).Balanced := by
  simp at hp hnr hbal hu ⊢
  casesm* _ ∧ _
  split_ands <;> first | assumption | omega | (convert ‹PathRB _ _› using 2 <;> omega)

/-- The tree cases B and C leave (parent left, node right) fits the path above the grandparent. -/
theorem caseB_pure_left {p : Path α} {z pa ga : Nat} {l r ps u : Tree α} {v pv gv : α}
    (hu : u.color = Color.BLACK)
    (hp : PathRB (Frame.right pa Color.RED ps pv :: Frame.left ga Color.BLACK gv u :: p) l.bh)
    (hnr : (Tree.node z Color.RED l v r).NoRedRed) (hbal : (Tree.node z Color.RED l v r).Balanced) :
    PathRB p (Tree.node z Color.BLACK (Tree.node pa Color.RED ps pv l) v (Tree.node ga Color.RED r gv u)).bh ∧ (Tree.node z Color.BLACK (Tree.node pa Color.RED ps pv l) v (Tree.node ga Color.RED r gv u)).NoRedRed ∧ (Tree.node z Color.BLACK (Tree.node pa Color.RED ps pv l) v (Tree.node ga Color.RED r gv u)).Balanced := by
  simp at hp hnr hbal hu ⊢
  casesm* _ ∧ _
  split_ands <;> first | assumption | omega | (convert ‹PathRB _ _› using 2 <;> omega)

/-- The tree case C leaves (parent right, node right) fits the path above the grandparent. -/
theorem caseC_pure_right {p : Path α} {z pa ga : Nat} {l r ps u : Tree α} {v pv gv : α}
    (hu : u.color = Color.BLACK)
    (hp : PathRB (Frame.right pa Color.RED ps pv :: Frame.right ga Color.BLACK u gv :: p) l.bh)
    (hnr : (Tree.node z Color.RED l v r).NoRedRed) (hbal : (Tree.node z Color.RED l v r).Balanced) :
    PathRB p (Tree.node pa Color.BLACK (Tree.node ga Color.RED u gv ps) pv (Tree.node z Color.RED l v r)).bh ∧ (Tree.node pa Color.BLACK (Tree.node ga Color.RED u gv ps) pv (Tree.node z Color.RED l v r)).NoRedRed ∧ (Tree.node pa Color.BLACK (Tree.node ga Color.RED u gv ps) pv (Tree.node z Color.RED l v r)).Balanced := by
  simp at hp hnr hbal hu ⊢
  casesm* _ ∧ _
  split_ands <;> first | assumption | omega | (convert ‹PathRB _ _› using 2 <;> omega)

/-- The tree cases B and C leave (parent right, node left) fits the path above the grandparent. -/
theorem caseB_pure_right {p : Path α} {z pa ga : Nat} {l r ps u : Tree α} {v pv gv : α}
    (hu : u.color = Color.BLACK)
    (hp : PathRB (Frame.left pa Color.RED pv ps :: Frame.right ga Color.BLACK u gv :: p) l.bh)
    (hnr : (Tree.node z Color.RED l v r).NoRedRed) (hbal : (Tree.node z Color.RED l v r).Balanced) :
    PathRB p (Tree.node z Color.BLACK (Tree.node ga Color.RED u gv l) v (Tree.node pa Color.RED r pv ps)).bh ∧ (Tree.node z Color.BLACK (Tree.node ga Color.RED u gv l) v (Tree.node pa Color.RED r pv ps)).NoRedRed ∧ (Tree.node z Color.BLACK (Tree.node ga Color.RED u gv l) v (Tree.node pa Color.RED r pv ps)).Balanced := by
  simp at hp hnr hbal hu ⊢
  casesm* _ ∧ _
  split_ands <;> first | assumption | omega | (convert ‹PathRB _ _› using 2 <;> omega)

/-- The loop of `RBInsertFixup`, started at a RED node whose subtrees are valid
and whose path is valid, ends in a tree without RED-RED pair and with uniform
black height that holds the same cells in the same order. -/
theorem RBInsertFixupLoop_spec (n : Nat) : ∀ (p : Path α) (s : Set α) (z : Nat) (l r : Tree α)
    (v : α) (fuel : Nat), p.length ≤ n → p.length + 2 ≤ fuel →
    Zip s p (Tree.node z Color.RED l v r) → PathRB p l.bh →
    (Tree.node z Color.RED l v r).NoRedRed → (Tree.node z Color.RED l v r).Balanced →
    ∃ s2 t2, RBInsertFixupLoop fuel s z = some s2 ∧ SameMeta s s2 ∧ Zip s2 [] t2 ∧
      t2.NoRedRed ∧ t2.Balanced ∧ t2.cells = (plug p (Tree.node z Color.RED l v r)).cells := by
  induction n using Nat.strong_induction_on with
  | _ n ih =>
  intro p s z l r v fuel hlen hfuel hz hp hnr hbal
  obtain ⟨k, rfl⟩ : ∃ k, fuel = k + 2 := ⟨fuel - 2, by omega⟩
  rcases p with _ | ⟨f1, p1⟩
  · exact ⟨s, _, RBInsertFixupLoop_exit hz rfl _, SameMeta.refl s, hz, hnr, hbal, rfl⟩
  rcases color_cases f1.color with hf1 | hf1
  swap
  · have hv := (plug_rb (f1 :: p1) (Tree.node z Color.RED l v r)).mpr
      ⟨by simpa using hp, hnr, hbal, by simp [hf1]⟩
    exact ⟨s, _, RBInsertFixupLoop_exit hz (by simpa using hf1) _, SameMeta.refl s, hz.top,
      hv.1, hv.2.1, rfl⟩
  have hp1 := hp
  simp only [pathRB_cons, hf1, true_implies] at hp1
  obtain ⟨-, -, -, ⟨-, hpc, hne⟩, -⟩ := hp1
  rcases p1 with _ | ⟨f2, p2⟩
  · exact absurd rfl hne
  simp only [pathColor_cons] at hpc
  simp only [List.length_cons] at hlen hfuel
  clear hne
  cases f2 with
  | left ga gc gv u =>
    simp only [fcolor_left] at hpc
    subst hpc
    rcases color_cases u.color with huc | huc
    · obtain ⟨y, ul, uv, ur, rfl⟩ := color_node_of_red huc
      obtain ⟨s1, e1, m1, z1⟩ := RBInsertFixupLoop_caseA_left (k + 1) hf1 hz
      obtain ⟨q1, q2, q3⟩ := caseA_pure_left hf1 hp hnr hbal
      obtain ⟨s2, t2, e2, m2, z2, n2, b2, c2⟩ := ih (n - 2) (by omega) p2 s1 ga _ _ gv (k + 1)
        (by omega) (by omega) z1 q1 q2 q3
      refine ⟨s2, t2, e1.trans e2, m1.trans m2, z2, n2, b2, c2.trans ?_⟩
      simp only [plug_cons]
      exact cells_plug_congr p2 (by cases f1 <;> simp)
    · clear ih
      cases f1 with
      | left pa pc pv pr =>
        simp only [fcolor_left] at hf1
        subst hf1
        obtain ⟨s1, e1, m1, z1⟩ := RBInsertFixupLoop_caseC_left k huc hz
        obtain ⟨q1, q2, q3⟩ := caseC_pure_left huc hp hnr hbal
        have hv := (plug_rb p2 _).mpr ⟨q1, q2, q3, by simp⟩
        refine ⟨s1, _, e1, m1, z1.top, hv.1, hv.2.1, ?_⟩
        simp only [plug_cons]
        exact cells_plug_congr p2 (by simp)
      | right pa pc pl pv =>
        simp only [fcolor_right] at hf1
        subst hf1
        obtain ⟨s1, e1, m1, z1⟩ := RBInsertFixupLoop_caseB_left k huc hz
        obtain ⟨q1, q2, q3⟩ := caseB_pure_left huc hp hnr hbal
        have hv := (plug_rb p2 _).mpr ⟨q1, q2, q3, by simp⟩
        refine ⟨s1, _, e1, m1, z1.top, hv.1, hv.2.1, ?_⟩
        simp only [plug_cons]
        exact cells_plug_congr p2 (by simp)
  | right ga gc u gv =>
    simp only [fcolor_right] at hpc
    subst hpc
    rcases color_cases u.color with huc | huc
    · obtain ⟨y, ul, uv, ur, rfl⟩ := color_node_of_red huc
      obtain ⟨s1, e1, m1, z1⟩ := RBInsertFixupLoop_caseA_right (k + 1) hf1 hz
      obtain ⟨q1, q2, q3⟩ := caseA_pure_right hf1 hp hnr hbal
      obtain ⟨s2, t2, e2, m2, z2, n2, b2, c2⟩ := ih (n - 2) (by omega) p2 s1 ga _ _ gv (k + 1)
        (by omega) (by omega) z1 q1 q2 q3
      refine ⟨s2, t2, e1.trans e2, m1.trans m2, z2, n2, b2, c2.trans ?_⟩
      simp only [plug_cons]
      exact cells_plug_congr p2 (by cases f1 <;> simp)
    · clear ih
      cases f1 with
      | left pa pc pv pr =>
        simp only [fcolor_left] at hf1
        subst hf1
        obtain ⟨s1, e1, m1, z1⟩ := RBInsertFixupLoop_caseB_right k huc hz
        obtain ⟨q1, q2, q3⟩ := caseB_pure_right huc hp hnr hbal
        have hv := (plug_rb p2 _).mpr ⟨q1, q2, q3, by simp⟩
        refine ⟨s1, _, e1, m1, z1.top, hv.1, hv.2.1, ?_⟩
        simp only [plug_cons]
        exact cells_plug_congr p2 (by simp)
      | right pa pc pl pv =>
        simp only [fcolor_right] at hf1
        subst hf1
        obtain ⟨s1, e1, m1, z1⟩ := RBInsertFixupLoop_caseC_right k huc hz
        obtain ⟨q1, q2, q3⟩ := caseC_pure_right huc hp hnr hbal
        have hv := (plug_rb p2 _).mpr ⟨q1, q2, q3, by simp⟩
        refine ⟨s1, _, e1, m1, z1.top, hv.1, hv.2.1, ?_⟩
        simp only [plug_cons]
        exact cells_plug_congr p2 (by simp)

end RBSet

namespace RBSet
variable {α : Type}

/-! ## Descents -/

theorem zoom_plug (lt : α → α → Bool) (v : α) (t : Tree α) (acc : Path α) :
    plug (zoom lt v t acc).1 (zoom lt v t acc).2 = plug acc t := by
  induction t generalizing acc with
  | leaf => rfl
  | node a c l w r ihl ihr =>
    simp only [zoom]
    split
    · rfl
    · split
      · rw [ihl]; rfl
      · rw [ihr]; rfl

theorem insPath_plug (lt : α → α → Bool) (v : α) (t : Tree α) (acc : Path α) :
    plug (insPath lt v t acc) Tree.leaf = plug acc t := by
  induction t generalizing acc with
  | leaf => rfl
  | node a c l w r ihl ihr =>
    simp only [insPath]
    split
    · rw [ihl]; rfl
    · rw [ihr]; rfl

theorem insPath_sideOK (lt : α → α → Bool) (v : α) (t : Tree α) (acc : Path α)
    (h : sideOK lt v acc) : sideOK lt v (insPath lt v t acc) := by
  induction t generalizing acc with
  | leaf => exact h
  | node a c l w r ihl ihr =>
    simp only [insPath]
    split
    · next hlt => exact ihl _ hlt
    · next hlt => exact ihr _ (by simpa [sideOK] using hlt)

/-- The loop of `FindByValue` stops at the subtree `zoom` computes. -/
theorem FindByValueLoop_zoom (lt : α → α → Bool) (v : α) {s : Set α} (t : Tree α) :
    ∀ (par : Nat) (acc : Path α) (fuel : Nat), Repr s t par → t.height + 1 ≤ fuel →
    FindByValueLoop lt s v fuel (t.ptr s.nil_) = some ((zoom lt v t acc).2.ptr s.nil_) := by
  induction t with
  | leaf =>
    intro par acc fuel _ hf
    obtain ⟨k, rfl⟩ : ∃ k, fuel = k + 1 := ⟨fuel - 1, by omega⟩
    simp [FindByValueLoop, zoom]
  | node a c l w r ihl ihr =>
    intro par acc fuel h hf
    obtain ⟨k, rfl⟩ : ∃ k, fuel = k + 1 := ⟨fuel - 1, by omega⟩
    simp only [Repr] at h
    obtain ⟨h1, h2, h3, h4, h5, h6, h7, h8⟩ := h
    simp only [Tree.height] at hf
    simp only [FindByValueLoop, zoom, ptr_node, h2, h4, h5]
    rw [if_pos h1]
    split
    · rfl
    · split
      · exact ihl a _ k h7 (by omega)
      · exact ihr a _ k h8 (by omega)

/-- The descent loop of `RBInsert` stops below the innermost frame of `insPath`. -/
theorem RBInsertDescend_insPath (lt : α → α → Bool) {s : Set α} (z : Nat) (t : Tree α) :
    ∀ (par : Nat) (acc : Path α) (fuel : Nat), Repr s t par → t.height + 1 ≤ fuel →
    RBInsertDescend lt s z fuel (pathPtr s.nil_ acc) (t.ptr s.nil_) =
      some (pathPtr s.nil_ (insPath lt (s.value z) t acc)) := by
  induction t with
  | leaf =>
    intro par acc fuel _ hf
    obtain ⟨k, rfl⟩ : ∃ k, fuel = k + 1 := ⟨fuel - 1, by omega⟩
    simp [RBInsertDescend, insPath]
  | node a c l w r ihl ihr =>
    intro par acc fuel h hf
    obtain ⟨k, rfl⟩ : ∃ k, fuel = k + 1 := ⟨fuel - 1, by omega⟩
    simp only [Repr] at h
    obtain ⟨h1, h2, h3, h4, h5, h6, h7, h8⟩ := h
    simp only [Tree.height] at hf
    simp only [RBInsertDescend, insPath, ptr_node, h2, h4, h5]
    rw [if_pos h1]
    split
    · exact ihl a (Frame.left a c w r :: acc) k h7 (by omega)
    · exact ihr a (Frame.right a c l w :: acc) k h8 (by omega)

/-! ## Hanging the new node into the tree -/

@[simp] theorem next_RBInsertLink (lt : α → α → Bool) (s : Set α) (z y : Nat) :
    (RBInsertLink lt s z y).next = s.next := by
  unfold RBInsertLink PaintRed; dsimp only; split_ifs <;> rfl

@[simp] theorem nil_RBInsertLink (lt : α → α → Bool) (s : Set α) (z y : Nat) :
    (RBInsertLink lt s z y).nil_ = s.nil_ := by
  unfold RBInsertLink PaintRed; dsimp only; split_ifs <;> rfl

@[simp] theorem size_RBInsertLink (lt : α → α → Bool) (s : Set α) (z y : Nat) :
    (RBInsertLink lt s z y).size_ = s.size_ := by
  unfold RBInsertLink PaintRed; dsimp only; split_ifs <;> rfl

@[simp] theorem freed_RBInsertLink (lt : α → α → Bool) (s : Set α) (z y : Nat) :
    (RBInsertLink lt s z y).freed = s.freed := by
  unfold RBInsertLink PaintRed; dsimp only; split_ifs <;> rfl

@[simp] theorem value_RBInsertLink (lt : α → α → Bool) (s : Set α) (z y b : Nat) :
    (RBInsertLink lt s z y).value b = s.value b := by
  unfold RBInsertLink PaintRed; dsimp only; split_ifs <;> simp

theorem SameMeta.insertLink (lt : α → α → Bool) (s : Set α) (z y : Nat) :
    SameMeta s (RBInsertLink lt s z y) :=
  ⟨by simp, by simp, by simp, by simp, fun _ => by simp⟩

/-- The writes of `RBInsert` between its descent and its fixup put a RED leaf into the hole. -/
theorem Zip.attach (lt : α → α → Bool) {s : Set α} {p : Path α} {z : Nat} {v : α}
    (h : Zip s p Tree.leaf) (hz : z ∉ pathAddrs p) (hz0 : z ≠ s.nil_) (hzn : z < s.next)
    (hv : s.value z = v) (hside : sideOK lt v p) :
    Zip (RBInsertLink lt s z (pathPtr s.nil_ p)) p
      (Tree.node z Color.RED Tree.leaf v Tree.leaf) := by
  obtain ⟨hp, hs, hn, hf, h0⟩ := h
  obtain ⟨n1, n2, n3, n4⟩ := h0
  have hn2 : (z :: pathAddrs p).Nodup := List.nodup_cons.mpr ⟨hz, by simpa using hn⟩
  have hz1 : ¬ s.nil_ = z := fun e => hz0 e.symm
  refine ⟨?_, ?_, by simpa using hn2, ?_, ⟨?_, ?_, ?_, ?_⟩⟩
  rotate_left 2
  · intro a ha
    rw [next_RBInsertLink]
    simp only [addrs_node, addrs_leaf, List.nil_append, List.cons_append, List.mem_cons] at ha
    rcases ha with rfl | ha
    · exact hzn
    · exact hf a (by simpa using ha)
  all_goals
    rcases p with _ | ⟨f, p⟩
    rotate_left
    cases f
    all_goals
      simp only [ReprPath, ptr_leaf] at hp
      try have hq0 := Ne.symm hp.1
      simp only [pathAddrs_cons, pathAddrs_nil, addr_left, sib_left, addr_right, sib_right,
        List.nodup_append, List.nodup_cons, List.mem_append, nmem_cons, not_or,
        List.disjoint_append_left, List.disjoint_append_right, List.disjoint_cons_left,
        List.disjoint_cons_right] at hn2
      simp only [sideOK] at hside
      simp [RBInsertLink, PaintRed, Repr, ReprPath, Repr_setLeft, Repr_setRight, Repr_setParent,
        Repr_setColor, ReprPath_setLeft, ReprPath_setRight, ReprPath_setParent, ReprPath_setColor,
        eq_ptr_false, ptr_eq_false, *]

/-! ## Allocation -/

@[simp] theorem value_alloc (s : Set α) (v : α) (b : Nat) :
    (s.alloc v).1.value b = if b = s.next then v else s.value b := by
  unfold Set.alloc Set.value; dsimp only; split <;> rfl
@[simp] theorem left_alloc_ne (s : Set α) (v : α) {b : Nat} (h : ¬ b = s.next) :
    (s.alloc v).1.left b = s.left b := by
  unfold Set.alloc Set.left; dsimp only; rw [if_neg h]
@[simp] theorem right_alloc_ne (s : Set α) (v : α) {b : Nat} (h : ¬ b = s.next) :
    (s.alloc v).1.right b = s.right b := by
  unfold Set.alloc Set.right; dsimp only; rw [if_neg h]
@[simp] theorem parent_alloc_ne (s : Set α) (v : α) {b : Nat} (h : ¬ b = s.next) :
    (s.alloc v).1.parent b = s.parent b := by
  unfold Set.alloc Set.parent; dsimp only; rw [if_neg h]
@[simp] theorem color_alloc_ne (s : Set α) (v : α) {b : Nat} (h : ¬ b = s.next) :
    (s.alloc v).1.color b = s.color b := by
  unfold Set.alloc Set.color; dsimp only; rw [if_neg h]
@[simp] theorem nil_alloc (s : Set α) (v : α) : (s.alloc v).1.nil_ = s.nil_ := rfl
@[simp] theorem root_alloc (s : Set α) (v : α) : (s.alloc v).1.root_ = s.root_ := rfl
@[simp] theorem next_alloc (s : Set α) (v : α) : (s.alloc v).1.next = s.next + 1 := rfl
@[simp] theorem size_alloc (s : Set α) (v : α) : (s.alloc v).1.size_ = s.size_ := rfl
@[simp] theorem freed_alloc (s : Set α) (v : α) : (s.alloc v).1.freed = s.freed := rfl
@[simp] theorem snd_alloc (s : Set α) (v : α) : (s.alloc v).2 = s.next := rfl

theorem Repr_alloc {s : Set α} {t : Tree α} {par : Nat} (v : α) (h : s.next ∉ t.addrs) :
    Repr (s.alloc v).1 t par ↔ Repr s t par := by
  induction t generalizing par with
  | leaf => simp [Repr]
  | node b c l w r ihl ihr =>
    simp only [addrs_node, List.mem_append, List.mem_cons, not_or] at h
    obtain ⟨hl, hb, hr⟩ := h
    have hb2 : ¬ b = s.next := fun e => hb e.symm
    simp [Repr, ihl hl, ihr hr, hb2]

/-- A fresh cell does not disturb the stored tree. -/
theorem Set.Shape.alloc {s : Set α} {t : Tree α} (h : s.Shape t) (v : α) :
    (s.alloc v).1.Shape t := by
  obtain ⟨h1, h2, h3, h4, n1, n2, n3, n4⟩ := h
  have hne : ¬ s.nil_ = s.next := by omega
  refine ⟨by simpa using h1, ?_, h3, fun a ha => ?_, ⟨?_, ?_, ?_, ?_⟩⟩
  · rw [nil_alloc, Repr_alloc v (fun hm => by have := h4 _ hm; omega)]
    exact h2
  · have := h4 a ha
    simp; omega
  all_goals simp [hne, *]
  omega

end RBSet

namespace RBSet
variable {α : Type}

/-! ## `RBInsertFixup`, `RBInsert` and `insert` -/

theorem Tree.exists_node_of_cells {t : Tree α} (h : t.cells ≠ []) :
    ∃ a c l v r, t = Tree.node a c l v r := by
  cases t with
  | leaf => simp at h
  | node a c l v r => exact ⟨a, c, l, v, r, rfl⟩

theorem cells_plug_ne_nil (p : Path α) (a : Nat) (c : Color) (l : Tree α) (v : α) (r : Tree α) :
    (plug p (Tree.node a c l v r)).cells ≠ [] := by
  rw [cells_plug]
  simp

theorem addrs_plug_perm (p : Path α) (t : Tree α) :
    List.Perm (plug p t).addrs (t.addrs ++ pathAddrs p) := by
  induction p generalizing t with
  | nil => simp
  | cons f p ih =>
    rw [plug_cons]
    refine (ih (f.fill t)).trans ?_
    cases f
    all_goals
      simp only [pathAddrs_cons, fill_left, fill_right, addrs_node, addr_left, addr_right, sib_left,
        sib_right]
      rw [← Multiset.coe_eq_coe]
      simp only [← Multiset.coe_add, ← Multiset.cons_coe, ← Multiset.singleton_add]
      abel

/-- `RBInsertFixup` started at a RED node in an otherwise valid tree: it returns,
and the tree it leaves is a red-black tree with the same cells in the same order. -/
theorem RBInsertFixup_spec {s : Set α} {p : Path α} {z : Nat} {l r : Tree α} {v : α}
    (hz : Zip s p (Tree.node z Color.RED l v r)) (hp : PathRB p l.bh)
    (hnr : (Tree.node z Color.RED l v r).NoRedRed) (hbal : (Tree.node z Color.RED l v r).Balanced) :
    ∃ s2 t2, RBInsertFixup s z = some s2 ∧ SameMeta s s2 ∧ s2.Shape t2 ∧ t2.RedBlack ∧
      t2.cells = (plug p (Tree.node z Color.RED l v r)).cells := by
  have hb := hz.budget
  simp only [Tree.height] at hb
  obtain ⟨s1, t1, e1, m1, z1, n1, b1, c1⟩ :=
    RBInsertFixupLoop_spec p.length p s z l r v s.next (le_refl _) (by omega) hz hp hnr hbal
  obtain ⟨a, c, tl, w, tr, rfl⟩ := Tree.exists_node_of_cells (c1 ▸ cells_plug_ne_nil p z _ l v r)
  have hroot : s1.root_ = a := by simpa [ReprPath] using z1.path
  refine ⟨PaintBlack s1 s1.root_, Tree.node a Color.BLACK tl w tr, ?_, ?_, ?_, ?_, ?_⟩
  · simp [RBInsertFixup, e1]
  · exact m1.trans (SameMeta.setColor _ _ _)
  · rw [hroot]
    exact (z1.paint Color.BLACK).shape
  · simp only [noRedRed_node, balanced_node] at n1 b1
    exact ⟨rfl, by simp [n1.2], by simp [b1]⟩
  · simpa using c1

theorem Set.Shape.setSize {s : Set α} {t : Tree α} (h : s.Shape t) (n : Nat) :
    Set.Shape { s with size_ := n } t := by
  obtain ⟨h1, h2, h3, h4, n1, n2, n3, n4⟩ := h
  have hr : ∀ (t : Tree α) (par : Nat), Repr s t par → Repr { s with size_ := n } t par := by
    intro t
    induction t with
    | leaf => intro _ _; trivial
    | node b c l w r ihl ihr =>
      intro par h
      simp only [Repr] at h ⊢
      exact ⟨h.1, h.2.1, h.2.2.1, h.2.2.2.1, h.2.2.2.2.1, h.2.2.2.2.2.1, ihl _ h.2.2.2.2.2.2.1,
        ihr _ h.2.2.2.2.2.2.2⟩
  exact ⟨h1, hr _ _ h2, h3, h4, ⟨n1, n2, n3, n4⟩⟩

/-- `RBInsert` of a fresh cell `z` holding `v` into a red-black tree: it returns a
red-black tree whose cells are those of the old tree with `(z, v)` put at the
end of the descent path, and `size_` has grown by one. -/
theorem RBInsert_spec (lt : α → α → Bool) {s : Set α} {t : Tree α} {z : Nat} {v : α}
    (h : s.Shape t) (hrb : t.RedBlack) (hz : z ∉ t.addrs) (hz0 : z ≠ s.nil_) (hzn : z < s.next)
    (hv : s.value z = v) :
    ∃ s2 t2, RBInsert lt s z = some s2 ∧ s2.Shape t2 ∧ t2.RedBlack ∧
      t2.cells = (plug (insPath lt v t []) (Tree.node z Color.RED Tree.leaf v Tree.leaf)).cells ∧
      s2.size_ = s.size_ + 1 ∧ s2.nil_ = s.nil_ ∧ s2.next = s.next ∧ s2.freed = s.freed ∧
      ∀ a, s2.value a = s.value a := by
  have hb := h.zip.budget
  have e1 := RBInsertDescend_insPath lt z t s.nil_ [] s.next h.repr (by simp at hb; omega)
  rw [hv, pathPtr_nil, ← h.root] at e1
  have hplug := insPath_plug lt v t []
  have z0 : Zip s (insPath lt v t []) Tree.leaf := Zip.focus (by rw [hplug]; exact h.zip)
  have hzp : z ∉ pathAddrs (insPath lt v t []) := by
    intro hm
    have hperm := addrs_plug_perm (insPath lt v t []) Tree.leaf
    rw [hplug] at hperm
    exact hz (hperm.mem_iff.mpr (by simpa using hm))
  have z1 := Zip.attach lt z0 hzp hz0 hzn hv (insPath_sideOK lt v t [] trivial)
  have hrb2 := (plug_rb (insPath lt v t []) Tree.leaf).mp
    (by rw [hplug]; exact ⟨hrb.2.1, hrb.2.2, fun _ => hrb.1⟩)
  obtain ⟨s2, t2, e2, m2, sh2, rb2, c2⟩ := RBInsertFixup_spec z1 (by simpa using hrb2.1)
    (by simp) (by simp)
  have m3 := (SameMeta.insertLink lt s z (pathPtr s.nil_ (insPath lt v t []))).trans m2
  refine ⟨{ s2 with size_ := s2.size_ + 1 }, t2, ?_, sh2.setSize _, rb2, c2, ?_, m3.1, m3.2.1,
    m3.2.2.2.1, m3.2.2.2.2⟩
  · simp [RBInsert, e1, e2]
  · simpa using m3.2.2.1

/-- `FindByValue` returns, and what it returns is the root of the subtree at which
`zoom` stops. -/
theorem FindByValue_eq (lt : α → α → Bool) (v : α) {s : Set α} {t : Tree α} (h : s.Shape t) :
    FindByValue lt s v = some ((zoom lt v t []).2.ptr s.nil_) := by
  have hb := h.zip.budget
  have := FindByValueLoop_zoom lt v t s.nil_ [] s.next h.repr (by simp at hb; omega)
  rwa [← h.root] at this

/-- The focus of the stored tree at the subtree where `zoom` stops. -/
theorem Set.Shape.zoom (lt : α → α → Bool) (v : α) {s : Set α} {t : Tree α} (h : s.Shape t) :
    Zip s (zoom lt v t []).1 (zoom lt v t []).2 :=
  Zip.focus (by rw [zoom_plug]; exact h.zip)

theorem Zip.ptr_ne_nil {s : Set α} {p : Path α} {a : Nat} {c : Color} {l r : Tree α} {v : α}
    (h : Zip s p (Tree.node a c l v r)) : a ≠ s.nil_ := by
  have := h.sub
  simp only [Repr] at this
  exact this.1

theorem zoom_leaf_insPath (lt : α → α → Bool) (v : α) (t : Tree α) (acc : Path α)
    (h : (zoom lt v t acc).2 = Tree.leaf) : insPath lt v t acc = (zoom lt v t acc).1 := by
  induction t generalizing acc with
  | leaf => rfl
  | node a c l w r ihl ihr =>
    simp only [zoom, insPath] at h ⊢
    by_cases h1 : Equal lt w v = true
    · simp [h1] at h
    · by_cases h2 : lt v w = true
      · simp only [h1, h2, if_true, if_false] at h ⊢
        exact ihl _ h
      · simp only [h1, h2, if_false] at h ⊢
        exact ihr _ h

/-- `insert` of a value that `FindByValue` meets in the tree changes nothing. -/
theorem insert_found (lt : α → α → Bool) (v : α) {s : Set α} {t : Tree α} (h : s.Shape t)
    (hf : (zoom lt v t []).2 ≠ Tree.leaf) : insert lt s v = some s := by
  have hz := h.zoom lt v
  rcases hq : (zoom lt v t []).2 with _ | ⟨a, c, l, w, r⟩
  · exact absurd hq hf
  · rw [hq] at hz
    simp [insert, FindByValue_eq lt v h, hq, hz.ptr_ne_nil]

/-- `insert` of a value that `FindByValue` does not meet: a fresh RED cell is put
at the end of the descent path and the tree is rebalanced. -/
theorem insert_absent (lt : α → α → Bool) (v : α) {s : Set α} {t : Tree α} (h : s.Shape t)
    (hrb : t.RedBlack) (hf : (zoom lt v t []).2 = Tree.leaf) :
    ∃ s2 t2, insert lt s v = some s2 ∧ s2.Shape t2 ∧ t2.RedBlack ∧
      t2.cells = (plug (zoom lt v t []).1 (Tree.node s.next Color.RED Tree.leaf v Tree.leaf)).cells ∧
      s2.size_ = s.size_ + 1 ∧ s2.nil_ = s.nil_ ∧ s2.next = s.next + 1 ∧ s2.freed = s.freed ∧
      ∀ a, a ≠ s.next → s2.value a = s.value a := by
  have hne : s.next ≠ s.nil_ := by have := h.nil.lt_next; omega
  obtain ⟨s2, t2, e, sh, rb, c, z1, z2, z3, z4, z5⟩ := RBInsert_spec lt (h.alloc v) hrb
    (z := s.next) (v := v) (fun hm => by have := h.fresh _ hm; omega) (by simpa using hne)
    (by simp) (by simp)
  refine ⟨s2, t2, ?_, sh, rb, ?_, by simpa using z1, by simpa using z2, by simpa using z3,
    by simpa using z4, fun a ha => ?_⟩
  · simp [insert, FindByValue_eq lt v h, hf, e]
  · rw [c, zoom_leaf_insPath lt v t [] hf]
  · rw [z5 a]; simp [ha]

/-- `insert` keeps the red-black invariants. -/
theorem insert_redBlack (lt : α → α → Bool) (v : α) {s : Set α} {t : Tree α} (h : s.Shape t)
    (hrb : t.RedBlack) : ∃ s2 t2, insert lt s v = some s2 ∧ s2.Shape t2 ∧ t2.RedBlack := by
  by_cases hf : (zoom lt v t []).2 = Tree.leaf
  · obtain ⟨s2, t2, e, sh, rb, -⟩ := insert_absent lt v h hrb hf
    exact ⟨s2, t2, e, sh, rb⟩
  · exact ⟨s, t, insert_found lt v h hf, h, hrb⟩

end RBSet

namespace RBSet
variable {α : Type}

/-! ## `RBDeleteFixup`: one iteration at a time -/

theorem plug_ptr_mem (nil : Nat) (f : Frame α) (p : Path α) (t : Tree α) :
    (plug (f :: p) t).ptr nil ∈ pathAddrs (f :: p) := by
  induction p generalizing f t with
  | nil => cases f <;> simp
  | cons g p ih =>
    have := ih g (f.fill t)
    simp only [plug_cons] at this ⊢
    simp only [pathAddrs_cons, List.mem_append, List.mem_cons] at this ⊢
    tauto

/-- Below a non-empty path the focus is not the root. -/
theorem Zip.ptr_ne_root {s : Set α} {f : Frame α} {p : Path α} {t : Tree α}
    (h : Zip s (f :: p) t) : t.ptr s.nil_ ≠ s.root_ := by
  have h1 : s.root_ = (plug (f :: p) t).ptr s.nil_ := h.top.path
  have h2 := plug_ptr_mem s.nil_ f p t
  rw [← h1] at h2
  intro e
  rw [← e] at h2
  cases t with
  | leaf => exact h.path.nil_not_mem_path (by simpa using h2)
  | node a c l v r =>
    have := h.nodup
    simp only [addrs_node, List.nodup_append, List.disjoint_left, List.mem_append, List.mem_cons] at this
    exact this.2.2 (Or.inr (Or.inl rfl)) (by simpa using h2)

/-- The loop of `RBDeleteFixup` stops at the root. -/
theorem RBDeleteFixupLoop_exit_root {s : Set α} {t : Tree α} (h : Zip s [] t) (fuel : Nat) :
    RBDeleteFixupLoop (fuel + 1) s (t.ptr s.nil_) = some (s, t.ptr s.nil_) := by
  have : s.root_ = t.ptr s.nil_ := h.path
  simp [RBDeleteFixupLoop, this]

/-- The loop of `RBDeleteFixup` stops at a RED node. -/
theorem RBDeleteFixupLoop_exit_red {s : Set α} {p : Path α} {a : Nat} {l r : Tree α} {v : α}
    (h : Zip s p (Tree.node a Color.RED l v r)) (fuel : Nat) :
    RBDeleteFixupLoop (fuel + 1) s a = some (s, a) := by
  have := h.sub
  simp only [Repr] at this
  simp [RBDeleteFixupLoop, BlackFlag, this.2.2.1]

/-- Case 2, node on the left: a BLACK sibling with two BLACK children is painted RED
and the loop moves to the parent. -/
theorem RBDeleteFixupLoop_case2_left {s : Set α} {p : Path α} {x : Tree α} {pa w : Nat}
    {pc : Color} {wl wr : Tree α} {pv wv : α} (fuel : Nat)
    (h : Zip s (Frame.left pa pc pv (Tree.node w Color.BLACK wl wv wr) :: p) x)
    (hx : s.parent (x.ptr s.nil_) = pa) (hxc : x.color = Color.BLACK)
    (hl : wl.color = Color.BLACK) (hr : wr.color = Color.BLACK) :
    ∃ s2, RBDeleteFixupLoop (fuel + 1) s (x.ptr s.nil_) = RBDeleteFixupLoop fuel s2 pa ∧
      SameMeta s s2 ∧ Zip s2 p (Tree.node pa pc x pv (Tree.node w Color.RED wl wv wr)) := by
  have h1 := h.up
  have hs1 := h1.sub
  have h0 := h.nil
  have hroot := h.ptr_ne_root
  simp only [fill_left] at h1 hs1
  have h2 := ((Zip.down (f := Frame.right pa pc x pv) h1).paint Color.RED).up
  refine ⟨_, ?_, SameMeta.setColor _ _ _, h2⟩
  simp only [Repr, ptr_node] at hs1
  have hxc2 := hs1.2.2.2.2.2.2.1.color_ptr h0
  have hlc := hs1.2.2.2.2.2.2.2.2.2.2.2.2.2.1.color_ptr h0
  have hrc := hs1.2.2.2.2.2.2.2.2.2.2.2.2.2.2.color_ptr h0
  rw [RBDeleteFixupLoop]
  simp [RedFlag, BlackFlag, PaintRed, *]

/-- The loop of `RBDeleteFixup` stops when it is started at `root_`. -/
theorem RBDeleteFixupLoop_root (s : Set α) (fuel : Nat) :
    RBDeleteFixupLoop (fuel + 1) s s.root_ = some (s, s.root_) := by
  simp [RBDeleteFixupLoop]

/-- Case 4, node on the left: a BLACK sibling with a RED right child. -/
theorem RBDeleteFixupLoop_case4_left {s : Set α} {p : Path α} {x : Tree α} {pa w r : Nat}
    {pc : Color} {wl rl rr : Tree α} {pv wv rv : α} (fuel : Nat)
    (h : Zip s (Frame.left pa pc pv
      (Tree.node w Color.BLACK wl wv (Tree.node r Color.RED rl rv rr)) :: p) x)
    (hx : s.parent (x.ptr s.nil_) = pa) (hxc : x.color = Color.BLACK) :
    ∃ s2, RBDeleteFixupLoop (fuel + 2) s (x.ptr s.nil_) = some (s2, s2.root_) ∧
      SameMeta s s2 ∧
      Zip s2 p (Tree.node w pc (Tree.node pa Color.BLACK x pv wl) wv
        (Tree.node r Color.BLACK rl rv rr)) := by
  have h1 := h.up
  have hs1 := h1.sub
  have h0 := h.nil
  have hroot := h.ptr_ne_root
  simp only [fill_left] at h1 hs1
  have h2 := ((Zip.down (f := Frame.right pa pc x pv) h1).paint pc).up
  simp only [fill_right] at h2
  have h3 := h2.paint Color.BLACK
  have h4 := ((Zip.down (f := Frame.right w pc wl wv)
    (Zip.down (f := Frame.right pa Color.BLACK x pv) h3)).paint Color.BLACK).up.up
  simp only [fill_right] at h4
  have h5 := h4.rotateLeft
  refine ⟨_, ?_, (((SameMeta.setColor _ _ _).trans (SameMeta.setColor _ _ _)).trans
    (SameMeta.setColor _ _ _)).trans (SameMeta.leftRotate _ _), h5⟩
  rw [← RBDeleteFixupLoop_root _ fuel]
  simp only [Repr, ptr_node] at hs1
  have hxc2 := hs1.2.2.2.2.2.2.1.color_ptr h0
  have hlc := hs1.2.2.2.2.2.2.2.2.2.2.2.2.2.1.color_ptr h0
  rw [RBDeleteFixupLoop]
  simp [RedFlag, BlackFlag, PaintRed, PaintBlack, *]

theorem parent_link_ite (q : Set α) (c d : Prop) [Decidable c] [Decidable d] (a b e n : Nat) :
    (if c then q.setRoot a else if d then q.setLeft b e else q.setRight b e).parent n =
      q.parent n := by
  split_ifs <;> simp

theorem parent_LeftRotate_nil (s : Set α) (x : Nat) (hx : ¬ s.nil_ = x)
    (hy : ¬ s.nil_ = s.right x) :
    (LeftRotate s x).parent s.nil_ = s.parent s.nil_ := by
  unfold LeftRotate
  dsimp only
  rw [parent_setParent, if_neg hx, parent_setLeft, parent_link_ite, parent_setParent, if_neg hy]
  split_ifs with h
  · rw [parent_setParent, if_neg (by simpa using Ne.symm h)]; simp
  · simp

theorem parent_RightRotate_nil (s : Set α) (x : Nat) (hx : ¬ s.nil_ = x)
    (hy : ¬ s.nil_ = s.left x) :
    (RightRotate s x).parent s.nil_ = s.parent s.nil_ := by
  unfold RightRotate
  dsimp only
  rw [parent_setParent, if_neg hx, parent_setRight, parent_link_ite, parent_setParent, if_neg hy]
  split_ifs with h
  · rw [parent_setParent, if_neg (by simpa using Ne.symm h)]; simp
  · simp

/-- The parent link of the focus: stored in the cell of a node, and for a leaf
the parent link of the sentinel. -/
theorem Zip.parent_ptr {s : Set α} {p : Path α} {t : Tree α} (h : Zip s p t)
    (hl : t = Tree.leaf → s.parent s.nil_ = pathPtr s.nil_ p) :
    s.parent (t.ptr s.nil_) = pathPtr s.nil_ p := by
  cases t with
  | leaf => simpa using hl rfl
  | node a c l v r => exact h.parent_eq

/-- Case 1, node on the left: a RED sibling is rotated above the parent; the
iteration goes on as if it had started in the rotated state. -/
theorem RBDeleteFixupLoop_case1_left {s : Set α} {p : Path α} {x : Tree α} {pa w : Nat}
    {wl wr : Tree α} {pv wv : α} (fuel : Nat)
    (h : Zip s (Frame.left pa Color.BLACK pv (Tree.node w Color.RED wl wv wr) :: p) x)
    (hx : s.parent (x.ptr s.nil_) = pa) (hxc : x.color = Color.BLACK)
    (hwl : wl.color = Color.BLACK) :
    ∃ s2, RBDeleteFixupLoop (fuel + 1) s (x.ptr s.nil_) =
        RBDeleteFixupLoop (fuel + 1) s2 (x.ptr s.nil_) ∧
      SameMeta s s2 ∧ s2.parent (x.ptr s.nil_) = pa ∧
      Zip s2 (Frame.left pa Color.RED pv wl :: Frame.left w Color.BLACK wv wr :: p) x := by
  have h1 := h.up
  have hs1 := h1.sub
  have h0 := h.nil
  have hroot := h.ptr_ne_root
  simp only [fill_left] at h1 hs1
  have h2 := ((Zip.down (f := Frame.right pa Color.BLACK x pv) h1).paint Color.BLACK).up
  simp only [fill_right] at h2
  have h3 := (h2.paint Color.RED).rotateLeft
  have h4 := Zip.down (f := Frame.left pa Color.RED pv wl)
    (Zip.down (f := Frame.left w Color.BLACK wv wr) h3)
  have hroot4 := h4.ptr_ne_root
  have hs4 := h4.up.sub
  have h04 := h4.nil
  simp only [Repr, ptr_node, fill_left] at hs1 hs4
  have hx4 : (LeftRotate ((s.setColor w Color.BLACK).setColor pa Color.RED) pa).parent
      (x.ptr s.nil_) = pa := by
    cases x with
    | leaf =>
      have := parent_LeftRotate_nil ((s.setColor w Color.BLACK).setColor pa Color.RED) pa
        (by simpa using hs1.1.symm) (by simpa [hs1.2.2.2.2.1] using hs1.2.2.2.2.2.2.2.1.symm)
      simp only [ptr_leaf] at hx ⊢
      simp only [nil_setColor, parent_setColor] at this
      rw [this, hx]
    | node a c l v r => simpa using h4.parent_eq
  refine ⟨_, ?_, ((SameMeta.setColor _ _ _).trans (SameMeta.setColor _ _ _)).trans
    (SameMeta.leftRotate _ _), hx4, h4⟩
  have hxc2 := hs1.2.2.2.2.2.2.1.color_ptr h0
  have hxc4 := hs4.2.2.2.2.2.2.1.color_ptr h04
  have hwc4 := hs4.2.2.2.2.2.2.2.color_ptr h04
  simp only [nil_LeftRotate, nil_setColor] at hxc4 hwc4 hroot4
  conv_lhs => rw [RBDeleteFixupLoop]
  conv_rhs => rw [RBDeleteFixupLoop]
  simp [RedFlag, BlackFlag, PaintRed, PaintBlack, *]

/-- Cases 3 and 4, node on the left: a BLACK sibling with a RED left and a BLACK
right child. -/
theorem RBDeleteFixupLoop_case3_left {s : Set α} {p : Path α} {x : Tree α} {pa w a : Nat}
    {pc : Color} {al ar wr : Tree α} {pv wv av : α} (fuel : Nat)
    (h : Zip s (Frame.left pa pc pv
      (Tree.node w Color.BLACK (Tree.node a Color.RED al av ar) wv wr) :: p) x)
    (hx : s.parent (x.ptr s.nil_) = pa) (hxc : x.color = Color.BLACK)
    (hwr : wr.color = Color.BLACK) :
    ∃ s2, RBDeleteFixupLoop (fuel + 2) s (x.ptr s.nil_) = some (s2, s2.root_) ∧
      SameMeta s s2 ∧
      Zip s2 p (Tree.node a pc (Tree.node pa Color.BLACK x pv al) av
        (Tree.node w Color.BLACK ar wv wr)) := by
  have h1 := h.up
  have hs1 := h1.sub
  have h0 := h.nil
  have hroot := h.ptr_ne_root
  simp only [fill_left] at h1 hs1
  have h2 := ((Zip.down (f := Frame.left w Color.BLACK wv wr)
    (Zip.down (f := Frame.right pa pc x pv) h1)).paint Color.BLACK).up
  simp only [fill_left] at h2
  have h3 := (h2.paint Color.RED).rotateRight
  have hs3 := h3.up.sub
  have h03 := h3.nil
  have h4 := (h3.paint pc).up
  simp only [fill_right] at h4 hs3
  have h5 := h4.paint Color.BLACK
  have h6 := ((Zip.down (f := Frame.right a pc al av)
    (Zip.down (f := Frame.right pa Color.BLACK x pv) h5)).paint Color.BLACK).up.up
  simp only [fill_right] at h6
  have h7 := h6.rotateLeft
  simp only [Repr, ptr_node] at hs1 hs3
  have hx3 : (RightRotate ((s.setColor a Color.BLACK).setColor w Color.RED) w).parent
      (x.ptr s.nil_) = pa := by
    cases x with
    | leaf =>
      have := parent_RightRotate_nil ((s.setColor a Color.BLACK).setColor w Color.RED) w
        (by simpa using hs1.2.2.2.2.2.2.2.1.symm)
        (by simpa [hs1.2.2.2.2.2.2.2.2.2.2.1] using hs1.2.2.2.2.2.2.2.2.2.2.2.2.2.1.1.symm)
      simp only [ptr_leaf] at hx ⊢
      simp only [nil_setColor, parent_setColor] at this
      rw [this, hx]
    | node b c l v r => simpa using hs3.2.2.2.2.2.2.1.2.2.2.2.2.1
  refine ⟨_, ?_, ((((((SameMeta.setColor _ _ _).trans (SameMeta.setColor _ _ _)).trans
    (SameMeta.rightRotate _ _)).trans (SameMeta.setColor _ _ _)).trans
    (SameMeta.setColor _ _ _)).trans (SameMeta.setColor _ _ _)).trans
    (SameMeta.leftRotate _ _), h7⟩
  rw [← RBDeleteFixupLoop_root _ fuel]
  have hxc2 := hs1.2.2.2.2.2.2.1.color_ptr h0
  have hrc := hs1.2.2.2.2.2.2.2.2.2.2.2.2.2.2.color_ptr h0
  simp only [nil_RightRotate, nil_setColor] at hs3
  rw [RBDeleteFixupLoop]
  simp [RedFlag, BlackFlag, PaintRed, PaintBlack, *]

/-- Case 2, node on the right. -/
theorem RBDeleteFixupLoop_case2_right {s : Set α} {p : Path α} {x : Tree α} {pa w : Nat}
    {pc : Color} {wl wr : Tree α} {pv wv : α} (fuel : Nat)
    (h : Zip s (Frame.right pa pc (Tree.node w Color.BLACK wl wv wr) pv :: p) x)
    (hx : s.parent (x.ptr s.nil_) = pa) (hxc : x.color = Color.BLACK)
    (hl : wl.color = Color.BLACK) (hr : wr.color = Color.BLACK) :
    ∃ s2, RBDeleteFixupLoop (fuel + 1) s (x.ptr s.nil_) = RBDeleteFixupLoop fuel s2 pa ∧
      SameMeta s s2 ∧ Zip s2 p (Tree.node pa pc (Tree.node w Color.RED wl wv wr) pv x) := by
  have h1 := h.up
  have hs1 := h1.sub
  have hn1 := h1.nodup
  have h0 := h.nil
  have hroot := h.ptr_ne_root
  simp only [fill_right] at h1 hs1 hn1
  have h2 := ((Zip.down (f := Frame.left pa pc pv x) h1).paint Color.RED).up
  refine ⟨_, ?_, SameMeta.setColor _ _ _, h2⟩
  simp only [Repr, ptr_node] at hs1
  have hxc2 := hs1.2.2.2.2.2.2.2.color_ptr h0
  have hlc := hs1.2.2.2.2.2.2.1.2.2.2.2.2.2.1.color_ptr h0
  have hrc := hs1.2.2.2.2.2.2.1.2.2.2.2.2.2.2.color_ptr h0
  have hw0 := hs1.2.2.2.2.2.2.1.1
  simp only [addrs_node, List.nodup_append, List.nodup_cons, List.mem_append, nmem_cons, not_or,
    List.disjoint_append_left, List.disjoint_append_right, List.disjoint_cons_left,
    List.disjoint_cons_right] at hn1
  rw [RBDeleteFixupLoop]
  simp [RedFlag, BlackFlag, PaintRed, eq_ptr_false, ptr_eq_false, *]

/-- Case 4, node on the right: a BLACK sibling with a RED left child. -/
theorem RBDeleteFixupLoop_case4_right {s : Set α} {p : Path α} {x : Tree α} {pa w l : Nat}
    {pc : Color} {wr ll lr : Tree α} {pv wv lv : α} (fuel : Nat)
    (h : Zip s (Frame.right pa pc
      (Tree.node w Color.BLACK (Tree.node l Color.RED ll lv lr) wv wr) pv :: p) x)
    (hx : s.parent (x.ptr s.nil_) = pa) (hxc : x.color = Color.BLACK) :
    ∃ s2, RBDeleteFixupLoop (fuel + 2) s (x.ptr s.nil_) = some (s2, s2.root_) ∧
      SameMeta s s2 ∧
      Zip s2 p (Tree.node w pc (Tree.node l Color.BLACK ll lv lr) wv
        (Tree.node pa Color.BLACK wr pv x)) := by
  have h1 := h.up
  have hs1 := h1.sub
  have hn1 := h1.nodup
  have h0 := h.nil
  have hroot := h.ptr_ne_root
  simp only [fill_right] at h1 hs1 hn1
  have h2 := ((Zip.down (f := Frame.left pa pc pv x) h1).paint pc).up
  simp only [fill_left] at h2
  have h3 := h2.paint Color.BLACK
  have h4 := ((Zip.down (f := Frame.left w pc wv wr)
    (Zip.down (f := Frame.left pa Color.BLACK pv x) h3)).paint Color.BLACK).up.up
  simp only [fill_left] at h4
  have h5 := h4.rotateRight
  refine ⟨_, ?_, (((SameMeta.setColor _ _ _).trans (SameMeta.setColor _ _ _)).trans
    (SameMeta.setColor _ _ _)).trans (SameMeta.rightRotate _ _), h5⟩
  rw [← RBDeleteFixupLoop_root _ fuel]
  simp only [Repr, ptr_node] at hs1
  have hxc2 := hs1.2.2.2.2.2.2.2.color_ptr h0
  have hw0 := hs1.2.2.2.2.2.2.1.1
  simp only [addrs_node, List.nodup_append, List.nodup_cons, List.mem_append, nmem_cons, not_or,
    List.disjoint_append_left, List.disjoint_append_right, List.disjoint_cons_left,
    List.disjoint_cons_right] at hn1
  rw [RBDeleteFixupLoop]
  simp [RedFlag, BlackFlag, PaintRed, PaintBlack, eq_ptr_false, ptr_eq_false, *]

/-- Case 1, node on the right. -/
theorem RBDeleteFixupLoop_case1_right {s : Set α} {p : Path α} {x : Tree α} {pa w b : Nat}
    {wl bl br : Tree α} {pv wv bv : α} (fuel : Nat)
    (h : Zip s (Frame.right pa Color.BLACK
      (Tree.node w Color.RED wl wv (Tree.node b Color.BLACK bl bv br)) pv :: p) x)
    (hx : s.parent (x.ptr s.nil_) = pa) (hxc : x.color = Color.BLACK) :
    ∃ s2, RBDeleteFixupLoop (fuel + 1) s (x.ptr s.nil_) =
        RBDeleteFixupLoop (fuel + 1) s2 (x.ptr s.nil_) ∧
      SameMeta s s2 ∧ s2.parent (x.ptr s.nil_) = pa ∧
      Zip s2 (Frame.right pa Color.RED (Tree.node b Color.BLACK bl bv br) pv ::
        Frame.right w Color.BLACK wl wv :: p) x := by
  have h1 := h.up
  have hs1 := h1.sub
  have hn1 := h1.nodup
  have h0 := h.nil
  have hroot := h.ptr_ne_root
  simp only [fill_right] at h1 hs1 hn1
  have h2 := ((Zip.down (f := Frame.left pa Color.BLACK pv x) h1).paint Color.BLACK).up
  simp only [fill_left] at h2
  have h3 := (h2.paint Color.RED).rotateRight
  have h4 := Zip.down (f := Frame.right pa Color.RED (Tree.node b Color.BLACK bl bv br) pv)
    (Zip.down (f := Frame.right w Color.BLACK wl wv) h3)
  have hroot4 := h4.ptr_ne_root
  have hs4 := h4.up.sub
  have h04 := h4.nil
  simp only [Repr, ptr_node, fill_right] at hs1 hs4
  have hx4 : (RightRotate ((s.setColor w Color.BLACK).setColor pa Color.RED) pa).parent
      (x.ptr s.nil_) = pa := by
    cases x with
    | leaf =>
      have := parent_RightRotate_nil ((s.setColor w Color.BLACK).setColor pa Color.RED) pa
        (by simpa using hs1.1.symm) (by simpa [hs1.2.2.2.1] using hs1.2.2.2.2.2.2.1.1.symm)
      simp only [ptr_leaf] at hx ⊢
      simp only [nil_setColor, parent_setColor] at this
      rw [this, hx]
    | node a c l v r => simpa using h4.parent_eq
  refine ⟨_, ?_, ((SameMeta.setColor _ _ _).trans (SameMeta.setColor _ _ _)).trans
    (SameMeta.rightRotate _ _), hx4, h4⟩
  have hxc2 := hs1.2.2.2.2.2.2.2.color_ptr h0
  have hxc4 := hs4.2.2.2.2.2.2.2.color_ptr h04
  have hw0 := hs1.2.2.2.2.2.2.1.1
  have hb0 := hs1.2.2.2.2.2.2.1.2.2.2.2.2.2.2.1
  simp only [nil_RightRotate, nil_setColor] at hxc4 hroot4 hs4
  simp only [addrs_node, List.nodup_append, List.nodup_cons, List.mem_append, nmem_cons, not_or,
    List.disjoint_append_left, List.disjoint_append_right, List.disjoint_cons_left,
    List.disjoint_cons_right] at hn1
  conv_lhs => rw [RBDeleteFixupLoop]
  conv_rhs => rw [RBDeleteFixupLoop]
  simp [RedFlag, BlackFlag, PaintRed, PaintBlack, eq_ptr_false, ptr_eq_false, *]

/-- Cases 3 and 4, node on the right: a BLACK sibling with a RED right and a BLACK
left child. -/
theorem RBDeleteFixupLoop_case3_right {s : Set α} {p : Path α} {x : Tree α} {pa w a : Nat}
    {pc : Color} {al ar wl : Tree α} {pv wv av : α} (fuel : Nat)
    (h : Zip s (Frame.right pa pc
      (Tree.node w Color.BLACK wl wv (Tree.node a Color.RED al av ar)) pv :: p) x)
    (hx : s.parent (x.ptr s.nil_) = pa) (hxc : x.color = Color.BLACK)
    (hwl : wl.color = Color.BLACK) :
    ∃ s2, RBDeleteFixupLoop (fuel + 2) s (x.ptr s.nil_) = some (s2, s2.root_) ∧
      SameMeta s s2 ∧
      Zip s2 p (Tree.node a pc (Tree.node w Color.BLACK wl wv al) av
        (Tree.node pa Color.BLACK ar pv x)) := by
  have h1 := h.up
  have hs1 := h1.sub
  have hn1 := h1.nodup
  have h0 := h.nil
  have hroot := h.ptr_ne_root
  simp only [fill_right] at h1 hs1 hn1
  have h2 := ((Zip.down (f := Frame.right w Color.BLACK wl wv)
    (Zip.down (f := Frame.left pa pc pv x) h1)).paint Color.BLACK).up
  simp only [fill_right] at h2
  have h3 := (h2.paint Color.RED).rotateLeft
  have hs3 := h3.up.sub
  have h03 := h3.nil
  have h4 := (h3.paint pc).up
  simp only [fill_left] at h4 hs3
  have h5 := h4.paint Color.BLACK
  have h6 := ((Zip.down (f := Frame.left a pc av ar)
    (Zip.down (f := Frame.left pa Color.BLACK pv x) h5)).paint Color.BLACK).up.up
  simp only [fill_left] at h6
  have h7 := h6.rotateRight
  simp only [Repr, ptr_node] at hs1 hs3
  have hx3 : (LeftRotate ((s.setColor a Color.BLACK).setColor w Color.RED) w).parent
      (x.ptr s.nil_) = pa := by
    cases x with
    | leaf =>
      have := parent_LeftRotate_nil ((s.setColor a Color.BLACK).setColor w Color.RED) w
        (by simpa using hs1.2.2.2.2.2.2.1.1.symm)
        (by simpa [hs1.2.2.2.2.2.2.1.2.2.2.2.1] using
          hs1.2.2.2.2.2.2.1.2.2.2.2.2.2.2.1.symm)
      simp only [ptr_leaf] at hx ⊢
      simp only [nil_setColor, parent_setColor] at this
      rw [this, hx]
    | node b c l v r => simpa using hs3.2.2.2.2.2.2.2.2.2.2.2.2.1
  refine ⟨_, ?_, ((((((SameMeta.setColor _ _ _).trans (SameMeta.setColor _ _ _)).trans
    (SameMeta.leftRotate _ _)).trans (SameMeta.setColor _ _ _)).trans
    (SameMeta.setColor _ _ _)).trans (SameMeta.setColor _ _ _)).trans
    (SameMeta.rightRotate _ _), h7⟩
  rw [← RBDeleteFixupLoop_root _ fuel]
  have hxc2 := hs1.2.2.2.2.2.2.2.color_ptr h0
  have hlc := hs1.2.2.2.2.2.2.1.2.2.2.2.2.2.1.color_ptr h0
  have hw0 := hs1.2.2.2.2.2.2.1.1
  have ha0 := hs1.2.2.2.2.2.2.1.2.2.2.2.2.2.2.1
  simp only [nil_LeftRotate, nil_setColor] at hs3
  simp only [addrs_node, List.nodup_append, List.nodup_cons, List.mem_append, nmem_cons, not_or,
    List.disjoint_append_left, List.disjoint_append_right, List.disjoint_cons_left,
    List.disjoint_cons_right] at hn1
  rw [RBDeleteFixupLoop]
  simp [RedFlag, BlackFlag, PaintRed, PaintBlack, eq_ptr_false, ptr_eq_false, *]

end RBSet

namespace RBSet
variable {α : Type}

/-! ## `RBDeleteFixup`: the whole loop -/

theorem noRedRed_blacken {t : Tree α} (h : t.NoRedRed) : t.blacken.NoRedRed := by
  cases t with
  | leaf => trivial
  | node a c l v r =>
    simp only [noRedRed_node] at h
    simp [h.2]

theorem balanced_blacken {t : Tree α} (h : t.Balanced) : t.blacken.Balanced := by
  cases t with
  | leaf => trivial
  | node a c l v r => simpa using h

@[simp] theorem cells_blacken (t : Tree α) : t.blacken.cells = t.cells := by
  cases t <;> rfl

theorem color_blacken (t : Tree α) : t.blacken.color = Color.BLACK := by
  cases t <;> rfl

/-- Painting the sentinel BLACK changes nothing the tree depends on. -/
theorem Zip.paint_nil {s : Set α} {p : Path α} {t : Tree α} (h : Zip s p t) :
    Zip (s.setColor s.nil_ Color.BLACK) p t := by
  obtain ⟨hp, hs, hn, hf, h0⟩ := h
  have h1 : s.nil_ ∉ t.addrs := hs.nil_not_mem
  have h2 : s.nil_ ∉ pathAddrs p := hp.nil_not_mem_path
  obtain ⟨n1, n2, n3, n4⟩ := h0
  exact ⟨by simpa [ReprPath_setColor h2] using hp, by simpa [Repr_setColor h1] using hs, hn,
    by simpa using hf, ⟨by simpa using n1, by simpa using n2, by simp, by simpa using n4⟩⟩

/-- Painting the focus BLACK, whether it is a node or the sentinel. -/
theorem Zip.paint_black {s : Set α} {p : Path α} {t : Tree α} (h : Zip s p t) :
    Zip (PaintBlack s (t.ptr s.nil_)) p t.blacken := by
  cases t with
  | leaf => exact h.paint_nil
  | node a c l v r => exact h.paint Color.BLACK

/-- The final `PaintBlack` of `RBDeleteFixup` on a tree that is valid up to the colour
of the focus. -/
theorem DelFixOK.finish {s s2 : Set α} {fuel : Nat} {p q : Path α} {x t : Tree α} {x2 : Nat}
    (e : RBDeleteFixupLoop fuel s (x.ptr s.nil_) = some (s2, x2)) (m : SameMeta s s2)
    (hx2 : x2 = t.ptr s2.nil_) (z : Zip s2 q t) (hp : PathRB q t.blacken.bh)
    (hn : t.blacken.NoRedRed) (hb : t.Balanced)
    (hcells : (plug q t).cells = (plug p x).cells)
    (hnil : plug q t = Tree.leaf → s2.parent s2.nil_ = s2.nil_) : DelFixOK s fuel p x := by
  have z1 := z.paint_black.top
  rw [← hx2] at z1
  have hv := (plug_rb q t.blacken).mpr ⟨hp, hn, balanced_blacken hb, fun _ => color_blacken t⟩
  refine ⟨s2, x2, plug q t.blacken, e, m.trans (SameMeta.setColor _ _ _), z1.shape, ?_, ?_, ?_⟩
  · refine ⟨?_, hv.1, hv.2.1⟩
    rcases q with _ | ⟨f, q⟩
    · exact color_blacken t
    · exact hv.2.2 (by simp)
  · rw [← hcells]
    exact cells_plug_congr q (cells_blacken t)
  · intro hl
    apply hnil
    have : (plug q t).cells = [] := by
      have := congrArg Tree.cells hl
      rw [← cells_plug_congr q (cells_blacken t)]
      simpa using this
    cases hq : plug q t with
    | leaf => rfl
    | node a c l v r => rw [hq] at this; simp at this

/-- Case 2 keeps the invariant of the loop of `RBDeleteFixup` one level up. -/
theorem del2_pure_left {p : Path α} {x : Tree α} {pa : Nat} {pc : Color} {pv : α}
    {w : Nat} {wl wr : Tree α} {wv : α} (hl : wl.color = Color.BLACK) (hr : wr.color = Color.BLACK)
    (hn : x.NoRedRed) (hb : x.Balanced)
    (hp : PathRB (Frame.left pa pc pv (Tree.node w Color.BLACK wl wv wr) :: p) (x.bh + 1)) :
    PathRB p ((Tree.node pa pc x pv (Tree.node w Color.RED wl wv wr)).bh + 1) ∧ (Tree.node pa pc x pv (Tree.node w Color.RED wl wv wr)).Balanced ∧ (Tree.node pa pc x pv (Tree.node w Color.RED wl wv wr)).blacken.NoRedRed := by
  rcases color_cases pc with rfl | rfl <;>
    simp at hp hn hb ⊢ <;> (try casesm* _ ∧ _) <;> (try split_ands) <;>
    first | assumption | omega | (convert ‹PathRB _ _› using 2 <;> omega)

/-- The mirror of `del2_pure_left`. -/
theorem del2_pure_right {p : Path α} {x : Tree α} {pa : Nat} {pc : Color} {pv : α}
    {w : Nat} {wl wr : Tree α} {wv : α} (hl : wl.color = Color.BLACK) (hr : wr.color = Color.BLACK)
    (hn : x.NoRedRed) (hb : x.Balanced)
    (hp : PathRB (Frame.right pa pc (Tree.node w Color.BLACK wl wv wr) pv :: p) (x.bh + 1)) :
    PathRB p ((Tree.node pa pc (Tree.node w Color.RED wl wv wr) pv x).bh + 1) ∧ (Tree.node pa pc (Tree.node w Color.RED wl wv wr) pv x).Balanced ∧ (Tree.node pa pc (Tree.node w Color.RED wl wv wr) pv x).blacken.NoRedRed := by
  rcases color_cases pc with rfl | rfl <;>
    simp at hp hn hb ⊢ <;> (try casesm* _ ∧ _) <;> (try split_ands) <;>
    first | assumption | omega | (convert ‹PathRB _ _› using 2 <;> omega)

/-- The tree case 4 leaves fits the path above the parent. -/
theorem del4_pure_left {p : Path α} {x : Tree α} {pa : Nat} {pc : Color} {pv : α}
    {w r : Nat} {wl rl rr : Tree α} {wv rv : α}
    (hn : x.NoRedRed) (hb : x.Balanced)
    (hp : PathRB (Frame.left pa pc pv (Tree.node w Color.BLACK wl wv (Tree.node r Color.RED rl rv rr)) :: p) (x.bh + 1)) :
    PathRB p (Tree.node w pc (Tree.node pa Color.BLACK x pv wl) wv (Tree.node r Color.BLACK rl rv rr)).bh ∧ (Tree.node w pc (Tree.node pa Color.BLACK x pv wl) wv (Tree.node r Color.BLACK rl rv rr)).NoRedRed ∧ (Tree.node w pc (Tree.node pa Color.BLACK x pv wl) wv (Tree.node r Color.BLACK rl rv rr)).Balanced ∧
      (pathColor p = Color.RED → (Tree.node w pc (Tree.node pa Color.BLACK x pv wl) wv (Tree.node r Color.BLACK rl rv rr)).color = Color.BLACK) := by
  rcases color_cases pc with rfl | rfl <;> rcases color_cases (pathColor p) with hpc | hpc <;>
    simp [hpc] at hp hn hb ⊢ <;> (try casesm* _ ∧ _) <;> (try split_ands) <;>
    first | assumption | omega | (convert ‹PathRB _ _› using 2 <;> omega)

/-- The mirror of `del4_pure_left`. -/
theorem del4_pure_right {p : Path α} {x : Tree α} {pa : Nat} {pc : Color} {pv : α}
    {w l : Nat} {wr ll lr : Tree α} {wv lv : α}
    (hn : x.NoRedRed) (hb : x.Balanced)
    (hp : PathRB (Frame.right pa pc (Tree.node w Color.BLACK (Tree.node l Color.RED ll lv lr) wv wr) pv :: p) (x.bh + 1)) :
    PathRB p (Tree.node w pc (Tree.node l Color.BLACK ll lv lr) wv (Tree.node pa Color.BLACK wr pv x)).bh ∧ (Tree.node w pc (Tree.node l Color.BLACK ll lv lr) wv (Tree.node pa Color.BLACK wr pv x)).NoRedRed ∧ (Tree.node w pc (Tree.node l Color.BLACK ll lv lr) wv (Tree.node pa Color.BLACK wr pv x)).Balanced ∧
      (pathColor p = Color.RED → (Tree.node w pc (Tree.node l Color.BLACK ll lv lr) wv (Tree.node pa Color.BLACK wr pv x)).color = Color.BLACK) := by
  rcases color_cases pc with rfl | rfl <;> rcases color_cases (pathColor p) with hpc | hpc <;>
    simp [hpc] at hp hn hb ⊢ <;> (try casesm* _ ∧ _) <;> (try split_ands) <;>
    first | assumption | omega | (convert ‹PathRB _ _› using 2 <;> omega)

/-- The tree cases 3 and 4 leave fits the path above the parent. -/
theorem del3_pure_left {p : Path α} {x : Tree α} {pa : Nat} {pc : Color} {pv : α}
    {w a : Nat} {al ar wr : Tree α} {wv av : α}
    (hn : x.NoRedRed) (hb : x.Balanced)
    (hp : PathRB (Frame.left pa pc pv (Tree.node w Color.BLACK (Tree.node a Color.RED al av ar) wv wr) :: p) (x.bh + 1)) :
    PathRB p (Tree.node a pc (Tree.node pa Color.BLACK x pv al) av (Tree.node w Color.BLACK ar wv wr)).bh ∧ (Tree.node a pc (Tree.node pa Color.BLACK x pv al) av (Tree.node w Color.BLACK ar wv wr)).NoRedRed ∧ (Tree.node a pc (Tree.node pa Color.BLACK x pv al) av (Tree.node w Color.BLACK ar wv wr)).Balanced ∧
      (pathColor p = Color.RED → (Tree.node a pc (Tree.node pa Color.BLACK x pv al) av (Tree.node w Color.BLACK ar wv wr)).color = Color.BLACK) := by
  rcases color_cases pc with rfl | rfl <;> rcases color_cases (pathColor p) with hpc | hpc <;>
    simp [hpc] at hp hn hb ⊢ <;> (try casesm* _ ∧ _) <;> (try split_ands) <;>
    first | assumption | omega | (convert ‹PathRB _ _› using 2 <;> omega)

/-- The mirror of `del3_pure_left`. -/
theorem del3_pure_right {p : Path α} {x : Tree α} {pa : Nat} {pc : Color} {pv : α}
    {w a : Nat} {al ar wl : Tree α} {wv av : α}
    (hn : x.NoRedRed) (hb : x.Balanced)
    (hp : PathRB (Frame.right pa pc (Tree.node w Color.BLACK wl wv (Tree.node a Color.RED al av ar)) pv :: p) (x.bh + 1)) :
    PathRB p (Tree.node a pc (Tree.node w Color.BLACK wl wv al) av (Tree.node pa Color.BLACK ar pv x)).bh ∧ (Tree.node a pc (Tree.node w Color.BLACK wl wv al) av (Tree.node pa Color.BLACK ar pv x)).NoRedRed ∧ (Tree.node a pc (Tree.node w Color.BLACK wl wv al) av (Tree.node pa Color.BLACK ar pv x)).Balanced ∧
      (pathColor p = Color.RED → (Tree.node a pc (Tree.node w Color.BLACK wl wv al) av (Tree.node pa Color.BLACK ar pv x)).color = Color.BLACK) := by
  rcases color_cases pc with rfl | rfl <;> rcases color_cases (pathColor p) with hpc | hpc <;>
    simp [hpc] at hp hn hb ⊢ <;> (try casesm* _ ∧ _) <;> (try split_ands) <;>
    first | assumption | omega | (convert ‹PathRB _ _› using 2 <;> omega)

/-- The loop of `RBDeleteFixup` at the root. -/
theorem DelFixOK.root {s : Set α} {x : Tree α} (fuel : Nat) (z : Zip s [] x)
    (hx : x = Tree.leaf → s.parent s.nil_ = s.nil_) (hb : x.Balanced)
    (hn : x.blacken.NoRedRed) : DelFixOK s (fuel + 1) [] x :=
  DelFixOK.finish (RBDeleteFixupLoop_exit_root z fuel) (SameMeta.refl s) rfl z trivial hn hb rfl hx

/-- The loop of `RBDeleteFixup` at a RED node. -/
theorem DelFixOK.red {s : Set α} {p : Path α} {a : Nat} {l r : Tree α} {v : α} (fuel : Nat)
    (z : Zip s p (Tree.node a Color.RED l v r)) (hp : PathRB p ((Tree.node a Color.RED l v r).bh + 1))
    (hb : (Tree.node a Color.RED l v r).Balanced)
    (hn : (Tree.node a Color.RED l v r).blacken.NoRedRed) :
    DelFixOK s (fuel + 1) p (Tree.node a Color.RED l v r) :=
  DelFixOK.finish (t := Tree.node a Color.RED l v r) (RBDeleteFixupLoop_exit_red z fuel)
    (SameMeta.refl s) rfl z (by simpa using hp) hn hb rfl (fun h => by
      have := congrArg Tree.cells h
      rw [cells_plug] at this
      simp at this)

/-- A terminal case of the loop of `RBDeleteFixup`: the loop has ended at `root_`
in a state that stores a valid tree. -/
theorem DelFixOK.terminal {s s2 : Set α} {fuel : Nat} {p q : Path α} {x t : Tree α}
    (e : RBDeleteFixupLoop fuel s (x.ptr s.nil_) = some (s2, s2.root_)) (m : SameMeta s s2)
    (z : Zip s2 q t) (hv : PathRB q t.bh ∧ t.NoRedRed ∧ t.Balanced ∧
      (pathColor q = Color.RED → t.color = Color.BLACK))
    (ht : t.cells ≠ []) (hcells : (plug q t).cells = (plug p x).cells) : DelFixOK s fuel p x := by
  have hv2 := (plug_rb q t).mpr hv
  have hne : plug q t ≠ Tree.leaf := fun h => by
    have := congrArg Tree.cells h
    rw [cells_plug] at this
    simp [ht] at this
  exact DelFixOK.finish e m z.top.path z.top trivial (noRedRed_blacken hv2.1) hv2.2.1
    (by simpa using hcells) (fun h => absurd h hne)

/-- Passing from the state a case leaves back to the state the iteration started in. -/
theorem DelFixOK.step {s s2 : Set α} {fuel fuel2 : Nat} {p q : Path α} {x t : Tree α}
    (h : DelFixOK s2 fuel2 q t)
    (e : RBDeleteFixupLoop fuel s (x.ptr s.nil_) = RBDeleteFixupLoop fuel2 s2 (t.ptr s2.nil_))
    (m : SameMeta s s2) (hcells : (plug q t).cells = (plug p x).cells) : DelFixOK s fuel p x := by
  obtain ⟨s3, x3, t3, e3, m3, sh3, rb3, c3, n3⟩ := h
  exact ⟨s3, x3, t3, e.trans e3, m.trans m3, sh3, rb3, c3.trans hcells, n3⟩

theorem exists_node_of_bh {t : Tree α} {n : Nat} (h : t.bh = n + 1) :
    ∃ a c l v r, t = Tree.node a c l v r := by
  cases t with
  | leaf => simp at h
  | node a c l v r => exact ⟨a, c, l, v, r, rfl⟩

theorem noRedRed_of_blacken {t : Tree α} (h : t.blacken.NoRedRed) (hc : t.color = Color.BLACK) :
    t.NoRedRed := by
  cases t with
  | leaf => trivial
  | node a c l v r =>
    simp only [color_node] at hc
    subst hc
    simpa using h

/-- One iteration of the loop of `RBDeleteFixup` at a left child with a BLACK sibling. -/
theorem delfix_black_left {s : Set α} {p : Path α} {x : Tree α} {pa w : Nat} {pc : Color}
    {wl wr : Tree α} {pv wv : α} (fuel : Nat)
    (h : Zip s (Frame.left pa pc pv (Tree.node w Color.BLACK wl wv wr) :: p) x)
    (hx : s.parent (x.ptr s.nil_) = pa) (hxc : x.color = Color.BLACK)
    (hn : x.NoRedRed) (hb : x.Balanced)
    (hp : PathRB (Frame.left pa pc pv (Tree.node w Color.BLACK wl wv wr) :: p) (x.bh + 1))
    (hrec : ∀ s2, Zip s2 p (Tree.node pa pc x pv (Tree.node w Color.RED wl wv wr)) →
      PathRB p ((Tree.node pa pc x pv (Tree.node w Color.RED wl wv wr)).bh + 1) →
      (Tree.node pa pc x pv (Tree.node w Color.RED wl wv wr)).Balanced →
      (Tree.node pa pc x pv (Tree.node w Color.RED wl wv wr)).blacken.NoRedRed →
      DelFixOK s2 (fuel + 1) p (Tree.node pa pc x pv (Tree.node w Color.RED wl wv wr))) :
    DelFixOK s (fuel + 2) (Frame.left pa pc pv (Tree.node w Color.BLACK wl wv wr) :: p) x := by
  rcases color_cases wr.color with hr | hr
  · obtain ⟨r, rl, rv, rr, rfl⟩ := color_node_of_red hr
    obtain ⟨s2, e, m, z⟩ := RBDeleteFixupLoop_case4_left fuel h hx hxc
    exact DelFixOK.terminal e m z (del4_pure_left hn hb hp) (by simp)
      (by simp only [plug_cons]; exact cells_plug_congr p (by simp))
  rcases color_cases wl.color with hl | hl
  · obtain ⟨a, al, av, ar, rfl⟩ := color_node_of_red hl
    obtain ⟨s2, e, m, z⟩ := RBDeleteFixupLoop_case3_left fuel h hx hxc hr
    exact DelFixOK.terminal e m z (del3_pure_left hn hb hp) (by simp)
      (by simp only [plug_cons]; exact cells_plug_congr p (by simp))
  · obtain ⟨s2, e, m, z⟩ := RBDeleteFixupLoop_case2_left (fuel + 1) h hx hxc hl hr
    obtain ⟨q1, q2, q3⟩ := del2_pure_left hl hr hn hb hp
    exact DelFixOK.step (hrec s2 z q1 q2 q3) (by simpa using e) m
      (by simp only [plug_cons]; exact cells_plug_congr p (by simp))

/-- One iteration of the loop of `RBDeleteFixup` at a right child with a BLACK sibling. -/
theorem delfix_black_right {s : Set α} {p : Path α} {x : Tree α} {pa w : Nat} {pc : Color}
    {wl wr : Tree α} {pv wv : α} (fuel : Nat)
    (h : Zip s (Frame.right pa pc (Tree.node w Color.BLACK wl wv wr) pv :: p) x)
    (hx : s.parent (x.ptr s.nil_) = pa) (hxc : x.color = Color.BLACK)
    (hn : x.NoRedRed) (hb : x.Balanced)
    (hp : PathRB (Frame.right pa pc (Tree.node w Color.BLACK wl wv wr) pv :: p) (x.bh + 1))
    (hrec : ∀ s2, Zip s2 p (Tree.node pa pc (Tree.node w Color.RED wl wv wr) pv x) →
      PathRB p ((Tree.node pa pc (Tree.node w Color.RED wl wv wr) pv x).bh + 1) →
      (Tree.node pa pc (Tree.node w Color.RED wl wv wr) pv x).Balanced →
      (Tree.node pa pc (Tree.node w Color.RED wl wv wr) pv x).blacken.NoRedRed →
      DelFixOK s2 (fuel + 1) p (Tree.node pa pc (Tree.node w Color.RED wl wv wr) pv x)) :
    DelFixOK s (fuel + 2) (Frame.right pa pc (Tree.node w Color.BLACK wl wv wr) pv :: p) x := by
  rcases color_cases wl.color with hl | hl
  · obtain ⟨r, rl, rv, rr, rfl⟩ := color_node_of_red hl
    obtain ⟨s2, e, m, z⟩ := RBDeleteFixupLoop_case4_right fuel h hx hxc
    exact DelFixOK.terminal e m z (del4_pure_right hn hb hp) (by simp)
      (by simp only [plug_cons]; exact cells_plug_congr p (by simp))
  rcases color_cases wr.color with hr | hr
  · obtain ⟨a, al, av, ar, rfl⟩ := color_node_of_red hr
    obtain ⟨s2, e, m, z⟩ := RBDeleteFixupLoop_case3_right fuel h hx hxc hl
    exact DelFixOK.terminal e m z (del3_pure_right hn hb hp) (by simp)
      (by simp only [plug_cons]; exact cells_plug_congr p (by simp))
  · obtain ⟨s2, e, m, z⟩ := RBDeleteFixupLoop_case2_right (fuel + 1) h hx hxc hl hr
    obtain ⟨q1, q2, q3⟩ := del2_pure_right hl hr hn hb hp
    exact DelFixOK.step (hrec s2 z q1 q2 q3) (by simpa using e) m
      (by simp only [plug_cons]; exact cells_plug_congr p (by simp))

/-- What a RED sibling on the right tells about the path. -/
theorem del1_pure_left {p : Path α} {x : Tree α} {pa w : Nat} {pc : Color} {wl wr : Tree α}
    {pv wv : α} (hp : PathRB (Frame.left pa pc pv (Tree.node w Color.RED wl wv wr) :: p) (x.bh + 1)) :
    pc = Color.BLACK ∧ wl.color = Color.BLACK ∧ wl.bh = x.bh + 1 ∧
      PathRB (Frame.left pa Color.RED pv wl :: Frame.left w Color.BLACK wv wr :: p) (x.bh + 1) := by
  rcases color_cases pc with rfl | rfl <;>
    simp at hp ⊢ <;> (try casesm* _ ∧ _) <;> (try split_ands) <;>
    first | assumption | omega | (convert ‹PathRB _ _› using 2 <;> omega)

/-- What a RED sibling on the left tells about the path. -/
theorem del1_pure_right {p : Path α} {x : Tree α} {pa w : Nat} {pc : Color} {wl wr : Tree α}
    {pv wv : α} (hp : PathRB (Frame.right pa pc (Tree.node w Color.RED wl wv wr) pv :: p) (x.bh + 1)) :
    pc = Color.BLACK ∧ wr.color = Color.BLACK ∧ wr.bh = x.bh + 1 ∧
      PathRB (Frame.right pa Color.RED wr pv :: Frame.right w Color.BLACK wl wv :: p) (x.bh + 1) := by
  rcases color_cases pc with rfl | rfl <;>
    simp at hp ⊢ <;> (try casesm* _ ∧ _) <;> (try split_ands) <;>
    first | assumption | omega | (convert ‹PathRB _ _› using 2 <;> omega)

end RBSet

namespace RBSet
variable {α : Type}

/-- One iteration of the loop of `RBDeleteFixup` at a left child with a RED sibling. -/
theorem delfix_red_left {s : Set α} {p : Path α} {x : Tree α} {pa w : Nat} {pc : Color}
    {wl wr : Tree α} {pv wv : α} (fuel : Nat)
    (h : Zip s (Frame.left pa pc pv (Tree.node w Color.RED wl wv wr) :: p) x)
    (hx : s.parent (x.ptr s.nil_) = pa) (hxc : x.color = Color.BLACK)
    (hn : x.NoRedRed) (hb : x.Balanced)
    (hp : PathRB (Frame.left pa pc pv (Tree.node w Color.RED wl wv wr) :: p) (x.bh + 1)) :
    DelFixOK s (fuel + 2) (Frame.left pa pc pv (Tree.node w Color.RED wl wv wr) :: p) x := by
  obtain ⟨rfl, hwl, hwb, hp1⟩ := del1_pure_left hp
  obtain ⟨w2, c2, l2, v2, r2, rfl⟩ := exists_node_of_bh hwb
  simp only [color_node] at hwl
  subst hwl
  obtain ⟨s1, e1, m1, hx1, z1⟩ := RBDeleteFixupLoop_case1_left (fuel + 1) h hx hxc rfl
  have hnil : s1.nil_ = s.nil_ := m1.1
  rw [← hnil] at hx1
  have key := delfix_black_left fuel z1 hx1 hxc hn hb hp1
    (fun s2 z2 pr b nn => DelFixOK.red fuel z2 pr b nn)
  exact DelFixOK.step key (by rw [hnil]; exact e1) m1
    (by simp only [plug_cons]; exact cells_plug_congr p (by simp))

/-- One iteration of the loop of `RBDeleteFixup` at a right child with a RED sibling. -/
theorem delfix_red_right {s : Set α} {p : Path α} {x : Tree α} {pa w : Nat} {pc : Color}
    {wl wr : Tree α} {pv wv : α} (fuel : Nat)
    (h : Zip s (Frame.right pa pc (Tree.node w Color.RED wl wv wr) pv :: p) x)
    (hx : s.parent (x.ptr s.nil_) = pa) (hxc : x.color = Color.BLACK)
    (hn : x.NoRedRed) (hb : x.Balanced)
    (hp : PathRB (Frame.right pa pc (Tree.node w Color.RED wl wv wr) pv :: p) (x.bh + 1)) :
    DelFixOK s (fuel + 2) (Frame.right pa pc (Tree.node w Color.RED wl wv wr) pv :: p) x := by
  obtain ⟨rfl, hwr, hwb, hp1⟩ := del1_pure_right hp
  obtain ⟨w2, c2, l2, v2, r2, rfl⟩ := exists_node_of_bh hwb
  simp only [color_node] at hwr
  subst hwr
  obtain ⟨s1, e1, m1, hx1, z1⟩ := RBDeleteFixupLoop_case1_right (fuel + 1) h hx hxc
  have hnil : s1.nil_ = s.nil_ := m1.1
  rw [← hnil] at hx1
  have key := delfix_black_right fuel z1 hx1 hxc hn hb hp1
    (fun s2 z2 pr b nn => DelFixOK.red fuel z2 pr b nn)
  exact DelFixOK.step key (by rw [hnil]; exact e1) m1
    (by simp only [plug_cons]; exact cells_plug_congr p (by simp))

/-- The loop of `RBDeleteFixup`, started at a subtree that is one BLACK node short
in an otherwise valid tree, returns and leaves a red-black tree with the same
cells in the same order. -/
theorem RBDeleteFixupLoop_spec (n : Nat) : ∀ (p : Path α) (s : Set α) (x : Tree α) (fuel : Nat),
    p.length ≤ n → p.length + 2 ≤ fuel → Zip s p x →
    (x = Tree.leaf → s.parent s.nil_ = pathPtr s.nil_ p) →
    PathRB p (x.bh + 1) → x.Balanced → x.blacken.NoRedRed → DelFixOK s fuel p x := by
  induction n with
  | zero =>
    intro p s x fuel hlen hfuel z hx hp hb hn
    obtain ⟨k, rfl⟩ : ∃ k, fuel = k + 1 := ⟨fuel - 1, by omega⟩
    have : p = [] := List.length_eq_zero.mp (by omega)
    subst this
    exact DelFixOK.root k z hx hb hn
  | succ n ih =>
    intro p s x fuel hlen hfuel z hx hp hb hn
    obtain ⟨k, rfl⟩ : ∃ k, fuel = k + 2 := ⟨fuel - 2, by omega⟩
    rcases p with _ | ⟨f, p⟩
    · exact DelFixOK.root (k + 1) z hx hb hn
    rcases color_cases x.color with hxc | hxc
    · obtain ⟨a, l, v, r, rfl⟩ := color_node_of_red hxc
      exact DelFixOK.red (k + 1) z hp hb hn
    have hn2 := noRedRed_of_blacken hn hxc
    have hxp := z.parent_ptr hx
    simp only [List.length_cons] at hlen hfuel
    cases f with
    | left pa pc pv W =>
      simp only [pathPtr_cons, addr_left] at hxp
      have hW : W.bh = x.bh + 1 := by simp at hp; exact hp.2.2.1
      obtain ⟨w, wc, wl, wv, wr, rfl⟩ := exists_node_of_bh hW
      rcases color_cases wc with rfl | rfl
      · exact delfix_red_left k z hxp hxc hn2 hb hp
      · exact delfix_black_left k z hxp hxc hn2 hb hp
          (fun s2 z2 pr b nn => ih p s2 _ (k + 1) (by omega) (by omega) z2 (by simp) pr b nn)
    | right pa pc W pv =>
      simp only [pathPtr_cons, addr_right] at hxp
      have hW : W.bh = x.bh + 1 := by simp at hp; exact hp.2.2.1
      obtain ⟨w, wc, wl, wv, wr, rfl⟩ := exists_node_of_bh hW
      rcases color_cases wc with rfl | rfl
      · exact delfix_red_right k z hxp hxc hn2 hb hp
      · exact delfix_black_right k z hxp hxc hn2 hb hp
          (fun s2 z2 pr b nn => ih p s2 _ (k + 1) (by omega) (by omega) z2 (by simp) pr b nn)

end RBSet

namespace RBSet
variable {α : Type}

/-! ## The splice phase of `RBDelete` -/

@[simp] theorem nil_RBTransplant (s : Set α) (x y : Nat) : (RBTransplant s x y).nil_ = s.nil_ := by
  unfold RBTransplant; dsimp only; split_ifs <;> rfl
@[simp] theorem next_RBTransplant (s : Set α) (x y : Nat) : (RBTransplant s x y).next = s.next := by
  unfold RBTransplant; dsimp only; split_ifs <;> rfl
@[simp] theorem size_RBTransplant (s : Set α) (x y : Nat) : (RBTransplant s x y).size_ = s.size_ := by
  unfold RBTransplant; dsimp only; split_ifs <;> rfl
@[simp] theorem freed_RBTransplant (s : Set α) (x y : Nat) :
    (RBTransplant s x y).freed = s.freed := by
  unfold RBTransplant; dsimp only; split_ifs <;> rfl
@[simp] theorem value_RBTransplant (s : Set α) (x y b : Nat) :
    (RBTransplant s x y).value b = s.value b := by
  unfold RBTransplant; dsimp only; split_ifs <;> simp
@[simp] theorem color_RBTransplant (s : Set α) (x y b : Nat) :
    (RBTransplant s x y).color b = s.color b := by
  unfold RBTransplant; dsimp only; split_ifs <;> simp

theorem SameMeta.transplant (s : Set α) (x y : Nat) : SameMeta s (RBTransplant s x y) :=
  ⟨by simp, by simp, by simp, by simp, fun _ => by simp⟩

/-- `RBTransplant` of a node by its right subtree, seen at the focus. -/
theorem Zip.transplant_right {s : Set α} {p : Path α} {z : Nat} {zc : Color} {l r : Tree α}
    {v : α} (h : Zip s p (Tree.node z zc l v r)) :
    Zip (RBTransplant s z (r.ptr s.nil_)) p r ∧
      (RBTransplant s z (r.ptr s.nil_)).parent (r.ptr s.nil_) = pathPtr s.nil_ p ∧
      z ∉ r.addrs ++ pathAddrs p := by
  obtain ⟨hp, hs, hn, hf, h0⟩ := h
  obtain ⟨n1, n2, n3, n4⟩ := h0
  have hn2 := hn
  have hperm : List.Sublist (r.addrs ++ pathAddrs p) ((Tree.node z zc l v r).addrs ++ pathAddrs p) := by
    simp only [addrs_node]
    exact List.Sublist.append_right
      ((List.sublist_cons_self z r.addrs).trans (List.sublist_append_right _ _)) _
  refine ⟨⟨?_, ?_, hn.sublist hperm, fun q hq => by simpa using hf q (hperm.subset hq),
    ⟨?_, ?_, ?_, by simpa using n4⟩⟩, ?_, ?_⟩
  all_goals
    rcases p with _ | ⟨f, p⟩
    rotate_left
    cases f
    all_goals
      cases r
      all_goals
        simp only [Repr, ptr_node, ptr_leaf, pathPtr_cons, pathPtr_nil, addr_left, addr_right] at hs
        simp only [ReprPath, ptr_node] at hp
        try have hq0 := Ne.symm hp.1
        try have hq1 := hp.2.2.2.2.2.2.1.nil_not_mem
        try have hq2 := hp.2.2.2.2.2.2.2.nil_not_mem_path
        simp only [addrs_node, addrs_leaf, pathAddrs_cons, pathAddrs_nil, addr_left, sib_left,
          addr_right, sib_right, List.nodup_append, List.nodup_cons, List.mem_append,
          nmem_cons, not_or, List.disjoint_append_left, List.disjoint_append_right,
          List.disjoint_cons_left, List.disjoint_cons_right] at hn2
        have hz0 : ¬ s.nil_ = z := fun e => hs.1 e.symm
        simp [RBTransplant, Repr, ReprPath, Repr_setLeft, Repr_setRight, Repr_setParent,
          ReprPath_setLeft, ReprPath_setRight, ReprPath_setParent, eq_ptr_false, ptr_eq_false, *]

/-- `RBTransplant` of a node by its left subtree, seen at the focus. -/
theorem Zip.transplant_left {s : Set α} {p : Path α} {z : Nat} {zc : Color} {l r : Tree α}
    {v : α} (h : Zip s p (Tree.node z zc l v r)) :
    Zip (RBTransplant s z (l.ptr s.nil_)) p l ∧
      (RBTransplant s z (l.ptr s.nil_)).parent (l.ptr s.nil_) = pathPtr s.nil_ p ∧
      z ∉ l.addrs ++ pathAddrs p := by
  obtain ⟨hp, hs, hn, hf, h0⟩ := h
  obtain ⟨n1, n2, n3, n4⟩ := h0
  have hn2 := hn
  have hperm : List.Sublist (l.addrs ++ pathAddrs p) ((Tree.node z zc l v r).addrs ++ pathAddrs p) := by
    simp only [addrs_node]
    exact List.Sublist.append_right (List.sublist_append_left _ _) _
  refine ⟨⟨?_, ?_, hn.sublist hperm, fun q hq => by simpa using hf q (hperm.subset hq),
    ⟨?_, ?_, ?_, by simpa using n4⟩⟩, ?_, ?_⟩
  all_goals
    rcases p with _ | ⟨f, p⟩
    rotate_left
    cases f
    all_goals
      cases l
      all_goals
        simp only [Repr, ptr_node, ptr_leaf, pathPtr_cons, pathPtr_nil, addr_left, addr_right] at hs
        simp only [ReprPath, ptr_node] at hp
        try have hq0 := Ne.symm hp.1
        try have hq1 := hp.2.2.2.2.2.2.1.nil_not_mem
        try have hq2 := hp.2.2.2.2.2.2.2.nil_not_mem_path
        simp only [addrs_node, addrs_leaf, pathAddrs_cons, pathAddrs_nil, addr_left, sib_left,
          addr_right, sib_right, List.nodup_append, List.nodup_cons, List.mem_append,
          nmem_cons, not_or, List.disjoint_append_left, List.disjoint_append_right,
          List.disjoint_cons_left, List.disjoint_cons_right] at hn2
        have hz0 : ¬ s.nil_ = z := fun e => hs.1 e.symm
        simp [RBTransplant, Repr, ReprPath, Repr_setLeft, Repr_setRight, Repr_setParent,
          ReprPath_setLeft, ReprPath_setRight, ReprPath_setParent, eq_ptr_false, ptr_eq_false, *]

@[simp] theorem nil_RBDeleteAdopt (s : Set α) (z y : Nat) : (RBDeleteAdopt s z y).nil_ = s.nil_ := rfl
@[simp] theorem next_RBDeleteAdopt (s : Set α) (z y : Nat) : (RBDeleteAdopt s z y).next = s.next := rfl
@[simp] theorem size_RBDeleteAdopt (s : Set α) (z y : Nat) : (RBDeleteAdopt s z y).size_ = s.size_ := rfl
@[simp] theorem freed_RBDeleteAdopt (s : Set α) (z y : Nat) :
    (RBDeleteAdopt s z y).freed = s.freed := rfl
@[simp] theorem value_RBDeleteAdopt (s : Set α) (z y b : Nat) :
    (RBDeleteAdopt s z y).value b = s.value b := by
  unfold RBDeleteAdopt; simp
@[simp] theorem nil_RBDeleteReplace (s : Set α) (z y : Nat) :
    (RBDeleteReplace s z y).nil_ = s.nil_ := by
  unfold RBDeleteReplace; simp
@[simp] theorem next_RBDeleteReplace (s : Set α) (z y : Nat) :
    (RBDeleteReplace s z y).next = s.next := by
  unfold RBDeleteReplace; simp
@[simp] theorem size_RBDeleteReplace (s : Set α) (z y : Nat) :
    (RBDeleteReplace s z y).size_ = s.size_ := by
  unfold RBDeleteReplace; simp
@[simp] theorem freed_RBDeleteReplace (s : Set α) (z y : Nat) :
    (RBDeleteReplace s z y).freed = s.freed := by
  unfold RBDeleteReplace; simp
@[simp] theorem value_RBDeleteReplace (s : Set α) (z y b : Nat) :
    (RBDeleteReplace s z y).value b = s.value b := by
  unfold RBDeleteReplace; simp

theorem SameMeta.adopt (s : Set α) (z y : Nat) : SameMeta s (RBDeleteAdopt s z y) :=
  ⟨by simp, by simp, by simp, by simp, fun _ => by simp⟩

theorem SameMeta.replace (s : Set α) (z y : Nat) : SameMeta s (RBDeleteReplace s z y) :=
  ⟨by simp, by simp, by simp, by simp, fun _ => by simp⟩

/-- The two-children case of `RBDelete` when the successor is the right child:
the successor takes the place of the node. -/
theorem Zip.replace_child {s : Set α} {p : Path α} {z y la : Nat} {zc yc lc : Color}
    {ll lr yr : Tree α} {v yv lv : α}
    (h : Zip s p (Tree.node z zc (Tree.node la lc ll lv lr) v (Tree.node y yc Tree.leaf yv yr))) :
    Zip (RBDeleteReplace (s.setParent (yr.ptr s.nil_) y) z y) p
        (Tree.node y zc (Tree.node la lc ll lv lr) yv yr) ∧
      (RBDeleteReplace (s.setParent (yr.ptr s.nil_) y) z y).parent (yr.ptr s.nil_) = y ∧
      z ∉ (Tree.node y zc (Tree.node la lc ll lv lr) yv yr).addrs ++ pathAddrs p := by
  obtain ⟨hp, hs, hn, hf, h0⟩ := h
  obtain ⟨n1, n2, n3, n4⟩ := h0
  have hn2 := hn
  have hperm : List.Sublist
      ((Tree.node y zc (Tree.node la lc ll lv lr) yv yr).addrs ++ pathAddrs p)
      ((Tree.node z zc (Tree.node la lc ll lv lr) v (Tree.node y yc Tree.leaf yv yr)).addrs ++
        pathAddrs p) := by
    simp only [addrs_node, addrs_leaf, List.nil_append]
    exact List.Sublist.append_right (List.Sublist.append_left (List.sublist_cons_self _ _) _) _
  refine ⟨⟨?_, ?_, hn.sublist hperm, fun q hq => by simpa using hf q (hperm.subset hq),
    ⟨?_, ?_, ?_, by simpa using n4⟩⟩, ?_, ?_⟩
  all_goals
    rcases p with _ | ⟨f, p⟩
    rotate_left
    cases f
    all_goals
      cases yr
      all_goals
        simp only [Repr, ptr_node, ptr_leaf, pathPtr_cons, pathPtr_nil, addr_left, addr_right] at hs
        simp only [ReprPath, ptr_node] at hp
        try have hq0 := Ne.symm hp.1
        try have hq1 := hp.2.2.2.2.2.2.1.nil_not_mem
        try have hq2 := hp.2.2.2.2.2.2.2.nil_not_mem_path
        simp only [addrs_node, addrs_leaf, pathAddrs_cons, pathAddrs_nil, addr_left, sib_left,
          addr_right, sib_right, List.nodup_append, List.nodup_cons, List.mem_append,
          nmem_cons, not_or, List.disjoint_append_left, List.disjoint_append_right,
          List.disjoint_cons_left, List.disjoint_cons_right] at hn2
        have hz0 : ¬ s.nil_ = z := fun e => hs.1 e.symm
        have hy0 : ¬ s.nil_ = y := fun e => hs.2.2.2.2.2.2.2.1 e.symm
        have hl0 : ¬ s.nil_ = la := fun e => hs.2.2.2.2.2.2.1.1 e.symm
        have hl1 := hs.2.2.2.2.2.2.1.2.2.2.2.2.2.1.nil_not_mem
        have hl2 := hs.2.2.2.2.2.2.1.2.2.2.2.2.2.2.nil_not_mem
        simp [RBDeleteReplace, RBTransplant, Repr, ReprPath, Repr_setLeft, Repr_setRight,
          Repr_setParent, Repr_setColor, ReprPath_setLeft, ReprPath_setRight, ReprPath_setParent,
          ReprPath_setColor, eq_ptr_false, ptr_eq_false, *]

/-- The two-children case of `RBDelete` when the successor lies deeper: the
successor, already cut out, takes the place of the node. -/
theorem Zip.replace_detached {s : Set α} {p : Path α} {z y la ra : Nat} {zc lc rc : Color}
    {ll lr rl rr : Tree α} {v u lv rv : α}
    (h : Zip s p (Tree.node z zc (Tree.node la lc ll lv lr) v (Tree.node ra rc rl rv rr)))
    (hy : y ∉ (Tree.node z zc (Tree.node la lc ll lv lr) v (Tree.node ra rc rl rv rr)).addrs ++
      pathAddrs p) (hy0 : y ≠ s.nil_) (hyn : y < s.next) (hyv : s.value y = u) :
    Zip (RBDeleteReplace (RBDeleteAdopt s z y) z y) p
        (Tree.node y zc (Tree.node la lc ll lv lr) u (Tree.node ra rc rl rv rr)) ∧
      (RBDeleteReplace (RBDeleteAdopt s z y) z y).parent s.nil_ = s.parent s.nil_ ∧
      z ∉ (Tree.node y zc (Tree.node la lc ll lv lr) u (Tree.node ra rc rl rv rr)).addrs ++
        pathAddrs p := by
  obtain ⟨hp, hs, hn, hf, h0⟩ := h
  obtain ⟨n1, n2, n3, n4⟩ := h0
  have hn2 := hn
  have hy2 := hy
  have hy1 : ¬ s.nil_ = y := fun e => hy0 e.symm
  have hnd : ((Tree.node y zc (Tree.node la lc ll lv lr) u (Tree.node ra rc rl rv rr)).addrs ++
      pathAddrs p).Nodup := by
    simp only [addrs_node, List.nodup_append, List.nodup_cons, List.mem_append,
      nmem_cons, not_or, List.disjoint_append_left, List.disjoint_append_right,
      List.disjoint_cons_left, List.disjoint_cons_right, List.mem_cons] at hn hy ⊢
    tauto
  have hfr : ∀ q ∈ (Tree.node y zc (Tree.node la lc ll lv lr) u (Tree.node ra rc rl rv rr)).addrs
      ++ pathAddrs p, q < s.next := by
    intro q hq
    simp only [addrs_node, List.mem_append, List.mem_cons] at hq hf
    have hf2 := hf q
    rcases hq with (hq | hq | hq) | hq
    · exact hf2 (Or.inl (Or.inl hq))
    · rw [hq]; exact hyn
    · exact hf2 (Or.inl (Or.inr (Or.inr hq)))
    · exact hf2 (Or.inr hq)
  refine ⟨⟨?_, ?_, hnd, by simpa using hfr, ⟨?_, ?_, ?_, by simpa using n4⟩⟩, ?_, ?_⟩
  all_goals
    rcases p with _ | ⟨f, p⟩
    rotate_left
    cases f
    all_goals
      simp only [Repr, ptr_node, ptr_leaf, pathPtr_cons, pathPtr_nil, addr_left, addr_right] at hs
      simp only [ReprPath, ptr_node] at hp
      try have hq0 := Ne.symm hp.1
      try have hq1 := hp.2.2.2.2.2.2.1.nil_not_mem
      try have hq2 := hp.2.2.2.2.2.2.2.nil_not_mem_path
      simp only [addrs_node, addrs_leaf, pathAddrs_cons, pathAddrs_nil, addr_left, sib_left,
        addr_right, sib_right, List.nodup_append, List.nodup_cons, List.mem_append,
        nmem_cons, not_or, List.disjoint_append_left, List.disjoint_append_right,
        List.disjoint_cons_left, List.disjoint_cons_right] at hn2 hy2
      have hz0 : ¬ s.nil_ = z := fun e => hs.1 e.symm
      have hl0 : ¬ s.nil_ = la := fun e => hs.2.2.2.2.2.2.1.1 e.symm
      have hr0 : ¬ s.nil_ = ra := fun e => hs.2.2.2.2.2.2.2.1 e.symm
      simp [RBDeleteReplace, RBDeleteAdopt, RBTransplant, Repr, ReprPath, Repr_setLeft,
        Repr_setRight, Repr_setParent, Repr_setColor, ReprPath_setLeft, ReprPath_setRight,
        ReprPath_setParent, ReprPath_setColor, eq_ptr_false, ptr_eq_false, *]

end RBSet

namespace RBSet
variable {α : Type}

/-! ## The in-order successor inside the right subtree -/

theorem plug_append (q p : Path α) (t : Tree α) : plug (q ++ p) t = plug p (plug q t) := by
  induction q generalizing t with
  | nil => rfl
  | cons f q ih => simp [ih]

theorem minPath_plug (t : Tree α) : plug (minPath t) (minTree t) = t := by
  induction t with
  | leaf => rfl
  | node a c l v r ihl _ =>
    cases l with
    | leaf => rfl
    | node la lc ll lv lr =>
      simp only [minPath, minTree, plug_append]
      rw [ihl]
      rfl

theorem minTree_shape (a : Nat) (c : Color) (l : Tree α) (v : α) (r : Tree α) :
    ∃ y yc yv yr, minTree (Tree.node a c l v r) = Tree.node y yc Tree.leaf yv yr := by
  induction l generalizing a c v r with
  | leaf => exact ⟨a, c, v, r, rfl⟩
  | node la lc ll lv lr ihl _ =>
    simp only [minTree]
    exact ihl la lc lv lr

theorem cellsL_append (q p : Path α) : cellsL (q ++ p) = cellsL p ++ cellsL q := by
  induction q with
  | nil => simp [cellsL]
  | cons f q ih => cases f <;> simp [cellsL, ih]

theorem cellsR_append (q p : Path α) : cellsR (q ++ p) = cellsR q ++ cellsR p := by
  induction q with
  | nil => simp [cellsR]
  | cons f q ih => cases f <;> simp [cellsR, ih]

theorem cellsL_minPath (t : Tree α) : cellsL (minPath t) = [] := by
  induction t with
  | leaf => rfl
  | node a c l v r ihl _ =>
    cases l with
    | leaf => rfl
    | node la lc ll lv lr =>
      simp only [minPath, cellsL_append, ihl]
      rfl

/-- The loop of `MinValueNode` stops at the leftmost node. -/
theorem MinValueNodeLoop_minTree {s : Set α} (t : Tree α) :
    ∀ (par fuel : Nat), Repr s t par → t ≠ Tree.leaf → t.height ≤ fuel →
    MinValueNodeLoop s fuel (t.ptr s.nil_) = some ((minTree t).ptr s.nil_) := by
  induction t with
  | leaf => intro _ _ _ h; exact absurd rfl h
  | node a c l v r ihl _ =>
    intro par fuel h _ hf
    simp only [Tree.height] at hf
    obtain ⟨k, rfl⟩ : ∃ k, fuel = k + 1 := ⟨fuel - 1, by omega⟩
    simp only [Repr] at h
    cases l with
    | leaf =>
      simp [MinValueNodeLoop, minTree, h.2.2.2.1]
    | node la lc ll lv lr =>
      have hl := h.2.2.2.2.2.2.1
      have hla : la ≠ s.nil_ := by simp only [Repr] at hl; exact hl.1
      have := ihl a k hl (by simp) (by omega)
      simp only [ptr_node] at this
      simp [MinValueNodeLoop, minTree, h.2.2.2.1, hla, this]

/-- Changing address and value of one frame does not change the red-black
conditions of a path. -/
theorem pathRB_swap (q p : Path α) (z y : Nat) (zc : Color) (l : Tree α) (v yv : α) (n : Nat) :
    PathRB (q ++ Frame.right z zc l v :: p) n ↔ PathRB (q ++ Frame.right y zc l yv :: p) n := by
  induction q generalizing n with
  | nil => simp
  | cons f q ih =>
    simp only [List.cons_append, pathRB_cons, ih]
    rcases q with _ | ⟨g, q⟩ <;> simp

theorem pathColor_swap (q p : Path α) (z y : Nat) (zc : Color) (l : Tree α) (v yv : α) :
    pathColor (q ++ Frame.right z zc l v :: p) = pathColor (q ++ Frame.right y zc l yv :: p) := by
  rcases q with _ | ⟨g, q⟩ <;> simp

end RBSet

namespace RBSet
variable {α : Type}

/-! ## The splice phase of `RBDelete`, case by case -/

theorem not_mem_plug {p : Path α} {t : Tree α} {z : Nat} (h : z ∉ t.addrs ++ pathAddrs p) :
    z ∉ (plug p t).addrs :=
  fun hm => h ((addrs_plug_perm p t).mem_iff.mp hm)

theorem not_mem_of_plug {p : Path α} {t : Tree α} {z : Nat} (h : z ∉ (plug p t).addrs) :
    z ∉ t.addrs ++ pathAddrs p :=
  fun hm => h ((addrs_plug_perm p t).mem_iff.mpr hm)

theorem splice_pure_black_right {p : Path α} {z : Nat} {r : Tree α} {v : α}
    (h1 : PathRB p (Tree.node z Color.BLACK Tree.leaf v r).bh)
    (h2 : (Tree.node z Color.BLACK Tree.leaf v r).NoRedRed)
    (h3 : (Tree.node z Color.BLACK Tree.leaf v r).Balanced) :
    PathRB p (r.bh + 1) ∧ r.NoRedRed ∧ r.Balanced := by
  simp at h1 h2 h3 ⊢
  casesm* _ ∧ _
  split_ands <;> first | assumption | omega | (convert ‹PathRB _ _› using 2 <;> omega)

theorem splice_pure_red_right {p : Path α} {z : Nat} {r : Tree α} {v : α}
    (h1 : PathRB p (Tree.node z Color.RED Tree.leaf v r).bh)
    (h2 : (Tree.node z Color.RED Tree.leaf v r).NoRedRed)
    (h3 : (Tree.node z Color.RED Tree.leaf v r).Balanced) :
    PathRB p r.bh ∧ r.NoRedRed ∧ r.Balanced ∧ r.color = Color.BLACK := by
  simp at h1 h2 h3 ⊢
  casesm* _ ∧ _
  split_ands <;> first | assumption | omega | (convert ‹PathRB _ _› using 2 <;> omega)

theorem splice_pure_black_left {p : Path α} {z : Nat} {l : Tree α} {v : α}
    (h1 : PathRB p (Tree.node z Color.BLACK l v Tree.leaf).bh)
    (h2 : (Tree.node z Color.BLACK l v Tree.leaf).NoRedRed)
    (h3 : (Tree.node z Color.BLACK l v Tree.leaf).Balanced) :
    PathRB p (l.bh + 1) ∧ l.NoRedRed ∧ l.Balanced := by
  simp at h1 h2 h3 ⊢
  casesm* _ ∧ _
  split_ands <;> first | assumption | omega | (convert ‹PathRB _ _› using 2 <;> omega)

theorem splice_pure_red_left {p : Path α} {z : Nat} {l : Tree α} {v : α}
    (h1 : PathRB p (Tree.node z Color.RED l v Tree.leaf).bh)
    (h2 : (Tree.node z Color.RED l v Tree.leaf).NoRedRed)
    (h3 : (Tree.node z Color.RED l v Tree.leaf).Balanced) :
    PathRB p l.bh ∧ l.NoRedRed ∧ l.Balanced ∧ l.color = Color.BLACK := by
  simp at h1 h2 h3 ⊢
  casesm* _ ∧ _
  split_ands <;> first | assumption | omega | (convert ‹PathRB _ _› using 2 <;> omega)

/-- A valid tree with a RED node in focus has a non-empty path and stays valid
when the focus is replaced by a BLACK-rooted valid subtree of the same black height. -/
theorem redBlack_plug_of {p : Path α} {t x : Tree α} (hrb : (plug p t).RedBlack)
    (ht : t.color = Color.RED) (h1 : PathRB p x.bh) (h2 : x.NoRedRed) (h3 : x.Balanced)
    (h4 : pathColor p = Color.RED → x.color = Color.BLACK) : (plug p x).RedBlack := by
  have hv2 := (plug_rb p x).mpr ⟨h1, h2, h3, h4⟩
  refine ⟨?_, hv2.1, hv2.2.1⟩
  rcases p with _ | ⟨f, p⟩
  · have := hrb.1
    rw [plug_nil, ht] at this
    cases this
  · exact hv2.2.2 (by simp)

/-- The node has no left child: its right subtree is spliced into its place. -/
theorem splice_no_left {s : Set α} {p : Path α} {z : Nat} {zc : Color} {r : Tree α} {v : α}
    (h : Zip s p (Tree.node z zc Tree.leaf v r))
    (hrb : (plug p (Tree.node z zc Tree.leaf v r)).RedBlack) :
    SpliceOK s z (cellsL p ++ r.cells ++ cellsR p) := by
  have hs := h.sub
  simp only [Repr, ptr_leaf] at hs
  obtain ⟨z1, hx1, hz1⟩ := h.transplant_right
  have hv := (plug_rb p _).mp ⟨hrb.2.1, hrb.2.2, fun _ => hrb.1⟩
  refine ⟨_, p, r, zc, ?_, SameMeta.transplant _ _ _, z1, by simpa using hx1, not_mem_plug hz1,
    cells_plug p r, ?_, ?_⟩
  · simp [RBDeleteSplice, hs.2.2.2.1, hs.2.2.2.2.1, hs.2.2.1]
  · rintro rfl
    exact splice_pure_black_right hv.1 hv.2.1 hv.2.2.1
  · rintro rfl
    obtain ⟨q1, q2, q3, q4⟩ := splice_pure_red_right hv.1 hv.2.1 hv.2.2.1
    exact redBlack_plug_of hrb rfl q1 q2 q3 (fun _ => q4)

/-- The node has a left child and no right child: its left subtree is spliced
into its place. -/
theorem splice_no_right {s : Set α} {p : Path α} {z la : Nat} {zc lc : Color} {ll lr : Tree α}
    {v lv : α} (h : Zip s p (Tree.node z zc (Tree.node la lc ll lv lr) v Tree.leaf))
    (hrb : (plug p (Tree.node z zc (Tree.node la lc ll lv lr) v Tree.leaf)).RedBlack) :
    SpliceOK s z (cellsL p ++ (Tree.node la lc ll lv lr).cells ++ cellsR p) := by
  have hs := h.sub
  simp only [Repr, ptr_leaf, ptr_node] at hs
  obtain ⟨z1, hx1, hz1⟩ := h.transplant_left
  have hv := (plug_rb p _).mp ⟨hrb.2.1, hrb.2.2, fun _ => hrb.1⟩
  refine ⟨_, p, Tree.node la lc ll lv lr, zc, ?_, SameMeta.transplant _ _ _, z1,
    by simpa using hx1, not_mem_plug hz1, cells_plug p _, ?_, ?_⟩
  · simp [RBDeleteSplice, hs.2.2.2.1, hs.2.2.2.2.1, hs.2.2.1, hs.2.2.2.2.2.2.1.1]
  · rintro rfl
    exact splice_pure_black_left hv.1 hv.2.1 hv.2.2.1
  · rintro rfl
    obtain ⟨q1, q2, q3, q4⟩ := splice_pure_red_left hv.1 hv.2.1 hv.2.2.1
    exact redBlack_plug_of hrb rfl q1 q2 q3 (fun _ => q4)

theorem addr_mem_pathAddrs_append (q p : Path α) (f : Frame α) :
    f.addr ∈ pathAddrs (q ++ f :: p) := by
  induction q with
  | nil => simp
  | cons g q ih => simp only [List.cons_append, pathAddrs_cons, List.mem_append, List.mem_cons]; tauto

/-- The red-black facts about the place the successor leaves. -/
theorem splice_two_pure {q p : Path α} {z y : Nat} {zc yc : Color} {l yr : Tree α} {v yv : α}
    (hrb : (plug (q ++ Frame.right z zc l v :: p) (Tree.node y yc Tree.leaf yv yr)).RedBlack) :
    (yc = Color.BLACK →
      PathRB (q ++ Frame.right y zc l yv :: p) (yr.bh + 1) ∧ yr.NoRedRed ∧ yr.Balanced) ∧
    (yc = Color.RED → (plug (q ++ Frame.right y zc l yv :: p) yr).RedBlack) := by
  have hv := (plug_rb _ _).mp ⟨hrb.2.1, hrb.2.2, fun _ => hrb.1⟩
  rw [pathRB_swap q p z y zc l v yv, pathColor_swap q p z y zc l v yv] at hv
  constructor
  · rintro rfl
    exact splice_pure_black_right hv.1 hv.2.1 hv.2.2.1
  · rintro rfl
    obtain ⟨q1, q2, q3, q4⟩ := splice_pure_red_right hv.1 hv.2.1 hv.2.2.1
    have hv2 := (plug_rb _ yr).mpr ⟨q1, q2, q3, fun _ => q4⟩
    exact ⟨hv2.2.2 (by simp), hv2.1, hv2.2.1⟩

/-- The node has two children: its in-order successor is cut out of the right
subtree and put into its place. -/
theorem splice_two {s : Set α} {p : Path α} {z la ra : Nat} {zc lc rc : Color}
    {ll lr rl rr : Tree α} {v lv rv : α}
    (h : Zip s p (Tree.node z zc (Tree.node la lc ll lv lr) v (Tree.node ra rc rl rv rr)))
    (hrb : (plug p (Tree.node z zc (Tree.node la lc ll lv lr) v
      (Tree.node ra rc rl rv rr))).RedBlack) :
    SpliceOK s z (cellsL p ++ ((Tree.node la lc ll lv lr).cells ++
      (Tree.node ra rc rl rv rr).cells) ++ cellsR p) := by
  obtain ⟨y, yc, yv, yr, hY⟩ := minTree_shape ra rc rl rv rr
  have hR := minPath_plug (Tree.node ra rc rl rv rr)
  rw [hY] at hR
  generalize hq : minPath (Tree.node ra rc rl rv rr) = q at hR
  have hcq : cellsL q = [] := by rw [← hq]; exact cellsL_minPath _
  have hs := h.sub
  simp only [Repr, ptr_node] at hs
  have hb := h.budget
  simp only [Tree.height] at hb
  have hmin : MinValueNode s ra = some y := by
    have := MinValueNodeLoop_minTree (Tree.node ra rc rl rv rr) z s.next
      (by simp only [Repr]; exact hs.2.2.2.2.2.2.2) (by simp)
      (by simp only [Tree.height]; omega)
    rw [hY] at this
    simpa [MinValueNode] using this
  have hplug : plug (q ++ Frame.right z zc (Tree.node la lc ll lv lr) v :: p)
      (Tree.node y yc Tree.leaf yv yr) =
      plug p (Tree.node z zc (Tree.node la lc ll lv lr) v (Tree.node ra rc rl rv rr)) := by
    rw [plug_append, hR]; rfl
  have zY : Zip s (q ++ Frame.right z zc (Tree.node la lc ll lv lr) v :: p)
      (Tree.node y yc Tree.leaf yv yr) := Zip.focus (by rw [hplug]; exact h.top)
  have hsY := zY.sub
  simp only [Repr, ptr_leaf] at hsY
  obtain ⟨hb1, hr1⟩ := splice_two_pure (hplug ▸ hrb)
  have hcells : (plug (q ++ Frame.right y zc (Tree.node la lc ll lv lr) yv :: p) yr).cells =
      cellsL p ++ ((Tree.node la lc ll lv lr).cells ++ (Tree.node ra rc rl rv rr).cells) ++
        cellsR p := by
    have e1 : (Tree.node ra rc rl rv rr).cells = (y, yv) :: yr.cells ++ cellsR q := by
      rw [← hR, cells_plug, hcq]; simp
    rw [e1, plug_append, plug_cons, fill_right, cells_plug, cells_node, cells_plug, hcq]
    simp
  rcases q with _ | ⟨f, q⟩
  · -- the successor is the right child
    simp only [plug_nil] at hR
    injection hR with e1 e2 e3 e4 e5
    subst e1 e2 e3 e4 e5
    obtain ⟨z1, hx1, hz1⟩ := h.replace_child
    have z2 := Zip.down (f := Frame.right y zc (Tree.node la lc ll lv lr) yv) z1
    refine ⟨_, _, yr, yc, ?_, (SameMeta.setParent _ _ _).trans (SameMeta.replace _ _ _), z2,
      by simpa using hx1, ?_, hcells, hb1, hr1⟩
    · simp [RBDeleteSplice, hmin, hs, hsY]
    · simpa using not_mem_plug hz1
  · -- the successor lies deeper
    have hnd := zY.nodup
    have hfa : f.addr ≠ z := by
      intro e
      have hm := addr_mem_pathAddrs_append q p (Frame.right z zc (Tree.node la lc ll lv lr) v)
      have hnd2 : (pathAddrs (f :: q ++ Frame.right z zc (Tree.node la lc ll lv lr) v :: p)).Nodup :=
        (List.nodup_append.mp hnd).2.1
      simp only [List.cons_append, pathAddrs_cons, List.cons_append, List.nodup_cons,
        List.mem_append, not_or, addr_right] at hnd2 hm
      exact hnd2.1.2 (e ▸ hm)
    obtain ⟨zA, hxA, hyA⟩ := zY.transplant_right
    obtain ⟨ra2, rc2, rl2, rv2, rr2, hR2⟩ : ∃ a c l w r, plug (f :: q) yr = Tree.node a c l w r := by
      apply Tree.exists_node_of_cells
      rw [plug_cons, cells_plug]
      cases f <;> simp
    have hplugA : plug (f :: q ++ Frame.right z zc (Tree.node la lc ll lv lr) v :: p) yr =
        plug p (Tree.node z zc (Tree.node la lc ll lv lr) v (Tree.node ra2 rc2 rl2 rv2 rr2)) := by
      rw [plug_append, hR2]; rfl
    have zA2 : Zip (RBTransplant s y (yr.ptr s.nil_)) p
        (Tree.node z zc (Tree.node la lc ll lv lr) v (Tree.node ra2 rc2 rl2 rv2 rr2)) :=
      Zip.focus (by rw [← hplugA]; exact zA.top)
    have hy0 := zY.ptr_ne_nil
    have hyn : y < s.next := zY.fresh y (by simp)
    obtain ⟨zB, hxB, hzB⟩ := zA2.replace_detached (y := y) (u := yv)
      (not_mem_of_plug (by rw [← hplugA]; exact not_mem_plug hyA)) (by simpa using hy0)
      (by simpa using hyn) (by simpa using hsY.2.1)
    have hplugB : plug (f :: q ++ Frame.right y zc (Tree.node la lc ll lv lr) yv :: p) yr =
        plug p (Tree.node y zc (Tree.node la lc ll lv lr) yv (Tree.node ra2 rc2 rl2 rv2 rr2)) := by
      rw [plug_append, hR2]; rfl
    have zB2 : Zip (RBDeleteReplace (RBDeleteAdopt (RBTransplant s y (yr.ptr s.nil_)) z y) z y)
        (f :: q ++ Frame.right y zc (Tree.node la lc ll lv lr) yv :: p) yr :=
      Zip.focus (by rw [hplugB]; exact zB.top)
    refine ⟨_, _, yr, yc, ?_, ((SameMeta.transplant _ _ _).trans (SameMeta.adopt _ _ _)).trans
      (SameMeta.replace _ _ _), zB2, ?_, ?_, hcells, hb1, hr1⟩
    · have hpy : ¬ s.parent y = z := by
        rw [hsY.2.2.2.2.2.1]
        simpa using hfa
      simp [RBDeleteSplice, hmin, hs, hsY.2.2.1, hsY.2.2.2.2.1, hpy]
    · cases yr with
      | leaf =>
        simp only [ptr_leaf, nil_RBTransplant] at hxA hxB ⊢
        rw [hxB, hxA]
        simp
      | node a c l w r => simpa using zB2.parent_eq
    · rw [hplugB]
      exact not_mem_plug hzB

end RBSet

namespace RBSet
variable {α : Type}

/-! ## `RBDelete` and `erase` -/

theorem Repr.congr {s s2 : Set α} (hh : s2.heap = s.heap) (hn : s2.nil_ = s.nil_) (t : Tree α) :
    ∀ par, Repr s t par → Repr s2 t par := by
  have hv : ∀ a, s2.value a = s.value a := fun a => by simp [Set.value, hh]
  have hl : ∀ a, s2.left a = s.left a := fun a => by simp [Set.left, hh]
  have hr : ∀ a, s2.right a = s.right a := fun a => by simp [Set.right, hh]
  have hp : ∀ a, s2.parent a = s.parent a := fun a => by simp [Set.parent, hh]
  have hc : ∀ a, s2.color a = s.color a := fun a => by simp [Set.color, hh]
  induction t with
  | leaf => intro _ _; trivial
  | node b c l w r ihl ihr =>
    intro par h
    simp only [Repr] at h ⊢
    rw [hv, hl, hr, hp, hc, hn]
    exact ⟨h.1, h.2.1, h.2.2.1, h.2.2.2.1, h.2.2.2.2.1, h.2.2.2.2.2.1, ihl _ h.2.2.2.2.2.2.1,
      ihr _ h.2.2.2.2.2.2.2⟩

/-- A state with the same heap, root, sentinel and allocation mark stores the same tree. -/
theorem Set.Shape.congr_state {s s2 : Set α} {t : Tree α} (h : s.Shape t) (hh : s2.heap = s.heap)
    (hr : s2.root_ = s.root_) (hn : s2.nil_ = s.nil_) (hx : s2.next = s.next) : s2.Shape t := by
  obtain ⟨h1, h2, h3, h4, n1, n2, n3, n4⟩ := h
  refine ⟨by rw [hr, hn]; exact h1, by rw [hn]; exact Repr.congr hh hn t _ h2, h3,
    by rw [hx]; exact h4, ⟨?_, ?_, ?_, by rw [hn, hx]; exact n4⟩⟩
  · simpa [Set.left, hh, hn] using n1
  · simpa [Set.right, hh, hn] using n2
  · simpa [Set.color, hh, hn] using n3

/-- With one more cell outside the tree the step budget has room for one more step. -/
theorem Zip.budget_removed {s : Set α} {p : Path α} {t : Tree α} {d : Nat} (h : Zip s p t)
    (hd : d ∉ (plug p t).addrs) (hd0 : d ≠ s.nil_) (hdn : d < s.next) :
    p.length + 2 ≤ s.next := by
  have hd2 := not_mem_of_plug hd
  have h1 := length_lt_of_nodup (l := d :: (t.addrs ++ pathAddrs p)) (List.nodup_cons.mpr ⟨hd2, h.nodup⟩)
    (fun a ha => by
      rcases List.mem_cons.mp ha with rfl | ha
      · exact hdn
      · exact h.fresh a ha)
    (by
      simp only [List.mem_cons, List.mem_append, not_or]
      exact ⟨fun e => hd0 e.symm, h.sub.nil_not_mem, h.path.nil_not_mem_path⟩)
    h.nil.lt_next
  have h3 := length_le_pathAddrs p
  simp only [List.length_cons, List.length_append] at h1
  omega

theorem plug_eq_leaf {p : Path α} {t : Tree α} (h : plug p t = Tree.leaf) :
    p = [] ∧ t = Tree.leaf := by
  rcases p with _ | ⟨f, p⟩
  · exact ⟨rfl, h⟩
  · have := congrArg Tree.cells h
    rw [plug_cons, cells_plug] at this
    cases f <;> simp at this

/-- `RBDelete` of a node of a red-black tree: it returns a red-black tree whose
cells are those of the old tree without the cell of the node, `size_` has
dropped by one and the cell is freed. -/
theorem RBDelete_spec {s : Set α} {p : Path α} {z : Nat} {zc : Color} {l r : Tree α} {v : α}
    (h : Zip s p (Tree.node z zc l v r)) (hrb : (plug p (Tree.node z zc l v r)).RedBlack) :
    ∃ s2 t2, RBDelete s z = some s2 ∧ s2.Shape t2 ∧ t2.RedBlack ∧
      t2.cells = cellsL p ++ (l.cells ++ r.cells) ++ cellsR p ∧
      s2.size_ = (if s.size_ = 0 then SIZE_WRAP - 1 else s.size_ - 1) ∧ s2.nil_ = s.nil_ ∧
      s2.next = s.next ∧ s2.freed = z :: s.freed ∧ (∀ a, s2.value a = s.value a) ∧
      (t2 = Tree.leaf → s2.parent s2.nil_ = s2.nil_) := by
  have hsp : SpliceOK s z (cellsL p ++ (l.cells ++ r.cells) ++ cellsR p) := by
    cases l with
    | leaf => simpa using splice_no_left h hrb
    | node la lc ll lv lr =>
      cases r with
      | leaf => simpa using splice_no_right h hrb
      | node ra rc rl rv rr => exact splice_two h hrb
  obtain ⟨s1, P, X, oc, e, m, z1, hx, hz, hc, hB, hR⟩ := hsp
  obtain ⟨m1, m2, m3, m4, m5⟩ := m
  rw [← m1] at hx
  have hfuel := z1.budget_removed hz (by rw [m1]; exact h.ptr_ne_nil)
    (by rw [m2]; exact h.fresh z (by simp))
  rcases color_cases oc with rfl | rfl
  · have hrb1 := hR rfl
    refine ⟨{ s1 with size_ := (if s1.size_ = 0 then SIZE_WRAP - 1 else s1.size_ - 1),
                      freed := z :: s1.freed }, plug P X, ?_,
      z1.top.shape.congr_state rfl rfl rfl rfl, hrb1, hc, ?_, m1, m2, ?_, m5, ?_⟩
    · simp [RBDelete, e]
    · simp [m3]
    · simp [m4]
    · intro hl
      obtain ⟨rfl, rfl⟩ := plug_eq_leaf hl
      simpa using hx
  · obtain ⟨q1, q2, q3⟩ := hB rfl
    obtain ⟨s2, x2, t2, e2, n1, sh2, rb2, c2, k2⟩ := RBDeleteFixupLoop_spec P.length P s1 X s1.next
      (le_refl _) hfuel z1 (fun hl => by subst hl; simpa using hx) q1 q3 (noRedRed_blacken q2)
    obtain ⟨n1, n2, n3, n4, n5⟩ := n1
    refine ⟨{ PaintBlack s2 x2 with
        size_ := (if (PaintBlack s2 x2).size_ = 0 then SIZE_WRAP - 1
          else (PaintBlack s2 x2).size_ - 1),
        freed := z :: (PaintBlack s2 x2).freed }, t2, ?_, sh2.congr_state rfl rfl rfl rfl, rb2,
      c2.trans hc, ?_, n1.trans m1, n2.trans m2, ?_, fun a => (n5 a).trans (m5 a), ?_⟩
    · rw [m1] at e2
      simp [RBDelete, e, RBDeleteFixup, e2]
    · simp [n3, m3]
    · simp [n4, m4]
    · intro hl
      have := k2 hl
      show (PaintBlack s2 x2).parent s2.nil_ = s2.nil_
      simpa [PaintBlack] using this

end RBSet

namespace RBSet
variable {α : Type}

/-- `erase` of a value that `FindByValue` does not meet changes nothing. -/
theorem erase_absent (lt : α → α → Bool) (v : α) {s : Set α} {t : Tree α} (h : s.Shape t)
    (hf : (zoom lt v t []).2 = Tree.leaf) : erase lt s v = some s := by
  simp [erase, FindByValue_eq lt v h, hf]

/-- `erase` of a value that `FindByValue` meets at the node `z`: the node is
removed and the tree rebalanced. -/
theorem erase_found (lt : α → α → Bool) (v : α) {s : Set α} {t : Tree α} (h : s.Shape t)
    (hrb : t.RedBlack) {z : Nat} {zc : Color} {l r : Tree α} {w : α}
    (hf : (zoom lt v t []).2 = Tree.node z zc l w r) :
    ∃ s2 t2, erase lt s v = some s2 ∧ s2.Shape t2 ∧ t2.RedBlack ∧
      t2.cells = cellsL (zoom lt v t []).1 ++ (l.cells ++ r.cells) ++ cellsR (zoom lt v t []).1 ∧
      s2.size_ = (if s.size_ = 0 then SIZE_WRAP - 1 else s.size_ - 1) ∧ s2.nil_ = s.nil_ ∧
      s2.next = s.next ∧ s2.freed = z :: s.freed ∧ (∀ a, s2.value a = s.value a) ∧
      (t2 = Tree.leaf → s2.parent s2.nil_ = s2.nil_) := by
  have hz := h.zoom lt v
  rw [hf] at hz
  have hp := zoom_plug lt v t []
  rw [hf, plug_nil] at hp
  have hrb2 : (plug (zoom lt v t []).1 (Tree.node z zc l w r)).RedBlack := by
    rw [hp]; exact hrb
  obtain ⟨s2, t2, e, rest⟩ := RBDelete_spec hz hrb2
  refine ⟨s2, t2, ?_, rest⟩
  simp [erase, FindByValue_eq lt v h, hf, hz.ptr_ne_nil, e]

/-- `erase` keeps the red-black invariants. -/
theorem erase_redBlack (lt : α → α → Bool) (v : α) {s : Set α} {t : Tree α} (h : s.Shape t)
    (hrb : t.RedBlack) : ∃ s2 t2, erase lt s v = some s2 ∧ s2.Shape t2 ∧ t2.RedBlack := by
  rcases hf : (zoom lt v t []).2 with _ | ⟨z, zc, l, w, r⟩
  · exact ⟨s, t, erase_absent lt v h hf, h, hrb⟩
  · obtain ⟨s2, t2, e, sh, rb, -⟩ := erase_found lt v h hrb hf
    exact ⟨s2, t2, e, sh, rb⟩

end RBSet

/-!
## The search-tree order

The descent of `FindByValue` keeps every cell it leaves on the left below the
searched value and every cell it leaves on the right above it.
-/

namespace RBSet

variable {α : Type}

theorem mem_inorder_iff (t : Tree α) (x : α) : x ∈ t.inorder ↔ ∃ c ∈ t.cells, c.2 = x := by
  rw [inorder_eq_cells]; simp

theorem equal_false_of_lt {lt : α → α → Bool} {a b : α} (h : lt a b = true) :
    Equal lt a b = false := by
  simp [Equal, h]

theorem equal_false_of_gt {lt : α → α → Bool} {a b : α} (h : lt b a = true) :
    Equal lt a b = false := by
  simp [Equal, h]

theorem StrictTotal.eq_of_equal {lt : α → α → Bool} (hlt : StrictTotal lt) {a b : α}
    (h : Equal lt a b = true) : a = b := by
  simp [Equal] at h
  exact hlt.total a b h.1 h.2

theorem StrictTotal.equal_self {lt : α → α → Bool} (hlt : StrictTotal lt) (a : α) :
    Equal lt a a = true := by
  simp [Equal, hlt.irrefl]

/-- With a transitive comparison the search-tree order is the ascending in-order sequence. -/
theorem bst_iff_ascending {lt : α → α → Bool}
    (htr : ∀ a b c, lt a b = true → lt b c = true → lt a c = true) (t : Tree α) :
    t.BST lt ↔ Ascending lt t.inorder := by
  induction t with
  | leaf => simp [Tree.BST, Tree.inorder, Ascending]
  | node a c l v r ihl ihr =>
    simp only [Tree.BST, Tree.inorder, Ascending, List.pairwise_append, List.pairwise_cons,
      List.mem_cons] at ihl ihr ⊢
    rw [ihl, ihr]
    constructor
    · rintro ⟨h1, h2, h3, h4⟩
      refine ⟨h3, ⟨h2, h4⟩, ?_⟩
      rintro x hx y (rfl | hy)
      · exact h1 x hx
      · exact htr x v y (h1 x hx) (h2 y hy)
    · rintro ⟨h1, ⟨h2, h3⟩, h4⟩
      exact ⟨fun x hx => h4 x hx v (Or.inl rfl), h2, h1, h3⟩

/-- The cells the descent leaves behind bound the searched value. -/
theorem zoom_bounds {lt : α → α → Bool}
    (htr : ∀ a b c, lt a b = true → lt b c = true → lt a c = true) (v : α) (t : Tree α) :
    ∀ acc : Path α, t.BST lt → (∀ c ∈ cellsL acc, lt c.2 v = true) →
      (∀ c ∈ cellsR acc, lt v c.2 = true) →
      (∀ c ∈ cellsL (zoom lt v t acc).1, lt c.2 v = true) ∧
        (∀ c ∈ cellsR (zoom lt v t acc).1, lt v c.2 = true) := by
  induction t with
  | leaf => intro acc _ hL hR; exact ⟨hL, hR⟩
  | node a c l w r ihl ihr =>
    intro acc hb hL hR
    simp only [Tree.BST] at hb
    obtain ⟨h1, h2, h3, h4⟩ := hb
    simp only [zoom]
    by_cases he : Equal lt w v = true
    · simp only [he, if_true]; exact ⟨hL, hR⟩
    · by_cases hlt : lt v w = true
      · simp only [he, hlt, if_true, if_false]
        refine ihl _ h3 (by simpa [cellsL] using hL) ?_
        intro x hx
        simp only [cellsR, List.mem_append, List.mem_cons] at hx
        rcases hx with (rfl | hx) | hx
        · exact hlt
        · exact htr v w x.2 hlt (h2 x.2 ((mem_inorder_iff r x.2).mpr ⟨x, hx, rfl⟩))
        · exact hR x hx
      · simp only [he, hlt, if_false]
        have hwv : lt w v = true := by
          simp only [Equal, Bool.and_eq_true, Bool.not_eq_true', not_and, Bool.not_eq_false] at he
          by_contra hc
          exact hlt (he (by simpa using hc))
        refine ihr _ h4 ?_ (by simpa [cellsR] using hR)
        intro x hx
        simp only [cellsL, List.mem_append, List.mem_singleton] at hx
        rcases hx with hx | hx | rfl
        · exact hL x hx
        · exact htr x.2 w v (h1 x.2 ((mem_inorder_iff l x.2).mpr ⟨x, hx, rfl⟩)) hwv
        · exact hwv

/-- The node at which the descent stops holds a value equivalent to the searched one. -/
theorem zoom_found (lt : α → α → Bool) (v : α) (t : Tree α) :
    ∀ (acc : Path α) {z : Nat} {zc : Color} {l r : Tree α} {w : α},
      (zoom lt v t acc).2 = Tree.node z zc l w r → Equal lt w v = true := by
  induction t with
  | leaf => intro acc z zc l r w h; simp [zoom] at h
  | node a c tl u tr ihl ihr =>
    intro acc z zc l r w h
    simp only [zoom] at h
    by_cases he : Equal lt u v = true
    · simp only [he, if_true] at h
      cases h
      exact he
    · by_cases hlt : lt v u = true
      · simp only [he, hlt, if_true, if_false] at h
        exact ihl _ h
      · simp only [he, hlt, if_false] at h
        exact ihr _ h

/-- The in-order sequence around the place the descent stops. -/
theorem inorder_zoom (lt : α → α → Bool) (v : α) (t : Tree α) :
    t.inorder = (cellsL (zoom lt v t []).1).map Prod.snd ++ (zoom lt v t []).2.inorder ++
      (cellsR (zoom lt v t []).1).map Prod.snd := by
  have h := congrArg Tree.cells (zoom_plug lt v t [])
  rw [plug_nil, cells_plug] at h
  rw [inorder_eq_cells t, ← h, inorder_eq_cells]
  simp

/-- A descent that ends at a leaf shows that no stored value is equivalent to the searched one. -/
theorem zoom_leaf_absent {lt : α → α → Bool}
    (htr : ∀ a b c, lt a b = true → lt b c = true → lt a c = true) (v : α) {t : Tree α}
    (hb : Ascending lt t.inorder) (hf : (zoom lt v t []).2 = Tree.leaf) :
    ∀ e ∈ t.inorder, Equal lt e v = false := by
  obtain ⟨hL, hR⟩ := zoom_bounds htr v t [] ((bst_iff_ascending htr t).mpr hb)
    (by simp [cellsL]) (by simp [cellsR])
  intro e he
  rw [inorder_zoom lt v t, hf] at he
  simp only [Tree.inorder, List.append_nil, List.mem_append, List.mem_map] at he
  rcases he with ⟨c, hc, rfl⟩ | ⟨c, hc, rfl⟩
  · exact equal_false_of_lt (hL c hc)
  · exact equal_false_of_gt (hR c hc)

end RBSet

/-!
## The invariant of reachable sets
-/

namespace RBSet

variable {α : Type}

theorem Set.Shape.new_leaf (dflt : α) : (Set.new dflt).Shape Tree.leaf := by
  refine ⟨rfl, trivial, by simp, by simp, ⟨rfl, rfl, rfl, ?_⟩⟩
  show (1 : Nat) < 2
  decide

theorem Inv.new_inv (lt : α → α → Bool) (dflt : α) : Inv lt (Set.new dflt) Tree.leaf :=
  ⟨Set.Shape.new_leaf dflt, ⟨rfl, trivial, trivial⟩, by simp [Ascending, Tree.inorder], rfl,
    fun _ => rfl⟩

/-- A value that no stored value is equivalent to is not met by the descent. -/
theorem zoom_leaf_of_absent (lt : α → α → Bool) (v : α) {t : Tree α}
    (habs : ∀ e ∈ t.inorder, Equal lt e v = false) : (zoom lt v t []).2 = Tree.leaf := by
  rcases hq : (zoom lt v t []).2 with _ | ⟨z, zc, l, w, r⟩
  · rfl
  · have h1 := zoom_found lt v t [] hq
    have h2 : w ∈ t.inorder := by
      rw [inorder_zoom lt v t, hq]; simp [Tree.inorder]
    rw [habs w h2] at h1
    exact absurd h1 (by simp)

/-- A value that some stored value is equivalent to is met by the descent. -/
theorem zoom_node_of_present {lt : α → α → Bool}
    (htr : ∀ a b c, lt a b = true → lt b c = true → lt a c = true) (v : α) {t : Tree α}
    (hb : Ascending lt t.inorder) {e : α} (he : e ∈ t.inorder) (hev : Equal lt e v = true) :
    (zoom lt v t []).2 ≠ Tree.leaf := by
  intro hf
  rw [zoom_leaf_absent htr v hb hf e he] at hev
  exact absurd hev (by simp)

/-- `insert` of a value that no stored value is equivalent to: the value enters
the in-order sequence at its sorted position and the invariant is kept. -/
theorem Inv.insert_absent_sorted {lt : α → α → Bool} (hlt : StrictTotal lt) {s : Set α} {t : Tree α}
    (h : Inv lt s t) (v : α) (habs : ∀ e ∈ t.inorder, Equal lt e v = false) :
    ∃ s2 t2 L1 L2, insert lt s v = some s2 ∧ Inv lt s2 t2 ∧ t.inorder = L1 ++ L2 ∧
      t2.inorder = L1 ++ v :: L2 ∧ (∀ x ∈ L1, lt x v = true) ∧ (∀ x ∈ L2, lt v x = true) ∧
      s2.size_ = s.size_ + 1 := by
  have hf := zoom_leaf_of_absent lt v habs
  obtain ⟨s2, t2, e, sh, rb, hc, hsz, -⟩ := RBSet.insert_absent lt v h.shape h.rb hf
  obtain ⟨hL, hR⟩ := zoom_bounds hlt.trans v t [] ((bst_iff_ascending hlt.trans t).mpr h.asc)
    (by simp [cellsL]) (by simp [cellsR])
  have ht := inorder_zoom lt v t
  rw [hf] at ht
  simp only [Tree.inorder, List.append_nil] at ht
  have ht2 : t2.inorder = (cellsL (zoom lt v t []).1).map Prod.snd ++
      v :: (cellsR (zoom lt v t []).1).map Prod.snd := by
    rw [inorder_eq_cells, hc, cells_plug]; simp
  have hL2 : ∀ x ∈ (cellsL (zoom lt v t []).1).map Prod.snd, lt x v = true := by
    intro x hx
    obtain ⟨c, hc, rfl⟩ := List.mem_map.mp hx
    exact hL c hc
  have hR2 : ∀ x ∈ (cellsR (zoom lt v t []).1).map Prod.snd, lt v x = true := by
    intro x hx
    obtain ⟨c, hc, rfl⟩ := List.mem_map.mp hx
    exact hR c hc
  refine ⟨s2, t2, _, _, e, ⟨sh, rb, ?_, ?_, ?_⟩, ht, ht2, hL2, hR2, hsz⟩
  · have ha := h.asc
    rw [ht] at ha
    rw [ht2]
    simp only [Ascending, List.pairwise_append, List.pairwise_cons, List.mem_cons] at ha ⊢
    refine ⟨ha.1, ⟨hR2, ha.2.1⟩, ?_⟩
    rintro x hx y (rfl | hy)
    · exact hL2 x hx
    · exact ha.2.2 x hx y hy
  · have h1 := congrArg List.length ht
    have h2 := congrArg List.length ht2
    rw [inorder_eq_cells, List.length_map, ← count_eq_cells] at h1 h2
    rw [hsz, h.size, h1, h2]
    simp only [List.length_append, List.length_cons]
    omega
  · intro hl
    rw [hl] at ht2
    simp [Tree.inorder] at ht2

/-- `insert` of a value that some stored value is equivalent to changes nothing. -/
theorem Inv.insert_present_same {lt : α → α → Bool} (hlt : StrictTotal lt) {s : Set α} {t : Tree α}
    (h : Inv lt s t) (v : α) {e : α} (he : e ∈ t.inorder) (hev : Equal lt e v = true) :
    insert lt s v = some s :=
  insert_found lt v h.shape (zoom_node_of_present hlt.trans v h.asc he hev)

/-- `erase` of a value that some stored value is equivalent to: that one value
leaves the in-order sequence and the invariant is kept. -/
theorem Inv.erase_present_removed {lt : α → α → Bool} (hlt : StrictTotal lt) {s : Set α} {t : Tree α}
    (h : Inv lt s t) (v : α) {e : α} (he : e ∈ t.inorder) (hev : Equal lt e v = true) :
    ∃ s2 t2 A B, erase lt s v = some s2 ∧ Inv lt s2 t2 ∧ t.inorder = A ++ v :: B ∧
      t2.inorder = A ++ B ∧ s2.size_ + 1 = s.size_ ∧ s2.nil_ = s.nil_ := by
  have hne := zoom_node_of_present hlt.trans v h.asc he hev
  rcases hq : (zoom lt v t []).2 with _ | ⟨z, zc, l, w, r⟩
  · exact absurd hq hne
  obtain ⟨s2, t2, e2, sh, rb, hc, hsz, hnil, -, -, -, hpar⟩ := erase_found lt v h.shape h.rb hq
  have hw : w = v := hlt.eq_of_equal (zoom_found lt v t [] hq)
  subst hw
  have ht := inorder_zoom lt w t
  rw [hq] at ht
  have ht1 : t.inorder = ((cellsL (zoom lt w t []).1).map Prod.snd ++ l.inorder) ++
      w :: (r.inorder ++ (cellsR (zoom lt w t []).1).map Prod.snd) := by
    rw [ht]; simp [Tree.inorder]
  have ht2 : t2.inorder = ((cellsL (zoom lt w t []).1).map Prod.snd ++ l.inorder) ++
      (r.inorder ++ (cellsR (zoom lt w t []).1).map Prod.snd) := by
    rw [inorder_eq_cells, hc, inorder_eq_cells l, inorder_eq_cells r]; simp
  have hcnt : t.count = t2.count + 1 := by
    have h1 := congrArg List.length ht1
    have h2 := congrArg List.length ht2
    rw [inorder_eq_cells, List.length_map, ← count_eq_cells] at h1 h2
    rw [h1, h2]
    simp only [List.length_append, List.length_cons]
    omega
  have hsz2 : s2.size_ + 1 = s.size_ := by
    rw [hsz, h.size, hcnt]; simp
  refine ⟨s2, t2, _, _, e2, ⟨sh, rb, ?_, ?_, hpar⟩, ht1, ht2, hsz2, hnil⟩
  · have ha := h.asc
    rw [ht1] at ha
    rw [ht2]
    exact List.Pairwise.sublist (List.Sublist.append_left (List.sublist_cons_self _ _) _) ha
  · have := h.size
    omega

/-- `erase` of a value that no stored value is equivalent to changes nothing. -/
theorem Inv.erase_absent_same {lt : α → α → Bool} {s : Set α} {t : Tree α}
    (h : Inv lt s t) (v : α) (habs : ∀ e ∈ t.inorder, Equal lt e v = false) :
    erase lt s v = some s :=
  RBSet.erase_absent lt v h.shape (zoom_leaf_of_absent lt v habs)

/-- Every stored value is equivalent to the searched one, or none is. -/
theorem present_or_absent (lt : α → α → Bool) (v : α) (L : List α) :
    (∃ e ∈ L, Equal lt e v = true) ∨ ∀ e ∈ L, Equal lt e v = false := by
  by_cases h : ∃ e ∈ L, Equal lt e v = true
  · exact Or.inl h
  · refine Or.inr fun e he => ?_
    by_contra hc
    exact h ⟨e, he, by simpa using hc⟩

/-- `insert` returns and keeps the invariant. -/
theorem Inv.insert_inv {lt : α → α → Bool} (hlt : StrictTotal lt) {s : Set α} {t : Tree α}
    (h : Inv lt s t) (v : α) : ∃ s2 t2, RBSet.insert lt s v = some s2 ∧ Inv lt s2 t2 := by
  rcases present_or_absent lt v t.inorder with ⟨e, he, hev⟩ | habs
  · exact ⟨s, t, h.insert_present_same hlt v he hev, h⟩
  · obtain ⟨s2, t2, _, _, e, hi, -⟩ := h.insert_absent_sorted hlt v habs
    exact ⟨s2, t2, e, hi⟩

/-- `erase` returns and keeps the invariant. -/
theorem Inv.erase_inv {lt : α → α → Bool} (hlt : StrictTotal lt) {s : Set α} {t : Tree α}
    (h : Inv lt s t) (v : α) : ∃ s2 t2, RBSet.erase lt s v = some s2 ∧ Inv lt s2 t2 := by
  rcases present_or_absent lt v t.inorder with ⟨e, he, hev⟩ | habs
  · obtain ⟨s2, t2, _, _, e, hi, -⟩ := h.erase_present_removed hlt v he hev
    exact ⟨s2, t2, e, hi⟩
  · exact ⟨s, t, h.erase_absent_same v habs, h⟩

/-- Every reachable set satisfies the invariant. -/
theorem Reachable.inv {lt : α → α → Bool} (hlt : StrictTotal lt) {s : Set α}
    (h : Reachable lt s) : ∃ t, Inv lt s t := by
  induction h with
  | new dflt => exact ⟨Tree.leaf, Inv.new_inv lt dflt⟩
  | insert v _ e ih =>
    obtain ⟨t, ht⟩ := ih
    obtain ⟨s3, t3, e3, h3⟩ := ht.insert_inv hlt v
    rw [e3] at e
    cases e
    exact ⟨t3, h3⟩
  | erase v _ e ih =>
    obtain ⟨t, ht⟩ := ih
    obtain ⟨s3, t3, e3, h3⟩ := ht.erase_inv hlt v
    rw [e3] at e
    cases e
    exact ⟨t3, h3⟩

/-- The states `build` makes are reachable. -/
theorem Reachable.build {lt : α → α → Bool} (hlt : StrictTotal lt) (dflt : α) (vs : List α) :
    Reachable lt (RBSet.build lt dflt vs) := by
  unfold RBSet.build
  suffices H : ∀ (s : Set α), Reachable lt s →
      Reachable lt (vs.foldl (fun s v => (RBSet.insert lt s v).getD s) s) from
    H _ (Reachable.new dflt)
  induction vs with
  | nil => intro s hs; exact hs
  | cons v vs ih =>
    intro s hs
    simp only [List.foldl_cons]
    apply ih
    obtain ⟨t, ht⟩ := hs.inv hlt
    obtain ⟨s2, t2, e, -⟩ := ht.insert_inv hlt v
    rw [e]
    exact Reachable.insert v hs e

/-- The states `eraseAll` makes from a reachable state are reachable. -/
theorem Reachable.eraseAll {lt : α → α → Bool} (hlt : StrictTotal lt) (vs : List α) :
    ∀ {s : Set α}, Reachable lt s → Reachable lt (RBSet.eraseAll lt s vs) := by
  unfold RBSet.eraseAll
  induction vs with
  | nil => intro s hs; exact hs
  | cons v vs ih =>
    intro s hs
    simp only [List.foldl_cons]
    apply ih
    obtain ⟨t, ht⟩ := hs.inv hlt
    obtain ⟨s2, t2, e, -⟩ := ht.erase_inv hlt v
    rw [e]
    exact Reachable.erase v hs e

theorem strictTotal_ltN : StrictTotal ltN where
  irrefl a := by simp [ltN]
  trans a b c := by simp only [ltN, decide_eq_true_eq]; omega
  total a b := by simp only [ltN, decide_eq_false_iff_not]; omega

end RBSet

/-!
## Iteration

`Successor` steps from a node to the next cell in in-order, so the iterator
loop from `begin()` to `end()` yields the in-order sequence of the stored tree.
-/

namespace RBSet

variable {α : Type}

theorem Zip.minTree {s : Set α} {p : Path α} {t : Tree α} (h : Zip s p t) :
    Zip s (minPath t ++ p) (minTree t) := by
  apply Zip.focus
  rw [plug_append, minPath_plug]
  exact h.top

theorem cells_minTree (t : Tree α) :
    t.cells = (minTree t).cells ++ cellsR (minPath t) := by
  have h := congrArg Tree.cells (minPath_plug t)
  rw [cells_plug, cellsL_minPath] at h
  rw [← h]; simp

theorem headAddr_cells (nil : Nat) (t : Tree α) (rest : List (Nat × α)) (ht : t ≠ Tree.leaf) :
    headAddr nil (t.cells ++ rest) = (minTree t).ptr nil := by
  induction t generalizing rest with
  | leaf => exact absurd rfl ht
  | node a c l v r ihl _ =>
    cases l with
    | leaf => simp [minTree, headAddr]
    | node la lc ll lv lr =>
      have := ihl ((a, v) :: r.cells ++ rest) (by simp)
      simp only [cells_node, minTree, List.append_assoc] at this ⊢
      exact this

theorem headAddr_cellsR (nil : Nat) (p : Path α) : headAddr nil (cellsR p) = succUp nil p := by
  induction p with
  | nil => rfl
  | cons f p ih =>
    cases f with
    | left b bc bv br => simp [cellsR, succUp, headAddr]
    | right b bc bl bv => simpa [cellsR, succUp] using ih

theorem MinValueNode_spec {s : Set α} {p : Path α} {t : Tree α} (h : Zip s p t)
    (ht : t ≠ Tree.leaf) : MinValueNode s (t.ptr s.nil_) = some ((minTree t).ptr s.nil_) := by
  have hb := h.budget
  exact MinValueNodeLoop_minTree t _ s.next h.sub ht (by omega)

/-- The upward walk of `Successor` from the subtree below a path. -/
theorem SuccessorLoop_succUp {s : Set α} (p : Path α) :
    ∀ (a : Nat) (c : Color) (l : Tree α) (v : α) (r : Tree α) (fuel : Nat),
      Zip s p (Tree.node a c l v r) → p.length + 1 ≤ fuel →
      SuccessorLoop s fuel a (pathPtr s.nil_ p) = some (succUp s.nil_ p) := by
  induction p with
  | nil =>
    intro a c l v r fuel _ hf
    obtain ⟨k, rfl⟩ : ∃ k, fuel = k + 1 := ⟨fuel - 1, by simp at hf; omega⟩
    simp [SuccessorLoop, succUp]
  | cons f p ih =>
    intro a c l v r fuel h hf
    obtain ⟨k, rfl⟩ : ∃ k, fuel = k + 1 := ⟨fuel - 1, by simp at hf; omega⟩
    have ha := h.ptr_ne_nil
    have hn := h.nodup
    cases f with
    | left b bc bv br =>
      have hp := h.path
      simp only [ReprPath, ptr_node] at hp
      simp only [addrs_node, pathAddrs_cons, pathAddrs_nil, addr_left, sib_left,
        List.nodup_append, List.nodup_cons, List.mem_append, nmem_cons, not_or,
        List.disjoint_append_left, List.disjoint_append_right, List.disjoint_cons_left,
        List.disjoint_cons_right] at hn
      have hne : ¬ a = br.ptr s.nil_ := by
        rw [eq_ptr_false ha (by simp [*])]; exact id
      simp [SuccessorLoop, succUp, hp.2.2.2.2.1, hne]
    | right b bc bl bv =>
      have hp := h.path
      simp only [ReprPath, ptr_node] at hp
      have hu := h.up
      simp only [fill_right] at hu
      have := ih b bc bl bv _ k hu (by simp at hf ⊢; omega)
      rw [← hu.parent_eq] at this
      simp [SuccessorLoop, succUp, hp.2.2.2.2.1, hp.1, this]

/-- `Successor` returns the next cell in in-order, the sentinel after the last one. -/
theorem Successor_spec {s : Set α} {p : Path α} {a : Nat} {c : Color} {l r : Tree α} {v : α}
    (h : Zip s p (Tree.node a c l v r)) :
    Successor s a = some (headAddr s.nil_ (r.cells ++ cellsR p)) := by
  have hs := h.sub
  simp only [Repr] at hs
  have hb := h.budget
  cases r with
  | leaf =>
    simp only [ptr_leaf] at hs
    simp only [Successor, hs.2.2.2.2.1, ne_eq, not_true_eq_false, if_false, cells_leaf,
      List.nil_append, headAddr_cellsR]
    rw [hs.2.2.2.2.2.1]
    exact SuccessorLoop_succUp p a c l v Tree.leaf s.next h (by omega)
  | node b bc bl bv br =>
    have hd : Zip s (Frame.right a c l v :: p) (Tree.node b bc bl bv br) := Zip.down h
    have hm := MinValueNode_spec hd (by simp)
    simp only [ptr_node] at hs hm
    rw [headAddr_cells _ _ _ (by simp)]
    simp [Successor, hs.2.2.2.2.1, hd.ptr_ne_nil, hm]

theorem Cursor.up_path {s : Set α} (p : Path α) :
    ∀ {t : Tree α}, Zip s p t → Cursor s (cellsR p) := by
  induction p with
  | nil => intro t _; exact Or.inl rfl
  | cons f p ih =>
    intro t h
    cases f with
    | left b bc bv br => exact Or.inr ⟨p, b, bc, t, bv, br, h.up, by simp [cellsR]⟩
    | right b bc bl bv => exact ih h.up

theorem Cursor.tree {s : Set α} {p : Path α} {t : Tree α} (h : Zip s p t) :
    Cursor s (t.cells ++ cellsR p) := by
  cases t with
  | leaf => simpa using Cursor.up_path p h
  | node a c l v r =>
    obtain ⟨y, yc, yv, yr, hy⟩ := minTree_shape a c l v r
    have hm := h.minTree
    rw [hy] at hm
    refine Or.inr ⟨_, y, yc, Tree.leaf, yv, yr, hm, ?_⟩
    rw [cells_minTree (Tree.node a c l v r), hy, cellsR_append]
    simp

theorem Cursor.next {s : Set α} {p : Path α} {a : Nat} {c : Color} {l r : Tree α} {v : α}
    (h : Zip s p (Tree.node a c l v r)) : Cursor s (r.cells ++ cellsR p) := by
  have hd : Zip s (Frame.right a c l v :: p) r := Zip.down h
  simpa [cellsR] using Cursor.tree hd

/-- The iterator loop from a cursor yields the values of its cells. -/
theorem traverseLoop_cursor {s : Set α} (n : Nat) :
    ∀ (cs : List (Nat × α)) (fuel : Nat), cs.length = n → Cursor s cs → n + 1 ≤ fuel →
      traverseLoop s fuel (headAddr s.nil_ cs) = some (cs.map Prod.snd) := by
  induction n with
  | zero =>
    intro cs fuel hl _ hf
    obtain ⟨k, rfl⟩ : ∃ k, fuel = k + 1 := ⟨fuel - 1, by omega⟩
    have : cs = [] := List.length_eq_zero.mp hl
    subst this
    simp [traverseLoop, headAddr, end_]
  | succ n ih =>
    intro cs fuel hl hc hf
    obtain ⟨k, rfl⟩ : ∃ k, fuel = k + 1 := ⟨fuel - 1, by omega⟩
    rcases hc with rfl | ⟨p, a, c, l, v, r, hz, rfl⟩
    · simp at hl
    · have hs := hz.sub
      simp only [Repr] at hs
      have h1 := Successor_spec hz
      have h2 := ih (r.cells ++ cellsR p) k (by simpa using hl) (Cursor.next hz) (by omega)
      rw [show headAddr s.nil_ ((a, v) :: (r.cells ++ cellsR p)) = a from rfl]
      simp only [traverseLoop, end_, ne_eq, hz.ptr_ne_nil, not_false_eq_true, if_true, iterNext,
        h1, h2, iterDeref, hs.2.1, List.map_cons]

/-- `begin()` designates the first cell in in-order, `end()` on an empty set. -/
theorem begin_eq {s : Set α} {t : Tree α} (h : s.Shape t) :
    begin_ s = some (headAddr s.nil_ t.cells) := by
  cases t with
  | leaf =>
    have hn := h.nil
    have hr := h.root
    simp only [ptr_leaf] at hr
    obtain ⟨k, hk⟩ : ∃ k, s.next = k + 1 := ⟨s.next - 1, by have := hn.lt_next; omega⟩
    simp [begin_, MinValueNode, hk, MinValueNodeLoop, hr, hn.left, headAddr]
  | node a c l v r =>
    have hm := MinValueNode_spec h.zip (by simp)
    rw [← h.root] at hm
    have := headAddr_cells s.nil_ (Tree.node a c l v r) [] (by simp)
    rw [List.append_nil] at this
    rw [this]
    exact hm

/-- The iterator loop from `begin()` to `end()` returns the in-order sequence of the stored tree. -/
theorem traversal_eq {s : Set α} {t : Tree α} (h : s.Shape t) :
    traversal s = some t.inorder := by
  have hc : Cursor s t.cells := by simpa [cellsR] using Cursor.tree h.zip
  have hlen := length_lt_of_nodup h.nodup h.fresh h.repr.nil_not_mem h.nil.lt_next
  rw [addrs_eq_cells, List.length_map] at hlen
  have := traverseLoop_cursor t.cells.length t.cells s.next rfl hc hlen
  simp [traversal, begin_eq h, this, inorder_eq_cells]

end RBSet

/-!
## Queries

`find` and `lower_bound` on a state that satisfies the invariant.
-/

namespace RBSet

variable {α : Type}

theorem Repr.value_of_mem {s : Set α} {t : Tree α} :
    ∀ {par : Nat}, Repr s t par → ∀ c ∈ t.cells, s.value c.1 = c.2 := by
  induction t with
  | leaf => intro par _ c hc; simp at hc
  | node a k l v r ihl ihr =>
    intro par h c hc
    simp only [Repr] at h
    simp only [cells_node, List.mem_append, List.mem_cons] at hc
    rcases hc with hc | rfl | hc
    · exact ihl h.2.2.2.2.2.2.1 c hc
    · exact h.2.1
    · exact ihr h.2.2.2.2.2.2.2 c hc

theorem Repr.ne_nil_of_mem {s : Set α} {t : Tree α} {par : Nat} (h : Repr s t par)
    {c : Nat × α} (hc : c ∈ t.cells) : c.1 ≠ s.nil_ := by
  intro e
  apply h.nil_not_mem
  rw [addrs_eq_cells, ← e]
  exact List.mem_map_of_mem _ hc

theorem StrictTotal.asymm {lt : α → α → Bool} (hlt : StrictTotal lt) {a b : α}
    (h : lt a b = true) : lt b a = false := by
  by_contra hc
  have := hlt.trans a b a h (by simpa using hc)
  rw [hlt.irrefl] at this
  exact absurd this (by simp)

/-- The descent loop of `lower_bound` stops where `zoom` stops; when it stops at
the sentinel below a node, `current_parent` is that node. -/
theorem lowerBoundLoop_zoom (lt : α → α → Bool) (v : α) {s : Set α} (t : Tree α) :
    ∀ (par : Nat) (acc : Path α) (fuel cp : Nat), Repr s t par → t.height + 1 ≤ fuel →
    ∃ cp2, lowerBoundLoop lt s v fuel (t.ptr s.nil_) cp =
        some ((zoom lt v t acc).2.ptr s.nil_, cp2) ∧
      (t = Tree.leaf → cp2 = cp) ∧
      (t ≠ Tree.leaf → (zoom lt v t acc).2 = Tree.leaf →
        cp2 = pathPtr s.nil_ (zoom lt v t acc).1) := by
  induction t with
  | leaf =>
    intro par acc fuel cp _ hf
    obtain ⟨k, rfl⟩ : ∃ k, fuel = k + 1 := ⟨fuel - 1, by omega⟩
    exact ⟨cp, by simp [lowerBoundLoop, zoom], fun _ => rfl, fun h => absurd rfl h⟩
  | node a c l w r ihl ihr =>
    intro par acc fuel cp h hf
    obtain ⟨k, rfl⟩ : ∃ k, fuel = k + 1 := ⟨fuel - 1, by omega⟩
    simp only [Repr] at h
    obtain ⟨h1, h2, h3, h4, h5, h6, h7, h8⟩ := h
    simp only [Tree.height] at hf
    simp only [lowerBoundLoop, zoom, ptr_node, h2, h4, h5]
    by_cases he : Equal lt w v = true
    · simp only [he, if_true]
      exact ⟨cp, by simp, fun h => by simp at h, fun _ h => by simp at h⟩
    · by_cases hl : lt v w = true
      · simp only [he, hl, if_true, if_false]
        obtain ⟨cp2, e, q1, q2⟩ := ihl a (Frame.left a c w r :: acc) k a h7 (by omega)
        refine ⟨cp2, by simpa [h1] using e, fun h => by simp at h, fun _ hz => ?_⟩
        cases l with
        | leaf => rw [q1 rfl]; simp [zoom]
        | node la lc ll lv lr => exact q2 (by simp) hz
      · simp only [he, hl, if_false]
        obtain ⟨cp2, e, q1, q2⟩ := ihr a (Frame.right a c l w :: acc) k a h8 (by omega)
        refine ⟨cp2, by simpa [h1] using e, fun h => by simp at h, fun _ hz => ?_⟩
        cases r with
        | leaf => rw [q1 rfl]; simp [zoom]
        | node la lc ll lv lr => exact q2 (by simp) hz

/-- `find` returns the node at which the descent stops. -/
theorem find_eq (lt : α → α → Bool) (v : α) {s : Set α} {t : Tree α} (h : s.Shape t) :
    find lt s v = some ((zoom lt v t []).2.ptr s.nil_) :=
  FindByValue_eq lt v h

/-- `find` of a value no stored value is equivalent to returns `end()`. -/
theorem Inv.find_absent {lt : α → α → Bool} {s : Set α} {t : Tree α} (h : Inv lt s t) (v : α)
    (habs : ∀ e ∈ t.inorder, Equal lt e v = false) : find lt s v = some (end_ s) := by
  rw [find_eq lt v h.shape, zoom_leaf_of_absent lt v habs]
  rfl

/-- `find` of a value some stored value is equivalent to returns a node of the
tree that holds an equivalent value. -/
theorem Inv.find_present {lt : α → α → Bool} (hlt : StrictTotal lt) {s : Set α} {t : Tree α}
    (h : Inv lt s t) (v : α) {e : α} (he : e ∈ t.inorder) (hev : Equal lt e v = true) :
    ∃ it, find lt s v = some it ∧ it ≠ end_ s ∧ (it, iterDeref s it) ∈ t.cells ∧
      Equal lt (iterDeref s it) v = true := by
  have hne := zoom_node_of_present hlt.trans v h.asc he hev
  rcases hq : (zoom lt v t []).2 with _ | ⟨z, zc, l, w, r⟩
  · exact absurd hq hne
  have hz := h.shape.zoom lt v
  rw [hq] at hz
  have hs := hz.sub
  simp only [Repr] at hs
  have hp := congrArg Tree.cells (zoom_plug lt v t [])
  rw [hq, plug_nil, cells_plug] at hp
  refine ⟨z, by rw [find_eq lt v h.shape, hq]; rfl, hz.ptr_ne_nil, ?_, ?_⟩
  · rw [iterDeref, hs.2.1, ← hp]; simp
  · rw [iterDeref, hs.2.1]; exact zoom_found lt v t [] hq

/-- `lower_bound` splits the in-order sequence of cells: a front part of cells
below the value and a back part of cells not below it, and it returns the first
cell of the back part, `end()` when the back part is empty. -/
theorem Inv.lower_bound_eq {lt : α → α → Bool} (hlt : StrictTotal lt) {s : Set α} {t : Tree α}
    (h : Inv lt s t) (v : α) :
    ∃ A B, t.cells = A ++ B ∧ (∀ c ∈ A, lt c.2 v = true) ∧ (∀ c ∈ B, lt c.2 v = false) ∧
      lower_bound lt s v = some (headAddr s.nil_ B) := by
  have hbud := h.shape.zip.budget
  simp only [List.length_nil] at hbud
  obtain ⟨cp2, e, q1, q2⟩ := lowerBoundLoop_zoom lt v t s.nil_ [] s.next s.root_ h.shape.repr
    (by omega)
  rw [← h.shape.root] at e
  obtain ⟨hL, hR⟩ := zoom_bounds hlt.trans v t [] ((bst_iff_ascending hlt.trans t).mpr h.asc)
    (by simp [cellsL]) (by simp [cellsR])
  have hR2 : ∀ c ∈ cellsR (zoom lt v t []).1, lt c.2 v = false := fun c hc => hlt.asymm (hR c hc)
  have hp := congrArg Tree.cells (zoom_plug lt v t [])
  rw [plug_nil, cells_plug] at hp
  have hz := h.shape.zoom lt v
  rcases hq : (zoom lt v t []).2 with _ | ⟨z, zc, l, w, r⟩
  · rw [hq] at hp hz e
    refine ⟨cellsL (zoom lt v t []).1, cellsR (zoom lt v t []).1, by simpa using hp.symm, hL, hR2,
      ?_⟩
    simp only [lower_bound, e, ptr_leaf, ne_eq, not_true_eq_false, if_false]
    cases t with
    | leaf =>
      have hn := h.shape.nil
      have hr := h.shape.root
      simp only [ptr_leaf] at hr
      obtain ⟨k, hk⟩ : ∃ k, s.next = k + 1 := ⟨s.next - 1, by have := hn.lt_next; omega⟩
      have hsucc : Successor s s.nil_ = some s.nil_ := by
        simp [Successor, hn.right, hk, SuccessorLoop, h.nilpar rfl]
      rw [q1 rfl, hr, hsucc]
      simp [zoom, cellsR, headAddr]
    | node a c tl u tr =>
      have hcp := q2 (by simp) hq
      rw [hcp]
      rcases hP : (zoom lt v (Tree.node a c tl u tr) []).1 with _ | ⟨f, p⟩
      · rw [hP] at hp
        simp [cellsL, cellsR] at hp
      · rw [hP] at hz hL hR
        have hpth := hz.path
        cases f with
        | left b bc bv br =>
          simp only [ReprPath] at hpth
          have h1 : lt v bv = true := hR (b, bv) (by simp [cellsR])
          simp [pathPtr_cons, addr_left, hpth.2.1, hlt.asymm h1, cellsR, headAddr]
        | right b bc bl bv =>
          simp only [ReprPath] at hpth
          have h1 : lt bv v = true := hL (b, bv) (by simp [cellsL])
          have hu := hz.up
          simp only [fill_right] at hu
          have := Successor_spec hu
          simp only [cells_leaf, List.nil_append] at this
          simp [pathPtr_cons, addr_right, hpth.2.1, h1, cellsR, this]
  · rw [hq] at hp hz e
    have hw : w = v := hlt.eq_of_equal (zoom_found lt v t [] hq)
    subst hw
    have ha := h.asc
    rw [inorder_eq_cells, ← hp] at ha
    simp only [Ascending, cells_node, List.map_append, List.map_cons, List.pairwise_append,
      List.pairwise_cons, List.mem_append, List.mem_cons, List.mem_map] at ha
    refine ⟨cellsL (zoom lt w t []).1 ++ l.cells, (z, w) :: r.cells ++ cellsR (zoom lt w t []).1,
      by rw [← hp]; simp, ?_, ?_, ?_⟩
    · intro c hc
      rcases List.mem_append.mp hc with hc | hc
      · exact hL c hc
      · exact ha.1.2.1.2.2 c.2 ⟨c, hc, rfl⟩ w (Or.inl rfl)
    · intro c hc
      simp only [List.cons_append, List.mem_cons, List.mem_append] at hc
      rcases hc with rfl | hc | hc
      · exact hlt.irrefl _
      · exact hlt.asymm (ha.1.2.1.2.1.1 c.2 ⟨c, hc, rfl⟩)
      · exact hR2 c hc
    · simp [lower_bound, e, hz.ptr_ne_nil, headAddr]

/-- What the result of `lower_bound` means for the stored values: it is `end()`
exactly when every stored value is below `v`, and otherwise it designates a
stored value that is not below `v` and is the smallest such. -/
theorem Inv.lower_bound_spec {lt : α → α → Bool} (hlt : StrictTotal lt) {s : Set α}
    {t : Tree α} (h : Inv lt s t) (v : α) :
    ∃ it, lower_bound lt s v = some it ∧
      (it = end_ s ↔ ∀ e ∈ t.inorder, lt e v = true) ∧
      (it ≠ end_ s → (it, iterDeref s it) ∈ t.cells ∧ lt (iterDeref s it) v = false ∧
        ∀ e ∈ t.inorder, lt e v = false → lt e (iterDeref s it) = false) := by
  obtain ⟨A, B, hAB, hA, hB, e⟩ := h.lower_bound_eq hlt v
  have ha := h.asc
  rw [inorder_eq_cells, hAB] at ha
  refine ⟨_, e, ?_, ?_⟩
  · rcases B with _ | ⟨b, B⟩
    · simp only [headAddr, end_, true_iff]
      intro x hx
      rw [mem_inorder_iff, hAB] at hx
      obtain ⟨c, hc, rfl⟩ := hx
      exact hA c (by simpa using hc)
    · have hb : b ∈ t.cells := by rw [hAB]; simp
      have h1 := h.shape.repr.ne_nil_of_mem hb
      simp only [headAddr, end_, h1, false_iff]
      intro hall
      have := hall b.2 ((mem_inorder_iff t b.2).mpr ⟨b, hb, rfl⟩)
      rw [hB b (by simp)] at this
      exact absurd this (by simp)
  · rcases B with _ | ⟨b, B⟩
    · intro hne; exact absurd rfl hne
    · intro _
      have hb : b ∈ t.cells := by rw [hAB]; simp
      have hv : s.value b.1 = b.2 := h.shape.repr.value_of_mem b hb
      simp only [headAddr, iterDeref, hv]
      refine ⟨hb, hB b (by simp), ?_⟩
      intro x hx hxv
      rw [mem_inorder_iff, hAB] at hx
      obtain ⟨c, hc, rfl⟩ := hx
      simp only [Ascending, List.map_append, List.map_cons, List.pairwise_append,
        List.pairwise_cons, List.mem_map] at ha
      simp only [List.mem_append, List.mem_cons] at hc
      rcases hc with hc | rfl | hc
      · rw [hA c hc] at hxv; exact absurd hxv (by simp)
      · exact hlt.irrefl _
      · exact hlt.asymm (ha.2.1.1 c.2 ⟨c, hc, rfl⟩)

end RBSet

/-!
## The invariant that needs no order
-/

namespace RBSet

variable {α : Type}

theorem Inv.toInv0 {lt : α → α → Bool} {s : Set α} {t : Tree α} (h : Inv lt s t) : Inv0 s t :=
  ⟨h.shape, h.rb, h.size, h.nilpar⟩

theorem Inv0.new_inv0 (dflt : α) : Inv0 (Set.new dflt) Tree.leaf :=
  ⟨Set.Shape.new_leaf dflt, ⟨rfl, trivial, trivial⟩, rfl, fun _ => rfl⟩

theorem cells_zoom (lt : α → α → Bool) (v : α) (t : Tree α) :
    t.cells = cellsL (zoom lt v t []).1 ++ (zoom lt v t []).2.cells ++ cellsR (zoom lt v t []).1 := by
  have h := congrArg Tree.cells (zoom_plug lt v t [])
  rw [plug_nil, cells_plug] at h
  exact h.symm

theorem Inv0.insert_inv0 (lt : α → α → Bool) {s : Set α} {t : Tree α} (h : Inv0 s t) (v : α) :
    ∃ s2 t2, RBSet.insert lt s v = some s2 ∧ Inv0 s2 t2 := by
  by_cases hf : (zoom lt v t []).2 = Tree.leaf
  · obtain ⟨s2, t2, e, sh, rb, hc, hsz, -⟩ := insert_absent lt v h.shape h.rb hf
    have h1 := congrArg List.length (cells_zoom lt v t)
    have h2 := congrArg List.length hc
    rw [hf] at h1
    rw [cells_plug] at h2
    simp only [cells_leaf, cells_node, List.length_append, List.length_cons, List.length_nil,
      ← count_eq_cells] at h1 h2
    refine ⟨s2, t2, e, sh, rb, ?_, ?_⟩
    · rw [hsz, h.size]; omega
    · intro hl
      rw [hl] at h2
      simp only [Tree.count] at h2
      omega
  · exact ⟨s, t, insert_found lt v h.shape hf, h⟩

theorem Inv0.erase_inv0 (lt : α → α → Bool) {s : Set α} {t : Tree α} (h : Inv0 s t) (v : α) :
    ∃ s2 t2, RBSet.erase lt s v = some s2 ∧ Inv0 s2 t2 := by
  rcases hq : (zoom lt v t []).2 with _ | ⟨z, zc, l, w, r⟩
  · exact ⟨s, t, erase_absent lt v h.shape hq, h⟩
  · obtain ⟨s2, t2, e, sh, rb, hc, hsz, -, -, -, -, hpar⟩ := erase_found lt v h.shape h.rb hq
    have h1 := congrArg List.length (cells_zoom lt v t)
    have h2 := congrArg List.length hc
    rw [hq] at h1
    simp only [cells_node, List.length_append, List.length_cons, ← count_eq_cells] at h1 h2
    refine ⟨s2, t2, e, sh, rb, ?_, hpar⟩
    have := h.size
    rw [hsz]
    split <;> omega

/-- Every reachable set satisfies the order-free invariant, whatever the comparison is. -/
theorem Reachable.inv0 {lt : α → α → Bool} {s : Set α} (h : Reachable lt s) :
    ∃ t, Inv0 s t := by
  induction h with
  | new dflt => exact ⟨Tree.leaf, Inv0.new_inv0 dflt⟩
  | insert v _ e ih =>
    obtain ⟨t, ht⟩ := ih
    obtain ⟨s3, t3, e3, h3⟩ := ht.insert_inv0 lt v
    rw [e3] at e
    cases e
    exact ⟨t3, h3⟩
  | erase v _ e ih =>
    obtain ⟨t, ht⟩ := ih
    obtain ⟨s3, t3, e3, h3⟩ := ht.erase_inv0 lt v
    rw [e3] at e
    cases e
    exact ⟨t3, h3⟩

/-- The traversal of a state determines the in-order sequence of the tree it stores. -/
theorem Set.Shape.inorder_eq {s : Set α} {t : Tree α} (h : s.Shape t) {L : List α}
    (hL : traversal s = some L) : t.inorder = L := by
  rw [traversal_eq h] at hL
  exact Option.some.inj hL

theorem Tree.eq_leaf_of_inorder {t : Tree α} (h : t.inorder = []) : t = Tree.leaf := by
  cases t with
  | leaf => rfl
  | node a c l v r => simp [Tree.inorder] at h

/-- On a state that stores the empty tree and whose sentinel is its own parent,
`lower_bound` returns `end()` whatever the value and the comparison are. -/
theorem lower_bound_empty (lt : α → α → Bool) (v : α) {s : Set α} (h : s.Shape Tree.leaf)
    (hpar : s.parent s.nil_ = s.nil_) : lower_bound lt s v = some (end_ s) := by
  have hn := h.nil
  have hr := h.root
  simp only [ptr_leaf] at hr
  obtain ⟨k, hk⟩ : ∃ k, s.next = k + 1 := ⟨s.next - 1, by have := hn.lt_next; omega⟩
  have hsucc : Successor s s.nil_ = some s.nil_ := by
    simp [Successor, hn.right, hk, SuccessorLoop, hpar]
  simp only [lower_bound, hk, lowerBoundLoop, hr, ne_eq, not_true_eq_false, false_and, if_false,
    hsucc, end_]
  split <;> rfl

end RBSet

/-!
## The demonstration set
-/

namespace RBSet

variable {α : Type}

set_option maxRecDepth 100000 in
theorem demoSet_shape : demoSet.Shape demoTree := by
  refine ⟨by decide, ?_, by decide, by decide, ⟨by decide, by decide, by decide, by decide⟩⟩
  simp only [demoTree, Repr, ptr_node, ptr_leaf]
  decide

theorem demoTree_redBlack : demoTree.RedBlack := by
  simp [demoTree, Tree.RedBlack, Tree.NoRedRed, Tree.Balanced, Tree.bh, Tree.color]

theorem demoSet_reachable : Reachable ltN demoSet :=
  Reachable.build strictTotal_ltN 0 [5, 3, 8, 1, 4, 7, 9]

/-- A reachable set and its traversal give the tree the invariant speaks of. -/
theorem Reachable.inv_of_traversal {lt : α → α → Bool} (hlt : StrictTotal lt) {s : Set α}
    (hs : Reachable lt s) {L : List α} (hL : traversal s = some L) :
    ∃ t, Inv lt s t ∧ t.inorder = L := by
  obtain ⟨t, ht⟩ := hs.inv hlt
  exact ⟨t, ht, ht.shape.inorder_eq hL⟩

theorem Reachable.inv0_of_traversal {lt : α → α → Bool} {s : Set α}
    (hs : Reachable lt s) {L : List α} (hL : traversal s = some L) :
    ∃ t, Inv0 s t ∧ t.inorder = L := by
  obtain ⟨t, ht⟩ := hs.inv0
  exact ⟨t, ht, ht.shape.inorder_eq hL⟩

/-- In an ascending sequence no value is equivalent to one that stands next to a gap
it does not fill. -/
theorem absent_of_ascending {lt : α → α → Bool} {A B : List α} {v : α}
    (h : Ascending lt (A ++ v :: B)) : ∀ e ∈ A ++ B, Equal lt e v = false := by
  simp only [Ascending, List.pairwise_append, List.pairwise_cons, List.mem_cons] at h
  intro e he
  rcases List.mem_append.mp he with he | he
  · exact equal_false_of_lt (h.2.2 e he v (Or.inl rfl))
  · exact equal_false_of_gt (h.2.1.1 e he)

/-- In an ascending sequence no two values are equivalent. -/
theorem pairwise_not_equal {lt : α → α → Bool} {L : List α} (h : Ascending lt L) :
    L.Pairwise (fun a b => Equal lt a b = false) :=
  List.Pairwise.imp (fun hab => equal_false_of_lt hab) h

/-- The black count of the leftmost path is one of the path counts. -/
theorem bh_mem_blackCounts (t : Tree α) : t.bh ∈ t.blackCounts := by
  induction t with
  | leaf => simp [Tree.bh, Tree.blackCounts]
  | node a c l v r ihl _ =>
    simp only [Tree.bh, Tree.blackCounts, List.mem_map, List.mem_append]
    exact ⟨l.bh, Or.inl ihl, rfl⟩

/-- `Balanced` says that every path from the root to a sentinel holds the same
number of BLACK nodes. -/
theorem balanced_iff_blackCounts (t : Tree α) :
    t.Balanced ↔ ∀ n ∈ t.blackCounts, n = t.bh := by
  induction t with
  | leaf => simp [Tree.Balanced, Tree.bh, Tree.blackCounts]
  | node a c l v r ihl ihr =>
    simp only [Tree.Balanced, Tree.bh, Tree.blackCounts, List.mem_map, List.mem_append, ihl, ihr]
    constructor
    · rintro ⟨h1, h2, h3⟩ n ⟨m, hm | hm, rfl⟩
      · rw [h2 m hm]
      · rw [h3 m hm, h1]
    · intro h
      have hr : r.bh = l.bh := by
        have := h _ ⟨r.bh, Or.inr (bh_mem_blackCounts r), rfl⟩
        omega
      refine ⟨hr.symm, fun n hn => ?_, fun n hn => ?_⟩
      · have := h _ ⟨n, Or.inl hn, rfl⟩
        omega
      · have := h _ ⟨n, Or.inr hn, rfl⟩
        omega

end RBSet

/-!
## The claims about the set
-/

namespace RBSet

variable {α : Type}

/-- C1: for every set that satisfies the red-black invariants (BLACK root, no RED
node with a RED child, the same number of BLACK nodes on every path from the
root to the sentinel) and every value `v`, the call `insert(v)` returns and the
set after it satisfies all three invariants again.  The proof uses nothing of
the comparison, so the property holds in particular for a strict total order. -/
theorem insert_preserves_red_black (lt : α → α → Bool) (s : Set α) (t : Tree α) (v : α)
    (hs : s.Shape t) (hrb : t.RedBlack) :
    ∃ s2 t2, insert lt s v = some s2 ∧ s2.Shape t2 ∧ t2.RedBlack :=
  insert_redBlack lt v hs hrb

theorem insert_preserves_red_black_witness :
    demoSet.Shape demoTree ∧ demoTree.RedBlack ∧
      ∃ s2 t2, insert ltN demoSet 6 = some s2 ∧ s2.Shape t2 ∧ t2.RedBlack :=
  ⟨demoSet_shape, demoTree_redBlack,
    insert_preserves_red_black ltN demoSet demoTree 6 demoSet_shape demoTree_redBlack⟩

/-- C2: for every set that satisfies the red-black invariants and every value
`v`, the call `erase(v)` returns and the set after it satisfies all three
invariants again.  The statement covers every removal shape (no left child, no
right child, two children) and both colours of the removed cell, so the runs
with and without `RBDeleteFixup`; the proof uses nothing of the comparison. -/
theorem erase_preserves_red_black (lt : α → α → Bool) (s : Set α) (t : Tree α) (v : α)
    (hs : s.Shape t) (hrb : t.RedBlack) :
    ∃ s2 t2, erase lt s v = some s2 ∧ s2.Shape t2 ∧ t2.RedBlack :=
  erase_redBlack lt v hs hrb

theorem erase_preserves_red_black_witness :
    demoSet.Shape demoTree ∧ demoTree.RedBlack ∧
      ∃ s2 t2, erase ltN demoSet 5 = some s2 ∧ s2.Shape t2 ∧ t2.RedBlack :=
  ⟨demoSet_shape, demoTree_redBlack,
    erase_preserves_red_black ltN demoSet demoTree 5 demoSet_shape demoTree_redBlack⟩

/-- C3: under a strict total order, every set built from a fresh one by inserts
and erases stores a tree in search-tree order (every value of a left subtree is
below the node value, every value of a right subtree above it); the iterator
traversal returns the in-order sequence of that tree and it is strictly ascending. -/
theorem reachable_search_tree_order (lt : α → α → Bool) (hlt : StrictTotal lt) (s : Set α)
    (hs : Reachable lt s) :
    ∃ t, s.Shape t ∧ t.BST lt ∧ traversal s = some t.inorder ∧ Ascending lt t.inorder := by
  obtain ⟨t, ht⟩ := hs.inv hlt
  exact ⟨t, ht.shape, (bst_iff_ascending hlt.trans t).mpr ht.asc, traversal_eq ht.shape, ht.asc⟩

theorem reachable_search_tree_order_witness :
    StrictTotal ltN ∧ Reachable ltN demoSet ∧
      ∃ t, demoSet.Shape t ∧ t.BST ltN ∧ traversal demoSet = some t.inorder ∧
        Ascending ltN t.inorder :=
  ⟨strictTotal_ltN, demoSet_reachable,
    reachable_search_tree_order ltN strictTotal_ltN demoSet demoSet_reachable⟩

/-- C4: for every reachable set whose traversal is `L` and every value `v` that no
value of `L` is equivalent to, `insert(v)` returns, and the traversal after it is
`L` with `v` put in at its sorted position: everything before it is below `v`,
everything after it above `v`, and nothing else is added or removed; `size()`
goes up by one. -/
theorem insert_absent_traversal (lt : α → α → Bool) (hlt : StrictTotal lt) (s : Set α)
    (L : List α) (v : α) (hs : Reachable lt s) (hL : traversal s = some L)
    (habs : ∀ e ∈ L, Equal lt e v = false) :
    ∃ s2 L1 L2, insert lt s v = some s2 ∧ L = L1 ++ L2 ∧
      traversal s2 = some (L1 ++ v :: L2) ∧ (∀ x ∈ L1, lt x v = true) ∧
      (∀ x ∈ L2, lt v x = true) ∧ size s2 = size s + 1 := by
  obtain ⟨t, ht, rfl⟩ := hs.inv_of_traversal hlt hL
  obtain ⟨s2, t2, L1, L2, e, h2, h3, h4, h5, h6, h7⟩ := ht.insert_absent_sorted hlt v habs
  exact ⟨s2, L1, L2, e, h3, by rw [traversal_eq h2.shape, h4], h5, h6, h7⟩

set_option maxRecDepth 100000 in
theorem insert_absent_traversal_witness :
    traversal demoSet = some [1, 3, 4, 5, 7, 8, 9] ∧ size demoSet = 7 ∧
      ∃ s2 L1 L2, insert ltN (build ltN 0 [5, 3, 8, 1, 4, 7]) 9 = some s2 ∧
        [1, 3, 4, 5, 7, 8] = L1 ++ L2 ∧ traversal s2 = some (L1 ++ 9 :: L2) ∧
        (∀ x ∈ L1, ltN x 9 = true) ∧ (∀ x ∈ L2, ltN 9 x = true) ∧
        size s2 = size (build ltN 0 [5, 3, 8, 1, 4, 7]) + 1 :=
  ⟨by decide!, by decide!,
    insert_absent_traversal ltN strictTotal_ltN (build ltN 0 [5, 3, 8, 1, 4, 7])
      [1, 3, 4, 5, 7, 8] 9 (Reachable.build strictTotal_ltN 0 [5, 3, 8, 1, 4, 7]) (by decide!)
      (by decide!)⟩

/-- C5: for every reachable set whose traversal is `L` and every value `v`
equivalent to a value `e` of `L`, `erase(v)` returns, the traversal after it is
`L` with exactly that one element taken out, nothing else added or removed, and
`find(v)` is `end()` afterwards. -/
theorem erase_present_traversal (lt : α → α → Bool) (hlt : StrictTotal lt) (s : Set α)
    (L : List α) (v e : α) (hs : Reachable lt s) (hL : traversal s = some L) (he : e ∈ L)
    (hev : Equal lt e v = true) :
    ∃ s2 A B, erase lt s v = some s2 ∧ L = A ++ e :: B ∧ traversal s2 = some (A ++ B) ∧
      find lt s2 v = some (end_ s2) := by
  obtain ⟨t, ht, rfl⟩ := hs.inv_of_traversal hlt hL
  obtain ⟨s2, t2, A, B, e2, h2, h3, h4, -⟩ := ht.erase_present_removed hlt v he hev
  have hev2 : e = v := hlt.eq_of_equal hev
  subst hev2
  refine ⟨s2, A, B, e2, h3, by rw [traversal_eq h2.shape, h4], ?_⟩
  apply h2.find_absent
  rw [h4]
  exact absent_of_ascending (h3 ▸ ht.asc)

set_option maxRecDepth 100000 in
theorem erase_present_traversal_witness :
    traversal (eraseAll ltN demoSet [5]) = some [1, 3, 4, 7, 8, 9] ∧
      find ltN (eraseAll ltN demoSet [5]) 5 = some (end_ (eraseAll ltN demoSet [5])) ∧
      ∃ s2 A B, erase ltN demoSet 5 = some s2 ∧ [1, 3, 4, 5, 7, 8, 9] = A ++ 5 :: B ∧
        traversal s2 = some (A ++ B) ∧ find ltN s2 5 = some (end_ s2) :=
  ⟨by decide!, by decide!,
    erase_present_traversal ltN strictTotal_ltN demoSet [1, 3, 4, 5, 7, 8, 9] 5 5
      demoSet_reachable (by decide!) (by decide!) (by decide!)⟩

/-- C6: for every reachable set whose traversal is `L` and every value `v`,
`lower_bound(v)` returns; the iterator is `end()` exactly when every stored
value is below `v`, and otherwise it points at a stored value that is not below
`v` and is the smallest such.  The set need not be non-empty for this. -/
theorem lower_bound_smallest_not_below (lt : α → α → Bool) (hlt : StrictTotal lt) (s : Set α)
    (L : List α) (v : α) (hs : Reachable lt s) (hL : traversal s = some L) :
    ∃ it, lower_bound lt s v = some it ∧
      (it = end_ s ↔ ∀ e ∈ L, lt e v = true) ∧
      (it ≠ end_ s → iterDeref s it ∈ L ∧ lt (iterDeref s it) v = false ∧
        ∀ e ∈ L, lt e v = false → lt e (iterDeref s it) = false) := by
  obtain ⟨t, ht, rfl⟩ := hs.inv_of_traversal hlt hL
  obtain ⟨it, h1, h2, h3⟩ := ht.lower_bound_spec hlt v
  refine ⟨it, h1, h2, fun hne => ?_⟩
  obtain ⟨h4, h5, h6⟩ := h3 hne
  exact ⟨(mem_inorder_iff t _).mpr ⟨_, h4, rfl⟩, h5, h6⟩

set_option maxRecDepth 100000 in
theorem lower_bound_smallest_not_below_witness :
    (lower_bound ltN demoSet 6).map (iterDeref demoSet) = some 7 ∧
      ∃ it, lower_bound ltN demoSet 6 = some it ∧
        (it = end_ demoSet ↔ ∀ e ∈ [1, 3, 4, 5, 7, 8, 9], ltN e 6 = true) ∧
        (it ≠ end_ demoSet → iterDeref demoSet it ∈ [1, 3, 4, 5, 7, 8, 9] ∧
          ltN (iterDeref demoSet it) 6 = false ∧
          ∀ e ∈ [1, 3, 4, 5, 7, 8, 9], ltN e 6 = false → ltN e (iterDeref demoSet it) = false) :=
  ⟨by decide!,
    lower_bound_smallest_not_below ltN strictTotal_ltN demoSet [1, 3, 4, 5, 7, 8, 9] 6
      demoSet_reachable (by decide!)⟩

/-- C7: on every reachable set that is empty, be it freshly constructed or
emptied by erases, `lower_bound(v)` returns `end()` for every value `v`, whatever
the comparison says about `v` and the value the sentinel holds. -/
theorem lower_bound_empty_is_end (lt : α → α → Bool) (s : Set α) (v : α)
    (hs : Reachable lt s) (hE : traversal s = some []) :
    lower_bound lt s v = some (end_ s) := by
  obtain ⟨t, ht, hin⟩ := hs.inv0_of_traversal hE
  have hl := Tree.eq_leaf_of_inorder hin
  subst hl
  exact lower_bound_empty lt v ht.shape (ht.nilpar rfl)

set_option maxRecDepth 100000 in
theorem lower_bound_empty_is_end_witness :
    lower_bound ltN (Set.new 0) 6 = some (end_ (Set.new 0)) ∧
      lower_bound ltN (eraseAll ltN demoSet [5, 3, 8, 1, 4, 7, 9]) 6 =
        some (end_ (eraseAll ltN demoSet [5, 3, 8, 1, 4, 7, 9])) :=
  ⟨lower_bound_empty_is_end ltN (Set.new 0) 6 (Reachable.new 0) (by decide!),
    lower_bound_empty_is_end ltN (eraseAll ltN demoSet [5, 3, 8, 1, 4, 7, 9]) 6
      (Reachable.eraseAll strictTotal_ltN _ demoSet_reachable) (by decide!)⟩

/-- C8: for every reachable set whose traversal is `L` and every value `v`,
`find(v)` returns; when a stored value `e` is equivalent to `v` the iterator is
not `end()` and dereferences to `e`, a value equivalent to `v`; when no stored
value is equivalent to `v` the iterator is `end()`. -/
theorem find_correct (lt : α → α → Bool) (hlt : StrictTotal lt) (s : Set α) (L : List α) (v : α)
    (hs : Reachable lt s) (hL : traversal s = some L) :
    ∃ it, find lt s v = some it ∧
      (∀ e ∈ L, Equal lt e v = true →
        it ≠ end_ s ∧ iterDeref s it = e ∧ Equal lt (iterDeref s it) v = true) ∧
      ((∀ e ∈ L, Equal lt e v = false) → it = end_ s) := by
  obtain ⟨t, ht, rfl⟩ := hs.inv_of_traversal hlt hL
  rcases present_or_absent lt v t.inorder with ⟨e, he, hev⟩ | habs
  · obtain ⟨it, hf, hne, -, heq⟩ := ht.find_present hlt v he hev
    refine ⟨it, hf, fun e2 _ hev2 => ⟨hne, ?_, heq⟩, fun habs => ?_⟩
    · rw [hlt.eq_of_equal heq, hlt.eq_of_equal hev2]
    · rw [habs e he] at hev
      exact absurd hev (by simp)
  · refine ⟨end_ s, ht.find_absent v habs, fun e he hev => ?_, fun _ => rfl⟩
    rw [habs e he] at hev
    exact absurd hev (by simp)

set_option maxRecDepth 100000 in
theorem find_correct_witness :
    (find ltN demoSet 4).map (iterDeref demoSet) = some 4 ∧
      find ltN demoSet 6 = some (end_ demoSet) ∧
      ∃ it, find ltN demoSet 4 = some it ∧
        (∀ e ∈ [1, 3, 4, 5, 7, 8, 9], Equal ltN e 4 = true →
          it ≠ end_ demoSet ∧ iterDeref demoSet it = e ∧
            Equal ltN (iterDeref demoSet it) 4 = true) ∧
        ((∀ e ∈ [1, 3, 4, 5, 7, 8, 9], Equal ltN e 4 = false) → it = end_ demoSet) :=
  ⟨by decide!, by decide!,
    find_correct ltN strictTotal_ltN demoSet [1, 3, 4, 5, 7, 8, 9] 4 demoSet_reachable
      (by decide!)⟩

/-- C9: for every reachable set whose traversal is `L`: `insert(v)` of a value
equivalent to a stored one returns the very same state (heap with all nodes,
links and colours, root and size); inserting a value the set lacks twice leaves,
after the second call, the state of the first call, with `size()` raised by
exactly one; and no two stored values are equivalent. -/
theorem insert_present_unchanged (lt : α → α → Bool) (hlt : StrictTotal lt) (s : Set α)
    (L : List α) (hs : Reachable lt s) (hL : traversal s = some L) :
    (∀ v, (∃ e ∈ L, Equal lt e v = true) → insert lt s v = some s) ∧
      (∀ v, (∀ e ∈ L, Equal lt e v = false) →
        ∃ s2, insert lt s v = some s2 ∧ insert lt s2 v = some s2 ∧ size s2 = size s + 1) ∧
      L.Pairwise (fun a b => Equal lt a b = false) := by
  obtain ⟨t, ht, rfl⟩ := hs.inv_of_traversal hlt hL
  refine ⟨?_, ?_, pairwise_not_equal ht.asc⟩
  · rintro v ⟨e, he, hev⟩
    exact ht.insert_present_same hlt v he hev
  · intro v habs
    obtain ⟨s2, t2, L1, L2, e, h2, -, h4, -, -, h7⟩ := ht.insert_absent_sorted hlt v habs
    refine ⟨s2, e, ?_, h7⟩
    exact h2.insert_present_same hlt v (e := v) (by rw [h4]; simp) (hlt.equal_self v)

set_option maxRecDepth 100000 in
theorem insert_present_unchanged_witness :
    size (build ltN 0 [5, 3, 8, 1, 4, 7]) = 6 ∧
      size (build ltN 0 [5, 3, 8, 1, 4, 7, 9, 9]) = 7 ∧
      ((∀ v, (∃ e ∈ [1, 3, 4, 5, 7, 8, 9], Equal ltN e v = true) →
          insert ltN demoSet v = some demoSet) ∧
        (∀ v, (∀ e ∈ [1, 3, 4, 5, 7, 8, 9], Equal ltN e v = false) →
          ∃ s2, insert ltN demoSet v = some s2 ∧ insert ltN s2 v = some s2 ∧
            size s2 = size demoSet + 1) ∧
        [1, 3, 4, 5, 7, 8, 9].Pairwise (fun a b => Equal ltN a b = false)) :=
  ⟨by decide!, by decide!,
    insert_present_unchanged ltN strictTotal_ltN demoSet [1, 3, 4, 5, 7, 8, 9]
      demoSet_reachable (by decide!)⟩

/-- C10: for every reachable set whose traversal is `L` and every value `v` that
no stored value is equivalent to, `erase(v)` returns, so it signals no error,
and the state it returns is the very same state (heap with all nodes, links and
colours, root and size).  The proof uses nothing of the comparison. -/
theorem erase_absent_unchanged (lt : α → α → Bool) (s : Set α) (L : List α) (v : α)
    (hs : Reachable lt s) (hL : traversal s = some L)
    (habs : ∀ e ∈ L, Equal lt e v = false) : erase lt s v = some s := by
  obtain ⟨t, ht, rfl⟩ := hs.inv0_of_traversal hL
  exact erase_absent lt v ht.shape (zoom_leaf_of_absent lt v habs)

set_option maxRecDepth 100000 in
theorem erase_absent_unchanged_witness : erase ltN demoSet 6 = some demoSet :=
  erase_absent_unchanged ltN demoSet [1, 3, 4, 5, 7, 8, 9] 6 demoSet_reachable (by decide!)
    (by decide!)

end RBSet

/-!
## Positions

Every cell of the stored tree can be taken as the focus; `Successor` and
`Predecessor` then step to the neighbouring cells of the in-order sequence.
-/

namespace RBSet

variable {α : Type}

/-- Every cell of a tree is the root of a subtree at the end of some path, with
the cells before it to its left and the cells after it to its right. -/
theorem focus_cell (t : Tree α) :
    ∀ (p : Path α) (A B : List (Nat × α)) (c : Nat × α), t.cells = A ++ c :: B →
      ∃ (q : Path α) (k : Color) (l r : Tree α),
        plug q (Tree.node c.1 k l c.2 r) = plug p t ∧ cellsL q ++ l.cells = cellsL p ++ A ∧
          r.cells ++ cellsR q = B ++ cellsR p := by
  induction t with
  | leaf => intro p A B c h; simp at h
  | node a k l v r ihl ihr =>
    intro p A B c h
    rw [cells_node, List.append_eq_append_iff] at h
    have here : ∀ (A2 B2 : List (Nat × α)) (c2 : Nat × α), c2 = (a, v) → A2 = l.cells →
        B2 = r.cells → ∃ (q : Path α) (k2 : Color) (l2 r2 : Tree α),
          plug q (Tree.node c2.1 k2 l2 c2.2 r2) = plug p (Tree.node a k l v r) ∧
            cellsL q ++ l2.cells = cellsL p ++ A2 ∧ r2.cells ++ cellsR q = B2 ++ cellsR p := by
      rintro A2 B2 c2 rfl rfl rfl
      exact ⟨p, k, l, r, rfl, rfl, rfl⟩
    rcases h with ⟨m, hA, hm⟩ | ⟨m, hl, hm⟩
    · rcases m with _ | ⟨x, m⟩
      · simp only [List.nil_append, List.cons.injEq] at hm
        exact here A B c hm.1.symm (by simpa using hA) hm.2.symm
      · simp only [List.cons_append, List.cons.injEq] at hm
        obtain ⟨q, k2, l2, r2, h1, h2, h3⟩ := ihr (Frame.right a k l v :: p) m B c hm.2
        refine ⟨q, k2, l2, r2, by rw [h1]; rfl, ?_, by rw [h3]; simp [cellsR]⟩
        rw [h2, hA, ← hm.1]
        simp [cellsL]
    · rcases m with _ | ⟨x, m⟩
      · simp only [List.nil_append, List.cons.injEq] at hm
        exact here A B c hm.1 (by simpa using hl.symm) hm.2
      · simp only [List.cons_append, List.cons.injEq] at hm
        obtain ⟨q, k2, l2, r2, h1, h2, h3⟩ := ihl (Frame.left a k v r :: p) A m x hl
        rw [hm.1]
        refine ⟨q, k2, l2, r2, by rw [h1]; rfl, by rw [h2]; simp [cellsL], ?_⟩
        rw [h3, hm.2]
        simp [cellsR]

/-- The heap can be focused at every cell of the stored tree. -/
theorem Set.Shape.focus_at {s : Set α} {t : Tree α} (h : s.Shape t) {A B : List (Nat × α)}
    {c : Nat × α} (hc : t.cells = A ++ c :: B) :
    ∃ (q : Path α) (k : Color) (l r : Tree α), Zip s q (Tree.node c.1 k l c.2 r) ∧
      plug q (Tree.node c.1 k l c.2 r) = t ∧ cellsL q ++ l.cells = A ∧
      r.cells ++ cellsR q = B := by
  obtain ⟨q, k, l, r, h1, h2, h3⟩ := focus_cell t [] A B c hc
  rw [plug_nil] at h1
  refine ⟨q, k, l, r, Zip.focus (by rw [h1]; exact h.zip), h1, by simpa [cellsL] using h2,
    by simpa [cellsR] using h3⟩

/-- An address of the tree is the address of one of its cells. -/
theorem cells_split_of_mem {t : Tree α} {x : Nat} (hx : x ∈ t.addrs) :
    ∃ A v B, t.cells = A ++ (x, v) :: B := by
  rw [addrs_eq_cells, List.mem_map] at hx
  obtain ⟨c, hc, rfl⟩ := hx
  obtain ⟨A, B, h⟩ := List.append_of_mem hc
  exact ⟨A, c.2, B, h⟩

/-- `operator++` at a cell of the tree gives the next cell, `end()` after the last. -/
theorem iterNext_cell {s : Set α} {t : Tree α} (h : s.Shape t) {A B : List (Nat × α)}
    {c : Nat × α} (hc : t.cells = A ++ c :: B) : iterNext s c.1 = some (headAddr s.nil_ B) := by
  obtain ⟨q, k, l, r, hz, -, -, h3⟩ := h.focus_at hc
  rw [iterNext, Successor_spec hz, h3]

/-! ### The mirror image: the rightmost node and `Predecessor` -/

theorem maxPath_plug (t : Tree α) : plug (maxPath t) (maxTree t) = t := by
  induction t with
  | leaf => rfl
  | node a c l v r _ ihr =>
    cases r with
    | leaf => rfl
    | node ra rc rl rv rr =>
      simp only [maxPath, maxTree, plug_append]
      rw [ihr]
      rfl

theorem maxTree_shape (a : Nat) (c : Color) (l : Tree α) (v : α) (r : Tree α) :
    ∃ y yc yl yv, maxTree (Tree.node a c l v r) = Tree.node y yc yl yv Tree.leaf := by
  induction r generalizing a c l v with
  | leaf => exact ⟨a, c, l, v, rfl⟩
  | node ra rc rl rv rr _ ihr =>
    simp only [maxTree]
    exact ihr ra rc rl rv

theorem cellsR_maxPath (t : Tree α) : cellsR (maxPath t) = [] := by
  induction t with
  | leaf => rfl
  | node a c l v r _ ihr =>
    cases r with
    | leaf => rfl
    | node ra rc rl rv rr =>
      simp only [maxPath, cellsR_append, ihr]
      rfl

/-- The loop of `MaxValueNode` stops at the rightmost node. -/
theorem MaxValueNodeLoop_maxTree {s : Set α} (t : Tree α) :
    ∀ (par fuel : Nat), Repr s t par → t ≠ Tree.leaf → t.height ≤ fuel →
    MaxValueNodeLoop s fuel (t.ptr s.nil_) = some ((maxTree t).ptr s.nil_) := by
  induction t with
  | leaf => intro _ _ _ h; exact absurd rfl h
  | node a c l v r _ ihr =>
    intro par fuel h _ hf
    simp only [Tree.height] at hf
    obtain ⟨k, rfl⟩ : ∃ k, fuel = k + 1 := ⟨fuel - 1, by omega⟩
    simp only [Repr] at h
    cases r with
    | leaf =>
      simp [MaxValueNodeLoop, maxTree, h.2.2.2.2.1]
    | node ra rc rl rv rr =>
      have hr := h.2.2.2.2.2.2.2
      have hra : ra ≠ s.nil_ := by simp only [Repr] at hr; exact hr.1
      have := ihr a k hr (by simp) (by omega)
      simp only [ptr_node] at this
      simp [MaxValueNodeLoop, maxTree, h.2.2.2.2.1, hra, this]

theorem Zip.maxTree_focus {s : Set α} {p : Path α} {t : Tree α} (h : Zip s p t) :
    Zip s (maxPath t ++ p) (maxTree t) := by
  apply Zip.focus
  rw [plug_append, maxPath_plug]
  exact h.top

theorem MaxValueNode_spec {s : Set α} {p : Path α} {t : Tree α} (h : Zip s p t)
    (ht : t ≠ Tree.leaf) : MaxValueNode s (t.ptr s.nil_) = some ((maxTree t).ptr s.nil_) := by
  have hb := h.budget
  exact MaxValueNodeLoop_maxTree t _ s.next h.sub ht (by omega)

theorem lastAddr_nil (nil : Nat) : lastAddr nil ([] : List (Nat × α)) = nil := rfl

theorem lastAddr_append_singleton (nil : Nat) (cs : List (Nat × α)) (c : Nat × α) :
    lastAddr nil (cs ++ [c]) = c.1 := by
  simp [lastAddr, headAddr]

theorem lastAddr_cells (nil : Nat) (t : Tree α) (pre : List (Nat × α)) (ht : t ≠ Tree.leaf) :
    lastAddr nil (pre ++ t.cells) = (maxTree t).ptr nil := by
  induction t generalizing pre with
  | leaf => exact absurd rfl ht
  | node a c l v r _ ihr =>
    cases r with
    | leaf =>
      have := lastAddr_append_singleton nil (pre ++ l.cells) (a, v)
      simpa [maxTree] using this
    | node ra rc rl rv rr =>
      have := ihr (pre ++ (l.cells ++ [(a, v)])) (by simp)
      simp only [cells_node, maxTree, List.append_assoc, List.singleton_append] at this ⊢
      exact this

theorem lastAddr_cellsL (nil : Nat) (p : Path α) : lastAddr nil (cellsL p) = predUp nil p := by
  induction p with
  | nil => rfl
  | cons f p ih =>
    cases f with
    | left b bc bv br => simpa [cellsL, predUp] using ih
    | right b bc bl bv =>
      have := lastAddr_append_singleton nil (cellsL p ++ bl.cells) (b, bv)
      simpa [cellsL, predUp] using this

/-- The upward walk of `Predecessor` from the subtree below a path. -/
theorem PredecessorLoop_predUp {s : Set α} (p : Path α) :
    ∀ (a : Nat) (c : Color) (l : Tree α) (v : α) (r : Tree α) (fuel : Nat),
      Zip s p (Tree.node a c l v r) → p.length + 1 ≤ fuel →
      PredecessorLoop s fuel a (pathPtr s.nil_ p) = some (predUp s.nil_ p) := by
  induction p with
  | nil =>
    intro a c l v r fuel _ hf
    obtain ⟨k, rfl⟩ : ∃ k, fuel = k + 1 := ⟨fuel - 1, by simp at hf; omega⟩
    simp [PredecessorLoop, predUp]
  | cons f p ih =>
    intro a c l v r fuel h hf
    obtain ⟨k, rfl⟩ : ∃ k, fuel = k + 1 := ⟨fuel - 1, by simp at hf; omega⟩
    have ha := h.ptr_ne_nil
    have hn := h.nodup
    cases f with
    | right b bc bl bv =>
      have hp := h.path
      simp only [ReprPath, ptr_node] at hp
      simp only [addrs_node, pathAddrs_cons, pathAddrs_nil, addr_right, sib_right,
        List.nodup_append, List.nodup_cons, List.mem_append, nmem_cons, not_or,
        List.disjoint_append_left, List.disjoint_append_right, List.disjoint_cons_left,
        List.disjoint_cons_right] at hn
      have hne : ¬ a = bl.ptr s.nil_ := by
        rw [eq_ptr_false ha (by simp [*])]; exact id
      simp [PredecessorLoop, predUp, hp.2.2.2.1, hne]
    | left b bc bv br =>
      have hp := h.path
      simp only [ReprPath, ptr_node] at hp
      have hu := h.up
      simp only [fill_left] at hu
      have := ih b bc _ bv br k hu (by simp at hf ⊢; omega)
      rw [← hu.parent_eq] at this
      simp [PredecessorLoop, predUp, hp.2.2.2.1, hp.1, this]

/-- `Predecessor` returns the previous cell in in-order, the sentinel before the first one. -/
theorem Predecessor_spec {s : Set α} {p : Path α} {a : Nat} {c : Color} {l r : Tree α} {v : α}
    (h : Zip s p (Tree.node a c l v r)) :
    Predecessor s a = some (lastAddr s.nil_ (cellsL p ++ l.cells)) := by
  have hs := h.sub
  simp only [Repr] at hs
  have hb := h.budget
  cases l with
  | leaf =>
    simp only [ptr_leaf] at hs
    simp only [Predecessor, hs.2.2.2.1, ne_eq, not_true_eq_false, if_false, cells_leaf,
      List.append_nil, lastAddr_cellsL]
    rw [hs.2.2.2.2.2.1]
    exact PredecessorLoop_predUp p a c Tree.leaf v r s.next h (by omega)
  | node b bc bl bv br =>
    have hd : Zip s (Frame.left a c v r :: p) (Tree.node b bc bl bv br) := Zip.down h
    have hm := MaxValueNode_spec hd (by simp)
    simp only [ptr_node] at hs hm
    rw [lastAddr_cells _ _ _ (by simp)]
    simp [Predecessor, hs.2.2.2.1, hd.ptr_ne_nil, hm]

/-- `operator--` at a cell of the tree gives the previous cell. -/
theorem iterPrev_cell {s : Set α} {t : Tree α} (h : s.Shape t) {A B : List (Nat × α)}
    {c : Nat × α} (hc : t.cells = A ++ c :: B) : iterPrev s c.1 = some (lastAddr s.nil_ A) := by
  obtain ⟨q, k, l, r, hz, -, h2, -⟩ := h.focus_at hc
  rw [iterPrev, if_pos hz.ptr_ne_nil, Predecessor_spec hz, h2]

/-- `operator--` at `end()` gives the last cell of the tree. -/
theorem iterPrev_end {s : Set α} {t : Tree α} (h : s.Shape t) :
    iterPrev s (end_ s) = some (lastAddr s.nil_ t.cells) := by
  simp only [iterPrev, end_, ne_eq, not_true_eq_false, if_false]
  cases t with
  | leaf =>
    have hn := h.nil
    have hr := h.root
    simp only [ptr_leaf] at hr
    obtain ⟨k, hk⟩ : ∃ k, s.next = k + 1 := ⟨s.next - 1, by have := hn.lt_next; omega⟩
    simp [MaxValueNode, hk, MaxValueNodeLoop, hr, hn.right, lastAddr, headAddr]
  | node a c l v r =>
    have hm := MaxValueNode_spec h.zip (by simp)
    rw [← h.root] at hm
    have := lastAddr_cells s.nil_ (Tree.node a c l v r) [] (by simp)
    rw [List.nil_append] at this
    rw [this]
    exact hm

end RBSet

/-!
## Height, uniqueness of the stored tree, and the effect of the calls on cells
-/

namespace RBSet

variable {α : Type}

/-! ### The height bound of red-black trees -/

/-- A tree of uniform black height `bh` has at least `2 ^ bh - 1` nodes. -/
theorem two_pow_bh_le_count (t : Tree α) (hb : t.Balanced) : 2 ^ t.bh ≤ t.count + 1 := by
  induction t with
  | leaf => simp [Tree.bh, Tree.count]
  | node a c l v r ihl ihr =>
    simp only [Tree.Balanced] at hb
    have h1 := ihl hb.2.1
    have h2 := ihr hb.2.2
    rw [← hb.1] at h2
    simp only [Tree.bh, Tree.count]
    rcases color_cases c with rfl | rfl
    · simp only [reduceCtorEq, if_false, Nat.add_zero]
      omega
    · simp only [if_true, Nat.pow_succ]
      omega

/-- Without a RED-RED pair the height is at most twice the black height, plus
one below a RED root. -/
theorem height_le_two_bh (t : Tree α) (hn : t.NoRedRed) (hb : t.Balanced) :
    t.height ≤ 2 * t.bh + (if t.color = Color.RED then 1 else 0) := by
  induction t with
  | leaf => simp [Tree.height]
  | node a c l v r ihl ihr =>
    simp only [Tree.Balanced] at hb
    simp only [Tree.NoRedRed] at hn
    have h1 := ihl hn.2.1 hb.2.1
    have h2 := ihr hn.2.2 hb.2.2
    rw [← hb.1] at h2
    simp only [Tree.height, Tree.bh, color_node]
    rcases color_cases c with rfl | rfl
    · obtain ⟨hl, hr⟩ := hn.1 rfl
      simp only [hl, hr, reduceCtorEq, if_false, Nat.add_zero] at h1 h2
      simp only [reduceCtorEq, if_false, if_true, Nat.add_zero]
      omega
    · simp only [if_true, reduceCtorEq, if_false, Nat.add_zero]
      have : (if l.color = Color.RED then 1 else 0) ≤ 1 := by split <;> omega
      have : (if r.color = Color.RED then 1 else 0) ≤ 1 := by split <;> omega
      omega

/-- The height bound of a red-black tree with `n` nodes: `2 ^ ⌈h / 2⌉ ≤ n + 1`,
hence `h ≤ 2 * log2 (n + 1)`. -/
theorem Tree.RedBlack.height_bound {t : Tree α} (h : t.RedBlack) :
    2 ^ ((t.height + 1) / 2) ≤ t.count + 1 ∧ t.height ≤ 2 * Nat.log 2 (t.count + 1) := by
  obtain ⟨hc, hn, hb⟩ := h
  have h1 := height_le_two_bh t hn hb
  simp only [hc, reduceCtorEq, if_false, Nat.add_zero] at h1
  have h2 := two_pow_bh_le_count t hb
  have h3 : (t.height + 1) / 2 ≤ t.bh := by omega
  have h4 : 2 ^ ((t.height + 1) / 2) ≤ t.count + 1 :=
    le_trans (Nat.pow_le_pow_right (by decide) h3) h2
  refine ⟨h4, ?_⟩
  have h5 : (t.height + 1) / 2 ≤ Nat.log 2 (t.count + 1) :=
    Nat.le_log_of_pow_le (by decide) h4
  omega

/-! ### The stored tree is unique -/

theorem Repr.unique {s : Set α} (t : Tree α) :
    ∀ (t2 : Tree α) (par par2 : Nat), Repr s t par → Repr s t2 par2 →
      t.ptr s.nil_ = t2.ptr s.nil_ → t = t2 := by
  induction t with
  | leaf =>
    intro t2 par par2 _ h2 he
    cases t2 with
    | leaf => rfl
    | node a c l v r =>
      simp only [Repr] at h2
      simp only [ptr_leaf, ptr_node] at he
      exact absurd he.symm h2.1
  | node a c l v r ihl ihr =>
    intro t2 par par2 h1 h2 he
    simp only [Repr] at h1
    cases t2 with
    | leaf =>
      simp only [ptr_leaf, ptr_node] at he
      exact absurd he h1.1
    | node a2 c2 l2 v2 r2 =>
      simp only [Repr] at h2
      simp only [ptr_node] at he
      subst he
      obtain ⟨_, e1, e2, e3, e4, _, e5, e6⟩ := h1
      obtain ⟨_, f1, f2, f3, f4, _, f5, f6⟩ := h2
      have hl := ihl l2 a a e5 f5 (by rw [← e3, ← f3])
      have hr := ihr r2 a a e6 f6 (by rw [← e4, ← f4])
      rw [← e1, ← e2, hl, hr, f1, f2]

/-- A state stores at most one tree. -/
theorem Set.Shape.unique_tree {s : Set α} {t t2 : Tree α} (h : s.Shape t) (h2 : s.Shape t2) :
    t = t2 :=
  Repr.unique t t2 _ _ h.repr h2.repr (by rw [← h.root, ← h2.root])

/-! ### Splitting an ascending sequence at a value -/

theorem append_cons_unique {v : α} :
    ∀ {L1 L2 A B : List α}, L1 ++ v :: L2 = A ++ v :: B → v ∉ L1 → v ∉ A → L1 = A ∧ L2 = B := by
  intro L1
  induction L1 with
  | nil =>
    intro L2 A B h _ h2
    cases A with
    | nil => simpa using h
    | cons a A =>
      simp only [List.nil_append, List.cons_append, List.cons.injEq] at h
      exact absurd (by simp [h.1]) h2
  | cons x L1 ih =>
    intro L2 A B h h1 h2
    cases A with
    | nil =>
      simp only [List.nil_append, List.cons_append, List.cons.injEq] at h
      exact absurd (by simp [h.1]) h1
    | cons a A =>
      simp only [List.cons_append, List.cons.injEq] at h
      simp only [List.mem_cons, not_or] at h1 h2
      obtain ⟨e1, e2⟩ := ih h.2 h1.2 h2.2
      exact ⟨by rw [h.1, e1], e2⟩

theorem not_mem_left_of_ascending {lt : α → α → Bool} (hlt : StrictTotal lt) {A B : List α}
    {v : α} (h : Ascending lt (A ++ v :: B)) : v ∉ A ∧ v ∉ B := by
  simp only [Ascending, List.pairwise_append, List.pairwise_cons, List.mem_cons] at h
  constructor
  · intro hv
    have := h.2.2 v hv v (Or.inl rfl)
    rw [hlt.irrefl] at this
    exact absurd this (by simp)
  · intro hv
    have := h.2.1.1 v hv
    rw [hlt.irrefl] at this
    exact absurd this (by simp)

theorem Ascending.nodup {lt : α → α → Bool} (hlt : StrictTotal lt) {L : List α}
    (h : Ascending lt L) : L.Nodup := by
  refine List.Pairwise.imp ?_ h
  intro a b hab e
  subst e
  rw [hlt.irrefl] at hab
  exact absurd hab (by simp)

end RBSet

/-!
## The effect of the calls on the cells and on the stored values
-/

namespace RBSet

variable {α : Type}

/-- `insert` of a value that no stored value is equivalent to adds exactly one
cell, at the fresh address, and keeps every other cell in place. -/
theorem Inv.insert_absent_cells {lt : α → α → Bool} (hlt : StrictTotal lt) {s : Set α}
    {t : Tree α} (h : Inv lt s t) (v : α) (habs : ∀ e ∈ t.inorder, Equal lt e v = false) :
    ∃ s2 t2 A B, insert lt s v = some s2 ∧ Inv lt s2 t2 ∧ t.cells = A ++ B ∧
      t2.cells = A ++ (s.next, v) :: B ∧ s.next ∉ t.addrs ∧ s2.size_ = s.size_ + 1 ∧
      s2.next = s.next + 1 ∧ s2.freed = s.freed := by
  have hf := zoom_leaf_of_absent lt v habs
  obtain ⟨s2, t2, e, sh, -, hc, -, -, hnx, hfr, -⟩ := RBSet.insert_absent lt v h.shape h.rb hf
  obtain ⟨s3, t3, _, _, e3, h3, -, -, -, -, hsz⟩ := h.insert_absent_sorted hlt v habs
  rw [e] at e3
  cases e3
  have ht : t2 = t3 := sh.unique_tree h3.shape
  subst ht
  have hz := cells_zoom lt v t
  rw [hf] at hz
  refine ⟨s2, t2, cellsL (zoom lt v t []).1, cellsR (zoom lt v t []).1, e, h3,
    by simpa using hz, by rw [hc, cells_plug]; simp, ?_, hsz, hnx, hfr⟩
  intro hm
  have := h.shape.fresh _ hm
  omega

/-- `erase` of a value that some stored value is equivalent to removes exactly
the cell that holds it: the other cells stay in place, under their addresses
and with their values, and the freed address is that of the removed cell. -/
theorem Inv.erase_present_cells {lt : α → α → Bool} (hlt : StrictTotal lt) {s : Set α}
    {t : Tree α} (h : Inv lt s t) (v : α) {e : α} (he : e ∈ t.inorder)
    (hev : Equal lt e v = true) :
    ∃ s2 t2 A B z, erase lt s v = some s2 ∧ Inv lt s2 t2 ∧ t.cells = A ++ (z, v) :: B ∧
      t2.cells = A ++ B ∧ s2.size_ + 1 = s.size_ ∧ s2.next = s.next ∧
      s2.freed = z :: s.freed ∧ ∀ a, s2.value a = s.value a := by
  have hne := zoom_node_of_present hlt.trans v h.asc he hev
  rcases hq : (zoom lt v t []).2 with _ | ⟨z, zc, l, w, r⟩
  · exact absurd hq hne
  obtain ⟨s2, t2, e2, sh, -, hc, -, -, hnx, hfr, hval, -⟩ := erase_found lt v h.shape h.rb hq
  obtain ⟨s3, t3, _, _, e3, h3, -, -, hsz, -⟩ := h.erase_present_removed hlt v he hev
  rw [e2] at e3
  cases e3
  have ht : t2 = t3 := sh.unique_tree h3.shape
  subst ht
  have hw : w = v := hlt.eq_of_equal (zoom_found lt v t [] hq)
  subst hw
  have hz := cells_zoom lt w t
  rw [hq] at hz
  refine ⟨s2, t2, cellsL (zoom lt w t []).1 ++ l.cells, r.cells ++ cellsR (zoom lt w t []).1, z,
    e2, h3, by rw [hz]; simp, by rw [hc]; simp, hsz, hnx, hfr, hval⟩

/-- The values a set holds after `insert(v)`: those it held, and `v`. -/
theorem insert_members {lt : α → α → Bool} (hlt : StrictTotal lt) {s : Set α} {L : List α}
    (hs : Reachable lt s) (hL : traversal s = some L) (v : α) :
    ∃ s2 L2, insert lt s v = some s2 ∧ Reachable lt s2 ∧ traversal s2 = some L2 ∧
      ∀ x, x ∈ L2 ↔ x = v ∨ x ∈ L := by
  obtain ⟨t, ht, rfl⟩ := hs.inv_of_traversal hlt hL
  rcases present_or_absent lt v t.inorder with ⟨e, he, hev⟩ | habs
  · have e1 := ht.insert_present_same hlt v he hev
    refine ⟨s, t.inorder, e1, hs, hL, fun x => ⟨Or.inr, ?_⟩⟩
    rintro (rfl | hx)
    · rw [← hlt.eq_of_equal hev]; exact he
    · exact hx
  · obtain ⟨s2, t2, L1, L2, e1, h2, h3, h4, -⟩ := ht.insert_absent_sorted hlt v habs
    refine ⟨s2, t2.inorder, e1, Reachable.insert v hs e1, traversal_eq h2.shape, fun x => ?_⟩
    rw [h4, h3]
    simp only [List.mem_append, List.mem_cons]
    tauto

/-- The values a set holds after `erase(v)`: those it held, except `v`. -/
theorem erase_members {lt : α → α → Bool} (hlt : StrictTotal lt) {s : Set α} {L : List α}
    (hs : Reachable lt s) (hL : traversal s = some L) (v : α) :
    ∃ s2 L2, erase lt s v = some s2 ∧ Reachable lt s2 ∧ traversal s2 = some L2 ∧
      ∀ x, x ∈ L2 ↔ x ∈ L ∧ x ≠ v := by
  obtain ⟨t, ht, rfl⟩ := hs.inv_of_traversal hlt hL
  rcases present_or_absent lt v t.inorder with ⟨e, he, hev⟩ | habs
  · obtain ⟨s2, t2, A, B, e1, h2, h3, h4, -⟩ := ht.erase_present_removed hlt v he hev
    refine ⟨s2, t2.inorder, e1, Reachable.erase v hs e1, traversal_eq h2.shape, fun x => ?_⟩
    obtain ⟨n1, n2⟩ := not_mem_left_of_ascending hlt (h3 ▸ ht.asc)
    rw [h4, h3]
    simp only [List.mem_append, List.mem_cons]
    constructor
    · rintro (hx | hx)
      · exact ⟨Or.inl hx, fun e => n1 (e ▸ hx)⟩
      · exact ⟨Or.inr (Or.inr hx), fun e => n2 (e ▸ hx)⟩
    · rintro ⟨hx | hx | hx, hne⟩
      · exact Or.inl hx
      · exact absurd hx hne
      · exact Or.inr hx
  · have e1 := ht.erase_absent_same v habs
    refine ⟨s, t.inorder, e1, hs, hL, fun x => ⟨fun hx => ⟨hx, ?_⟩, fun hx => hx.1⟩⟩
    rintro rfl
    have := habs x hx
    rw [hlt.equal_self] at this
    exact absurd this (by simp)

/-- The loop of the range constructor returns; the set then holds the values it
held before and the values of the range. -/
theorem rangeLoop_members {lt : α → α → Bool} (hlt : StrictTotal lt) (vs : List α) :
    ∀ {s : Set α} {L : List α}, Reachable lt s → traversal s = some L →
      ∃ s2 L2, rangeLoop lt s vs = some s2 ∧ Reachable lt s2 ∧ traversal s2 = some L2 ∧
        ∀ x, x ∈ L2 ↔ x ∈ L ∨ x ∈ vs := by
  induction vs with
  | nil => intro s L hs hL; exact ⟨s, L, rfl, hs, hL, by simp⟩
  | cons v vs ih =>
    intro s L hs hL
    obtain ⟨s1, L1, e1, hs1, hL1, m1⟩ := insert_members hlt hs hL v
    obtain ⟨s2, L2, e2, hs2, hL2, m2⟩ := ih hs1 hL1
    refine ⟨s2, L2, by simp [rangeLoop, e1, e2], hs2, hL2, fun x => ?_⟩
    rw [m2, m1]
    simp only [List.mem_cons]
    tauto

/-- The calls `erase(v)` for the values of a list return; the set then holds the
values it held before except those of the list. -/
theorem eraseEach_members {lt : α → α → Bool} (hlt : StrictTotal lt) (vs : List α) :
    ∀ {s : Set α} {L : List α}, Reachable lt s → traversal s = some L →
      ∃ s2 L2, eraseEach lt s vs = some s2 ∧ Reachable lt s2 ∧ traversal s2 = some L2 ∧
        ∀ x, x ∈ L2 ↔ x ∈ L ∧ x ∉ vs := by
  induction vs with
  | nil => intro s L hs hL; exact ⟨s, L, rfl, hs, hL, by simp⟩
  | cons v vs ih =>
    intro s L hs hL
    obtain ⟨s1, L1, e1, hs1, hL1, m1⟩ := erase_members hlt hs hL v
    obtain ⟨s2, L2, e2, hs2, hL2, m2⟩ := ih hs1 hL1
    refine ⟨s2, L2, by simp [eraseEach, e1, e2], hs2, hL2, fun x => ?_⟩
    rw [m2, m1]
    simp only [List.mem_cons, not_or]
    tauto

theorem traversal_new (dflt : α) : traversal (Set.new dflt) = some [] :=
  traversal_eq (Set.Shape.new_leaf dflt)

/-- A reachable set that holds no value has size zero and its root is the sentinel. -/
theorem Reachable.empty_state {lt : α → α → Bool} {s : Set α} (hs : Reachable lt s)
    (hL : traversal s = some []) : size s = 0 ∧ s.root_ = s.nil_ := by
  obtain ⟨t, ht, hin⟩ := hs.inv0_of_traversal hL
  have hl := Tree.eq_leaf_of_inorder hin
  subst hl
  exact ⟨ht.size, ht.shape.root⟩

/-! ### Iteration step by step -/

/-- After `k` increments an iterator that stood at the first of the cells `B`
stands at the first cell of `B` without its first `k` cells. -/
theorem iterAdvance_cells {s : Set α} {t : Tree α} (h : s.Shape t) (k : Nat) :
    ∀ (A B : List (Nat × α)), t.cells = A ++ B → k ≤ B.length →
      iterAdvance s k (headAddr s.nil_ B) = some (headAddr s.nil_ (B.drop k)) := by
  induction k with
  | zero => intro A B _ _; rfl
  | succ k ih =>
    intro A B hc hk
    rcases B with _ | ⟨c, B⟩
    · simp at hk
    · have h1 := iterNext_cell h hc
      have h2 := ih (A ++ [c]) B (by rw [hc]; simp) (by simpa using hk)
      simp only [iterAdvance, headAddr, h1, List.drop_succ_cons]
      exact h2

theorem headAddr_eq_nil_iff {s : Set α} {t : Tree α} (h : s.Shape t) {A B : List (Nat × α)}
    (hc : t.cells = A ++ B) : headAddr s.nil_ B = s.nil_ ↔ B = [] := by
  rcases B with _ | ⟨c, B⟩
  · simp [headAddr]
  · have : c ∈ t.cells := by rw [hc]; simp
    simp [headAddr, h.repr.ne_nil_of_mem this]

/-! ### Rotations -/

/-- `LeftRotate` at a node of the tree whose right child is a node keeps the
state well-formed and keeps every cell at its place in the in-order sequence. -/
theorem LeftRotate_cells {s : Set α} {t : Tree α} (h : s.Shape t) {x : Nat}
    (hx : x ∈ t.addrs) (hr : s.right x ≠ s.nil_) :
    ∃ t2, (LeftRotate s x).Shape t2 ∧ t2.cells = t.cells := by
  obtain ⟨A, v, B, hc⟩ := cells_split_of_mem hx
  obtain ⟨q, k, l, r, hz, hp, -, -⟩ := h.focus_at hc
  have hs := hz.sub
  simp only [Repr] at hs
  cases r with
  | leaf => simp only [ptr_leaf] at hs; exact absurd hs.2.2.2.2.1 hr
  | node y cy b vy d =>
    refine ⟨_, hz.rotateLeft.top.shape, ?_⟩
    rw [← hp, cells_plug, cells_plug]
    simp

/-- `RightRotate` at a node of the tree whose left child is a node keeps the
state well-formed and keeps every cell at its place in the in-order sequence. -/
theorem RightRotate_cells {s : Set α} {t : Tree α} (h : s.Shape t) {x : Nat}
    (hx : x ∈ t.addrs) (hl : s.left x ≠ s.nil_) :
    ∃ t2, (RightRotate s x).Shape t2 ∧ t2.cells = t.cells := by
  obtain ⟨A, v, B, hc⟩ := cells_split_of_mem hx
  obtain ⟨q, k, l, r, hz, hp, -, -⟩ := h.focus_at hc
  have hs := hz.sub
  simp only [Repr] at hs
  cases l with
  | leaf => simp only [ptr_leaf] at hs; exact absurd hs.2.2.2.1 hl
  | node y cy b vy d =>
    refine ⟨_, hz.rotateRight.top.shape, ?_⟩
    rw [← hp, cells_plug, cells_plug]
    simp

end RBSet

/-!
## Runs of calls
-/

namespace RBSet

variable {α : Type}

/-- The loop of the range constructor returns and keeps the order-free
invariant, whatever the comparison is. -/
theorem rangeLoop_inv0 (lt : α → α → Bool) (vs : List α) :
    ∀ {s : Set α} {t : Tree α}, Inv0 s t → ∃ s2 t2, rangeLoop lt s vs = some s2 ∧ Inv0 s2 t2 := by
  induction vs with
  | nil => intro s t h; exact ⟨s, t, rfl, h⟩
  | cons v vs ih =>
    intro s t h
    obtain ⟨s1, t1, e1, h1⟩ := h.insert_inv0 lt v
    obtain ⟨s2, t2, e2, h2⟩ := ih h1
    exact ⟨s2, t2, by simp [rangeLoop, e1, e2], h2⟩

/-- Two strictly ascending sequences with the same members are equal. -/
theorem ascending_ext {lt : α → α → Bool} (hlt : StrictTotal lt) {L M : List α}
    (hL : Ascending lt L) (hM : Ascending lt M) (h : ∀ x, x ∈ L ↔ x ∈ M) : L = M := by
  haveI : IsAntisymm α (fun a b => lt a b = true) :=
    ⟨fun a b h1 h2 => by rw [hlt.asymm h1] at h2; exact absurd h2 (by simp)⟩
  exact List.eq_of_perm_of_sorted
    ((List.perm_ext_iff_of_nodup (hL.nodup hlt) (hM.nodup hlt)).mpr h) hL hM

/-- Inserting the values of a strictly ascending sequence into a fresh set
gives a set whose traversal is that sequence. -/
theorem rangeLoop_ascending {lt : α → α → Bool} (hlt : StrictTotal lt) (dflt : α) {ws : List α}
    (hasc : Ascending lt ws) :
    ∃ s t, rangeLoop lt (Set.new dflt) ws = some s ∧ Reachable lt s ∧ Inv lt s t ∧
      traversal s = some ws := by
  obtain ⟨s, L, e, hs, hL, hm⟩ := rangeLoop_members hlt ws (Reachable.new dflt)
    (traversal_new dflt)
  obtain ⟨t, ht, rfl⟩ := hs.inv_of_traversal hlt hL
  have : t.inorder = ws := ascending_ext hlt ht.asc hasc (fun x => by rw [hm]; simp)
  exact ⟨s, t, e, hs, ht, by rw [hL, this]⟩

/-- Erasing the values of the front part of a strictly ascending traversal
leaves the back part. -/
theorem eraseEach_ascending {lt : α → α → Bool} (hlt : StrictTotal lt) {s1 : Set α}
    {A B : List α} (hs : Reachable lt s1) (hL : traversal s1 = some (A ++ B))
    (hasc : Ascending lt (A ++ B)) :
    ∃ s t, eraseEach lt s1 A = some s ∧ Reachable lt s ∧ Inv lt s t ∧ traversal s = some B := by
  obtain ⟨s, L, e, hs2, hL2, hm⟩ := eraseEach_members hlt A hs hL
  obtain ⟨t, ht, rfl⟩ := hs2.inv_of_traversal hlt hL2
  have hnd := hasc.nodup hlt
  have hB : Ascending lt B := (List.pairwise_append.mp hasc).2.1
  have : t.inorder = B := by
    refine ascending_ext hlt ht.asc hB (fun x => ?_)
    rw [hm, List.mem_append]
    constructor
    · rintro ⟨h1 | h1, h2⟩
      · exact absurd h1 h2
      · exact h1
    · intro hx
      exact ⟨Or.inr hx, fun hA => (List.nodup_append.mp hnd).2.2 hA hx⟩
  exact ⟨s, t, e, hs2, ht, by rw [hL2, this]⟩

theorem Ascending.take {lt : α → α → Bool} {L : List α} (h : Ascending lt L) (k : Nat) :
    Ascending lt (L.take k) :=
  List.Pairwise.sublist (List.take_sublist k L) h

end RBSet

/-!
## The claims about round trips, balance, size, iterators, construction and rotations
-/

namespace RBSet

variable {α : Type}

/-- C11: for every reachable set with traversal `L` and every value `v` that no
stored value is equivalent to, `insert(v)` followed by `erase(v)` returns a set
whose `size()` and traversal are those before the insert; nothing is said about
shape and colours of the tree. -/
theorem insert_erase_round_trip (lt : α → α → Bool) (hlt : StrictTotal lt) (s : Set α)
    (L : List α) (v : α) (hs : Reachable lt s) (hL : traversal s = some L)
    (habs : ∀ e ∈ L, Equal lt e v = false) :
    ∃ s2 s3, insert lt s v = some s2 ∧ erase lt s2 v = some s3 ∧ size s3 = size s ∧
      traversal s3 = some L := by
  obtain ⟨t, ht, rfl⟩ := hs.inv_of_traversal hlt hL
  obtain ⟨s2, t2, L1, L2, e1, h2, h3, h4, -, -, hsz⟩ := ht.insert_absent_sorted hlt v habs
  obtain ⟨s3, t3, A, B, e2, h5, h6, h7, hsz2, -⟩ :=
    h2.erase_present_removed hlt v (e := v) (by rw [h4]; simp) (hlt.equal_self v)
  have n1 := (not_mem_left_of_ascending hlt (h4 ▸ h2.asc)).1
  have n2 := (not_mem_left_of_ascending hlt (h6 ▸ h2.asc)).1
  obtain ⟨rfl, rfl⟩ := append_cons_unique (h4.symm.trans h6) n1 n2
  refine ⟨s2, s3, e1, e2, ?_, by rw [traversal_eq h5.shape, h7, h3]⟩
  simp only [size] at hsz ⊢
  omega

set_option maxRecDepth 100000 in
theorem insert_erase_round_trip_witness :
    ∃ s2 s3, insert ltN demoSet 6 = some s2 ∧ erase ltN s2 6 = some s3 ∧
      size s3 = size demoSet ∧ traversal s3 = some [1, 3, 4, 5, 7, 8, 9] :=
  insert_erase_round_trip ltN strictTotal_ltN demoSet [1, 3, 4, 5, 7, 8, 9] 6 demoSet_reachable
    (by decide!) (by decide!)

/-- C12: every sequence of `insert` calls on a fresh set returns, and the tree
it leaves has, with `n` its number of nodes (which is `size()`) and `h` its
height (the number of nodes on the longest path from the root to a sentinel),
`2 ^ ⌈h / 2⌉ ≤ n + 1` and so `h ≤ 2 * log2 (n + 1)`.  The comparison is arbitrary. -/
theorem inserts_height_bound (lt : α → α → Bool) (dflt : α) (vs : List α) :
    ∃ s t, rangeLoop lt (Set.new dflt) vs = some s ∧ s.Shape t ∧ size s = t.count ∧
      2 ^ ((t.height + 1) / 2) ≤ size s + 1 ∧ t.height ≤ 2 * Nat.log 2 (size s + 1) := by
  obtain ⟨s, t, e, h⟩ := rangeLoop_inv0 lt vs (Inv0.new_inv0 dflt)
  have hb := h.rb.height_bound
  have hsz : size s = t.count := h.size
  exact ⟨s, t, e, h.shape, hsz, by rw [hsz]; exact hb.1, by rw [hsz]; exact hb.2⟩

/-- C13: for every reachable set with traversal `L`, `size()` is the number of
nodes of the stored tree.  An `insert` of a value no stored value is equivalent
to adds exactly one cell, at a fresh address, and raises `size()` by one; an
`erase` of a value some stored value is equivalent to removes exactly one cell
and lowers `size()` by one, from a `size()` that is positive, so the counter
does not wrap; after either call `size()` is again the number of nodes. -/
theorem size_counts_nodes (lt : α → α → Bool) (hlt : StrictTotal lt) (s : Set α) (L : List α)
    (hs : Reachable lt s) (hL : traversal s = some L) :
    ∃ t, s.Shape t ∧ size s = t.count ∧
      (∀ v, (∀ e ∈ L, Equal lt e v = false) →
        ∃ s2 t2 A B, insert lt s v = some s2 ∧ s2.Shape t2 ∧ t.cells = A ++ B ∧
          t2.cells = A ++ (s.next, v) :: B ∧ s.next ∉ t.addrs ∧ size s2 = size s + 1 ∧
          size s2 = t2.count) ∧
      (∀ v, (∃ e ∈ L, Equal lt e v = true) →
        ∃ s2 t2 A B z, erase lt s v = some s2 ∧ s2.Shape t2 ∧ t.cells = A ++ (z, v) :: B ∧
          t2.cells = A ++ B ∧ 0 < size s ∧ size s2 + 1 = size s ∧ size s2 = t2.count) := by
  obtain ⟨t, ht, rfl⟩ := hs.inv_of_traversal hlt hL
  refine ⟨t, ht.shape, ht.size, fun v habs => ?_, ?_⟩
  · obtain ⟨s2, t2, A, B, e, h2, c1, c2, hn, hsz, -⟩ := ht.insert_absent_cells hlt v habs
    exact ⟨s2, t2, A, B, e, h2.shape, c1, c2, hn, hsz, h2.size⟩
  · rintro v ⟨e, he, hev⟩
    obtain ⟨s2, t2, A, B, z, e2, h2, c1, c2, hsz, -⟩ := ht.erase_present_cells hlt v he hev
    refine ⟨s2, t2, A, B, z, e2, h2.shape, c1, c2, ?_, hsz, h2.size⟩
    simp only [size]
    omega

set_option maxRecDepth 100000 in
theorem size_counts_nodes_witness :
    size demoSet = 7 ∧ size (eraseAll ltN demoSet [5]) = 6 ∧
      ∃ t, demoSet.Shape t ∧ size demoSet = t.count ∧
        (∀ v, (∀ e ∈ [1, 3, 4, 5, 7, 8, 9], Equal ltN e v = false) →
          ∃ s2 t2 A B, insert ltN demoSet v = some s2 ∧ s2.Shape t2 ∧ t.cells = A ++ B ∧
            t2.cells = A ++ (demoSet.next, v) :: B ∧ demoSet.next ∉ t.addrs ∧
            size s2 = size demoSet + 1 ∧ size s2 = t2.count) ∧
        (∀ v, (∃ e ∈ [1, 3, 4, 5, 7, 8, 9], Equal ltN e v = true) →
          ∃ s2 t2 A B z, erase ltN demoSet v = some s2 ∧ s2.Shape t2 ∧
            t.cells = A ++ (z, v) :: B ∧ t2.cells = A ++ B ∧ 0 < size demoSet ∧
            size s2 + 1 = size demoSet ∧ size s2 = t2.count) :=
  ⟨by decide!, by decide!,
    size_counts_nodes ltN strictTotal_ltN demoSet [1, 3, 4, 5, 7, 8, 9] demoSet_reachable
      (by decide!)⟩

/-- C14: for every reachable set there is the list `cs` of its positions, each
with the value stored there, such that the values are the strictly ascending
traversal and there are `size()` of them; `begin()` is the first position;
`operator++` at a position gives the next position and gives `end()` at the
last one; dereferencing a position gives its value; so `k` increments from
`begin()` lead to the position number `k`, which is `end()` exactly when `k` is
`size()`. -/
theorem iteration_visits_ascending (lt : α → α → Bool) (hlt : StrictTotal lt) (s : Set α)
    (hs : Reachable lt s) :
    ∃ cs : List (Nat × α), traversal s = some (cs.map Prod.snd) ∧
      Ascending lt (cs.map Prod.snd) ∧ cs.length = size s ∧
      begin_ s = some (headAddr (end_ s) cs) ∧
      (∀ A c B, cs = A ++ c :: B →
        c.1 ≠ end_ s ∧ iterDeref s c.1 = c.2 ∧ iterNext s c.1 = some (headAddr (end_ s) B)) ∧
      (∀ k, k ≤ size s →
        iterAdvance s k (headAddr (end_ s) cs) = some (headAddr (end_ s) (cs.drop k)) ∧
          (headAddr (end_ s) (cs.drop k) = end_ s ↔ k = size s)) := by
  obtain ⟨t, ht⟩ := hs.inv hlt
  have hlen : t.cells.length = size s := by
    rw [← count_eq_cells]; exact ht.size.symm
  refine ⟨t.cells, by rw [traversal_eq ht.shape, inorder_eq_cells],
    by rw [← inorder_eq_cells]; exact ht.asc, hlen, begin_eq ht.shape, ?_, ?_⟩
  · intro A c B hc
    have hm : c ∈ t.cells := by rw [hc]; simp
    exact ⟨ht.shape.repr.ne_nil_of_mem hm, ht.shape.repr.value_of_mem c hm,
      iterNext_cell ht.shape hc⟩
  · intro k hk
    refine ⟨iterAdvance_cells ht.shape k [] t.cells rfl (by omega), ?_⟩
    have hsplit : t.cells = t.cells.take k ++ t.cells.drop k := (List.take_append_drop k _).symm
    rw [end_, headAddr_eq_nil_iff ht.shape hsplit, List.drop_eq_nil_iff]
    omega

set_option maxRecDepth 100000 in
theorem iteration_visits_ascending_witness :
    (begin_ demoSet).map (iterDeref demoSet) = some 1 ∧
      (begin_ demoSet).bind (iterAdvance demoSet 7) = some (end_ demoSet) ∧
      ∃ cs : List (Nat × Nat), traversal demoSet = some (cs.map Prod.snd) ∧
        Ascending ltN (cs.map Prod.snd) ∧ cs.length = size demoSet ∧
        begin_ demoSet = some (headAddr (end_ demoSet) cs) ∧
        (∀ A c B, cs = A ++ c :: B →
          c.1 ≠ end_ demoSet ∧ iterDeref demoSet c.1 = c.2 ∧
            iterNext demoSet c.1 = some (headAddr (end_ demoSet) B)) ∧
        (∀ k, k ≤ size demoSet →
          iterAdvance demoSet k (headAddr (end_ demoSet) cs) =
              some (headAddr (end_ demoSet) (cs.drop k)) ∧
            (headAddr (end_ demoSet) (cs.drop k) = end_ demoSet ↔ k = size demoSet)) :=
  ⟨by decide!, by decide!,
    iteration_visits_ascending ltN strictTotal_ltN demoSet demoSet_reachable⟩

/-- C15: for every reachable set, with `cs` the list of its positions and their
values in ascending order: `operator--` at `end()` gives the last position,
that of the maximum, and `operator--` at any position that has a position
before it gives that position, that of the next smaller value. -/
theorem decrement_steps_back (lt : α → α → Bool) (hlt : StrictTotal lt) (s : Set α)
    (hs : Reachable lt s) :
    ∃ cs : List (Nat × α), traversal s = some (cs.map Prod.snd) ∧
      Ascending lt (cs.map Prod.snd) ∧
      (∀ c ∈ cs, c.1 ≠ end_ s ∧ iterDeref s c.1 = c.2) ∧
      (∀ A c, cs = A ++ [c] → iterPrev s (end_ s) = some c.1) ∧
      (∀ A b c B, cs = A ++ b :: c :: B → iterPrev s c.1 = some b.1) := by
  obtain ⟨t, ht⟩ := hs.inv hlt
  refine ⟨t.cells, by rw [traversal_eq ht.shape, inorder_eq_cells],
    by rw [← inorder_eq_cells]; exact ht.asc, fun c hm => ?_, fun A c hc => ?_,
    fun A b c B hc => ?_⟩
  · exact ⟨ht.shape.repr.ne_nil_of_mem hm, ht.shape.repr.value_of_mem c hm⟩
  · rw [iterPrev_end ht.shape, hc, lastAddr_append_singleton]
  · have hc2 : t.cells = (A ++ [b]) ++ c :: B := by rw [hc]; simp
    rw [iterPrev_cell ht.shape hc2, lastAddr_append_singleton]

set_option maxRecDepth 100000 in
theorem decrement_steps_back_witness :
    (iterPrev demoSet (end_ demoSet)).map (iterDeref demoSet) = some 9 ∧
      ((find ltN demoSet 7).bind (iterPrev demoSet)).map (iterDeref demoSet) = some 5 ∧
      ∃ cs : List (Nat × Nat), traversal demoSet = some (cs.map Prod.snd) ∧
        Ascending ltN (cs.map Prod.snd) ∧
        (∀ c ∈ cs, c.1 ≠ end_ demoSet ∧ iterDeref demoSet c.1 = c.2) ∧
        (∀ A c, cs = A ++ [c] → iterPrev demoSet (end_ demoSet) = some c.1) ∧
        (∀ A b c B, cs = A ++ b :: c :: B → iterPrev demoSet c.1 = some b.1) :=
  ⟨by decide!, by decide!, decrement_steps_back ltN strictTotal_ltN demoSet demoSet_reachable⟩

/-- C16: for every reachable set with traversal `L` and every value `v`
equivalent to a stored value, `erase(v)` removes exactly the cell that holds
`v`: every other cell of the tree before the call is a cell of the tree after
it, in the same order, under the same address and with the same value, whatever
the number of children of the removed cell; the removed address is the one freed
and no value field of the heap is written. -/
theorem erase_keeps_other_nodes (lt : α → α → Bool) (hlt : StrictTotal lt) (s : Set α)
    (L : List α) (v e : α) (hs : Reachable lt s) (hL : traversal s = some L) (he : e ∈ L)
    (hev : Equal lt e v = true) :
    ∃ t s2 t2 A B z, s.Shape t ∧ erase lt s v = some s2 ∧ s2.Shape t2 ∧
      t.cells = A ++ (z, v) :: B ∧ t2.cells = A ++ B ∧ z ∉ t2.addrs ∧
      s2.freed = z :: s.freed ∧
      (∀ c ∈ A ++ B, iterDeref s c.1 = c.2 ∧ iterDeref s2 c.1 = c.2) ∧
      ∀ a, s2.value a = s.value a := by
  obtain ⟨t, ht, rfl⟩ := hs.inv_of_traversal hlt hL
  obtain ⟨s2, t2, A, B, z, e2, h2, c1, c2, -, -, hfr, hval⟩ :=
    ht.erase_present_cells hlt v he hev
  refine ⟨t, s2, t2, A, B, z, ht.shape, e2, h2.shape, c1, c2, ?_, hfr, fun c hc => ?_, hval⟩
  · have hnd := ht.shape.nodup
    rw [addrs_eq_cells, c1] at hnd
    rw [addrs_eq_cells, c2]
    simp only [List.map_append, List.map_cons, List.nodup_append, List.nodup_cons,
      List.disjoint_cons_right] at hnd
    simp only [List.map_append, List.mem_append, not_or]
    exact ⟨hnd.2.2.1, hnd.2.1.1⟩
  · have hm : c ∈ t2.cells := by rw [c2]; exact hc
    have h3 := h2.shape.repr.value_of_mem c hm
    exact ⟨by rw [iterDeref, ← hval, h3], h3⟩

set_option maxRecDepth 100000 in
theorem erase_keeps_other_nodes_witness :
    ∃ t s2 t2 A B z, demoSet.Shape t ∧ erase ltN demoSet 5 = some s2 ∧ s2.Shape t2 ∧
      t.cells = A ++ (z, 5) :: B ∧ t2.cells = A ++ B ∧ z ∉ t2.addrs ∧
      s2.freed = z :: demoSet.freed ∧
      (∀ c ∈ A ++ B, iterDeref demoSet c.1 = c.2 ∧ iterDeref s2 c.1 = c.2) ∧
      ∀ a, s2.value a = demoSet.value a :=
  erase_keeps_other_nodes ltN strictTotal_ltN demoSet [1, 3, 4, 5, 7, 8, 9] 5 5
    demoSet_reachable (by decide!) (by decide!) (by decide!)

/-- C17: a newly constructed set has `size() == 0` and its root is the
sentinel; for every reachable set `empty()` holds exactly when `size() == 0`,
and `size() == 0` exactly when `begin() == end()`.  The comparison is arbitrary. -/
theorem empty_size_begin_agree (lt : α → α → Bool) (dflt : α) (s : Set α)
    (hs : Reachable lt s) :
    size (Set.new dflt) = 0 ∧ (Set.new dflt).root_ = end_ (Set.new dflt) ∧
      (empty s = true ↔ size s = 0) ∧ (size s = 0 ↔ begin_ s = some (end_ s)) := by
  obtain ⟨t, ht⟩ := hs.inv0
  refine ⟨rfl, rfl, by simp [empty, size], ?_⟩
  have h1 : size s = t.cells.length := by rw [← count_eq_cells]; exact ht.size
  rw [begin_eq ht.shape, h1, Option.some.injEq, end_,
    headAddr_eq_nil_iff ht.shape (A := []) (by simp), List.length_eq_zero]

set_option maxRecDepth 100000 in
theorem empty_size_begin_agree_witness :
    empty demoSet = false ∧
      (size (Set.new 0) = 0 ∧ (Set.new 0).root_ = end_ (Set.new 0) ∧
        (empty (eraseAll ltN demoSet [5, 3, 8, 1, 4, 7, 9]) = true ↔
          size (eraseAll ltN demoSet [5, 3, 8, 1, 4, 7, 9]) = 0) ∧
        (size (eraseAll ltN demoSet [5, 3, 8, 1, 4, 7, 9]) = 0 ↔
          begin_ (eraseAll ltN demoSet [5, 3, 8, 1, 4, 7, 9]) =
            some (end_ (eraseAll ltN demoSet [5, 3, 8, 1, 4, 7, 9])))) :=
  ⟨by decide!,
    empty_size_begin_agree ltN 0 (eraseAll ltN demoSet [5, 3, 8, 1, 4, 7, 9])
      (Reachable.eraseAll strictTotal_ltN _ demoSet_reachable)⟩

/-- C18: for every finite range `vs`, repeated values included and in any
order, the range constructor and the initializer-list constructor return a set
whose traversal is strictly ascending and holds exactly the values of `vs`, so
the distinct values in sorted order; `size()` is the number of distinct values;
the stored tree satisfies the red-black invariants. -/
theorem range_constructor_sorted_distinct [DecidableEq α] (lt : α → α → Bool)
    (hlt : StrictTotal lt) (dflt : α) (vs : List α) :
    ∃ s t L, Set.ofRange lt dflt vs = some s ∧ Set.ofInitList lt dflt vs = some s ∧
      traversal s = some L ∧ Ascending lt L ∧ (∀ x, x ∈ L ↔ x ∈ vs) ∧
      size s = vs.dedup.length ∧ s.Shape t ∧ t.RedBlack := by
  obtain ⟨s, L, e, hs, hL, hm⟩ := rangeLoop_members hlt vs (Reachable.new dflt)
    (traversal_new dflt)
  obtain ⟨t, ht, rfl⟩ := hs.inv_of_traversal hlt hL
  have hm2 : ∀ x, x ∈ t.inorder ↔ x ∈ vs := fun x => by rw [hm]; simp
  refine ⟨s, t, t.inorder, e, e, hL, ht.asc, hm2, ?_, ht.shape, ht.rb⟩
  have hp : List.Perm t.inorder vs.dedup :=
    (List.perm_ext_iff_of_nodup (ht.asc.nodup hlt) (List.nodup_dedup vs)).mpr
      (fun x => by rw [hm2, List.mem_dedup])
  have h1 : size s = t.inorder.length := by
    rw [inorder_eq_cells, List.length_map, ← count_eq_cells]; exact ht.size
  rw [h1, hp.length_eq]

set_option maxRecDepth 100000 in
theorem range_constructor_sorted_distinct_witness :
    ((Set.ofRange ltN 0 [5, 3, 5, 8, 3, 1]).bind traversal = some [1, 3, 5, 8]) ∧
      (Set.ofRange ltN 0 [5, 3, 5, 8, 3, 1]).map size = some 4 ∧
      ∃ s t L, Set.ofRange ltN 0 [5, 3, 5, 8, 3, 1] = some s ∧
        Set.ofInitList ltN 0 [5, 3, 5, 8, 3, 1] = some s ∧ traversal s = some L ∧
        Ascending ltN L ∧ (∀ x, x ∈ L ↔ x ∈ [5, 3, 5, 8, 3, 1]) ∧
        size s = [5, 3, 5, 8, 3, 1].dedup.length ∧ s.Shape t ∧ t.RedBlack :=
  ⟨by decide!, by decide!,
    range_constructor_sorted_distinct ltN strictTotal_ltN 0 [5, 3, 5, 8, 3, 1]⟩

/-- C19: for every strictly increasing sequence `vs` of 10 values: for every
`k ≤ 10`, inserting the first `k` values into a fresh set returns a state that
stores a tree in search-tree order with the red-black invariants and with
`size()` its number of nodes, namely `k`, and whose traversal is these `k`
values; erasing the first `k` values from the state after all 10 inserts
returns a state with the same properties whose traversal is the remaining
values; and after all 10 erases the set is empty, `size()` is zero and the root
is the sentinel. -/
theorem increasing_insert_then_erase (lt : α → α → Bool) (hlt : StrictTotal lt) (dflt : α)
    (vs : List α) (hasc : Ascending lt vs) (hlen : vs.length = 10) :
    (∀ k, k ≤ 10 → ∃ s t, rangeLoop lt (Set.new dflt) (vs.take k) = some s ∧ s.Shape t ∧
        t.BST lt ∧ t.RedBlack ∧ size s = t.count ∧ size s = k ∧
        traversal s = some (vs.take k)) ∧
      ∃ s1, rangeLoop lt (Set.new dflt) vs = some s1 ∧
        (∀ k, k ≤ 10 → ∃ s t, eraseEach lt s1 (vs.take k) = some s ∧ s.Shape t ∧
          t.BST lt ∧ t.RedBlack ∧ size s = t.count ∧ size s = 10 - k ∧
          traversal s = some (vs.drop k)) ∧
        ∃ s2, eraseEach lt s1 vs = some s2 ∧ traversal s2 = some [] ∧ size s2 = 0 ∧
          empty s2 = true ∧ s2.root_ = end_ s2 := by
  have key : ∀ {s : Set α} {t : Tree α} {M : List α}, Inv lt s t → traversal s = some M →
      s.Shape t ∧ t.BST lt ∧ t.RedBlack ∧ size s = t.count ∧ size s = M.length := by
    intro s t M h hM
    have hin := h.shape.inorder_eq hM
    refine ⟨h.shape, (bst_iff_ascending hlt.trans t).mpr h.asc, h.rb, h.size, ?_⟩
    rw [← hin, inorder_eq_cells, List.length_map, ← count_eq_cells]
    exact h.size
  obtain ⟨s1, t1, e1, hs1, h1, hL1⟩ := rangeLoop_ascending hlt dflt hasc
  refine ⟨fun k hk => ?_, s1, e1, fun k hk => ?_, ?_⟩
  · obtain ⟨s, t, e, -, h, hL⟩ := rangeLoop_ascending hlt dflt (hasc.take k)
    obtain ⟨k1, k2, k3, k4, k5⟩ := key h hL
    exact ⟨s, t, e, k1, k2, k3, k4, by rw [k5, List.length_take]; omega, hL⟩
  · have hsplit : vs = vs.take k ++ vs.drop k := (List.take_append_drop k vs).symm
    obtain ⟨s, t, e, -, h, hL⟩ := eraseEach_ascending hlt hs1 (hsplit ▸ hL1) (hsplit ▸ hasc)
    obtain ⟨k1, k2, k3, k4, k5⟩ := key h hL
    exact ⟨s, t, e, k1, k2, k3, k4, by rw [k5, List.length_drop]; omega, hL⟩
  · have hL0 : traversal s1 = some (vs ++ []) := by simpa using hL1
    obtain ⟨s2, t2, e2, hs2, -, hL2⟩ := eraseEach_ascending hlt hs1 hL0 (by simpa using hasc)
    obtain ⟨z1, z2⟩ := hs2.empty_state hL2
    refine ⟨s2, e2, hL2, z1, ?_, z2⟩
    simp only [size] at z1
    simp [empty, z1]

set_option maxRecDepth 100000 in
theorem increasing_insert_then_erase_witness :
    Ascending ltN [1, 2, 3, 4, 5, 6, 7, 8, 9, 10] ∧
      ((rangeLoop ltN (Set.new 0) [1, 2, 3, 4, 5, 6, 7, 8, 9, 10]).bind
        (fun s => eraseEach ltN s [1, 2, 3, 4, 5, 6, 7, 8, 9, 10])).map size = some 0 ∧
      ((∀ k, k ≤ 10 → ∃ s t,
          rangeLoop ltN (Set.new 0) ([1, 2, 3, 4, 5, 6, 7, 8, 9, 10].take k) = some s ∧
          s.Shape t ∧ t.BST ltN ∧ t.RedBlack ∧ size s = t.count ∧ size s = k ∧
          traversal s = some ([1, 2, 3, 4, 5, 6, 7, 8, 9, 10].take k)) ∧
        ∃ s1, rangeLoop ltN (Set.new 0) [1, 2, 3, 4, 5, 6, 7, 8, 9, 10] = some s1 ∧
          (∀ k, k ≤ 10 → ∃ s t,
            eraseEach ltN s1 ([1, 2, 3, 4, 5, 6, 7, 8, 9, 10].take k) = some s ∧ s.Shape t ∧
            t.BST ltN ∧ t.RedBlack ∧ size s = t.count ∧ size s = 10 - k ∧
            traversal s = some ([1, 2, 3, 4, 5, 6, 7, 8, 9, 10].drop k)) ∧
          ∃ s2, eraseEach ltN s1 [1, 2, 3, 4, 5, 6, 7, 8, 9, 10] = some s2 ∧
            traversal s2 = some [] ∧ size s2 = 0 ∧ empty s2 = true ∧ s2.root_ = end_ s2) :=
  ⟨by simp [Ascending, ltN], by decide!,
    increasing_insert_then_erase ltN strictTotal_ltN 0 [1, 2, 3, 4, 5, 6, 7, 8, 9, 10]
      (by simp [Ascending, ltN]) (by decide)⟩

/-- C20: for every well-formed state and every node `x` of its tree:
`LeftRotate(x)`, when the right child of `x` is not the sentinel, leaves a
well-formed state whose tree has the same in-order sequence of values, and so
the same traversal; symmetrically `RightRotate(x)` when the left child of `x` is
not the sentinel. -/
theorem rotations_keep_inorder (s : Set α) (t : Tree α) (x : Nat) (hs : s.Shape t)
    (hx : x ∈ t.addrs) :
    (s.right x ≠ s.nil_ → ∃ t2, (LeftRotate s x).Shape t2 ∧ t2.inorder = t.inorder ∧
        traversal (LeftRotate s x) = traversal s) ∧
      (s.left x ≠ s.nil_ → ∃ t2, (RightRotate s x).Shape t2 ∧ t2.inorder = t.inorder ∧
        traversal (RightRotate s x) = traversal s) := by
  constructor
  · intro hr
    obtain ⟨t2, h2, hc⟩ := LeftRotate_cells hs hx hr
    have hin : t2.inorder = t.inorder := by rw [inorder_eq_cells, hc, ← inorder_eq_cells]
    exact ⟨t2, h2, hin, by rw [traversal_eq h2, traversal_eq hs, hin]⟩
  · intro hl
    obtain ⟨t2, h2, hc⟩ := RightRotate_cells hs hx hl
    have hin : t2.inorder = t.inorder := by rw [inorder_eq_cells, hc, ← inorder_eq_cells]
    exact ⟨t2, h2, hin, by rw [traversal_eq h2, traversal_eq hs, hin]⟩

set_option maxRecDepth 100000 in
theorem rotations_keep_inorder_witness :
    demoSet.right 2 ≠ demoSet.nil_ ∧ demoSet.left 2 ≠ demoSet.nil_ ∧
      traversal (LeftRotate demoSet 2) = some [1, 3, 4, 5, 7, 8, 9] ∧
      traversal (RightRotate demoSet 2) = some [1, 3, 4, 5, 7, 8, 9] ∧
      ((demoSet.right 2 ≠ demoSet.nil_ → ∃ t2, (LeftRotate demoSet 2).Shape t2 ∧
          t2.inorder = demoTree.inorder ∧ traversal (LeftRotate demoSet 2) = traversal demoSet) ∧
        (demoSet.left 2 ≠ demoSet.nil_ → ∃ t2, (RightRotate demoSet 2).Shape t2 ∧
          t2.inorder = demoTree.inorder ∧
          traversal (RightRotate demoSet 2) = traversal demoSet)) :=
  ⟨by decide!, by decide!, by decide!, by decide!,
    rotations_keep_inorder demoSet demoTree 2 demoSet_shape (by decide!)⟩

end RBSet

namespace RBSet
variable {α : Type}

/-! ## What a rotation writes -/

@[simp] theorem heap_setLeft (s : Set α) (a p b : Nat) :
    (s.setLeft a p).heap b = if b = a then { s.heap a with left_ := p } else s.heap b := rfl
@[simp] theorem heap_setRight (s : Set α) (a p b : Nat) :
    (s.setRight a p).heap b = if b = a then { s.heap a with right_ := p } else s.heap b := rfl
@[simp] theorem heap_setParent (s : Set α) (a p b : Nat) :
    (s.setParent a p).heap b = if b = a then { s.heap a with parent_ := p } else s.heap b := rfl
@[simp] theorem heap_setColor (s : Set α) (a : Nat) (c : Color) (b : Nat) :
    (s.setColor a c).heap b = if b = a then { s.heap a with color_ := c } else s.heap b := rfl
@[simp] theorem heap_setRoot (s : Set α) (p b : Nat) : (s.setRoot p).heap b = s.heap b := rfl

/-- The root pointer is an address of the path when the path is not empty. -/
theorem Zip.root_mem {s : Set α} {f : Frame α} {p : Path α} {t : Tree α} (h : Zip s (f :: p) t) :
    s.root_ ∈ pathAddrs (f :: p) := by
  have h1 : s.root_ = (plug (f :: p) t).ptr s.nil_ := h.top.path
  rw [h1]
  exact plug_ptr_mem s.nil_ f p t

/-- The cells a left rotation at the focused node writes, and what it writes there. -/
theorem LeftRotate_frame {s : Set α} {p : Path α} {x y : Nat} {cx cy : Color} {a b d : Tree α}
    {vx vy : α} (h : Zip s p (Tree.node x cx a vx (Tree.node y cy b vy d))) :
    (LeftRotate s x).parent y = s.parent x ∧
    ((LeftRotate s x).root_ = y ↔ s.root_ = x) ∧
    ((LeftRotate s x).root_ ≠ s.root_ ↔ s.root_ = x) ∧
    (s.root_ = x ↔ s.parent x = s.nil_) ∧
    (s.parent x ≠ s.nil_ → s.left (s.parent x) = x → (LeftRotate s x).left (s.parent x) = y) ∧
    (s.parent x ≠ s.nil_ → s.right (s.parent x) = x →
      (LeftRotate s x).right (s.parent x) = y) ∧
    (LeftRotate s x).left y = x ∧ (LeftRotate s x).parent x = y ∧
    (LeftRotate s x).right x = s.left y ∧
    (s.left y ≠ s.nil_ → (LeftRotate s x).parent (s.left y) = x) ∧
    (LeftRotate s x).left x = s.left x ∧ (LeftRotate s x).right y = s.right y ∧
    (∀ n, n ≠ x → n ≠ y → (n = s.nil_ ∨ (n ≠ s.left y ∧ n ≠ s.parent x)) →
      (LeftRotate s x).heap n = s.heap n) := by
  obtain ⟨hp, hs, hn, hf, h0⟩ := id h
  have hn2 := hn
  have hrx : s.root_ = x → p = [] := by
    intro e
    rcases p with _ | ⟨f, p⟩
    · rfl
    · exact absurd e.symm (by simpa using h.ptr_ne_root)
  have hry : ¬ s.root_ = y := by
    intro e
    rcases p with _ | ⟨f, p⟩
    · have : s.root_ = x := hp
      simp only [addrs_node, List.nodup_append, List.nodup_cons, List.mem_append,
        nmem_cons, not_or] at hn2
      exact hn2.1.2.1.1.2.1.1 (this.symm.trans e)
    · have hr := h.root_mem
      rw [e] at hr
      simp only [addrs_node, List.nodup_append, List.disjoint_left, List.mem_append,
        List.mem_cons] at hn2
      exact hn2.2.2 (Or.inr (Or.inr (Or.inr (Or.inl rfl)))) hr
  rcases p with _ | ⟨f, p⟩
  rotate_left
  cases f
  rotate_left
  rotate_left
  all_goals
    cases b
    all_goals
      simp only [Repr, ptr_node, ptr_leaf, pathPtr_cons, pathPtr_nil, addr_left, addr_right] at hs
      simp only [ReprPath, ptr_node] at hp
      try have hq0 := Ne.symm hp.1
      try have hrx2 : ¬ s.root_ = x := fun e => by simpa using hrx e
      simp only [addrs_node, addrs_leaf, pathAddrs_cons, pathAddrs_nil, addr_left, sib_left,
        addr_right, sib_right, List.nodup_append, List.nodup_cons, List.mem_append,
        nmem_cons, not_or, List.disjoint_append_left, List.disjoint_append_right,
        List.disjoint_cons_left, List.disjoint_cons_right] at hn2
      have hx0 : ¬ s.nil_ = x := fun e => hs.1 e.symm
      have hy0 : ¬ s.nil_ = y := fun e => hs.2.2.2.2.2.2.2.1 e.symm
      try have hb0 := Ne.symm hs.2.2.2.2.2.2.2.2.2.2.2.2.2.1.1
      refine ⟨?_, ?_, ?_, ?_, ?_, ?_, ?_, ?_, ?_, ?_, ?_, ?_, ?_⟩
      case refine_13 =>
        intro n hnx hny hnn
        rcases hnn with rfl | ⟨h1, h2⟩
        · simp [LeftRotate, eq_ptr_false, ptr_eq_false, *]
        · simp only [hs.2.2.2.2.2.1, hs.2.2.2.2.2.2.2.2.2.2.1, ptr_node] at h1 h2
          simp [LeftRotate, eq_ptr_false, ptr_eq_false, *]
      all_goals
        simp [LeftRotate, eq_ptr_false, ptr_eq_false, *]

/-- The cells a right rotation at the focused node writes, and what it writes there. -/
theorem RightRotate_frame {s : Set α} {p : Path α} {x y : Nat} {cx cy : Color} {a b d : Tree α}
    {vx vy : α} (h : Zip s p (Tree.node x cx (Tree.node y cy a vy b) vx d)) :
    (RightRotate s x).parent y = s.parent x ∧
    ((RightRotate s x).root_ = y ↔ s.root_ = x) ∧
    ((RightRotate s x).root_ ≠ s.root_ ↔ s.root_ = x) ∧
    (s.root_ = x ↔ s.parent x = s.nil_) ∧
    (s.parent x ≠ s.nil_ → s.right (s.parent x) = x → (RightRotate s x).right (s.parent x) = y) ∧
    (s.parent x ≠ s.nil_ → s.left (s.parent x) = x →
      (RightRotate s x).left (s.parent x) = y) ∧
    (RightRotate s x).right y = x ∧ (RightRotate s x).parent x = y ∧
    (RightRotate s x).left x = s.right y ∧
    (s.right y ≠ s.nil_ → (RightRotate s x).parent (s.right y) = x) ∧
    (RightRotate s x).right x = s.right x ∧ (RightRotate s x).left y = s.left y ∧
    (∀ n, n ≠ x → n ≠ y → (n = s.nil_ ∨ (n ≠ s.right y ∧ n ≠ s.parent x)) →
      (RightRotate s x).heap n = s.heap n) := by
  obtain ⟨hp, hs, hn, hf, h0⟩ := id h
  have hn2 := hn
  have hrx : s.root_ = x → p = [] := by
    intro e
    rcases p with _ | ⟨f, p⟩
    · rfl
    · exact absurd e.symm (by simpa using h.ptr_ne_root)
  have hry : ¬ s.root_ = y := by
    intro e
    rcases p with _ | ⟨f, p⟩
    · have : s.root_ = x := hp
      have e2 := this.symm.trans e
      subst e2
      simp [List.nodup_append] at hn2
    · have hr := h.root_mem
      rw [e] at hr
      simp only [addrs_node, List.nodup_append, List.disjoint_left, List.mem_append,
        List.mem_cons] at hn2
      exact hn2.2.2 (Or.inl (Or.inr (Or.inl rfl))) hr
  rcases p with _ | ⟨f, p⟩
  rotate_left
  cases f
  rotate_left
  rotate_left
  all_goals
    cases b
    all_goals
      simp only [Repr, ptr_node, ptr_leaf, pathPtr_cons, pathPtr_nil, addr_left, addr_right] at hs
      simp only [ReprPath, ptr_node] at hp
      try have hq0 := Ne.symm hp.1
      try have hrx2 : ¬ s.root_ = x := fun e => by simpa using hrx e
      simp only [addrs_node, addrs_leaf, pathAddrs_cons, pathAddrs_nil, addr_left, sib_left,
        addr_right, sib_right, List.nodup_append, List.nodup_cons, List.mem_append,
        nmem_cons, not_or, List.disjoint_append_left, List.disjoint_append_right,
        List.disjoint_cons_left, List.disjoint_cons_right] at hn2
      have hx0 : ¬ s.nil_ = x := fun e => hs.1 e.symm
      have hy0 : ¬ s.nil_ = y := fun e => hs.2.2.2.2.2.2.1.1 e.symm
      try have hb0 := Ne.symm hs.2.2.2.2.2.2.1.2.2.2.2.2.2.2.1
      refine ⟨?_, ?_, ?_, ?_, ?_, ?_, ?_, ?_, ?_, ?_, ?_, ?_, ?_⟩
      case refine_13 =>
        intro n hnx hny hnn
        rcases hnn with rfl | ⟨h1, h2⟩
        · simp [RightRotate, eq_ptr_false, ptr_eq_false, *]
        · simp only [hs.2.2.2.2.2.1, hs.2.2.2.2.2.2.1.2.2.2.2.1, ptr_node] at h1 h2
          simp [RightRotate, eq_ptr_false, ptr_eq_false, *]
      all_goals
        simp [RightRotate, eq_ptr_false, ptr_eq_false, *]


end RBSet

namespace RBSet
variable {α : Type}

/-! ## The loop of `RBInsertFixup`, iteration by iteration -/

/-- The loop of `RBInsertFixup` is the iteration of its body. -/
theorem RBInsertFixupLoop_step (fuel : Nat) (s : Set α) (z : Nat) :
    RBInsertFixupLoop (fuel + 1) s z =
      match RBInsertFixupStep s z with
      | none => some s
      | some r => RBInsertFixupLoop fuel r.1 r.2.1 := by
  rw [RBInsertFixupLoop]
  unfold RBInsertFixupStep
  dsimp only
  split_ifs <;> rfl

/-- The run with records ends in the state in which the loop ends. -/
theorem RBInsertFixupRun_state (fuel : Nat) (s : Set α) (z : Nat) :
    (RBInsertFixupRun fuel s z).map Prod.fst = RBInsertFixupLoop fuel s z := by
  induction fuel generalizing s z with
  | zero => rfl
  | succ n ih =>
    rw [RBInsertFixupLoop_step, RBInsertFixupRun]
    rcases h : RBInsertFixupStep s z with _ | ⟨s2, z2, ev⟩
    · rfl
    · simp only
      rw [← ih s2 z2]
      rcases RBInsertFixupRun n s2 z2 with _ | ⟨s3, log⟩ <;> rfl

/-- The body is not entered at a node whose parent is BLACK. -/
theorem RBInsertFixupStep_exit {s : Set α} {p : Path α} {a : Nat} {c : Color} {l r : Tree α}
    {v : α} (h : Zip s p (Tree.node a c l v r)) (hc : pathColor p = Color.BLACK) :
    RBInsertFixupStep s a = none := by
  simp [RBInsertFixupStep, RedFlag, h.parent_eq, h.color_pathPtr, hc]

/-- Case A, parent on the left: the calls of the iteration. -/
theorem RBInsertFixupStep_caseA_left {s : Set α} {p : Path α} {f : Frame α} {z ga y : Nat}
    {l r ul ur : Tree α} {v gv uv : α} (hf : f.color = Color.RED)
    (h : Zip s (f :: Frame.left ga Color.BLACK gv (Tree.node y Color.RED ul uv ur) :: p)
      (Tree.node z Color.RED l v r)) :
    ∃ s2, RBInsertFixupStep s z = some (s2, ga,
        [Event.paintBlack f.addr, Event.paintBlack y, Event.paintRed ga]) ∧ SameMeta s s2 ∧
      Zip s2 p (Tree.node ga Color.RED ((f.paint Color.BLACK).fill (Tree.node z Color.RED l v r)) gv
        (Tree.node y Color.BLACK ul uv ur)) ∧
      RedFlag s (uncleOf s z) = true ∧ s.parent (s.parent z) = ga := by
  have hz := h.parent_eq
  have h1 := h.up
  have h2 := h1.up
  have hs2 := h2.sub
  refine ⟨((s.setColor f.addr Color.BLACK).setColor y Color.BLACK).setColor ga Color.RED, ?_,
    ((SameMeta.setColor _ _ _).trans (SameMeta.setColor _ _ _)).trans (SameMeta.setColor _ _ _),
    ?_, ?_, ?_⟩
  · cases f
    all_goals
      simp only [fcolor_left, fcolor_right] at hf
      subst hf
      simp only [fill_left, fill_right, Repr, ptr_node] at hs2
      simp only [pathPtr_cons, addr_left, addr_right] at hz
      simp [RBInsertFixupStep, RedFlag, PaintBlack, PaintRed, *]
  · cases f
    all_goals
      simp only [fill_left, fill_right, paint_left, paint_right, addr_left, addr_right] at h1 ⊢
      have h3 := (h1.paint Color.BLACK).up
      have h4 := (Zip.down (f := Frame.right ga Color.BLACK _ gv) h3).paint Color.BLACK
      exact (Zip.up h4).paint Color.RED
  · cases f
    all_goals
      simp only [fill_left, fill_right, Repr, ptr_node] at hs2
      simp only [pathPtr_cons, addr_left, addr_right] at hz
      simp [uncleOf, RedFlag, *]
  · cases f
    all_goals
      simp only [fill_left, fill_right, Repr, ptr_node] at hs2
      simp only [pathPtr_cons, addr_left, addr_right] at hz
      simp [*]

/-- Case C, parent on the left and node on the left: the calls of the iteration. -/
theorem RBInsertFixupStep_caseC_left {s : Set α} {p : Path α} {z pa ga : Nat}
    {l r pr u : Tree α} {v pv gv : α} (hu : u.color = Color.BLACK)
    (h : Zip s (Frame.left pa Color.RED pv pr :: Frame.left ga Color.BLACK gv u :: p)
      (Tree.node z Color.RED l v r)) :
    ∃ s2, RBInsertFixupStep s z = some (s2, z,
        [Event.paintBlack pa, Event.paintRed ga, Event.rightRotate ga pa]) ∧ SameMeta s s2 ∧
      Zip s2 p (Tree.node pa Color.BLACK (Tree.node z Color.RED l v r) pv
        (Tree.node ga Color.RED pr gv u)) ∧
      RedFlag s (uncleOf s z) = false := by
  have hz := h.parent_eq
  have h1 := h.up
  have h2 := h1.up
  have hs2 := h2.sub
  have hn2 := h2.nodup
  have h0 := h.nil
  simp only [fill_left, fill_right] at h1 h2 hs2 hn2
  have h3 := (h1.paint Color.BLACK).up
  simp only [fill_left, fill_right] at h3
  have h4 := (h3.paint Color.RED).rotateRight
  simp only [Repr, ptr_node] at hs2
  have huc := hs2.2.2.2.2.2.2.2.color_ptr h0
  simp only [addrs_node, List.nodup_append, List.nodup_cons, List.mem_append, nmem_cons, not_or,
    List.disjoint_append_left, List.disjoint_append_right, List.disjoint_cons_left,
    List.disjoint_cons_right] at hn2
  simp only [pathPtr_cons, addr_left, addr_right] at hz
  have hz0 : ¬ z = s.nil_ := hs2.2.2.2.2.2.2.1.2.2.2.2.2.2.1.1
  refine ⟨_, ?_, ((SameMeta.setColor _ _ _).trans (SameMeta.setColor _ _ _)).trans
    (SameMeta.rightRotate _ _), h4, ?_⟩
  · rw [RBInsertFixupStep]
    simp [RedFlag, PaintBlack, PaintRed, eq_ptr_false, ptr_eq_false, *]
  · simp [uncleOf, RedFlag, *]

/-- Case B then C, parent on the left and node on the right: the calls of the iteration. -/
theorem RBInsertFixupStep_caseB_left {s : Set α} {p : Path α} {z pa ga : Nat}
    {l r pl u : Tree α} {v pv gv : α} (hu : u.color = Color.BLACK)
    (h : Zip s (Frame.right pa Color.RED pl pv :: Frame.left ga Color.BLACK gv u :: p)
      (Tree.node z Color.RED l v r)) :
    ∃ s2, RBInsertFixupStep s z = some (s2, pa,
        [Event.leftRotate pa z, Event.paintBlack z, Event.paintRed ga,
          Event.rightRotate ga z]) ∧ SameMeta s s2 ∧
      Zip s2 p (Tree.node z Color.BLACK (Tree.node pa Color.RED pl pv l) v
        (Tree.node ga Color.RED r gv u)) ∧
      RedFlag s (uncleOf s z) = false := by
  have hz := h.parent_eq
  have h1 := h.up
  have h2 := h1.up
  have hs2 := h2.sub
  have hn2 := h2.nodup
  have h0 := h.nil
  simp only [fill_left, fill_right] at h1 h2 hs2 hn2
  have h3 := h1.rotateLeft
  have hs3 := h3.up.sub
  have h4 := (h3.paint Color.BLACK).up
  simp only [fill_left, fill_right] at h4 hs3
  have h5 := (h4.paint Color.RED).rotateRight
  simp only [Repr, ptr_node] at hs2 hs3
  have huc := hs2.2.2.2.2.2.2.2.color_ptr h0
  simp only [addrs_node, List.nodup_append, List.nodup_cons, List.mem_append, nmem_cons, not_or,
    List.disjoint_append_left, List.disjoint_append_right, List.disjoint_cons_left,
    List.disjoint_cons_right] at hn2
  simp only [pathPtr_cons, addr_left, addr_right] at hz
  refine ⟨_, ?_, (((SameMeta.leftRotate _ _).trans (SameMeta.setColor _ _ _)).trans
    (SameMeta.setColor _ _ _)).trans (SameMeta.rightRotate _ _), h5, ?_⟩
  · rw [RBInsertFixupStep]
    simp [RedFlag, PaintBlack, PaintRed, eq_ptr_false, ptr_eq_false, *]
  · simp [uncleOf, RedFlag, *]

/-- Case A, parent on the right: the calls of the iteration. -/
theorem RBInsertFixupStep_caseA_right {s : Set α} {p : Path α} {f : Frame α} {z ga y : Nat}
    {l r ul ur : Tree α} {v gv uv : α} (hf : f.color = Color.RED)
    (h : Zip s (f :: Frame.right ga Color.BLACK (Tree.node y Color.RED ul uv ur) gv :: p)
      (Tree.node z Color.RED l v r)) :
    ∃ s2, RBInsertFixupStep s z = some (s2, ga,
        [Event.paintBlack f.addr, Event.paintBlack y, Event.paintRed ga]) ∧ SameMeta s s2 ∧
      Zip s2 p (Tree.node ga Color.RED (Tree.node y Color.BLACK ul uv ur) gv
        ((f.paint Color.BLACK).fill (Tree.node z Color.RED l v r))) ∧
      RedFlag s (uncleOf s z) = true ∧ s.parent (s.parent z) = ga := by
  have hz := h.parent_eq
  have h1 := h.up
  have h2 := h1.up
  have hs2 := h2.sub
  have hn2 := h2.nodup
  refine ⟨((s.setColor f.addr Color.BLACK).setColor y Color.BLACK).setColor ga Color.RED, ?_,
    ((SameMeta.setColor _ _ _).trans (SameMeta.setColor _ _ _)).trans (SameMeta.setColor _ _ _),
    ?_, ?_, ?_⟩
  · cases f
    all_goals
      simp only [fcolor_left, fcolor_right] at hf
      subst hf
      simp only [fill_left, fill_right, Repr, ptr_node] at hs2
      simp only [fill_left, fill_right, addrs_node, List.nodup_append, List.nodup_cons,
        List.mem_append, nmem_cons, not_or,
        List.disjoint_append_left, List.disjoint_append_right, List.disjoint_cons_left,
        List.disjoint_cons_right] at hn2
      simp only [pathPtr_cons, addr_left, addr_right] at hz
      simp [RBInsertFixupStep, RedFlag, PaintBlack, PaintRed, *]
  · cases f
    all_goals
      simp only [fill_left, fill_right, paint_left, paint_right, addr_left, addr_right] at h1 ⊢
      have h3 := (h1.paint Color.BLACK).up
      have h4 := (Zip.down (f := Frame.left ga Color.BLACK gv _) h3).paint Color.BLACK
      exact (Zip.up h4).paint Color.RED
  · cases f
    all_goals
      simp only [fill_left, fill_right, Repr, ptr_node] at hs2
      simp only [fill_left, fill_right, addrs_node, List.nodup_append, List.nodup_cons,
        List.mem_append, nmem_cons, not_or,
        List.disjoint_append_left, List.disjoint_append_right, List.disjoint_cons_left,
        List.disjoint_cons_right] at hn2
      simp only [pathPtr_cons, addr_left, addr_right] at hz
      simp [uncleOf, RedFlag, *]
  · cases f
    all_goals
      simp only [fill_left, fill_right, Repr, ptr_node] at hs2
      simp only [pathPtr_cons, addr_left, addr_right] at hz
      simp [*]

/-- Case C, parent on the right and node on the right: the calls of the iteration. -/
theorem RBInsertFixupStep_caseC_right {s : Set α} {p : Path α} {z pa ga : Nat}
    {l r pl u : Tree α} {v pv gv : α} (hu : u.color = Color.BLACK)
    (h : Zip s (Frame.right pa Color.RED pl pv :: Frame.right ga Color.BLACK u gv :: p)
      (Tree.node z Color.RED l v r)) :
    ∃ s2, RBInsertFixupStep s z = some (s2, z,
        [Event.paintBlack pa, Event.paintRed ga, Event.leftRotate ga pa]) ∧ SameMeta s s2 ∧
      Zip s2 p (Tree.node pa Color.BLACK (Tree.node ga Color.RED u gv pl) pv
        (Tree.node z Color.RED l v r)) ∧
      RedFlag s (uncleOf s z) = false := by
  have hz := h.parent_eq
  have h1 := h.up
  have h2 := h1.up
  have hs2 := h2.sub
  have hn2 := h2.nodup
  have h0 := h.nil
  simp only [fill_left, fill_right] at h1 h2 hs2 hn2
  have h3 := (h1.paint Color.BLACK).up
  simp only [fill_left, fill_right] at h3
  have h4 := (h3.paint Color.RED).rotateLeft
  simp only [Repr, ptr_node] at hs2
  have huc := hs2.2.2.2.2.2.2.1.color_ptr h0
  simp only [addrs_node, List.nodup_append, List.nodup_cons, List.mem_append, nmem_cons, not_or,
    List.disjoint_append_left, List.disjoint_append_right, List.disjoint_cons_left,
    List.disjoint_cons_right] at hn2
  simp only [pathPtr_cons, addr_left, addr_right] at hz
  refine ⟨_, ?_, ((SameMeta.setColor _ _ _).trans (SameMeta.setColor _ _ _)).trans
    (SameMeta.leftRotate _ _), h4, ?_⟩
  · rw [RBInsertFixupStep]
    simp [RedFlag, PaintBlack, PaintRed, eq_ptr_false, ptr_eq_false, *]
  · simp [uncleOf, RedFlag, eq_ptr_false, ptr_eq_false, *]

/-- Case B then C, parent on the right and node on the left: the calls of the iteration. -/
theorem RBInsertFixupStep_caseB_right {s : Set α} {p : Path α} {z pa ga : Nat}
    {l r pr u : Tree α} {v pv gv : α} (hu : u.color = Color.BLACK)
    (h : Zip s (Frame.left pa Color.RED pv pr :: Frame.right ga Color.BLACK u gv :: p)
      (Tree.node z Color.RED l v r)) :
    ∃ s2, RBInsertFixupStep s z = some (s2, pa,
        [Event.rightRotate pa z, Event.paintBlack z, Event.paintRed ga,
          Event.leftRotate ga z]) ∧ SameMeta s s2 ∧
      Zip s2 p (Tree.node z Color.BLACK (Tree.node ga Color.RED u gv l) v
        (Tree.node pa Color.RED r pv pr)) ∧
      RedFlag s (uncleOf s z) = false := by
  have hz := h.parent_eq
  have h1 := h.up
  have h2 := h1.up
  have hs2 := h2.sub
  have hn2 := h2.nodup
  have h0 := h.nil
  simp only [fill_left, fill_right] at h1 h2 hs2 hn2
  have h3 := h1.rotateRight
  have hs3 := h3.up.sub
  have h4 := (h3.paint Color.BLACK).up
  simp only [fill_left, fill_right] at h4 hs3
  have h5 := (h4.paint Color.RED).rotateLeft
  simp only [Repr, ptr_node] at hs2 hs3
  have huc := hs2.2.2.2.2.2.2.1.color_ptr h0
  simp only [addrs_node, List.nodup_append, List.nodup_cons, List.mem_append, nmem_cons, not_or,
    List.disjoint_append_left, List.disjoint_append_right, List.disjoint_cons_left,
    List.disjoint_cons_right] at hn2
  simp only [pathPtr_cons, addr_left, addr_right] at hz
  refine ⟨_, ?_, (((SameMeta.rightRotate _ _).trans (SameMeta.setColor _ _ _)).trans
    (SameMeta.setColor _ _ _)).trans (SameMeta.leftRotate _ _), h5, ?_⟩
  · rw [RBInsertFixupStep]
    simp [RedFlag, PaintBlack, PaintRed, eq_ptr_false, ptr_eq_false, *]
  · simp [uncleOf, RedFlag, eq_ptr_false, ptr_eq_false, *]

theorem RBInsertFixupRun_none {s : Set α} {z : Nat} (h : RBInsertFixupStep s z = none)
    (fuel : Nat) : RBInsertFixupRun (fuel + 1) s z = some (s, []) := by
  simp [RBInsertFixupRun, h]

theorem RBInsertFixupRun_some {s s2 s3 : Set α} {z z2 fuel : Nat} {ev : List Event}
    {log : List (Iteration α)} (h : RBInsertFixupStep s z = some (s2, z2, ev))
    (h2 : RBInsertFixupRun fuel s2 z2 = some (s3, log)) :
    RBInsertFixupRun (fuel + 1) s z =
      some (s3, { pre := s, node := z, events := ev, post := s2, next := z2 } :: log) := by
  simp [RBInsertFixupRun, h, h2]

/-- The last iteration of the loop of `RBInsertFixup`: the body is left at a node
below a BLACK parent. -/
theorem RBInsertFixupRun_last (ev : List Event) {s s2 : Set α} {z z2 : Nat} {p : Path α}
    {c : Color} {l r : Tree α} {v : α} {f : Frame α} (hs : RBInsertFixupStep s z = some (s2, z2, ev))
    (hm : SameMeta s s2) (h0 : NilOK s) (h2 : Zip s2 (f :: p) (Tree.node z2 c l v r))
    (hf : f.color = Color.BLACK) (hsafe : ∀ e ∈ ev, e.Safe s.nil_)
    (hu : RedFlag s (uncleOf s z) = false) (hr1 : 1 ≤ rotationCount ev)
    (hr2 : rotationCount ev ≤ 2) (fuel : Nat) :
    ∃ log, RBInsertFixupRun (fuel + 2) s z = some (s2, log) ∧ InsLogOK s.nil_ log ∧
      log.length = 1 := by
  refine ⟨_, RBInsertFixupRun_some hs (RBInsertFixupRun_none
    (RBInsertFixupStep_exit h2 (by simpa using hf)) fuel), ?_, rfl⟩
  have hc := h2.nil.color
  rw [hm.1] at hc
  refine ⟨hsafe, rfl, hm.1, h0.color, hc, Or.inr ⟨hu, hr1, hr2, ?_, rfl⟩⟩
  have := h2.color_pathPtr
  simp only [pathPtr_cons, pathColor_cons, hf] at this
  simp [BlackFlag, h2.parent_eq, this]

/-- The loop of `RBInsertFixup`, started at a RED node whose subtrees are valid
and whose path is valid, returns after at most one iteration for every two
levels of the path, and its records are as `InsLogOK` says. -/
theorem RBInsertFixupRun_spec (n : Nat) : ∀ (p : Path α) (s : Set α) (z : Nat) (l r : Tree α)
    (v : α) (fuel : Nat), p.length ≤ n → p.length + 2 ≤ fuel →
    Zip s p (Tree.node z Color.RED l v r) → PathRB p l.bh →
    (Tree.node z Color.RED l v r).NoRedRed → (Tree.node z Color.RED l v r).Balanced →
    ∃ s2 log, RBInsertFixupRun fuel s z = some (s2, log) ∧ InsLogOK s.nil_ log ∧
      2 * log.length ≤ p.length := by
  induction n using Nat.strong_induction_on with
  | _ n ih =>
  intro p s z l r v fuel hlen hfuel hz hp hnr hbal
  obtain ⟨k, rfl⟩ : ∃ k, fuel = k + 2 := ⟨fuel - 2, by omega⟩
  rcases p with _ | ⟨f1, p1⟩
  · exact ⟨s, [], RBInsertFixupRun_none (RBInsertFixupStep_exit hz rfl) _, trivial, by simp⟩
  rcases color_cases f1.color with hf1 | hf1
  swap
  · exact ⟨s, [], RBInsertFixupRun_none (RBInsertFixupStep_exit hz (by simpa using hf1)) _,
      trivial, by simp⟩
  have hp1 := hp
  simp only [pathRB_cons, hf1, true_implies] at hp1
  obtain ⟨-, -, -, ⟨-, hpc, hne⟩, -⟩ := hp1
  rcases p1 with _ | ⟨f2, p2⟩
  · exact absurd rfl hne
  simp only [pathColor_cons] at hpc
  simp only [List.length_cons] at hlen hfuel ⊢
  clear hne
  have hz0 := hz.ptr_ne_nil
  have hga0 : f2.addr ≠ s.nil_ := by
    have := hz.up.up
    cases f2 <;> exact this.ptr_ne_nil
  have hpa0 : f1.addr ≠ s.nil_ := by
    have := hz.up
    cases f1 <;> exact this.ptr_ne_nil
  cases f2 with
  | left ga gc gv u =>
    simp only [fcolor_left] at hpc
    subst hpc
    simp only [addr_left] at hga0
    rcases color_cases u.color with huc | huc
    · obtain ⟨y, ul, uv, ur, rfl⟩ := color_node_of_red huc
      obtain ⟨s1, e1, m1, z1, u1, g1⟩ := RBInsertFixupStep_caseA_left hf1 hz
      obtain ⟨q1, q2, q3⟩ := caseA_pure_left hf1 hp hnr hbal
      obtain ⟨s2, log, e2, o2, n2⟩ := ih (n - 2) (by omega) p2 s1 ga _ _ gv (k + 1)
        (by omega) (by omega) z1 q1 q2 q3
      have hc := z1.nil.color
      rw [m1.1] at hc o2
      refine ⟨s2, _, RBInsertFixupRun_some e1 e2, ⟨?_, rfl, m1.1, hz.nil.color, hc,
        Or.inl ⟨u1, g1.symm, rfl, o2⟩⟩, by simp only [List.length_cons]; omega⟩
      intro e he
      simp only [List.mem_cons, List.mem_singleton, List.not_mem_nil, or_false] at he
      rcases he with rfl | rfl | rfl <;> simp [Event.Safe, hga0]
    · clear ih
      cases f1 with
      | left pa pc pv pr =>
        simp only [fcolor_left] at hf1
        subst hf1
        simp only [addr_left] at hpa0
        obtain ⟨s1, e1, m1, z1, u1⟩ := RBInsertFixupStep_caseC_left huc hz
        obtain ⟨log, e2, o2, n2⟩ := RBInsertFixupRun_last
          [Event.paintBlack pa, Event.paintRed ga, Event.rightRotate ga pa] e1 m1 hz.nil
          (Zip.down (f := Frame.left pa Color.BLACK pv _) z1) rfl
          (by
            intro e he
            simp only [List.mem_cons, List.mem_singleton, List.not_mem_nil, or_false] at he
            rcases he with rfl | rfl | rfl <;> simp [Event.Safe, hga0, hpa0])
          u1 (by simp [rotationCount, Event.isRotation]) (by simp [rotationCount, Event.isRotation])
          k
        exact ⟨s1, log, e2, o2, by omega⟩
      | right pa pc pl pv =>
        simp only [fcolor_right] at hf1
        subst hf1
        simp only [addr_right] at hpa0
        obtain ⟨s1, e1, m1, z1, u1⟩ := RBInsertFixupStep_caseB_left huc hz
        obtain ⟨log, e2, o2, n2⟩ := RBInsertFixupRun_last
          [Event.leftRotate pa z, Event.paintBlack z, Event.paintRed ga,
          Event.rightRotate ga z] e1 m1 hz.nil
          (Zip.down (f := Frame.left z Color.BLACK v _) z1) rfl
          (by
            intro e he
            simp only [List.mem_cons, List.mem_singleton, List.not_mem_nil, or_false] at he
            rcases he with rfl | rfl | rfl | rfl <;> simp [Event.Safe, hga0, hpa0, hz0])
          u1 (by simp [rotationCount, Event.isRotation]) (by simp [rotationCount, Event.isRotation])
          k
        exact ⟨s1, log, e2, o2, by omega⟩
  | right ga gc u gv =>
    simp only [fcolor_right] at hpc
    subst hpc
    simp only [addr_right] at hga0
    rcases color_cases u.color with huc | huc
    · obtain ⟨y, ul, uv, ur, rfl⟩ := color_node_of_red huc
      obtain ⟨s1, e1, m1, z1, u1, g1⟩ := RBInsertFixupStep_caseA_right hf1 hz
      obtain ⟨q1, q2, q3⟩ := caseA_pure_right hf1 hp hnr hbal
      obtain ⟨s2, log, e2, o2, n2⟩ := ih (n - 2) (by omega) p2 s1 ga _ _ gv (k + 1)
        (by omega) (by omega) z1 q1 q2 q3
      have hc := z1.nil.color
      rw [m1.1] at hc o2
      refine ⟨s2, _, RBInsertFixupRun_some e1 e2, ⟨?_, rfl, m1.1, hz.nil.color, hc,
        Or.inl ⟨u1, g1.symm, rfl, o2⟩⟩, by simp only [List.length_cons]; omega⟩
      intro e he
      simp only [List.mem_cons, List.mem_singleton, List.not_mem_nil, or_false] at he
      rcases he with rfl | rfl | rfl <;> simp [Event.Safe, hga0]
    · clear ih
      cases f1 with
      | left pa pc pv pr =>
        simp only [fcolor_left] at hf1
        subst hf1
        simp only [addr_left] at hpa0
        obtain ⟨s1, e1, m1, z1, u1⟩ := RBInsertFixupStep_caseB_right huc hz
        obtain ⟨log, e2, o2, n2⟩ := RBInsertFixupRun_last
          [Event.rightRotate pa z, Event.paintBlack z, Event.paintRed ga,
          Event.leftRotate ga z] e1 m1 hz.nil
          (Zip.down (f := Frame.right z Color.BLACK _ v) z1) rfl
          (by
            intro e he
            simp only [List.mem_cons, List.mem_singleton, List.not_mem_nil, or_false] at he
            rcases he with rfl | rfl | rfl | rfl <;> simp [Event.Safe, hga0, hpa0, hz0])
          u1 (by simp [rotationCount, Event.isRotation]) (by simp [rotationCount, Event.isRotation])
          k
        exact ⟨s1, log, e2, o2, by omega⟩
      | right pa pc pl pv =>
        simp only [fcolor_right] at hf1
        subst hf1
        simp only [addr_right] at hpa0
        obtain ⟨s1, e1, m1, z1, u1⟩ := RBInsertFixupStep_caseC_right huc hz
        obtain ⟨log, e2, o2, n2⟩ := RBInsertFixupRun_last
          [Event.paintBlack pa, Event.paintRed ga, Event.leftRotate ga pa] e1 m1 hz.nil
          (Zip.down (f := Frame.right pa Color.BLACK _ pv) z1) rfl
          (by
            intro e he
            simp only [List.mem_cons, List.mem_singleton, List.not_mem_nil, or_false] at he
            rcases he with rfl | rfl | rfl <;> simp [Event.Safe, hga0, hpa0])
          u1 (by simp [rotationCount, Event.isRotation]) (by simp [rotationCount, Event.isRotation])
          k
        exact ⟨s1, log, e2, o2, by omega⟩

end RBSet

namespace RBSet
variable {α : Type}

/-! ## The loop of `RBDeleteFixup`, iteration by iteration -/

/-- The loop of `RBDeleteFixup` is the iteration of its body. -/
theorem RBDeleteFixupLoop_step (fuel : Nat) (s : Set α) (x : Nat) :
    RBDeleteFixupLoop (fuel + 1) s x =
      match RBDeleteFixupStep s x with
      | none => some (s, x)
      | some r => RBDeleteFixupLoop fuel r.1 r.2.1 := by
  rw [RBDeleteFixupLoop]
  unfold RBDeleteFixupStep RBDeleteFixupLeftRest RBDeleteFixupRightRest
  dsimp only
  split_ifs <;> rfl

/-- The run with records ends in the state and at the node in which the loop ends. -/
theorem RBDeleteFixupRun_state (fuel : Nat) (s : Set α) (x : Nat) :
    (RBDeleteFixupRun fuel s x).map (fun r => (r.1, r.2.1)) = RBDeleteFixupLoop fuel s x := by
  induction fuel generalizing s x with
  | zero => rfl
  | succ n ih =>
    rw [RBDeleteFixupLoop_step, RBDeleteFixupRun]
    rcases h : RBDeleteFixupStep s x with _ | ⟨s2, x2, ev⟩
    · rfl
    · simp only
      rw [← ih s2 x2]
      rcases RBDeleteFixupRun n s2 x2 with _ | ⟨s3, x3, log⟩ <;> rfl

theorem RBDeleteFixupRun_none {s : Set α} {x : Nat} (h : RBDeleteFixupStep s x = none)
    (fuel : Nat) : RBDeleteFixupRun (fuel + 1) s x = some (s, x, []) := by
  simp [RBDeleteFixupRun, h]

theorem RBDeleteFixupRun_some {s s2 s3 : Set α} {x x2 x3 fuel : Nat} {ev : List Event}
    {log : List (Iteration α)} (h : RBDeleteFixupStep s x = some (s2, x2, ev))
    (h2 : RBDeleteFixupRun fuel s2 x2 = some (s3, x3, log)) :
    RBDeleteFixupRun (fuel + 1) s x =
      some (s3, x3, { pre := s, node := x, events := ev, post := s2, next := x2 } :: log) := by
  simp [RBDeleteFixupRun, h, h2]

/-- The body is not entered at `root_`. -/
theorem RBDeleteFixupStep_root (s : Set α) : RBDeleteFixupStep s s.root_ = none := by
  simp [RBDeleteFixupStep]

/-- The body is not entered at a RED node. -/
theorem RBDeleteFixupStep_exit_red {s : Set α} {p : Path α} {a : Nat} {l r : Tree α} {v : α}
    (h : Zip s p (Tree.node a Color.RED l v r)) : RBDeleteFixupStep s a = none := by
  have := h.sub
  simp only [Repr] at this
  simp [RBDeleteFixupStep, BlackFlag, this.2.2.1]


theorem rotationCount_append (a b : List Event) :
    rotationCount (a ++ b) = rotationCount a + rotationCount b := by
  simp [rotationCount]

/-- Case 2, node on the left: a BLACK sibling with two BLACK children is painted RED
and the loop moves to the parent. -/
theorem RBDeleteFixupLeftRest_case2 {s : Set α} {p : Path α} {x : Tree α} {pa w : Nat}
    {pc : Color} {wl wr : Tree α} {pv wv : α}
    (h : Zip s (Frame.left pa pc pv (Tree.node w Color.BLACK wl wv wr) :: p) x)
    (hx : s.parent (x.ptr s.nil_) = pa) (log : List Event)
    (hl : wl.color = Color.BLACK) (hr : wr.color = Color.BLACK) :
    ∃ s2, RBDeleteFixupLeftRest s (x.ptr s.nil_) w log = (s2, pa, log ++
        [Event.paintRed w]) ∧
      SameMeta s s2 ∧ Zip s2 p (Tree.node pa pc x pv (Tree.node w Color.RED wl wv wr)) := by
  have h1 := h.up
  have hs1 := h1.sub
  have h0 := h.nil
  have hroot := h.ptr_ne_root
  simp only [fill_left] at h1 hs1
  have h2 := ((Zip.down (f := Frame.right pa pc x pv) h1).paint Color.RED).up
  refine ⟨_, ?_, SameMeta.setColor _ _ _, h2⟩
  simp only [Repr, ptr_node] at hs1
  have hxc2 := hs1.2.2.2.2.2.2.1.color_ptr h0
  have hlc := hs1.2.2.2.2.2.2.2.2.2.2.2.2.2.1.color_ptr h0
  have hrc := hs1.2.2.2.2.2.2.2.2.2.2.2.2.2.2.color_ptr h0
  rw [RBDeleteFixupLeftRest]
  simp [RedFlag, BlackFlag, PaintRed, *]

/-- Case 4, node on the left: a BLACK sibling with a RED right child. -/
theorem RBDeleteFixupLeftRest_case4 {s : Set α} {p : Path α} {x : Tree α} {pa w r : Nat}
    {pc : Color} {wl rl rr : Tree α} {pv wv rv : α}
    (h : Zip s (Frame.left pa pc pv
      (Tree.node w Color.BLACK wl wv (Tree.node r Color.RED rl rv rr)) :: p) x)
    (hx : s.parent (x.ptr s.nil_) = pa) (log : List Event) :
    ∃ s2, RBDeleteFixupLeftRest s (x.ptr s.nil_) w log = (s2, s2.root_, log ++
        [Event.setColor w pc, Event.paintBlack pa, Event.paintBlack r,
        Event.leftRotate pa w]) ∧
      SameMeta s s2 ∧
      Zip s2 p (Tree.node w pc (Tree.node pa Color.BLACK x pv wl) wv
        (Tree.node r Color.BLACK rl rv rr)) := by
  have h1 := h.up
  have hs1 := h1.sub
  have h0 := h.nil
  have hroot := h.ptr_ne_root
  simp only [fill_left] at h1 hs1
  have h2 := ((Zip.down (f := Frame.right pa pc x pv) h1).paint pc).up
  simp only [fill_right] at h2
  have h3 := h2.paint Color.BLACK
  have h4 := ((Zip.down (f := Frame.right w pc wl wv)
    (Zip.down (f := Frame.right pa Color.BLACK x pv) h3)).paint Color.BLACK).up.up
  simp only [fill_right] at h4
  have h5 := h4.rotateLeft
  refine ⟨_, ?_, (((SameMeta.setColor _ _ _).trans (SameMeta.setColor _ _ _)).trans
    (SameMeta.setColor _ _ _)).trans (SameMeta.leftRotate _ _), h5⟩
  simp only [Repr, ptr_node] at hs1
  have hxc2 := hs1.2.2.2.2.2.2.1.color_ptr h0
  have hlc := hs1.2.2.2.2.2.2.2.2.2.2.2.2.2.1.color_ptr h0
  rw [RBDeleteFixupLeftRest]
  simp [RedFlag, BlackFlag, PaintRed, PaintBlack, *]

/-- Case 1, node on the left: a RED sibling is rotated above the parent; the
iteration goes on as if it had started in the rotated state. -/
theorem RBDeleteFixupStep_red_left {s : Set α} {p : Path α} {x : Tree α} {pa w : Nat}
    {wl wr : Tree α} {pv wv : α}
    (h : Zip s (Frame.left pa Color.BLACK pv (Tree.node w Color.RED wl wv wr) :: p) x)
    (hx : s.parent (x.ptr s.nil_) = pa) (hxc : x.color = Color.BLACK) :
    ∃ s2, RBDeleteFixupStep s (x.ptr s.nil_) =
        some (RBDeleteFixupLeftRest s2 (x.ptr s.nil_) (wl.ptr s.nil_)
          [Event.sibling w, Event.paintBlack w, Event.paintRed pa, Event.leftRotate pa w,
            Event.sibling (wl.ptr s.nil_)]) ∧
      SameMeta s s2 ∧ s2.parent (x.ptr s.nil_) = pa ∧
      Zip s2 (Frame.left pa Color.RED pv wl :: Frame.left w Color.BLACK wv wr :: p) x := by
  have h1 := h.up
  have hs1 := h1.sub
  have h0 := h.nil
  have hroot := h.ptr_ne_root
  simp only [fill_left] at h1 hs1
  have h2 := ((Zip.down (f := Frame.right pa Color.BLACK x pv) h1).paint Color.BLACK).up
  simp only [fill_right] at h2
  have h3 := (h2.paint Color.RED).rotateLeft
  have h4 := Zip.down (f := Frame.left pa Color.RED pv wl)
    (Zip.down (f := Frame.left w Color.BLACK wv wr) h3)
  have hroot4 := h4.ptr_ne_root
  have hs4 := h4.up.sub
  have h04 := h4.nil
  simp only [Repr, ptr_node, fill_left] at hs1 hs4
  have hx4 : (LeftRotate ((s.setColor w Color.BLACK).setColor pa Color.RED) pa).parent
      (x.ptr s.nil_) = pa := by
    cases x with
    | leaf =>
      have := parent_LeftRotate_nil ((s.setColor w Color.BLACK).setColor pa Color.RED) pa
        (by simpa using hs1.1.symm) (by simpa [hs1.2.2.2.2.1] using hs1.2.2.2.2.2.2.2.1.symm)
      simp only [ptr_leaf] at hx ⊢
      simp only [nil_setColor, parent_setColor] at this
      rw [this, hx]
    | node a c l v r => simpa using h4.parent_eq
  refine ⟨_, ?_, ((SameMeta.setColor _ _ _).trans (SameMeta.setColor _ _ _)).trans
    (SameMeta.leftRotate _ _), hx4, h4⟩
  have hxc2 := hs1.2.2.2.2.2.2.1.color_ptr h0
  have hxc4 := hs4.2.2.2.2.2.2.1.color_ptr h04
  have hwc4 := hs4.2.2.2.2.2.2.2.color_ptr h04
  simp only [nil_LeftRotate, nil_setColor] at hxc4 hwc4 hroot4
  rw [RBDeleteFixupStep]
  simp [RedFlag, BlackFlag, PaintRed, PaintBlack, *]

/-- Cases 3 and 4, node on the left: a BLACK sibling with a RED left and a BLACK
right child. -/
theorem RBDeleteFixupLeftRest_case3 {s : Set α} {p : Path α} {x : Tree α} {pa w a : Nat}
    {pc : Color} {al ar wr : Tree α} {pv wv av : α}
    (h : Zip s (Frame.left pa pc pv
      (Tree.node w Color.BLACK (Tree.node a Color.RED al av ar) wv wr) :: p) x)
    (hx : s.parent (x.ptr s.nil_) = pa) (log : List Event)
    (hwr : wr.color = Color.BLACK) :
    ∃ s2, RBDeleteFixupLeftRest s (x.ptr s.nil_) w log = (s2, s2.root_, log ++
        [Event.paintBlack a, Event.paintRed w, Event.rightRotate w a,
        Event.sibling a, Event.setColor a pc, Event.paintBlack pa, Event.paintBlack w,
        Event.leftRotate pa a]) ∧
      SameMeta s s2 ∧
      Zip s2 p (Tree.node a pc (Tree.node pa Color.BLACK x pv al) av
        (Tree.node w Color.BLACK ar wv wr)) := by
  have h1 := h.up
  have hs1 := h1.sub
  have h0 := h.nil
  have hroot := h.ptr_ne_root
  simp only [fill_left] at h1 hs1
  have h2 := ((Zip.down (f := Frame.left w Color.BLACK wv wr)
    (Zip.down (f := Frame.right pa pc x pv) h1)).paint Color.BLACK).up
  simp only [fill_left] at h2
  have h3 := (h2.paint Color.RED).rotateRight
  have hs3 := h3.up.sub
  have h03 := h3.nil
  have h4 := (h3.paint pc).up
  simp only [fill_right] at h4 hs3
  have h5 := h4.paint Color.BLACK
  have h6 := ((Zip.down (f := Frame.right a pc al av)
    (Zip.down (f := Frame.right pa Color.BLACK x pv) h5)).paint Color.BLACK).up.up
  simp only [fill_right] at h6
  have h7 := h6.rotateLeft
  simp only [Repr, ptr_node] at hs1 hs3
  have hx3 : (RightRotate ((s.setColor a Color.BLACK).setColor w Color.RED) w).parent
      (x.ptr s.nil_) = pa := by
    cases x with
    | leaf =>
      have := parent_RightRotate_nil ((s.setColor a Color.BLACK).setColor w Color.RED) w
        (by simpa using hs1.2.2.2.2.2.2.2.1.symm)
        (by simpa [hs1.2.2.2.2.2.2.2.2.2.2.1] using hs1.2.2.2.2.2.2.2.2.2.2.2.2.2.1.1.symm)
      simp only [ptr_leaf] at hx ⊢
      simp only [nil_setColor, parent_setColor] at this
      rw [this, hx]
    | node b c l v r => simpa using hs3.2.2.2.2.2.2.1.2.2.2.2.2.1
  refine ⟨_, ?_, ((((((SameMeta.setColor _ _ _).trans (SameMeta.setColor _ _ _)).trans
    (SameMeta.rightRotate _ _)).trans (SameMeta.setColor _ _ _)).trans
    (SameMeta.setColor _ _ _)).trans (SameMeta.setColor _ _ _)).trans
    (SameMeta.leftRotate _ _), h7⟩
  have hxc2 := hs1.2.2.2.2.2.2.1.color_ptr h0
  have hrc := hs1.2.2.2.2.2.2.2.2.2.2.2.2.2.2.color_ptr h0
  simp only [nil_RightRotate, nil_setColor] at hs3
  rw [RBDeleteFixupLeftRest]
  simp [RedFlag, BlackFlag, PaintRed, PaintBlack, *]

/-- Case 2, node on the right. -/
theorem RBDeleteFixupRightRest_case2 {s : Set α} {p : Path α} {x : Tree α} {pa w : Nat}
    {pc : Color} {wl wr : Tree α} {pv wv : α}
    (h : Zip s (Frame.right pa pc (Tree.node w Color.BLACK wl wv wr) pv :: p) x)
    (hx : s.parent (x.ptr s.nil_) = pa) (log : List Event)
    (hl : wl.color = Color.BLACK) (hr : wr.color = Color.BLACK) :
    ∃ s2, RBDeleteFixupRightRest s (x.ptr s.nil_) w log = (s2, pa, log ++
        [Event.paintRed w]) ∧
      SameMeta s s2 ∧ Zip s2 p (Tree.node pa pc (Tree.node w Color.RED wl wv wr) pv x) := by
  have h1 := h.up
  have hs1 := h1.sub
  have hn1 := h1.nodup
  have h0 := h.nil
  have hroot := h.ptr_ne_root
  simp only [fill_right] at h1 hs1 hn1
  have h2 := ((Zip.down (f := Frame.left pa pc pv x) h1).paint Color.RED).up
  refine ⟨_, ?_, SameMeta.setColor _ _ _, h2⟩
  simp only [Repr, ptr_node] at hs1
  have hxc2 := hs1.2.2.2.2.2.2.2.color_ptr h0
  have hlc := hs1.2.2.2.2.2.2.1.2.2.2.2.2.2.1.color_ptr h0
  have hrc := hs1.2.2.2.2.2.2.1.2.2.2.2.2.2.2.color_ptr h0
  have hw0 := hs1.2.2.2.2.2.2.1.1
  simp only [addrs_node, List.nodup_append, List.nodup_cons, List.mem_append, nmem_cons, not_or,
    List.disjoint_append_left, List.disjoint_append_right, List.disjoint_cons_left,
    List.disjoint_cons_right] at hn1
  rw [RBDeleteFixupRightRest]
  simp [RedFlag, BlackFlag, PaintRed, eq_ptr_false, ptr_eq_false, *]

/-- Case 4, node on the right: a BLACK sibling with a RED left child. -/
theorem RBDeleteFixupRightRest_case4 {s : Set α} {p : Path α} {x : Tree α} {pa w l : Nat}
    {pc : Color} {wr ll lr : Tree α} {pv wv lv : α}
    (h : Zip s (Frame.right pa pc
      (Tree.node w Color.BLACK (Tree.node l Color.RED ll lv lr) wv wr) pv :: p) x)
    (hx : s.parent (x.ptr s.nil_) = pa) (log : List Event) :
    ∃ s2, RBDeleteFixupRightRest s (x.ptr s.nil_) w log = (s2, s2.root_, log ++
        [Event.setColor w pc, Event.paintBlack pa, Event.paintBlack l,
        Event.rightRotate pa w]) ∧
      SameMeta s s2 ∧
      Zip s2 p (Tree.node w pc (Tree.node l Color.BLACK ll lv lr) wv
        (Tree.node pa Color.BLACK wr pv x)) := by
  have h1 := h.up
  have hs1 := h1.sub
  have hn1 := h1.nodup
  have h0 := h.nil
  have hroot := h.ptr_ne_root
  simp only [fill_right] at h1 hs1 hn1
  have h2 := ((Zip.down (f := Frame.left pa pc pv x) h1).paint pc).up
  simp only [fill_left] at h2
  have h3 := h2.paint Color.BLACK
  have h4 := ((Zip.down (f := Frame.left w pc wv wr)
    (Zip.down (f := Frame.left pa Color.BLACK pv x) h3)).paint Color.BLACK).up.up
  simp only [fill_left] at h4
  have h5 := h4.rotateRight
  refine ⟨_, ?_, (((SameMeta.setColor _ _ _).trans (SameMeta.setColor _ _ _)).trans
    (SameMeta.setColor _ _ _)).trans (SameMeta.rightRotate _ _), h5⟩
  simp only [Repr, ptr_node] at hs1
  have hxc2 := hs1.2.2.2.2.2.2.2.color_ptr h0
  have hw0 := hs1.2.2.2.2.2.2.1.1
  simp only [addrs_node, List.nodup_append, List.nodup_cons, List.mem_append, nmem_cons, not_or,
    List.disjoint_append_left, List.disjoint_append_right, List.disjoint_cons_left,
    List.disjoint_cons_right] at hn1
  rw [RBDeleteFixupRightRest]
  simp [RedFlag, BlackFlag, PaintRed, PaintBlack, eq_ptr_false, ptr_eq_false, *]

/-- Case 1, node on the right. -/
theorem RBDeleteFixupStep_red_right {s : Set α} {p : Path α} {x : Tree α} {pa w b : Nat}
    {wl bl br : Tree α} {pv wv bv : α}
    (h : Zip s (Frame.right pa Color.BLACK
      (Tree.node w Color.RED wl wv (Tree.node b Color.BLACK bl bv br)) pv :: p) x)
    (hx : s.parent (x.ptr s.nil_) = pa) (hxc : x.color = Color.BLACK) :
    ∃ s2, RBDeleteFixupStep s (x.ptr s.nil_) =
        some (RBDeleteFixupRightRest s2 (x.ptr s.nil_) b
          [Event.sibling w, Event.paintBlack w, Event.paintRed pa, Event.rightRotate pa w,
            Event.sibling b]) ∧
      SameMeta s s2 ∧ s2.parent (x.ptr s.nil_) = pa ∧
      Zip s2 (Frame.right pa Color.RED (Tree.node b Color.BLACK bl bv br) pv ::
        Frame.right w Color.BLACK wl wv :: p) x := by
  have h1 := h.up
  have hs1 := h1.sub
  have hn1 := h1.nodup
  have h0 := h.nil
  have hroot := h.ptr_ne_root
  simp only [fill_right] at h1 hs1 hn1
  have h2 := ((Zip.down (f := Frame.left pa Color.BLACK pv x) h1).paint Color.BLACK).up
  simp only [fill_left] at h2
  have h3 := (h2.paint Color.RED).rotateRight
  have h4 := Zip.down (f := Frame.right pa Color.RED (Tree.node b Color.BLACK bl bv br) pv)
    (Zip.down (f := Frame.right w Color.BLACK wl wv) h3)
  have hroot4 := h4.ptr_ne_root
  have hs4 := h4.up.sub
  have h04 := h4.nil
  simp only [Repr, ptr_node, fill_right] at hs1 hs4
  have hx4 : (RightRotate ((s.setColor w Color.BLACK).setColor pa Color.RED) pa).parent
      (x.ptr s.nil_) = pa := by
    cases x with
    | leaf =>
      have := parent_RightRotate_nil ((s.setColor w Color.BLACK).setColor pa Color.RED) pa
        (by simpa using hs1.1.symm) (by simpa [hs1.2.2.2.1] using hs1.2.2.2.2.2.2.1.1.symm)
      simp only [ptr_leaf] at hx ⊢
      simp only [nil_setColor, parent_setColor] at this
      rw [this, hx]
    | node a c l v r => simpa using h4.parent_eq
  refine ⟨_, ?_, ((SameMeta.setColor _ _ _).trans (SameMeta.setColor _ _ _)).trans
    (SameMeta.rightRotate _ _), hx4, h4⟩
  have hxc2 := hs1.2.2.2.2.2.2.2.color_ptr h0
  have hxc4 := hs4.2.2.2.2.2.2.2.color_ptr h04
  have hw0 := hs1.2.2.2.2.2.2.1.1
  have hb0 := hs1.2.2.2.2.2.2.1.2.2.2.2.2.2.2.1
  simp only [nil_RightRotate, nil_setColor] at hxc4 hroot4 hs4
  simp only [addrs_node, List.nodup_append, List.nodup_cons, List.mem_append, nmem_cons, not_or,
    List.disjoint_append_left, List.disjoint_append_right, List.disjoint_cons_left,
    List.disjoint_cons_right] at hn1
  rw [RBDeleteFixupStep]
  simp [RedFlag, BlackFlag, PaintRed, PaintBlack, eq_ptr_false, ptr_eq_false, *]

/-- Cases 3 and 4, node on the right: a BLACK sibling with a RED right and a BLACK
left child. -/
theorem RBDeleteFixupRightRest_case3 {s : Set α} {p : Path α} {x : Tree α} {pa w a : Nat}
    {pc : Color} {al ar wl : Tree α} {pv wv av : α}
    (h : Zip s (Frame.right pa pc
      (Tree.node w Color.BLACK wl wv (Tree.node a Color.RED al av ar)) pv :: p) x)
    (hx : s.parent (x.ptr s.nil_) = pa) (log : List Event)
    (hwl : wl.color = Color.BLACK) :
    ∃ s2, RBDeleteFixupRightRest s (x.ptr s.nil_) w log = (s2, s2.root_, log ++
        [Event.paintBlack a, Event.paintRed w, Event.leftRotate w a,
        Event.sibling a, Event.setColor a pc, Event.paintBlack pa, Event.paintBlack w,
        Event.rightRotate pa a]) ∧
      SameMeta s s2 ∧
      Zip s2 p (Tree.node a pc (Tree.node w Color.BLACK wl wv al) av
        (Tree.node pa Color.BLACK ar pv x)) := by
  have h1 := h.up
  have hs1 := h1.sub
  have hn1 := h1.nodup
  have h0 := h.nil
  have hroot := h.ptr_ne_root
  simp only [fill_right] at h1 hs1 hn1
  have h2 := ((Zip.down (f := Frame.right w Color.BLACK wl wv)
    (Zip.down (f := Frame.left pa pc pv x) h1)).paint Color.BLACK).up
  simp only [fill_right] at h2
  have h3 := (h2.paint Color.RED).rotateLeft
  have hs3 := h3.up.sub
  have h03 := h3.nil
  have h4 := (h3.paint pc).up
  simp only [fill_left] at h4 hs3
  have h5 := h4.paint Color.BLACK
  have h6 := ((Zip.down (f := Frame.left a pc av ar)
    (Zip.down (f := Frame.left pa Color.BLACK pv x) h5)).paint Color.BLACK).up.up
  simp only [fill_left] at h6
  have h7 := h6.rotateRight
  simp only [Repr, ptr_node] at hs1 hs3
  have hx3 : (LeftRotate ((s.setColor a Color.BLACK).setColor w Color.RED) w).parent
      (x.ptr s.nil_) = pa := by
    cases x with
    | leaf =>
      have := parent_LeftRotate_nil ((s.setColor a Color.BLACK).setColor w Color.RED) w
        (by simpa using hs1.2.2.2.2.2.2.1.1.symm)
        (by simpa [hs1.2.2.2.2.2.2.1.2.2.2.2.1] using
          hs1.2.2.2.2.2.2.1.2.2.2.2.2.2.2.1.symm)
      simp only [ptr_leaf] at hx ⊢
      simp only [nil_setColor, parent_setColor] at this
      rw [this, hx]
    | node b c l v r => simpa using hs3.2.2.2.2.2.2.2.2.2.2.2.2.1
  refine ⟨_, ?_, ((((((SameMeta.setColor _ _ _).trans (SameMeta.setColor _ _ _)).trans
    (SameMeta.leftRotate _ _)).trans (SameMeta.setColor _ _ _)).trans
    (SameMeta.setColor _ _ _)).trans (SameMeta.setColor _ _ _)).trans
    (SameMeta.rightRotate _ _), h7⟩
  have hxc2 := hs1.2.2.2.2.2.2.2.color_ptr h0
  have hlc := hs1.2.2.2.2.2.2.1.2.2.2.2.2.2.1.color_ptr h0
  have hw0 := hs1.2.2.2.2.2.2.1.1
  have ha0 := hs1.2.2.2.2.2.2.1.2.2.2.2.2.2.2.1
  simp only [nil_LeftRotate, nil_setColor] at hs3
  simp only [addrs_node, List.nodup_append, List.nodup_cons, List.mem_append, nmem_cons, not_or,
    List.disjoint_append_left, List.disjoint_append_right, List.disjoint_cons_left,
    List.disjoint_cons_right] at hn1
  rw [RBDeleteFixupRightRest]
  simp [RedFlag, BlackFlag, PaintRed, PaintBlack, eq_ptr_false, ptr_eq_false, *]

/-- The body at a left child with a BLACK sibling: the statement that deals with
a RED sibling does nothing. -/
theorem RBDeleteFixupStep_black_left {s : Set α} {p : Path α} {x : Tree α} {pa w : Nat}
    {pc : Color} {wl wr : Tree α} {pv wv : α}
    (h : Zip s (Frame.left pa pc pv (Tree.node w Color.BLACK wl wv wr) :: p) x)
    (hx : s.parent (x.ptr s.nil_) = pa) (hxc : x.color = Color.BLACK) :
    RBDeleteFixupStep s (x.ptr s.nil_) =
      some (RBDeleteFixupLeftRest s (x.ptr s.nil_) w [Event.sibling w]) := by
  have h1 := h.up
  have hs1 := h1.sub
  have h0 := h.nil
  have hroot := h.ptr_ne_root
  simp only [fill_left] at h1 hs1
  simp only [Repr, ptr_node] at hs1
  have hxc2 := hs1.2.2.2.2.2.2.1.color_ptr h0
  rw [RBDeleteFixupStep]
  simp [RedFlag, BlackFlag, *]

/-- The body at a right child with a BLACK sibling. -/
theorem RBDeleteFixupStep_black_right {s : Set α} {p : Path α} {x : Tree α} {pa w : Nat}
    {pc : Color} {wl wr : Tree α} {pv wv : α}
    (h : Zip s (Frame.right pa pc (Tree.node w Color.BLACK wl wv wr) pv :: p) x)
    (hx : s.parent (x.ptr s.nil_) = pa) (hxc : x.color = Color.BLACK) :
    RBDeleteFixupStep s (x.ptr s.nil_) =
      some (RBDeleteFixupRightRest s (x.ptr s.nil_) w [Event.sibling w]) := by
  have h1 := h.up
  have hs1 := h1.sub
  have hn1 := h1.nodup
  have h0 := h.nil
  have hroot := h.ptr_ne_root
  simp only [fill_right] at h1 hs1 hn1
  simp only [Repr, ptr_node] at hs1
  have hxc2 := hs1.2.2.2.2.2.2.2.color_ptr h0
  have hw0 := hs1.2.2.2.2.2.2.1.1
  simp only [addrs_node, List.nodup_append, List.nodup_cons, List.mem_append, nmem_cons, not_or,
    List.disjoint_append_left, List.disjoint_append_right, List.disjoint_cons_left,
    List.disjoint_cons_right] at hn1
  rw [RBDeleteFixupStep]
  simp [RedFlag, BlackFlag, eq_ptr_false, ptr_eq_false, *]



@[simp] theorem rotationCount_nil : rotationCount [] = 0 := rfl

/-- The sibling of the focus is a node when the focus is one BLACK node short. -/
theorem Zip.sib_left_ne_nil {s : Set α} {p : Path α} {x : Tree α} {pa w : Nat} {pc wc : Color}
    {wl wr : Tree α} {pv wv : α}
    (h : Zip s (Frame.left pa pc pv (Tree.node w wc wl wv wr) :: p) x) :
    pa ≠ s.nil_ ∧ w ≠ s.nil_ ∧ (wl ≠ Tree.leaf → wl.ptr s.nil_ ≠ s.nil_) ∧
      (wr ≠ Tree.leaf → wr.ptr s.nil_ ≠ s.nil_) := by
  have hW := h.path
  simp only [ReprPath, Repr] at hW
  refine ⟨hW.1, hW.2.2.2.2.2.2.1.1, ?_, ?_⟩
  · intro hne
    cases wl with
    | leaf => exact absurd rfl hne
    | node a c l v r =>
      have := hW.2.2.2.2.2.2.1.2.2.2.2.2.2.1
      simp only [Repr] at this
      simpa using this.1
  · intro hne
    cases wr with
    | leaf => exact absurd rfl hne
    | node a c l v r =>
      have := hW.2.2.2.2.2.2.1.2.2.2.2.2.2.2
      simp only [Repr] at this
      simpa using this.1

/-- The mirror of `Zip.sib_left_ne_nil`. -/
theorem Zip.sib_right_ne_nil {s : Set α} {p : Path α} {x : Tree α} {pa w : Nat} {pc wc : Color}
    {wl wr : Tree α} {pv wv : α}
    (h : Zip s (Frame.right pa pc (Tree.node w wc wl wv wr) pv :: p) x) :
    pa ≠ s.nil_ ∧ w ≠ s.nil_ ∧ (wl ≠ Tree.leaf → wl.ptr s.nil_ ≠ s.nil_) ∧
      (wr ≠ Tree.leaf → wr.ptr s.nil_ ≠ s.nil_) := by
  have hW := h.path
  simp only [ReprPath, Repr] at hW
  refine ⟨hW.1, hW.2.2.2.2.2.2.1.1, ?_, ?_⟩
  · intro hne
    cases wl with
    | leaf => exact absurd rfl hne
    | node a c l v r =>
      have := hW.2.2.2.2.2.2.1.2.2.2.2.2.2.1
      simp only [Repr] at this
      simpa using this.1
  · intro hne
    cases wr with
    | leaf => exact absurd rfl hne
    | node a c l v r =>
      have := hW.2.2.2.2.2.2.1.2.2.2.2.2.2.2
      simp only [Repr] at this
      simpa using this.1

/-- The rest of the body at a left child with a BLACK sibling: either the sibling
is painted RED and `x_node` moves to the parent, in a state that is again one
BLACK node short there, or one or two rotations end at `root_`. -/
theorem delrest_black_left {s : Set α} {p : Path α} {x : Tree α} {pa w : Nat} {pc : Color}
    {wl wr : Tree α} {pv wv : α} (log : List Event)
    (h : Zip s (Frame.left pa pc pv (Tree.node w Color.BLACK wl wv wr) :: p) x)
    (hx : s.parent (x.ptr s.nil_) = pa) (hn : x.NoRedRed) (hb : x.Balanced)
    (hp : PathRB (Frame.left pa pc pv (Tree.node w Color.BLACK wl wv wr) :: p) (x.bh + 1)) :
    ∃ s2 x2 ev, RBDeleteFixupLeftRest s (x.ptr s.nil_) w log = (s2, x2, log ++ ev) ∧
      SameMeta s s2 ∧ (∀ e ∈ ev, e.Safe s.nil_) ∧ s2.color s.nil_ = Color.BLACK ∧
      ((x2 = pa ∧ rotationCount ev = 0 ∧
          Zip s2 p (Tree.node pa pc x pv (Tree.node w Color.RED wl wv wr)) ∧
          PathRB p ((Tree.node pa pc x pv (Tree.node w Color.RED wl wv wr)).bh + 1) ∧
          (Tree.node pa pc x pv (Tree.node w Color.RED wl wv wr)).Balanced ∧
          (Tree.node pa pc x pv (Tree.node w Color.RED wl wv wr)).blacken.NoRedRed) ∨
        (x2 = s2.root_ ∧ 1 ≤ rotationCount ev ∧ rotationCount ev ≤ 2)) := by
  obtain ⟨hpa0, hw0, hwl0, hwr0⟩ := h.sib_left_ne_nil
  rcases color_cases wr.color with hr | hr
  · obtain ⟨r, rl, rv, rr, rfl⟩ := color_node_of_red hr
    obtain ⟨s2, e, m, z⟩ := RBDeleteFixupLeftRest_case4 h hx log
    have hc := z.nil.color
    rw [m.1] at hc
    refine ⟨s2, _, _, e, m, ?_, hc, Or.inr ⟨rfl, ?_, ?_⟩⟩
    · intro e he
      simp only [List.mem_cons, List.mem_singleton, List.not_mem_nil, or_false] at he
      rcases he with rfl | rfl | rfl | rfl <;> simp [Event.Safe, hpa0, hw0]
    · simp [rotationCount, Event.isRotation]
    · simp [rotationCount, Event.isRotation]
  rcases color_cases wl.color with hl | hl
  · obtain ⟨a, al, av, ar, rfl⟩ := color_node_of_red hl
    obtain ⟨s2, e, m, z⟩ := RBDeleteFixupLeftRest_case3 h hx log hr
    have hc := z.nil.color
    rw [m.1] at hc
    have ha0 : a ≠ s.nil_ := by simpa using hwl0 (by simp)
    refine ⟨s2, _, _, e, m, ?_, hc, Or.inr ⟨rfl, ?_, ?_⟩⟩
    · intro e he
      simp only [List.mem_cons, List.mem_singleton, List.not_mem_nil, or_false] at he
      rcases he with rfl | rfl | rfl | rfl | rfl | rfl | rfl | rfl <;>
        simp [Event.Safe, hpa0, hw0, ha0]
    · simp [rotationCount, Event.isRotation]
    · simp [rotationCount, Event.isRotation]
  · obtain ⟨s2, e, m, z⟩ := RBDeleteFixupLeftRest_case2 h hx log hl hr
    obtain ⟨q1, q2, q3⟩ := del2_pure_left hl hr hn hb hp
    have hc := z.nil.color
    rw [m.1] at hc
    refine ⟨s2, _, _, e, m, ?_, hc, Or.inl ⟨rfl, ?_, z, q1, q2, q3⟩⟩
    · intro e he
      simp only [List.mem_singleton] at he
      subst he
      simp [Event.Safe, hw0]
    · simp [rotationCount, Event.isRotation]

/-- The mirror of `delrest_black_left`. -/
theorem delrest_black_right {s : Set α} {p : Path α} {x : Tree α} {pa w : Nat} {pc : Color}
    {wl wr : Tree α} {pv wv : α} (log : List Event)
    (h : Zip s (Frame.right pa pc (Tree.node w Color.BLACK wl wv wr) pv :: p) x)
    (hx : s.parent (x.ptr s.nil_) = pa) (hn : x.NoRedRed) (hb : x.Balanced)
    (hp : PathRB (Frame.right pa pc (Tree.node w Color.BLACK wl wv wr) pv :: p) (x.bh + 1)) :
    ∃ s2 x2 ev, RBDeleteFixupRightRest s (x.ptr s.nil_) w log = (s2, x2, log ++ ev) ∧
      SameMeta s s2 ∧ (∀ e ∈ ev, e.Safe s.nil_) ∧ s2.color s.nil_ = Color.BLACK ∧
      ((x2 = pa ∧ rotationCount ev = 0 ∧
          Zip s2 p (Tree.node pa pc (Tree.node w Color.RED wl wv wr) pv x) ∧
          PathRB p ((Tree.node pa pc (Tree.node w Color.RED wl wv wr) pv x).bh + 1) ∧
          (Tree.node pa pc (Tree.node w Color.RED wl wv wr) pv x).Balanced ∧
          (Tree.node pa pc (Tree.node w Color.RED wl wv wr) pv x).blacken.NoRedRed) ∨
        (x2 = s2.root_ ∧ 1 ≤ rotationCount ev ∧ rotationCount ev ≤ 2)) := by
  obtain ⟨hpa0, hw0, hwl0, hwr0⟩ := h.sib_right_ne_nil
  rcases color_cases wl.color with hl | hl
  · obtain ⟨r, rl, rv, rr, rfl⟩ := color_node_of_red hl
    obtain ⟨s2, e, m, z⟩ := RBDeleteFixupRightRest_case4 h hx log
    have hc := z.nil.color
    rw [m.1] at hc
    refine ⟨s2, _, _, e, m, ?_, hc, Or.inr ⟨rfl, ?_, ?_⟩⟩
    · intro e he
      simp only [List.mem_cons, List.mem_singleton, List.not_mem_nil, or_false] at he
      rcases he with rfl | rfl | rfl | rfl <;> simp [Event.Safe, hpa0, hw0]
    · simp [rotationCount, Event.isRotation]
    · simp [rotationCount, Event.isRotation]
  rcases color_cases wr.color with hr | hr
  · obtain ⟨a, al, av, ar, rfl⟩ := color_node_of_red hr
    obtain ⟨s2, e, m, z⟩ := RBDeleteFixupRightRest_case3 h hx log hl
    have hc := z.nil.color
    rw [m.1] at hc
    have ha0 : a ≠ s.nil_ := by simpa using hwr0 (by simp)
    refine ⟨s2, _, _, e, m, ?_, hc, Or.inr ⟨rfl, ?_, ?_⟩⟩
    · intro e he
      simp only [List.mem_cons, List.mem_singleton, List.not_mem_nil, or_false] at he
      rcases he with rfl | rfl | rfl | rfl | rfl | rfl | rfl | rfl <;>
        simp [Event.Safe, hpa0, hw0, ha0]
    · simp [rotationCount, Event.isRotation]
    · simp [rotationCount, Event.isRotation]
  · obtain ⟨s2, e, m, z⟩ := RBDeleteFixupRightRest_case2 h hx log hl hr
    obtain ⟨q1, q2, q3⟩ := del2_pure_right hl hr hn hb hp
    have hc := z.nil.color
    rw [m.1] at hc
    refine ⟨s2, _, _, e, m, ?_, hc, Or.inl ⟨rfl, ?_, z, q1, q2, q3⟩⟩
    · intro e he
      simp only [List.mem_singleton] at he
      subst he
      simp [Event.Safe, hw0]
    · simp [rotationCount, Event.isRotation]


/-- One iteration of the loop of `RBDeleteFixup` at a BLACK left child that is one
BLACK node short: `x_node` moves to the parent without a rotation and the
state is one BLACK node short there; or it moves to the parent after one
rotation and the loop is over; or the iteration ends at `root_` after one to
three rotations. -/
theorem delstep_left {s : Set α} {p : Path α} {x W : Tree α} {pa : Nat} {pc : Color} {pv : α}
    (h : Zip s (Frame.left pa pc pv W :: p) x)
    (hx : s.parent (x.ptr s.nil_) = pa) (hxc : x.color = Color.BLACK)
    (hn : x.NoRedRed) (hb : x.Balanced)
    (hp : PathRB (Frame.left pa pc pv W :: p) (x.bh + 1)) :
    ∃ s2 x2 ev, RBDeleteFixupStep s (x.ptr s.nil_) = some (s2, x2, ev) ∧ SameMeta s s2 ∧
      (∀ e ∈ ev, e.Safe s.nil_) ∧ s2.color s.nil_ = Color.BLACK ∧
      ((x2 = pa ∧ rotationCount ev = 0 ∧ DelInv s2 p x2) ∨
        (x2 = pa ∧ rotationCount ev = 1 ∧ RBDeleteFixupStep s2 x2 = none) ∨
        (x2 = s2.root_ ∧ 1 ≤ rotationCount ev ∧ rotationCount ev ≤ 3)) := by
  have hW : W.bh = x.bh + 1 := by simp at hp; exact hp.2.2.1
  obtain ⟨w, wc, wl, wv, wr, rfl⟩ := exists_node_of_bh hW
  obtain ⟨hpa0, hw0, hwl0, -⟩ := h.sib_left_ne_nil
  rcases color_cases wc with rfl | rfl
  · obtain ⟨rfl, hwl, hwb, hp1⟩ := del1_pure_left hp
    obtain ⟨w2, c2, l2, v2, r2, rfl⟩ := exists_node_of_bh hwb
    simp only [color_node] at hwl
    subst hwl
    obtain ⟨s1, e1, m1, hx1, z1⟩ := RBDeleteFixupStep_red_left h hx hxc
    have hnil : s1.nil_ = s.nil_ := m1.1
    have hw20 : w2 ≠ s.nil_ := by simpa using hwl0 (by simp)
    rw [← hnil] at hx1
    obtain ⟨s2, x2, ev, e2, m2, sf, hc, hd⟩ := delrest_black_left
      [Event.sibling w, Event.paintBlack w, Event.paintRed pa, Event.leftRotate pa w,
        Event.sibling w2] z1 hx1 hn hb hp1
    rw [hnil] at e2 sf hc
    simp only [ptr_node] at e1
    refine ⟨s2, x2, _, by rw [e1, e2], m1.trans m2, ?_, hc, ?_⟩
    · intro e he
      rcases List.mem_append.mp he with he | he
      · simp only [List.mem_cons, List.mem_singleton, List.not_mem_nil, or_false] at he
        rcases he with rfl | rfl | rfl | rfl | rfl <;> simp [Event.Safe, hpa0, hw0, hw20]
      · exact sf e he
    · rcases hd with ⟨rfl, r0, z2, -⟩ | ⟨rfl, r1, r2⟩
      · refine Or.inr (Or.inl ⟨rfl, ?_, RBDeleteFixupStep_exit_red z2⟩)
        rw [rotationCount_append, r0]
        simp [rotationCount, Event.isRotation]
      · refine Or.inr (Or.inr ⟨rfl, ?_, ?_⟩)
        · rw [rotationCount_append]; omega
        · rw [rotationCount_append]
          have : rotationCount [Event.sibling w, Event.paintBlack w, Event.paintRed pa,
              Event.leftRotate pa w, Event.sibling w2] = 1 := by
            simp [rotationCount, Event.isRotation]
          omega
  · have e1 := RBDeleteFixupStep_black_left h hx hxc
    obtain ⟨s2, x2, ev, e2, m2, sf, hc, hd⟩ := delrest_black_left [Event.sibling w] h hx hn hb hp
    refine ⟨s2, x2, _, by rw [e1, e2], m2, ?_, hc, ?_⟩
    · intro e he
      rcases List.mem_append.mp he with he | he
      · simp only [List.mem_singleton] at he
        subst he
        simp [Event.Safe, hw0]
      · exact sf e he
    · have hr : rotationCount ([Event.sibling w] ++ ev) = rotationCount ev := by
        rw [rotationCount_append]
        simp [rotationCount, Event.isRotation]
      rcases hd with ⟨rfl, r0, z2, q1, q2, q3⟩ | ⟨rfl, r1, r2⟩
      · exact Or.inl ⟨rfl, by rw [hr, r0], _, by simp, z2, by simp, q1, q2, q3⟩
      · exact Or.inr (Or.inr ⟨rfl, by rw [hr]; exact r1, by rw [hr]; omega⟩)

/-- The mirror of `delstep_left`. -/
theorem delstep_right {s : Set α} {p : Path α} {x W : Tree α} {pa : Nat} {pc : Color} {pv : α}
    (h : Zip s (Frame.right pa pc W pv :: p) x)
    (hx : s.parent (x.ptr s.nil_) = pa) (hxc : x.color = Color.BLACK)
    (hn : x.NoRedRed) (hb : x.Balanced)
    (hp : PathRB (Frame.right pa pc W pv :: p) (x.bh + 1)) :
    ∃ s2 x2 ev, RBDeleteFixupStep s (x.ptr s.nil_) = some (s2, x2, ev) ∧ SameMeta s s2 ∧
      (∀ e ∈ ev, e.Safe s.nil_) ∧ s2.color s.nil_ = Color.BLACK ∧
      ((x2 = pa ∧ rotationCount ev = 0 ∧ DelInv s2 p x2) ∨
        (x2 = pa ∧ rotationCount ev = 1 ∧ RBDeleteFixupStep s2 x2 = none) ∨
        (x2 = s2.root_ ∧ 1 ≤ rotationCount ev ∧ rotationCount ev ≤ 3)) := by
  have hW : W.bh = x.bh + 1 := by simp at hp; exact hp.2.2.1
  obtain ⟨w, wc, wl, wv, wr, rfl⟩ := exists_node_of_bh hW
  obtain ⟨hpa0, hw0, -, hwr0⟩ := h.sib_right_ne_nil
  rcases color_cases wc with rfl | rfl
  · obtain ⟨rfl, hwr, hwb, hp1⟩ := del1_pure_right hp
    obtain ⟨w2, c2, l2, v2, r2, rfl⟩ := exists_node_of_bh hwb
    simp only [color_node] at hwr
    subst hwr
    obtain ⟨s1, e1, m1, hx1, z1⟩ := RBDeleteFixupStep_red_right h hx hxc
    have hnil : s1.nil_ = s.nil_ := m1.1
    have hw20 : w2 ≠ s.nil_ := by simpa using hwr0 (by simp)
    rw [← hnil] at hx1
    obtain ⟨s2, x2, ev, e2, m2, sf, hc, hd⟩ := delrest_black_right
      [Event.sibling w, Event.paintBlack w, Event.paintRed pa, Event.rightRotate pa w,
        Event.sibling w2] z1 hx1 hn hb hp1
    rw [hnil] at e2 sf hc
    refine ⟨s2, x2, _, by rw [e1, e2], m1.trans m2, ?_, hc, ?_⟩
    · intro e he
      rcases List.mem_append.mp he with he | he
      · simp only [List.mem_cons, List.mem_singleton, List.not_mem_nil, or_false] at he
        rcases he with rfl | rfl | rfl | rfl | rfl <;> simp [Event.Safe, hpa0, hw0, hw20]
      · exact sf e he
    · rcases hd with ⟨rfl, r0, z2, -⟩ | ⟨rfl, r1, r2⟩
      · refine Or.inr (Or.inl ⟨rfl, ?_, RBDeleteFixupStep_exit_red z2⟩)
        rw [rotationCount_append, r0]
        simp [rotationCount, Event.isRotation]
      · refine Or.inr (Or.inr ⟨rfl, ?_, ?_⟩)
        · rw [rotationCount_append]; omega
        · rw [rotationCount_append]
          have : rotationCount [Event.sibling w, Event.paintBlack w, Event.paintRed pa,
              Event.rightRotate pa w, Event.sibling w2] = 1 := by
            simp [rotationCount, Event.isRotation]
          omega
  · have e1 := RBDeleteFixupStep_black_right h hx hxc
    obtain ⟨s2, x2, ev, e2, m2, sf, hc, hd⟩ := delrest_black_right [Event.sibling w] h hx hn hb hp
    refine ⟨s2, x2, _, by rw [e1, e2], m2, ?_, hc, ?_⟩
    · intro e he
      rcases List.mem_append.mp he with he | he
      · simp only [List.mem_singleton] at he
        subst he
        simp [Event.Safe, hw0]
      · exact sf e he
    · have hr : rotationCount ([Event.sibling w] ++ ev) = rotationCount ev := by
        rw [rotationCount_append]
        simp [rotationCount, Event.isRotation]
      rcases hd with ⟨rfl, r0, z2, q1, q2, q3⟩ | ⟨rfl, r1, r2⟩
      · exact Or.inl ⟨rfl, by rw [hr, r0], _, by simp, z2, by simp, q1, q2, q3⟩
      · exact Or.inr (Or.inr ⟨rfl, by rw [hr]; exact r1, by rw [hr]; omega⟩)

/-- One iteration of the loop of `RBDeleteFixup` in a state that is one BLACK node
short at `x`: the body is not entered, or it is left as `delstep_left` says. -/
theorem RBDeleteFixupStep_spec {s : Set α} {p : Path α} {x : Nat} (h : DelInv s p x) :
    RBDeleteFixupStep s x = none ∨
    ∃ s2 x2 ev f p2, p = f :: p2 ∧
      RBDeleteFixupStep s x = some (s2, x2, ev) ∧ SameMeta s s2 ∧
      (∀ e ∈ ev, e.Safe s.nil_) ∧ s.color s.nil_ = Color.BLACK ∧ s2.color s.nil_ = Color.BLACK ∧
      ((x2 = s.parent x ∧ rotationCount ev = 0 ∧ DelInv s2 p2 x2) ∨
        (x2 = s.parent x ∧ rotationCount ev = 1 ∧ RBDeleteFixupStep s2 x2 = none) ∨
        (x2 = s2.root_ ∧ 1 ≤ rotationCount ev ∧ rotationCount ev ≤ 3)) := by
  obtain ⟨X, rfl, z, hx, hp, hb, hn⟩ := h
  rcases p with _ | ⟨f, p⟩
  · left
    have : s.root_ = X.ptr s.nil_ := z.path
    rw [← this]
    exact RBDeleteFixupStep_root s
  rcases color_cases X.color with hxc | hxc
  · obtain ⟨a, l, v, r, rfl⟩ := color_node_of_red hxc
    exact Or.inl (RBDeleteFixupStep_exit_red z)
  right
  have hn2 := noRedRed_of_blacken hn hxc
  have hxp := z.parent_ptr hx
  cases f with
  | left pa pc pv W =>
    simp only [pathPtr_cons, addr_left] at hxp
    obtain ⟨s2, x2, ev, e, m, sf, hc, hd⟩ := delstep_left z hxp hxc hn2 hb hp
    rw [← hxp] at hd
    exact ⟨s2, x2, ev, _, p, rfl, e, m, sf, z.nil.color, hc, hd⟩
  | right pa pc W pv =>
    simp only [pathPtr_cons, addr_right] at hxp
    obtain ⟨s2, x2, ev, e, m, sf, hc, hd⟩ := delstep_right z hxp hxc hn2 hb hp
    rw [← hxp] at hd
    exact ⟨s2, x2, ev, _, p, rfl, e, m, sf, z.nil.color, hc, hd⟩

/-- The loop of `RBDeleteFixup`, started in a state that is one BLACK node short
at `x`, returns after at most one iteration for each level of the path, and
its records are as `DelLogOK` says. -/
theorem RBDeleteFixupRun_spec (n : Nat) : ∀ (p : Path α) (s : Set α) (x : Nat) (fuel : Nat),
    p.length ≤ n → p.length + 2 ≤ fuel → DelInv s p x →
    ∃ s2 x2 log, RBDeleteFixupRun fuel s x = some (s2, x2, log) ∧ DelLogOK s.nil_ log ∧
      log.length ≤ p.length := by
  induction n with
  | zero =>
    intro p s x fuel hlen hfuel h
    obtain ⟨k, rfl⟩ : ∃ k, fuel = k + 1 := ⟨fuel - 1, by omega⟩
    rcases RBDeleteFixupStep_spec h with e | ⟨s2, x2, ev, f, p2, hp, -⟩
    · exact ⟨s, x, [], RBDeleteFixupRun_none e k, trivial, by simp⟩
    · rw [hp] at hlen
      simp at hlen
  | succ n ih =>
    intro p s x fuel hlen hfuel h
    obtain ⟨k, rfl⟩ : ∃ k, fuel = k + 2 := ⟨fuel - 2, by omega⟩
    rcases RBDeleteFixupStep_spec h with e | ⟨s2, x2, ev, f, p2, hp, e, m, sf, hc, hc2, hd⟩
    · exact ⟨s, x, [], RBDeleteFixupRun_none e _, trivial, by simp⟩
    have hl : p.length = p2.length + 1 := by rw [hp]; simp
    rcases hd with ⟨hx2, r0, inv2⟩ | ⟨hx2, r1, e2⟩ | ⟨hx2, r1, r3⟩
    · obtain ⟨s3, x3, log, e3, o3, l3⟩ := ih p2 s2 x2 (k + 1) (by omega) (by omega) inv2
      rw [m.1] at o3
      exact ⟨s3, x3, _, RBDeleteFixupRun_some e e3,
        ⟨sf, rfl, m.1, hc, hc2, Or.inl ⟨hx2, r0, o3⟩⟩, by simp only [List.length_cons]; omega⟩
    · exact ⟨s2, x2, _, RBDeleteFixupRun_some e (RBDeleteFixupRun_none e2 k),
        ⟨sf, rfl, m.1, hc, hc2, Or.inr (Or.inl ⟨hx2, r1, rfl⟩)⟩,
        by simp only [List.length_cons, List.length_nil]; omega⟩
    · have e2 : RBDeleteFixupStep s2 x2 = none := by rw [hx2]; exact RBDeleteFixupStep_root s2
      exact ⟨s2, x2, _, RBDeleteFixupRun_some e (RBDeleteFixupRun_none e2 k),
        ⟨sf, rfl, m.1, hc, hc2, Or.inr (Or.inr ⟨hx2, r1, r3, rfl⟩)⟩,
        by simp only [List.length_cons, List.length_nil]; omega⟩

end RBSet

namespace RBSet
variable {α : Type}

/-! ## Reading the records of a run -/

/-- Every record of a run of the loop of `RBInsertFixup` on its own. -/
theorem InsLogOK.mem_ins {nil : Nat} {log : List (Iteration α)} (h : InsLogOK nil log) :
    ∀ it ∈ log, (∀ e ∈ it.events, e.Safe nil) ∧ it.pre.nil_ = nil ∧ it.post.nil_ = nil ∧
      it.pre.color nil = Color.BLACK ∧ it.post.color nil = Color.BLACK ∧
      ((RedFlag it.pre (uncleOf it.pre it.node) = true ∧
          it.next = it.pre.parent (it.pre.parent it.node) ∧ rotationCount it.events = 0) ∨
        (RedFlag it.pre (uncleOf it.pre it.node) = false ∧ 1 ≤ rotationCount it.events ∧
          rotationCount it.events ≤ 2 ∧ BlackFlag it.post (it.post.parent it.next) = true)) := by
  induction log with
  | nil => intro it hit; cases hit
  | cons a log ih =>
    intro it hit
    obtain ⟨h1, h2, h3, h4, h5, h6⟩ := h
    rcases List.mem_cons.mp hit with rfl | hit
    · refine ⟨h1, h2, h3, h4, h5, ?_⟩
      rcases h6 with ⟨a1, a2, a3, -⟩ | ⟨b1, b2, b3, b4, -⟩
      · exact Or.inl ⟨a1, a2, a3⟩
      · exact Or.inr ⟨b1, b2, b3, b4⟩
    · rcases h6 with ⟨-, -, -, a4⟩ | ⟨-, -, -, -, b5⟩
      · exact ih a4 it hit
      · subst b5; cases hit

/-- An iteration of `RBInsertFixup` that finds the uncle BLACK is the last one. -/
theorem InsLogOK.last {nil : Nat} {log : List (Iteration α)} (h : InsLogOK nil log)
    {init rest : List (Iteration α)} {it : Iteration α} (hl : log = init ++ it :: rest)
    (hu : RedFlag it.pre (uncleOf it.pre it.node) = false) : rest = [] := by
  induction init generalizing log with
  | nil =>
    subst hl
    obtain ⟨-, -, -, -, -, h6⟩ := h
    rcases h6 with ⟨a1, -⟩ | ⟨-, -, -, -, b5⟩
    · rw [hu] at a1; cases a1
    · exact b5
  | cons a init ih =>
    subst hl
    obtain ⟨-, -, -, -, -, h6⟩ := h
    rcases h6 with ⟨-, -, -, a4⟩ | ⟨-, -, -, -, b5⟩
    · exact ih a4 rfl
    · simp at b5

/-- A run of the loop of `RBInsertFixup` rotates at most twice. -/
theorem InsLogOK.rotations_ins {nil : Nat} {log : List (Iteration α)} (h : InsLogOK nil log) :
    (log.map fun it => rotationCount it.events).sum ≤ 2 := by
  induction log with
  | nil => simp
  | cons a log ih =>
    obtain ⟨-, -, -, -, -, h6⟩ := h
    rcases h6 with ⟨-, -, a3, a4⟩ | ⟨-, -, b3, -, b5⟩
    · have := ih a4
      simp only [List.map_cons, List.sum_cons, a3]
      omega
    · subst b5
      simpa using b3

/-- Every record of a run of the loop of `RBDeleteFixup` on its own. -/
theorem DelLogOK.mem_del {nil : Nat} {log : List (Iteration α)} (h : DelLogOK nil log) :
    ∀ it ∈ log, (∀ e ∈ it.events, e.Safe nil) ∧ it.pre.nil_ = nil ∧ it.post.nil_ = nil ∧
      it.pre.color nil = Color.BLACK ∧ it.post.color nil = Color.BLACK ∧
      (it.next = it.pre.parent it.node ∨ it.next = it.post.root_) := by
  induction log with
  | nil => intro it hit; cases hit
  | cons a log ih =>
    intro it hit
    obtain ⟨h1, h2, h3, h4, h5, h6⟩ := h
    rcases List.mem_cons.mp hit with rfl | hit
    · refine ⟨h1, h2, h3, h4, h5, ?_⟩
      rcases h6 with ⟨a1, -⟩ | ⟨b1, -⟩ | ⟨c1, -⟩
      · exact Or.inl a1
      · exact Or.inl b1
      · exact Or.inr c1
    · rcases h6 with ⟨-, -, a3⟩ | ⟨-, -, b3⟩ | ⟨-, -, -, c4⟩
      · exact ih a3 it hit
      · subst b3; cases hit
      · subst c4; cases hit

/-- An iteration of `RBDeleteFixup` that is not the last one moves `x_node` to its
parent and rotates nothing. -/
theorem DelLogOK.init {nil : Nat} {log : List (Iteration α)} (h : DelLogOK nil log)
    {init rest : List (Iteration α)} {it : Iteration α} (hl : log = init ++ it :: rest)
    (hr : rest ≠ []) : it.next = it.pre.parent it.node ∧ rotationCount it.events = 0 := by
  induction init generalizing log with
  | nil =>
    subst hl
    obtain ⟨-, -, -, -, -, h6⟩ := h
    rcases h6 with ⟨a1, a2, -⟩ | ⟨-, -, b3⟩ | ⟨-, -, -, c4⟩
    · exact ⟨a1, a2⟩
    · exact absurd b3 hr
    · exact absurd c4 hr
  | cons a init ih =>
    subst hl
    obtain ⟨-, -, -, -, -, h6⟩ := h
    rcases h6 with ⟨-, -, a3⟩ | ⟨-, -, b3⟩ | ⟨-, -, -, c4⟩
    · exact ih a3 rfl
    · simp at b3
    · simp at c4

/-- A run of the loop of `RBDeleteFixup` rotates at most three times. -/
theorem DelLogOK.rotations_del {nil : Nat} {log : List (Iteration α)} (h : DelLogOK nil log) :
    (log.map fun it => rotationCount it.events).sum ≤ 3 := by
  induction log with
  | nil => simp
  | cons a log ih =>
    obtain ⟨-, -, -, -, -, h6⟩ := h
    rcases h6 with ⟨-, a2, a3⟩ | ⟨-, b2, b3⟩ | ⟨-, -, c3, c4⟩
    · have := ih a3
      simp only [List.map_cons, List.sum_cons, a2]
      omega
    · subst b3
      simp [b2]
    · subst c4
      simpa using c3

/-- The body of the loop of `RBInsertFixup` is not entered below a BLACK parent. -/
theorem RBInsertFixupStep_of_black {s : Set α} {z : Nat}
    (h : BlackFlag s (s.parent z) = true) : RBInsertFixupStep s z = none := by
  have : RedFlag s (s.parent z) = false := by
    simp only [BlackFlag, beq_iff_eq] at h
    simp [RedFlag, h]
  simp [RBInsertFixupStep, this]

/-- `RBInsertFixup` returns what the run with records ends in, painted at `root_`. -/
theorem RBInsertFixup_of_run {s s2 : Set α} {z : Nat} {log : List (Iteration α)}
    (h : RBInsertFixupRun s.next s z = some (s2, log)) :
    RBInsertFixup s z = some (PaintBlack s2 s2.root_) := by
  have := RBInsertFixupRun_state s.next s z
  rw [h] at this
  simp [RBInsertFixup, ← this]

/-- `RBDeleteFixup` returns what the run with records ends in, painted at the
final `x_node`. -/
theorem RBDeleteFixup_of_run {s s2 : Set α} {x x2 : Nat} {log : List (Iteration α)}
    (h : RBDeleteFixupRun s.next s x = some (s2, x2, log)) :
    RBDeleteFixup s x = some (PaintBlack s2 x2) := by
  have := RBDeleteFixupRun_state s.next s x
  rw [h] at this
  simp [RBDeleteFixup, ← this]

/-! ## The runs that `insert` and `erase` perform -/

/-- The state in which `RBInsert` calls `RBInsertFixup`, and the run of the loop
from there. -/
theorem RBInsertLog_spec (lt : α → α → Bool) {s : Set α} {t : Tree α} {z : Nat} {v : α}
    (h : s.Shape t) (hrb : t.RedBlack) (hz : z ∉ t.addrs) (hz0 : z ≠ s.nil_) (hzn : z < s.next)
    (hv : s.value z = v) :
    ∃ y sF log, RBInsertDescend lt s z s.next s.nil_ s.root_ = some y ∧
      Zip (RBInsertLink lt s z y) (insPath lt v t []) (Tree.node z Color.RED Tree.leaf v Tree.leaf) ∧
      RBInsertFixupRun s.next (RBInsertLink lt s z y) z = some (sF, log) ∧
      RBInsertLog lt s z = some log ∧ InsLogOK s.nil_ log ∧
      2 * log.length ≤ (insPath lt v t []).length := by
  have hb := h.zip.budget
  have e1 := RBInsertDescend_insPath lt z t s.nil_ [] s.next h.repr (by simp at hb; omega)
  rw [hv, pathPtr_nil, ← h.root] at e1
  have hplug := insPath_plug lt v t []
  have z0 : Zip s (insPath lt v t []) Tree.leaf := Zip.focus (by rw [hplug]; exact h.zip)
  have hzp : z ∉ pathAddrs (insPath lt v t []) := by
    intro hm
    have hperm := addrs_plug_perm (insPath lt v t []) Tree.leaf
    rw [hplug] at hperm
    exact hz (hperm.mem_iff.mpr (by simpa using hm))
  have z1 := Zip.attach lt z0 hzp hz0 hzn hv (insPath_sideOK lt v t [] trivial)
  have hrb2 := (plug_rb (insPath lt v t []) Tree.leaf).mp
    (by rw [hplug]; exact ⟨hrb.2.1, hrb.2.2, fun _ => hrb.1⟩)
  have hb1 := z1.budget
  simp only [Tree.height, next_RBInsertLink] at hb1
  obtain ⟨sF, log, e2, o2, n2⟩ := RBInsertFixupRun_spec _ _ _ z _ _ v s.next (le_refl _)
    (by omega) z1 (by simpa using hrb2.1) (by simp) (by simp)
  simp only [nil_RBInsertLink] at o2
  refine ⟨_, sF, log, e1, z1, e2, ?_, o2, n2⟩
  simp [RBInsertLog, e1, e2]

/-- The run of the loop of `RBInsertFixup` that `insert` performs on a red-black
tree returns, and its records are as `InsLogOK` says. -/
theorem insertLog_spec (lt : α → α → Bool) (v : α) {s : Set α} {t : Tree α} (h : s.Shape t)
    (hrb : t.RedBlack) : ∃ log, insertLog lt s v = some log ∧ InsLogOK s.nil_ log := by
  by_cases hf : (zoom lt v t []).2 = Tree.leaf
  · have hne : s.next ≠ s.nil_ := by have := h.nil.lt_next; omega
    obtain ⟨y, sF, log, -, -, -, e, o, -⟩ := RBInsertLog_spec lt (h.alloc v) hrb
      (z := s.next) (v := v) (fun hm => by have := h.fresh _ hm; omega) (by simpa using hne)
      (by simp) (by simp)
    refine ⟨log, ?_, by simpa using o⟩
    simp [insertLog, FindByValue_eq lt v h, hf, e]
  · have hz := h.zoom lt v
    rcases hq : (zoom lt v t []).2 with _ | ⟨a, c, l, w, r⟩
    · exact absurd hq hf
    · rw [hq] at hz
      exact ⟨[], by simp [insertLog, FindByValue_eq lt v h, hq, hz.ptr_ne_nil], trivial⟩

/-- The splice phase of `RBDelete` at a node of a red-black tree. -/
theorem spliceOK_of_zip {s : Set α} {p : Path α} {z : Nat} {zc : Color} {l r : Tree α} {v : α}
    (h : Zip s p (Tree.node z zc l v r)) (hrb : (plug p (Tree.node z zc l v r)).RedBlack) :
    SpliceOK s z (cellsL p ++ (l.cells ++ r.cells) ++ cellsR p) := by
  cases l with
  | leaf => simpa using splice_no_left h hrb
  | node la lc ll lv lr =>
    cases r with
    | leaf => simpa using splice_no_right h hrb
    | node ra rc rl rv rr => exact splice_two h hrb

/-- The focus of the stored tree at one of its nodes. -/
theorem Set.Shape.focus_mem {s : Set α} {t : Tree α} (h : s.Shape t) {z : Nat}
    (hz : z ∈ t.addrs) :
    ∃ (p : Path α) (zc : Color) (l : Tree α) (v : α) (r : Tree α),
      Zip s p (Tree.node z zc l v r) ∧ plug p (Tree.node z zc l v r) = t := by
  obtain ⟨A, v, B, hc⟩ := cells_split_of_mem hz
  obtain ⟨q, k, l, r, h1, h2, -⟩ := h.focus_at hc
  exact ⟨q, k, l, v, r, h1, h2⟩

/-- The state the splice phase of `RBDelete` leaves: it is focused at the
subtree that took the place of the removed cell; when the recorded colour is
BLACK it is one BLACK node short there, when it is RED it stores a red-black
tree. -/
theorem RBDeleteSplice_spec {s : Set α} {p : Path α} {z : Nat} {zc : Color} {l r : Tree α}
    {v : α} (h : Zip s p (Tree.node z zc l v r))
    (hrb : (plug p (Tree.node z zc l v r)).RedBlack) :
    ∃ (s1 : Set α) (x : Nat) (oc : Color) (q : Path α) (X : Tree α),
      RBDeleteSplice s z = some (s1, x, oc) ∧ x = X.ptr s1.nil_ ∧ SameMeta s s1 ∧ Zip s1 q X ∧
      s1.parent x = pathPtr s1.nil_ q ∧ q.length + 2 ≤ s1.next ∧
      (oc = Color.BLACK → DelInv s1 q x) ∧ (oc = Color.RED → (plug q X).RedBlack) := by
  obtain ⟨s1, P, X, oc, e, m, z1, hx, hz, hc, hB, hR⟩ := spliceOK_of_zip h hrb
  obtain ⟨m1, m2, m3, m4, m5⟩ := id m
  rw [← m1] at hx e
  have hfuel := z1.budget_removed hz (by rw [m1]; exact h.ptr_ne_nil)
    (by rw [m2]; exact h.fresh z (by simp))
  refine ⟨s1, _, oc, P, X, e, rfl, m, z1, hx, hfuel, ?_, hR⟩
  intro ho
  obtain ⟨q1, q2, q3⟩ := hB ho
  exact ⟨X, rfl, z1, fun hl => by subst hl; simpa using hx, q1, q3, noRedRed_blacken q2⟩

/-- The run of the loop of `RBDeleteFixup` that `RBDelete` performs at a node of a
red-black tree returns, and its records are as `DelLogOK` says. -/
theorem RBDeleteLog_spec {s : Set α} {p : Path α} {z : Nat} {zc : Color} {l r : Tree α}
    {v : α} (h : Zip s p (Tree.node z zc l v r))
    (hrb : (plug p (Tree.node z zc l v r)).RedBlack) :
    ∃ log, RBDeleteLog s z = some log ∧ DelLogOK s.nil_ log := by
  obtain ⟨s1, x, oc, q, X, e, -, m, -, -, hfuel, hB, -⟩ := RBDeleteSplice_spec h hrb
  rcases color_cases oc with rfl | rfl
  · exact ⟨[], by simp [RBDeleteLog, e], trivial⟩
  · obtain ⟨s2, x2, log, e2, o2, -⟩ := RBDeleteFixupRun_spec q.length q s1 x s1.next (le_refl _)
      hfuel (hB rfl)
    rw [m.1] at o2
    exact ⟨log, by simp [RBDeleteLog, e, e2], o2⟩

/-- The run of the loop of `RBDeleteFixup` that `erase` performs on a red-black
tree returns, and its records are as `DelLogOK` says. -/
theorem eraseLog_spec (lt : α → α → Bool) (v : α) {s : Set α} {t : Tree α} (h : s.Shape t)
    (hrb : t.RedBlack) : ∃ log, eraseLog lt s v = some log ∧ DelLogOK s.nil_ log := by
  have hz := h.zoom lt v
  rcases hq : (zoom lt v t []).2 with _ | ⟨z, zc, l, w, r⟩
  · exact ⟨[], by simp [eraseLog, FindByValue_eq lt v h, hq], trivial⟩
  · rw [hq] at hz
    have hp := zoom_plug lt v t []
    rw [hq, plug_nil] at hp
    obtain ⟨log, e, o⟩ := RBDeleteLog_spec hz (by rw [hp]; exact hrb)
    exact ⟨log, by simp [eraseLog, FindByValue_eq lt v h, hq, hz.ptr_ne_nil, e], o⟩

end RBSet

namespace RBSet
variable {α : Type}

/-! ## The splice phase of `RBDelete` at a node with two children, link by link -/

/-- The path to the leftmost node consists of left frames. -/
theorem minPath_left (t : Tree α) : ∀ f ∈ minPath t, ∃ a c w r, f = Frame.left a c w r := by
  induction t with
  | leaf => intro f hf; cases hf
  | node a c l v r ihl _ =>
    cases l with
    | leaf => intro f hf; cases hf
    | node la lc ll lv lr =>
      intro f hf
      simp only [minPath, List.mem_append, List.mem_singleton] at hf
      rcases hf with hf | rfl
      · exact ihl f hf
      · exact ⟨a, c, v, r, rfl⟩

/-- Moving the focus up along the lower part of a path. -/
theorem Zip.up_append {s : Set α} {q p : Path α} {t : Tree α} (h : Zip s (q ++ p) t) :
    Zip s p (plug q t) := by
  induction q generalizing t with
  | nil => exact h
  | cons f q ih => exact ih (Zip.up h)

/-- The node has two children: where its in-order successor is found, and the
focus of the state the splice phase leaves. -/
theorem splice_two_detail {s : Set α} {p : Path α} {z la ra : Nat} {zc lc rc : Color}
    {ll lr rl rr : Tree α} {v lv rv : α}
    (h : Zip s p (Tree.node z zc (Tree.node la lc ll lv lr) v (Tree.node ra rc rl rv rr))) :
    ∃ (q : Path α) (y : Nat) (yc : Color) (yv : α) (yr : Tree α) (s1 : Set α),
      MinValueNode s ra = some y ∧
      Zip s (q ++ Frame.right z zc (Tree.node la lc ll lv lr) v :: p)
        (Tree.node y yc Tree.leaf yv yr) ∧
      RBDeleteSplice s z = some (s1, yr.ptr s.nil_, yc) ∧
      Zip s1 (q ++ Frame.right y zc (Tree.node la lc ll lv lr) yv :: p) yr ∧ SameMeta s s1 ∧
      (∀ f ∈ q, ∃ a c w r, f = Frame.left a c w r) ∧
      plug q (Tree.node y yc Tree.leaf yv yr) = Tree.node ra rc rl rv rr := by
  obtain ⟨y, yc, yv, yr, hY⟩ := minTree_shape ra rc rl rv rr
  have hR := minPath_plug (Tree.node ra rc rl rv rr)
  rw [hY] at hR
  have hleft := minPath_left (Tree.node ra rc rl rv rr)
  generalize hq : minPath (Tree.node ra rc rl rv rr) = q at hR hleft
  have hs := h.sub
  simp only [Repr, ptr_node] at hs
  have hb := h.budget
  simp only [Tree.height] at hb
  have hmin : MinValueNode s ra = some y := by
    have := MinValueNodeLoop_minTree (Tree.node ra rc rl rv rr) z s.next
      (by simp only [Repr]; exact hs.2.2.2.2.2.2.2) (by simp)
      (by simp only [Tree.height]; omega)
    rw [hY] at this
    simpa [MinValueNode] using this
  have hplug : plug (q ++ Frame.right z zc (Tree.node la lc ll lv lr) v :: p)
      (Tree.node y yc Tree.leaf yv yr) =
      plug p (Tree.node z zc (Tree.node la lc ll lv lr) v (Tree.node ra rc rl rv rr)) := by
    rw [plug_append, hR]; rfl
  have zY : Zip s (q ++ Frame.right z zc (Tree.node la lc ll lv lr) v :: p)
      (Tree.node y yc Tree.leaf yv yr) := Zip.focus (by rw [hplug]; exact h.top)
  have hsY := zY.sub
  simp only [Repr, ptr_leaf] at hsY
  refine ⟨q, y, yc, yv, yr, ?_⟩
  rcases q with _ | ⟨f, q⟩
  · -- the successor is the right child
    simp only [plug_nil] at hR
    injection hR with e1 e2 e3 e4 e5
    subst e1 e2 e3 e4 e5
    obtain ⟨z1, hx1, hz1⟩ := h.replace_child
    have z2 := Zip.down (f := Frame.right y zc (Tree.node la lc ll lv lr) yv) z1
    refine ⟨_, hmin, zY, ?_, z2, (SameMeta.setParent _ _ _).trans (SameMeta.replace _ _ _),
      hleft, rfl⟩
    simp [RBDeleteSplice, hmin, hs, hsY]
  · -- the successor lies deeper
    have hnd := zY.nodup
    have hfa : f.addr ≠ z := by
      intro e
      have hm := addr_mem_pathAddrs_append q p (Frame.right z zc (Tree.node la lc ll lv lr) v)
      have hnd2 : (pathAddrs (f :: q ++ Frame.right z zc (Tree.node la lc ll lv lr) v :: p)).Nodup :=
        (List.nodup_append.mp hnd).2.1
      simp only [List.cons_append, pathAddrs_cons, List.cons_append, List.nodup_cons,
        List.mem_append, not_or, addr_right] at hnd2 hm
      exact hnd2.1.2 (e ▸ hm)
    obtain ⟨zA, hxA, hyA⟩ := zY.transplant_right
    obtain ⟨ra2, rc2, rl2, rv2, rr2, hR2⟩ : ∃ a c l w r, plug (f :: q) yr = Tree.node a c l w r := by
      apply Tree.exists_node_of_cells
      rw [plug_cons, cells_plug]
      cases f <;> simp
    have hplugA : plug (f :: q ++ Frame.right z zc (Tree.node la lc ll lv lr) v :: p) yr =
        plug p (Tree.node z zc (Tree.node la lc ll lv lr) v (Tree.node ra2 rc2 rl2 rv2 rr2)) := by
      rw [plug_append, hR2]; rfl
    have zA2 : Zip (RBTransplant s y (yr.ptr s.nil_)) p
        (Tree.node z zc (Tree.node la lc ll lv lr) v (Tree.node ra2 rc2 rl2 rv2 rr2)) :=
      Zip.focus (by rw [← hplugA]; exact zA.top)
    have hy0 := zY.ptr_ne_nil
    have hyn : y < s.next := zY.fresh y (by simp)
    obtain ⟨zB, hxB, hzB⟩ := zA2.replace_detached (y := y) (u := yv)
      (not_mem_of_plug (by rw [← hplugA]; exact not_mem_plug hyA)) (by simpa using hy0)
      (by simpa using hyn) (by simpa using hsY.2.1)
    have hplugB : plug (f :: q ++ Frame.right y zc (Tree.node la lc ll lv lr) yv :: p) yr =
        plug p (Tree.node y zc (Tree.node la lc ll lv lr) yv (Tree.node ra2 rc2 rl2 rv2 rr2)) := by
      rw [plug_append, hR2]; rfl
    have zB2 : Zip (RBDeleteReplace (RBDeleteAdopt (RBTransplant s y (yr.ptr s.nil_)) z y) z y)
        (f :: q ++ Frame.right y zc (Tree.node la lc ll lv lr) yv :: p) yr :=
      Zip.focus (by rw [hplugB]; exact zB.top)
    refine ⟨_, hmin, zY, ?_, zB2, ((SameMeta.transplant _ _ _).trans (SameMeta.adopt _ _ _)).trans
      (SameMeta.replace _ _ _), hleft, hR⟩
    have hpy : ¬ s.parent y = z := by
      rw [hsY.2.2.2.2.2.1]
      simpa using hfa
    simp [RBDeleteSplice, hmin, hs, hsY.2.2.1, hsY.2.2.2.2.1, hpy]

/-- The root of a tree plugged into a non-empty path is the same whatever the tree. -/
theorem plug_ptr_cons (nil : Nat) (f : Frame α) (q : Path α) (t t2 : Tree α) :
    (plug (f :: q) t).ptr nil = (plug (f :: q) t2).ptr nil := by
  induction q generalizing f t t2 with
  | nil => cases f <;> rfl
  | cons g q ih => exact ih g (f.fill t) (f.fill t2)

theorem pathAddrs_append_sublist (q p : Path α) : List.Sublist (pathAddrs p) (pathAddrs (q ++ p)) := by
  induction q with
  | nil => exact List.Sublist.refl _
  | cons f q ih =>
    simp only [List.cons_append, pathAddrs_cons]
    exact ih.trans ((List.sublist_append_right _ _).trans (List.sublist_cons_self _ _))

/-- The node has two children: the links of the state the splice phase leaves. -/
theorem splice_two_links {s s1 : Set α} {p : Path α} {z la ra x : Nat} {zc lc rc oc : Color}
    {ll lr rl rr : Tree α} {v lv rv : α}
    (h : Zip s p (Tree.node z zc (Tree.node la lc ll lv lr) v (Tree.node ra rc rl rv rr)))
    (e : RBDeleteSplice s z = some (s1, x, oc)) :
    ∃ y, MinValueNode s (s.right z) = some y ∧ y ≠ s.nil_ ∧ y ≠ z ∧ s.left y = s.nil_ ∧
      x = s.right y ∧ oc = s.color y ∧ s1.parent y = s.parent z ∧
      (s.root_ = z → s1.root_ = y) ∧
      (s.root_ ≠ z → (s.left (s.parent z) = z → s1.left (s.parent z) = y) ∧
        (s.right (s.parent z) = z → s1.right (s.parent z) = y) ∧
        (s.left (s.parent z) = z ∨ s.right (s.parent z) = z)) ∧
      s1.left y = s.left z ∧ s1.parent (s.left z) = y ∧ s1.color y = s.color z ∧
      (s.parent y = z → s1.right y = s.right y) ∧
      (s.parent y ≠ z → s.left (s.parent y) = y ∧ s1.left (s.parent y) = s.right y ∧
        s1.right y = s.right z ∧ s1.parent (s.right z) = y) ∧
      (s.right y ≠ s.nil_ → s1.parent (s.right y) = if s.parent y = z then y else s.parent y) := by
  obtain ⟨q, y, yc, yv, yr, s1b, hmin, zY, e2, zS, m, hleft, hR⟩ := splice_two_detail h
  rw [e2] at e
  injection e with e
  injection e with e3 e
  injection e with e4 e5
  subst e3 e4 e5
  have hnil : s1b.nil_ = s.nil_ := m.1
  have hs := h.sub
  simp only [Repr, ptr_node] at hs
  have hsY := zY.sub
  simp only [Repr, ptr_leaf] at hsY
  have Z1 := zS.up_append
  have hp1 := Z1.path
  simp only [ReprPath, Repr, ptr_node, hnil] at hp1
  have hyz : y ≠ z := by
    intro e
    have hnd := zY.nodup
    have hm := addr_mem_pathAddrs_append q p (Frame.right z zc (Tree.node la lc ll lv lr) v)
    simp only [addrs_node, List.nodup_append, List.disjoint_left, List.mem_append,
      List.mem_cons, addr_right] at hnd hm
    exact hnd.2.2 (Or.inr (Or.inl rfl)) (e ▸ hm)
  have hfa : ∀ f ∈ q, f.addr ≠ z := by
    intro f hf e
    obtain ⟨q1, q2, rfl⟩ := List.append_of_mem hf
    have hnd2 := (List.nodup_append.mp zY.nodup).2.1
    have hm := addr_mem_pathAddrs_append q2 p (Frame.right z zc (Tree.node la lc ll lv lr) v)
    rw [List.append_assoc, List.cons_append] at hnd2
    have hnd3 : (pathAddrs (f :: (q2 ++ Frame.right z zc (Tree.node la lc ll lv lr) v :: p))).Nodup := by
      have := pathAddrs_append_sublist q1 (f :: (q2 ++ Frame.right z zc (Tree.node la lc ll lv lr) v :: p))
      exact hnd2.sublist this
    simp only [pathAddrs_cons, List.nodup_cons, List.cons_append, List.mem_append, not_or,
      addr_right] at hnd3 hm
    exact hnd3.1.2 (e ▸ hm)
  refine ⟨y, by rw [hs.2.2.2.2.1]; exact hmin, hsY.1, hyz, hsY.2.2.2.1, hsY.2.2.2.2.1.symm,
    hsY.2.2.1.symm, by rw [hp1.2.2.2.2.2.1, hs.2.2.2.2.2.1], ?_, ?_,
    by rw [hp1.2.2.2.1, hs.2.2.2.1], by rw [hs.2.2.2.1]; exact hp1.2.2.2.2.2.2.1.2.2.2.2.2.1,
    by rw [hp1.2.2.1, hs.2.2.1], ?_, ?_, ?_⟩
  · intro hr
    rcases p with _ | ⟨f, p⟩
    · exact hp1.2.2.2.2.2.2.2
    · exact absurd hr.symm (by simpa using h.ptr_ne_root)
  · intro hr
    have hn := h.nodup
    have hpz := h.path
    rcases p with _ | ⟨f, p⟩
    · exact absurd hpz hr
    · cases f with
      | left a c w r =>
        simp only [ReprPath, ptr_node, hnil] at hpz hp1
        simp only [pathPtr_cons, addr_left] at hs
        simp only [addrs_node, pathAddrs_cons, addr_left, sib_left, List.nodup_append,
          List.disjoint_left, List.mem_append, List.mem_cons] at hn
        have hzr : ¬ s.right a = z := by
          rw [hpz.2.2.2.2.1]
          intro e
          have hz0 : ¬ z = s.nil_ := hs.1
          exact (ptr_eq_false hz0 (fun hm => hn.2.2 (Or.inr (Or.inl rfl))
            (Or.inl (Or.inr hm)))).mp e
        rw [hs.2.2.2.2.2.1]
        exact ⟨fun _ => hp1.2.2.2.2.2.2.2.2.2.2.1, fun e => absurd e hzr,
          Or.inl hpz.2.2.2.1⟩
      | right a c l w =>
        simp only [ReprPath, ptr_node, hnil] at hpz hp1
        simp only [pathPtr_cons, addr_right] at hs
        simp only [addrs_node, pathAddrs_cons, addr_right, sib_right, List.nodup_append,
          List.disjoint_left, List.mem_append, List.mem_cons] at hn
        have hzl : ¬ s.left a = z := by
          rw [hpz.2.2.2.1]
          intro e
          have hz0 : ¬ z = s.nil_ := hs.1
          exact (ptr_eq_false hz0 (fun hm => hn.2.2 (Or.inr (Or.inl rfl))
            (Or.inl (Or.inr hm)))).mp e
        rw [hs.2.2.2.2.2.1]
        exact ⟨fun e => absurd e hzl, fun _ => hp1.2.2.2.2.2.2.2.2.2.2.2.1,
          Or.inr hpz.2.2.2.2.1⟩
  · intro hpy
    rcases q with _ | ⟨f, q⟩
    · have := hp1.2.2.2.2.1
      simpa [hsY.2.2.2.2.1] using this
    · obtain ⟨a, c, w, r, rfl⟩ := hleft _ (List.mem_cons_self _ _)
      exact absurd (hsY.2.2.2.2.2.1.symm.trans hpy) (by simpa using hfa _ (List.mem_cons_self _ _))
  · intro hpy
    rcases q with _ | ⟨f, q⟩
    · exact absurd (by simpa using hsY.2.2.2.2.2.1) hpy
    · obtain ⟨a, c, w, r, rfl⟩ := hleft _ (List.mem_cons_self _ _)
      have hpY := zY.path
      have hpS := zS.path
      simp only [List.cons_append, ReprPath, ptr_node, hnil] at hpY hpS
      simp only [List.cons_append, pathPtr_cons, addr_left] at hsY
      obtain ⟨ra2, rc2, rl2, rv2, rr2, hR2⟩ : ∃ a2 c2 l2 w2 r2,
          plug (Frame.left a c w r :: q) yr = Tree.node a2 c2 l2 w2 r2 := by
        apply Tree.exists_node_of_cells
        rw [plug_cons, cells_plug]
        simp
      have hra : ra2 = ra := by
        have := plug_ptr_cons s.nil_ (Frame.left a c w r) q yr (Tree.node y yc Tree.leaf yv yr)
        rw [hR2, hR] at this
        simpa using this
      subst hra
      rw [hR2] at Z1 hp1
      have hpar := Z1.parent_eq
      simp only [pathPtr_cons, addr_right] at hpar
      rw [hsY.2.2.2.2.2.1, hs.2.2.2.2.1]
      exact ⟨hpY.2.2.2.1, by rw [hpS.2.2.2.1, hsY.2.2.2.2.1], by simpa using hp1.2.2.2.2.1, hpar⟩
  · intro hne
    have hyr : yr ≠ Tree.leaf := by
      rintro rfl
      exact hne (by simpa using hsY.2.2.2.2.1)
    obtain ⟨b, bc, bl, bv, br, rfl⟩ : ∃ b bc bl bv br, yr = Tree.node b bc bl bv br := by
      cases yr with
      | leaf => exact absurd rfl hyr
      | node b bc bl bv br => exact ⟨b, bc, bl, bv, br, rfl⟩
    have hpar := zS.parent_eq
    rw [hnil] at hpar
    simp only [ptr_node] at hsY
    rw [hsY.2.2.2.2.1, hpar, hsY.2.2.2.2.2.1]
    rcases q with _ | ⟨f, q⟩
    · simp
    · obtain ⟨a, c, w, r, rfl⟩ := hleft _ (List.mem_cons_self _ _)
      simp only [List.cons_append, pathPtr_cons, addr_left]
      rw [if_neg (by simpa using hfa _ (List.mem_cons_self _ _))]

end RBSet

namespace RBSet
variable {α : Type}

/-! ## Links, the sentinel and the value behind `end()` -/

theorem Tree.ptr_mem_addrs {t : Tree α} {nil : Nat} (h : t.ptr nil ≠ nil) :
    t.ptr nil ∈ t.addrs := by
  cases t with
  | leaf => exact absurd rfl h
  | node a c l v r => simp

/-- The links around a node of the stored tree: a child that is not the sentinel
is a node of the tree whose parent link points back, the parent link of the
node is the sentinel exactly at the root, and a node other than the root is a
child of the node its parent link points to. -/
theorem Set.Shape.links {s : Set α} {t : Tree α} (h : s.Shape t) {n : Nat} (hn : n ∈ t.addrs) :
    n ≠ s.nil_ ∧
    (s.left n ≠ s.nil_ → s.left n ∈ t.addrs ∧ s.parent (s.left n) = n) ∧
    (s.right n ≠ s.nil_ → s.right n ∈ t.addrs ∧ s.parent (s.right n) = n) ∧
    (n = s.root_ ↔ s.parent n = s.nil_) ∧
    (n ≠ s.root_ → s.parent n ∈ t.addrs ∧
      (s.left (s.parent n) = n ∨ s.right (s.parent n) = n)) := by
  obtain ⟨p, c, l, v, r, z, hp⟩ := h.focus_mem hn
  have hs := z.sub
  simp only [Repr] at hs
  have hperm := addrs_plug_perm p (Tree.node n c l v r)
  rw [hp] at hperm
  refine ⟨hs.1, ?_, ?_, ?_, ?_⟩
  · intro hl
    rw [hs.2.2.2.1] at hl ⊢
    refine ⟨hperm.mem_iff.mpr ?_, ?_⟩
    · simp only [addrs_node, List.mem_append]
      exact Or.inl (Or.inl (Tree.ptr_mem_addrs hl))
    · cases l with
      | leaf => exact absurd rfl hl
      | node a c2 l2 v2 r2 =>
        have := hs.2.2.2.2.2.2.1
        simp only [Repr] at this
        exact this.2.2.2.2.2.1
  · intro hr
    rw [hs.2.2.2.2.1] at hr ⊢
    refine ⟨hperm.mem_iff.mpr ?_, ?_⟩
    · simp only [addrs_node, List.mem_append, List.mem_cons]
      exact Or.inl (Or.inr (Or.inr (Tree.ptr_mem_addrs hr)))
    · cases r with
      | leaf => exact absurd rfl hr
      | node a c2 l2 v2 r2 =>
        have := hs.2.2.2.2.2.2.2
        simp only [Repr] at this
        exact this.2.2.2.2.2.1
  · rw [hs.2.2.2.2.2.1]
    rcases p with _ | ⟨f, p⟩
    · have : s.root_ = n := z.path
      simp [this]
    · have h1 := z.ptr_ne_root
      have h2 := z.path
      simp only [ptr_node] at h1
      constructor
      · intro e; exact absurd e h1
      · intro e
        cases f <;> simp only [ReprPath] at h2 <;> exact absurd e h2.1
  · intro hr
    rcases p with _ | ⟨f, p⟩
    · exact absurd (z.path : s.root_ = n).symm hr
    · have h2 := z.path
      rw [hs.2.2.2.2.2.1]
      refine ⟨hperm.mem_iff.mpr ?_, ?_⟩
      · simp only [List.mem_append, pathAddrs_cons, pathPtr_cons, List.mem_cons]
        exact Or.inr (Or.inl (Or.inl trivial))
      · cases f <;> simp only [ReprPath, ptr_node] at h2
        · exact Or.inl h2.2.2.2.1
        · exact Or.inr h2.2.2.2.2.1

/-- The parent link of the root is the sentinel; for the empty tree this is the
parent link of the sentinel. -/
theorem Inv0.root_parent {s : Set α} {t : Tree α} (h : Inv0 s t) :
    s.parent s.root_ = s.nil_ := by
  cases t with
  | leaf =>
    have := h.shape.root
    simp only [ptr_leaf] at this
    rw [this]
    exact h.nilpar rfl
  | node a c l v r =>
    have h1 := h.shape.root
    have h2 := h.shape.repr
    simp only [ptr_node] at h1
    simp only [Repr] at h2
    rw [h1]
    exact h2.2.2.2.2.2.1

/-- The child links of the sentinel point to the sentinel, and so does its
parent link when the set is empty. -/
theorem Inv0.sentinel_links {s : Set α} {t : Tree α} (h : Inv0 s t) :
    s.left s.nil_ = s.nil_ ∧ s.right s.nil_ = s.nil_ ∧
      (empty s = true → s.parent s.nil_ = s.nil_) := by
  refine ⟨h.shape.nil.left, h.shape.nil.right, fun he => h.nilpar ?_⟩
  have hs := h.size
  simp only [empty, beq_iff_eq] at he
  rw [he] at hs
  cases t with
  | leaf => rfl
  | node a c l v r => simp only [Tree.count] at hs; omega

/-- The value of the sentinel cell is not written by `insert`. -/
theorem insert_value_nil (lt : α → α → Bool) (v : α) {s s2 : Set α} {t : Tree α}
    (h : s.Shape t) (hrb : t.RedBlack) (e : insert lt s v = some s2) :
    s2.nil_ = s.nil_ ∧ s2.value s2.nil_ = s.value s.nil_ := by
  by_cases hf : (zoom lt v t []).2 = Tree.leaf
  · obtain ⟨s3, t3, e3, -, -, -, -, n3, -, -, v3⟩ := insert_absent lt v h hrb hf
    rw [e] at e3
    injection e3 with e3
    subst e3
    have hne : s.nil_ ≠ s.next := by have := h.nil.lt_next; omega
    rw [n3]
    exact ⟨rfl, v3 _ hne⟩
  · have := insert_found lt v h hf
    rw [e] at this
    injection this with this
    subst this
    exact ⟨rfl, rfl⟩

/-- The value of the sentinel cell is not written by `erase`. -/
theorem erase_value_nil (lt : α → α → Bool) (v : α) {s s2 : Set α} {t : Tree α}
    (h : s.Shape t) (hrb : t.RedBlack) (e : erase lt s v = some s2) :
    s2.nil_ = s.nil_ ∧ s2.value s2.nil_ = s.value s.nil_ := by
  rcases hf : (zoom lt v t []).2 with _ | ⟨z, zc, l, w, r⟩
  · have := erase_absent lt v h hf
    rw [e] at this
    injection this with this
    subst this
    exact ⟨rfl, rfl⟩
  · obtain ⟨s3, t3, e3, -, -, -, -, n3, -, -, v3, -⟩ := erase_found lt v h hrb hf
    rw [e] at e3
    injection e3 with e3
    subst e3
    rw [n3]
    exact ⟨rfl, v3 _⟩

/-- When the colour the splice phase records is RED, `RBDelete` does not run
`RBDeleteFixup`, and the state the splice phase leaves stores a red-black tree. -/
theorem RBDelete_red {s : Set α} {p : Path α} {z : Nat} {zc : Color} {l r : Tree α} {v : α}
    (h : Zip s p (Tree.node z zc l v r)) (hrb : (plug p (Tree.node z zc l v r)).RedBlack) :
    ∃ (s1 : Set α) (x : Nat) (oc : Color), RBDeleteSplice s z = some (s1, x, oc) ∧
      (oc = Color.RED →
        RBDelete s z = some { s1 with
          size_ := (if s1.size_ = 0 then SIZE_WRAP - 1 else s1.size_ - 1),
          freed := z :: s1.freed } ∧
        RBDeleteLog s z = some [] ∧ ∃ t1, s1.Shape t1 ∧ t1.RedBlack) := by
  obtain ⟨s1, x, oc, q, X, e, -, -, z1, -, -, -, hR⟩ := RBDeleteSplice_spec h hrb
  refine ⟨s1, x, oc, e, ?_⟩
  rintro rfl
  exact ⟨by simp [RBDelete, e], by simp [RBDeleteLog, e], _, z1.top.shape, hR rfl⟩

/-! ## The records are applications of the loop body -/

/-- Every record of a run of the loop of `RBInsertFixup` is one application of its body. -/
theorem RBInsertFixupRun_mem (fuel : Nat) : ∀ (s : Set α) (z : Nat) (s2 : Set α)
    (log : List (Iteration α)), RBInsertFixupRun fuel s z = some (s2, log) →
    ∀ it ∈ log, RBInsertFixupStep it.pre it.node = some (it.post, it.next, it.events) := by
  induction fuel with
  | zero => intro s z s2 log h; simp [RBInsertFixupRun] at h
  | succ n ih =>
    intro s z s2 log h it hit
    rw [RBInsertFixupRun] at h
    rcases hs : RBInsertFixupStep s z with _ | ⟨s1, z1, ev⟩
    · simp only [hs] at h
      injection h with h
      injection h with h1 h2
      subst h2
      cases hit
    · simp only [hs] at h
      rcases hr : RBInsertFixupRun n s1 z1 with _ | ⟨s3, log3⟩
      · simp [hr] at h
      · simp only [hr] at h
        injection h with h
        injection h with h1 h2
        subst h2
        rcases List.mem_cons.mp hit with rfl | hit
        · exact hs
        · exact ih s1 z1 s3 log3 hr it hit

/-- Every record of a run of the loop of `RBDeleteFixup` is one application of its body. -/
theorem RBDeleteFixupRun_mem (fuel : Nat) : ∀ (s : Set α) (x : Nat) (s2 : Set α) (x2 : Nat)
    (log : List (Iteration α)), RBDeleteFixupRun fuel s x = some (s2, x2, log) →
    ∀ it ∈ log, RBDeleteFixupStep it.pre it.node = some (it.post, it.next, it.events) := by
  induction fuel with
  | zero => intro s x s2 x2 log h; simp [RBDeleteFixupRun] at h
  | succ n ih =>
    intro s x s2 x2 log h it hit
    rw [RBDeleteFixupRun] at h
    rcases hs : RBDeleteFixupStep s x with _ | ⟨s1, x1, ev⟩
    · simp only [hs] at h
      injection h with h
      injection h with h1 h
      injection h with h2 h3
      subst h3
      cases hit
    · simp only [hs] at h
      rcases hr : RBDeleteFixupRun n s1 x1 with _ | ⟨s3, x3, log3⟩
      · simp [hr] at h
      · simp only [hr] at h
        injection h with h
        injection h with h1 h
        injection h with h2 h3
        subst h3
        rcases List.mem_cons.mp hit with rfl | hit
        · exact hs
        · exact ih s1 x1 s3 x3 log3 hr it hit

theorem RBDeleteFixupLeftRest_log (s : Set α) (x w : Nat) (log : List Event) :
    ∃ ev, (RBDeleteFixupLeftRest s x w log).2.2 = log ++ ev := by
  unfold RBDeleteFixupLeftRest
  dsimp only
  split_ifs <;> simp only [List.append_assoc] <;> exact ⟨_, rfl⟩

theorem RBDeleteFixupRightRest_log (s : Set α) (x w : Nat) (log : List Event) :
    ∃ ev, (RBDeleteFixupRightRest s x w log).2.2 = log ++ ev := by
  unfold RBDeleteFixupRightRest
  dsimp only
  split_ifs <;> simp only [List.append_assoc] <;> exact ⟨_, rfl⟩

/-- The first event of an iteration of `RBDeleteFixup` is the assignment of the
sibling of `x_node` to `w_node`. -/
theorem RBDeleteFixupStep_head {s s2 : Set α} {x x2 : Nat} {ev : List Event}
    (h : RBDeleteFixupStep s x = some (s2, x2, ev)) :
    ∃ rest, ev = Event.sibling
      (if x = s.left (s.parent x) then s.right (s.parent x) else s.left (s.parent x)) :: rest := by
  unfold RBDeleteFixupStep at h
  dsimp only at h
  split_ifs at h with h1 h2 h3 h3
  · obtain ⟨ev2, he⟩ := RBDeleteFixupLeftRest_log
      (LeftRotate (PaintRed (PaintBlack s (s.right (s.parent x)))
        ((PaintBlack s (s.right (s.parent x))).parent x))
        ((PaintRed (PaintBlack s (s.right (s.parent x)))
          ((PaintBlack s (s.right (s.parent x))).parent x)).parent x)) x _ _
    injection h with h
    rw [h] at he
    simp only [List.singleton_append, List.cons_append, List.nil_append] at he
    rw [if_pos h2]
    exact ⟨_, he⟩
  · obtain ⟨ev2, he⟩ := RBDeleteFixupLeftRest_log s x (s.right (s.parent x))
      [Event.sibling (s.right (s.parent x))]
    injection h with h
    rw [h] at he
    rw [if_pos h2]
    exact ⟨_, he⟩
  · obtain ⟨ev2, he⟩ := RBDeleteFixupRightRest_log
      (RightRotate (PaintRed (PaintBlack s (s.left (s.parent x)))
        ((PaintBlack s (s.left (s.parent x))).parent x))
        ((PaintRed (PaintBlack s (s.left (s.parent x)))
          ((PaintBlack s (s.left (s.parent x))).parent x)).parent x)) x _ _
    injection h with h
    rw [h] at he
    simp only [List.singleton_append, List.cons_append, List.nil_append] at he
    rw [if_neg h2]
    exact ⟨_, he⟩
  · obtain ⟨ev2, he⟩ := RBDeleteFixupRightRest_log s x (s.left (s.parent x))
      [Event.sibling (s.left (s.parent x))]
    injection h with h
    rw [h] at he
    rw [if_neg h2]
    exact ⟨_, he⟩

end RBSet

namespace RBSet
variable {α : Type}

/-! ## What `insert` and `erase` do to the sentinel -/

theorem RBInsertLog_mem (lt : α → α → Bool) {s : Set α} {z : Nat} {log : List (Iteration α)}
    (h : RBInsertLog lt s z = some log) :
    ∀ it ∈ log, RBInsertFixupStep it.pre it.node = some (it.post, it.next, it.events) := by
  unfold RBInsertLog at h
  rcases hd : RBInsertDescend lt s z s.next s.nil_ s.root_ with _ | y
  · rw [hd] at h
    cases h
  · rw [hd] at h
    dsimp only at h
    rcases hr : RBInsertFixupRun (RBInsertLink lt s z y).next (RBInsertLink lt s z y) z with
      _ | ⟨sF, log2⟩
    · rw [hr] at h
      cases h
    · rw [hr] at h
      injection h with h
      subst h
      exact RBInsertFixupRun_mem _ _ _ _ _ hr

/-- Every record of the run that `insert` performs is one application of the body
of the loop of `RBInsertFixup`. -/
theorem insertLog_mem (lt : α → α → Bool) {s : Set α} {v : α} {log : List (Iteration α)}
    (h : insertLog lt s v = some log) :
    ∀ it ∈ log, RBInsertFixupStep it.pre it.node = some (it.post, it.next, it.events) := by
  unfold insertLog at h
  rcases hf : FindByValue lt s v with _ | found
  · rw [hf] at h
    cases h
  · rw [hf] at h
    dsimp only at h
    split_ifs at h with hn
    · injection h with h
      subst h
      intro it hit
      cases hit
    · exact RBInsertLog_mem lt h

theorem RBDeleteLog_mem {s : Set α} {z : Nat} {log : List (Iteration α)}
    (h : RBDeleteLog s z = some log) :
    ∀ it ∈ log, RBDeleteFixupStep it.pre it.node = some (it.post, it.next, it.events) := by
  unfold RBDeleteLog at h
  rcases hd : RBDeleteSplice s z with _ | ⟨s1, x, oc⟩
  · rw [hd] at h
    cases h
  · rw [hd] at h
    dsimp only at h
    split_ifs at h with hc
    · rcases hr : RBDeleteFixupRun s1.next s1 x with _ | ⟨sF, xF, log2⟩
      · rw [hr] at h
        cases h
      · rw [hr] at h
        injection h with h
        subst h
        exact RBDeleteFixupRun_mem _ _ _ _ _ _ hr
    · injection h with h
      subst h
      intro it hit
      cases hit

/-- Every record of the run that `erase` performs is one application of the body
of the loop of `RBDeleteFixup`. -/
theorem eraseLog_mem (lt : α → α → Bool) {s : Set α} {v : α} {log : List (Iteration α)}
    (h : eraseLog lt s v = some log) :
    ∀ it ∈ log, RBDeleteFixupStep it.pre it.node = some (it.post, it.next, it.events) := by
  unfold eraseLog at h
  rcases hf : FindByValue lt s v with _ | z
  · rw [hf] at h
    cases h
  · rw [hf] at h
    dsimp only at h
    split_ifs at h with hn
    · exact RBDeleteLog_mem h
    · injection h with h
      subst h
      intro it hit
      cases hit

/-- The writes of `insert` before `RBInsertFixup` leave the colour of the sentinel alone. -/
theorem color_nil_link (lt : α → α → Bool) (s : Set α) (v : α) (y : Nat)
    (h : s.nil_ < s.next) :
    (RBInsertLink lt (s.alloc v).1 (s.alloc v).2 y).color s.nil_ = s.color s.nil_ := by
  have hne : ¬ s.nil_ = s.next := by omega
  unfold RBInsertLink PaintRed
  dsimp only
  split_ifs <;> simp [hne]

/-- The state the splice phase of `erase` leaves has a BLACK sentinel. -/
theorem splice_nil_black (lt : α → α → Bool) (v : α) {s : Set α} {t : Tree α} (h : s.Shape t)
    (hrb : t.RedBlack) {z : Nat} (hf : find lt s v = some z) (hz : z ≠ s.nil_) :
    ∃ s1 x oc, RBDeleteSplice s z = some (s1, x, oc) ∧ s1.nil_ = s.nil_ ∧
      s1.color s.nil_ = Color.BLACK := by
  have hzz := h.zoom lt v
  rw [find, FindByValue_eq lt v h] at hf
  injection hf with hf
  rcases hq : (zoom lt v t []).2 with _ | ⟨z2, zc, l, w, r⟩
  · rw [hq] at hf
    exact absurd hf.symm hz
  · rw [hq] at hf hzz
    simp only [ptr_node] at hf
    subst hf
    have hp := zoom_plug lt v t []
    rw [hq, plug_nil] at hp
    obtain ⟨s1, x, oc, q, X, e, -, m, z1, -⟩ := RBDeleteSplice_spec hzz (by rw [hp]; exact hrb)
    have := z1.nil.color
    rw [m.1] at this
    exact ⟨s1, x, oc, e, m.1, this⟩

end RBSet

namespace RBSet
variable {α : Type}

/-! ## The second scenario -/

set_option maxRecDepth 100000 in
theorem smallSet_shape : smallSet.Shape smallTree := by
  refine ⟨by decide, ?_, by decide, by decide, ⟨by decide, by decide, by decide, by decide⟩⟩
  simp only [smallTree, Repr, ptr_node, ptr_leaf]
  decide

theorem smallTree_redBlack : smallTree.RedBlack := by
  simp [smallTree, Tree.RedBlack, Tree.NoRedRed, Tree.Balanced, Tree.bh, Tree.color]

theorem smallSet_reachable : Reachable ltN smallSet :=
  Reachable.build strictTotal_ltN 0 [5, 3, 8, 1]

/-- The links of the state the splice phase of `RBDelete` leaves for a node with
two children. -/
theorem erase_two_children_links {s : Set α} {t : Tree α} {z : Nat} (h : s.Shape t)
    (hz : z ∈ t.addrs) (hl : s.left z ≠ s.nil_) (hr : s.right z ≠ s.nil_) :
    ∃ s1 x oc y, RBDeleteSplice s z = some (s1, x, oc) ∧
      MinValueNode s (s.right z) = some y ∧ Successor s z = some y ∧
      y ≠ s.nil_ ∧ y ≠ z ∧ s.left y = s.nil_ ∧ x = s.right y ∧ oc = s.color y ∧
      s1.parent y = s.parent z ∧
      (s.root_ = z → s1.root_ = y) ∧
      (s.root_ ≠ z → (s.left (s.parent z) = z → s1.left (s.parent z) = y) ∧
        (s.right (s.parent z) = z → s1.right (s.parent z) = y) ∧
        (s.left (s.parent z) = z ∨ s.right (s.parent z) = z)) ∧
      s1.left y = s.left z ∧ s1.parent (s.left z) = y ∧ s1.color y = s.color z ∧
      (s.parent y = z → s1.right y = s.right y) ∧
      (s.parent y ≠ z → s.left (s.parent y) = y ∧ s1.left (s.parent y) = s.right y ∧
        s1.right y = s.right z ∧ s1.parent (s.right z) = y) ∧
      (s.right y ≠ s.nil_ →
        s1.parent (s.right y) = if s.parent y = z then y else s.parent y) := by
  obtain ⟨p, zc, l, v, r, zz, -⟩ := h.focus_mem hz
  have hs := zz.sub
  simp only [Repr] at hs
  rw [hs.2.2.2.1] at hl
  rw [hs.2.2.2.2.1] at hr
  cases l with
  | leaf => exact absurd rfl hl
  | node la lc ll lv lr =>
    cases r with
    | leaf => exact absurd rfl hr
    | node ra rc rl rv rr =>
      obtain ⟨q, y0, yc, yv, yr, s1, -, -, e, -⟩ := splice_two_detail zz
      obtain ⟨y, f1, f2, f3, f4, f5, f6, f7, f8, f9, f10, f11, f12, f13, f14, f15⟩ :=
        splice_two_links zz e
      have hsucc : Successor s z = some y := by
        have : s.right z ≠ s.nil_ := by rw [hs.2.2.2.2.1]; exact hr
        rw [Successor, if_pos this]
        exact f1
      exact ⟨s1, _, _, y, e, f1, hsucc, f2, f3, f4, f5, f6, f7, f8, f9, f10, f11, f12, f13, f14,
        f15⟩

/-- The state in which `insert(0)` on `demoSet` calls `RBInsertFixup`: the new
cell 9 hangs as a RED leaf at the end of the descent path. -/
theorem demoSet_attach :
    Zip (RBInsertLink ltN (demoSet.alloc 0).1 9
        (pathPtr (demoSet.alloc 0).1.nil_ (insPath ltN 0 demoTree [])))
      (insPath ltN 0 demoTree []) (Tree.node 9 Color.RED Tree.leaf 0 Tree.leaf) :=
  Zip.attach ltN
    (Zip.focus (by rw [insPath_plug]; exact (demoSet_shape.alloc 0).zip))
    (by decide) (by decide!) (by decide!) (by decide!) (insPath_sideOK ltN 0 demoTree [] trivial)

end RBSet

namespace RBSet
variable {α : Type}

/-! ## The claims about rotations, the sentinel and the fixup loops -/

/-- C21: in a state that stores a tree, `LeftRotate(x)` at a node `x` of the tree
whose right child `y` is not the sentinel makes `y` take the place of `x`
(the parent link of `y` is the former parent link of `x`; the former parent of
`x` points to `y` on the side on which it pointed to `x`; `root_` is `y`
exactly when `x` was the root, and `root_` changes exactly then), makes `x`
the left child of `y`, and makes the former left child of `y` the right child
of `x`, with its parent link set when it is not the sentinel.  The left link
of `x` and the right link of `y` stay, every cell other than `x`, `y`, the
former left child of `y` and the former parent of `x` is unchanged, the
sentinel cell is unchanged, and no colour, no value and nothing else of the
object changes.  The mirror statement holds for `RightRotate(x)` at a node
whose left child is not the sentinel. -/
theorem rotation_frame_effect {s : Set α} {t : Tree α} {x : Nat} (h : s.Shape t)
    (hx : x ∈ t.addrs) :
    (s.right x ≠ s.nil_ →
      (LeftRotate s x).parent (s.right x) = s.parent x ∧
      ((LeftRotate s x).root_ = s.right x ↔ s.root_ = x) ∧
      ((LeftRotate s x).root_ ≠ s.root_ ↔ s.root_ = x) ∧
      (s.root_ = x ↔ s.parent x = s.nil_) ∧
      (s.parent x ≠ s.nil_ → s.left (s.parent x) = x →
        (LeftRotate s x).left (s.parent x) = s.right x) ∧
      (s.parent x ≠ s.nil_ → s.right (s.parent x) = x →
        (LeftRotate s x).right (s.parent x) = s.right x) ∧
      (LeftRotate s x).left (s.right x) = x ∧ (LeftRotate s x).parent x = s.right x ∧
      (LeftRotate s x).right x = s.left (s.right x) ∧
      (s.left (s.right x) ≠ s.nil_ → (LeftRotate s x).parent (s.left (s.right x)) = x) ∧
      (LeftRotate s x).left x = s.left x ∧
      (LeftRotate s x).right (s.right x) = s.right (s.right x) ∧
      (∀ n, n ≠ x → n ≠ s.right x →
        (n = s.nil_ ∨ (n ≠ s.left (s.right x) ∧ n ≠ s.parent x)) →
        (LeftRotate s x).heap n = s.heap n) ∧
      (∀ n, (LeftRotate s x).color n = s.color n ∧ (LeftRotate s x).value n = s.value n) ∧
      SameMeta s (LeftRotate s x)) ∧
    (s.left x ≠ s.nil_ →
      (RightRotate s x).parent (s.left x) = s.parent x ∧
      ((RightRotate s x).root_ = s.left x ↔ s.root_ = x) ∧
      ((RightRotate s x).root_ ≠ s.root_ ↔ s.root_ = x) ∧
      (s.root_ = x ↔ s.parent x = s.nil_) ∧
      (s.parent x ≠ s.nil_ → s.right (s.parent x) = x →
        (RightRotate s x).right (s.parent x) = s.left x) ∧
      (s.parent x ≠ s.nil_ → s.left (s.parent x) = x →
        (RightRotate s x).left (s.parent x) = s.left x) ∧
      (RightRotate s x).right (s.left x) = x ∧ (RightRotate s x).parent x = s.left x ∧
      (RightRotate s x).left x = s.right (s.left x) ∧
      (s.right (s.left x) ≠ s.nil_ → (RightRotate s x).parent (s.right (s.left x)) = x) ∧
      (RightRotate s x).right x = s.right x ∧
      (RightRotate s x).left (s.left x) = s.left (s.left x) ∧
      (∀ n, n ≠ x → n ≠ s.left x →
        (n = s.nil_ ∨ (n ≠ s.right (s.left x) ∧ n ≠ s.parent x)) →
        (RightRotate s x).heap n = s.heap n) ∧
      (∀ n, (RightRotate s x).color n = s.color n ∧ (RightRotate s x).value n = s.value n) ∧
      SameMeta s (RightRotate s x)) := by
  obtain ⟨p, c, l, v, r, z, -⟩ := h.focus_mem hx
  have hs := z.sub
  simp only [Repr] at hs
  constructor
  · intro hr
    rw [hs.2.2.2.2.1] at hr
    cases r with
    | leaf => exact absurd rfl hr
    | node y cy b vy d =>
      have hy : s.right x = y := by simpa using hs.2.2.2.2.1
      rw [hy]
      obtain ⟨f1, f2, f3, f4, f5, f6, f7, f8, f9, f10, f11, f12, f13⟩ := LeftRotate_frame z
      exact ⟨f1, f2, f3, f4, f5, f6, f7, f8, f9, f10, f11, f12, f13, fun n => ⟨by simp, by simp⟩,
        SameMeta.leftRotate s x⟩
  · intro hl
    rw [hs.2.2.2.1] at hl
    cases l with
    | leaf => exact absurd rfl hl
    | node y cy a vy b =>
      have hy : s.left x = y := by simpa using hs.2.2.2.1
      rw [hy]
      obtain ⟨f1, f2, f3, f4, f5, f6, f7, f8, f9, f10, f11, f12, f13⟩ := RightRotate_frame z
      exact ⟨f1, f2, f3, f4, f5, f6, f7, f8, f9, f10, f11, f12, f13, fun n => ⟨by simp, by simp⟩,
        SameMeta.rightRotate s x⟩

set_option maxRecDepth 100000 in
theorem rotation_frame_effect_witness :
    demoSet.root_ = 2 ∧ demoSet.right 2 = 4 ∧ demoSet.left 4 = 7 ∧ demoSet.left 2 = 3 ∧
      demoSet.right 3 = 6 ∧
      ((LeftRotate demoSet 2).root_ = 4 ∧ (LeftRotate demoSet 2).left 4 = 2 ∧
        (LeftRotate demoSet 2).parent 2 = 4 ∧ (LeftRotate demoSet 2).right 2 = 7 ∧
        (LeftRotate demoSet 2).parent 7 = 2 ∧
        (LeftRotate demoSet 2).heap 3 = demoSet.heap 3) ∧
      ((RightRotate demoSet 2).root_ = 3 ∧ (RightRotate demoSet 2).right 3 = 2 ∧
        (RightRotate demoSet 2).parent 2 = 3 ∧ (RightRotate demoSet 2).left 2 = 6 ∧
        (RightRotate demoSet 2).parent 6 = 2 ∧
        (RightRotate demoSet 2).heap 4 = demoSet.heap 4) := by
  have hw := rotation_frame_effect demoSet_shape (x := 2) (by decide)
  have e0 : demoSet.root_ = 2 := by decide!
  have e1 : demoSet.right 2 = 4 := by decide!
  have e2 : demoSet.left 4 = 7 := by decide!
  have e3 : demoSet.left 2 = 3 := by decide!
  have e4 : demoSet.right 3 = 6 := by decide!
  have e5 : demoSet.nil_ = 1 := by decide!
  have e6 : demoSet.parent 2 = 1 := by decide!
  simp only [e1, e2, e3, e4, e5, e6] at hw
  obtain ⟨-, f2, -, -, -, -, f7, f8, f9, f10, -, -, f13, -⟩ := hw.1 (by decide)
  obtain ⟨-, g2, -, -, -, -, g7, g8, g9, g10, -, -, g13, -⟩ := hw.2 (by decide)
  exact ⟨e0, e1, e2, e3, e4,
    ⟨f2.mpr e0, f7, f8, f9, f10 (by decide), f13 3 (by decide) (by decide)
      (Or.inr ⟨by decide, by decide⟩)⟩,
    ⟨g2.mpr e0, g7, g8, g9, g10 (by decide), g13 4 (by decide) (by decide)
      (Or.inr ⟨by decide, by decide⟩)⟩⟩

/-- C22: for every reachable set `s` and all values `v` and `w`: the sentinel of
`s` is BLACK; it is BLACK after the writes of `insert(v)` that hang the new
node into the tree; `insert(v)` returns, the run of the loop of
`RBInsertFixup` it performs returns, before and after every iteration of that
loop the sentinel is BLACK, no node that an iteration paints RED (the
grandparent) is the sentinel, an uncle that tests RED is not the sentinel, and
the sentinel is BLACK in the set `insert(v)` leaves; the state the splice phase
of `erase(w)` leaves has a BLACK sentinel; `erase(w)` returns, the run of the
loop of `RBDeleteFixup` it performs returns, before and after every iteration
the sentinel is BLACK, no node that an iteration paints RED (`w_node`, or the
parent of `x_node`) and no node whose colour it assigns is the sentinel, and
the sentinel is BLACK in the set `erase(w)` leaves. -/
theorem sentinel_never_painted_red (lt : α → α → Bool) (s : Set α) (v w : α)
    (h : Reachable lt s) :
    s.color s.nil_ = Color.BLACK ∧
    (∀ y, (RBInsertLink lt (s.alloc v).1 (s.alloc v).2 y).color s.nil_ = Color.BLACK) ∧
    (∃ s2 log, insert lt s v = some s2 ∧ insertLog lt s v = some log ∧
      s2.nil_ = s.nil_ ∧ s2.color s.nil_ = Color.BLACK ∧
      ∀ it ∈ log, RBInsertFixupStep it.pre it.node = some (it.post, it.next, it.events) ∧
        it.pre.nil_ = s.nil_ ∧ it.post.nil_ = s.nil_ ∧
        it.pre.color s.nil_ = Color.BLACK ∧ it.post.color s.nil_ = Color.BLACK ∧
        (∀ a, Event.paintRed a ∈ it.events → a ≠ s.nil_) ∧
        (∀ a c, Event.setColor a c ∈ it.events → a ≠ s.nil_) ∧
        (RedFlag it.pre (uncleOf it.pre it.node) = true →
          uncleOf it.pre it.node ≠ s.nil_)) ∧
    (∀ z, find lt s w = some z → z ≠ s.nil_ →
      ∃ s1 x oc, RBDeleteSplice s z = some (s1, x, oc) ∧ s1.nil_ = s.nil_ ∧
        s1.color s.nil_ = Color.BLACK) ∧
    (∃ s2 log, erase lt s w = some s2 ∧ eraseLog lt s w = some log ∧
      s2.nil_ = s.nil_ ∧ s2.color s.nil_ = Color.BLACK ∧
      ∀ it ∈ log, RBDeleteFixupStep it.pre it.node = some (it.post, it.next, it.events) ∧
        it.pre.nil_ = s.nil_ ∧ it.post.nil_ = s.nil_ ∧
        it.pre.color s.nil_ = Color.BLACK ∧ it.post.color s.nil_ = Color.BLACK ∧
        (∀ a, Event.paintRed a ∈ it.events → a ≠ s.nil_) ∧
        (∀ a c, Event.setColor a c ∈ it.events → a ≠ s.nil_)) := by
  obtain ⟨t, ht⟩ := h.inv0
  have hsh := ht.shape
  have hc := hsh.nil.color
  refine ⟨hc, fun y => by rw [color_nil_link lt s v y hsh.nil.lt_next]; exact hc, ?_,
    fun z hz hz0 => splice_nil_black lt w hsh ht.rb hz hz0, ?_⟩
  · obtain ⟨s2, t2, e2, sh2, -⟩ := insert_redBlack lt v hsh ht.rb
    obtain ⟨log, el, ol⟩ := insertLog_spec lt v hsh ht.rb
    obtain ⟨n2, -⟩ := insert_value_nil lt v hsh ht.rb e2
    have hc2 := sh2.nil.color
    rw [n2] at hc2
    refine ⟨s2, log, e2, el, n2, hc2, fun it hit => ?_⟩
    obtain ⟨m1, m2, m3, m4, m5, -⟩ := ol.mem_ins it hit
    refine ⟨insertLog_mem lt el it hit, m2, m3, m4, m5, fun a ha => m1 _ ha,
      fun a c ha => m1 _ ha, fun hu e => ?_⟩
    rw [e] at hu
    simp only [RedFlag, m4] at hu
    cases hu
  · obtain ⟨s2, t2, e2, sh2, -⟩ := erase_redBlack lt w hsh ht.rb
    obtain ⟨log, el, ol⟩ := eraseLog_spec lt w hsh ht.rb
    obtain ⟨n2, -⟩ := erase_value_nil lt w hsh ht.rb e2
    have hc2 := sh2.nil.color
    rw [n2] at hc2
    refine ⟨s2, log, e2, el, n2, hc2, fun it hit => ?_⟩
    obtain ⟨m1, m2, m3, m4, m5, -⟩ := ol.mem_del it hit
    exact ⟨eraseLog_mem lt el it hit, m2, m3, m4, m5, fun a ha => m1 _ ha,
      fun a c ha => m1 _ ha⟩

set_option maxRecDepth 100000 in
theorem sentinel_never_painted_red_witness :
    (insertLog ltN demoSet 0).map List.length = some 1 ∧
    demoSet.color demoSet.nil_ = Color.BLACK ∧
    (∀ y, (RBInsertLink ltN (demoSet.alloc 0).1 (demoSet.alloc 0).2 y).color demoSet.nil_ =
      Color.BLACK) ∧
    (∃ s2 log, insert ltN demoSet 0 = some s2 ∧ insertLog ltN demoSet 0 = some log ∧
      s2.nil_ = demoSet.nil_ ∧ s2.color demoSet.nil_ = Color.BLACK ∧
      ∀ it ∈ log, RBInsertFixupStep it.pre it.node = some (it.post, it.next, it.events) ∧
        it.pre.nil_ = demoSet.nil_ ∧ it.post.nil_ = demoSet.nil_ ∧
        it.pre.color demoSet.nil_ = Color.BLACK ∧ it.post.color demoSet.nil_ = Color.BLACK ∧
        (∀ a, Event.paintRed a ∈ it.events → a ≠ demoSet.nil_) ∧
        (∀ a c, Event.setColor a c ∈ it.events → a ≠ demoSet.nil_) ∧
        (RedFlag it.pre (uncleOf it.pre it.node) = true →
          uncleOf it.pre it.node ≠ demoSet.nil_)) ∧
    (∀ z, find ltN demoSet 8 = some z → z ≠ demoSet.nil_ →
      ∃ s1 x oc, RBDeleteSplice demoSet z = some (s1, x, oc) ∧ s1.nil_ = demoSet.nil_ ∧
        s1.color demoSet.nil_ = Color.BLACK) ∧
    (∃ s2 log, erase ltN demoSet 8 = some s2 ∧ eraseLog ltN demoSet 8 = some log ∧
      s2.nil_ = demoSet.nil_ ∧ s2.color demoSet.nil_ = Color.BLACK ∧
      ∀ it ∈ log, RBDeleteFixupStep it.pre it.node = some (it.post, it.next, it.events) ∧
        it.pre.nil_ = demoSet.nil_ ∧ it.post.nil_ = demoSet.nil_ ∧
        it.pre.color demoSet.nil_ = Color.BLACK ∧ it.post.color demoSet.nil_ = Color.BLACK ∧
        (∀ a, Event.paintRed a ∈ it.events → a ≠ demoSet.nil_) ∧
        (∀ a c, Event.setColor a c ∈ it.events → a ≠ demoSet.nil_)) :=
  ⟨by decide!, sentinel_never_painted_red ltN demoSet 0 8 demoSet_reachable⟩

/-- C23, as it holds: after every `insert` and every `erase` that returns on a
reachable set the left and the right link of the sentinel point to the
sentinel, and so does its parent link when the set the call leaves is empty. -/
theorem sentinel_links_after_call (lt : α → α → Bool) (s s2 : Set α) (v : α)
    (h : Reachable lt s) (e : insert lt s v = some s2 ∨ erase lt s v = some s2) :
    s2.left s2.nil_ = s2.nil_ ∧ s2.right s2.nil_ = s2.nil_ ∧
      (empty s2 = true → s2.parent s2.nil_ = s2.nil_) := by
  have h2 : Reachable lt s2 := by
    rcases e with e | e
    · exact Reachable.insert v h e
    · exact Reachable.erase v h e
  obtain ⟨t2, ht2⟩ := h2.inv0
  exact ht2.sentinel_links

set_option maxRecDepth 100000 in
theorem sentinel_links_after_call_witness :
    erase ltN (build ltN 0 [5]) 5 = some (eraseAll ltN (build ltN 0 [5]) [5]) ∧
      empty (eraseAll ltN (build ltN 0 [5]) [5]) = true ∧
      (eraseAll ltN (build ltN 0 [5]) [5]).left (eraseAll ltN (build ltN 0 [5]) [5]).nil_ =
        (eraseAll ltN (build ltN 0 [5]) [5]).nil_ ∧
      (eraseAll ltN (build ltN 0 [5]) [5]).right (eraseAll ltN (build ltN 0 [5]) [5]).nil_ =
        (eraseAll ltN (build ltN 0 [5]) [5]).nil_ ∧
      (empty (eraseAll ltN (build ltN 0 [5]) [5]) = true →
        (eraseAll ltN (build ltN 0 [5]) [5]).parent (eraseAll ltN (build ltN 0 [5]) [5]).nil_ =
          (eraseAll ltN (build ltN 0 [5]) [5]).nil_) := by
  have hr : Reachable ltN (build ltN 0 [5]) := Reachable.build strictTotal_ltN 0 [5]
  have he : erase ltN (build ltN 0 [5]) 5 = some (eraseAll ltN (build ltN 0 [5]) [5]) := by
    obtain ⟨t, ht⟩ := hr.inv0
    obtain ⟨s2, t2, e, -⟩ := erase_redBlack ltN 5 ht.shape ht.rb
    simp only [eraseAll, List.foldl_cons, List.foldl_nil, e, Option.getD_some]
  exact ⟨he, by decide!, sentinel_links_after_call ltN (build ltN 0 [5]) _ 5 hr (Or.inr he)⟩

set_option maxRecDepth 100000 in
/-- C23 fails as stated: `demoSet` is reachable, `erase(1)` returns on it, and in
the set it leaves the parent link of the sentinel points to the node that
holds 3, the former parent of the erased leaf. -/
theorem sentinel_parent_counterexample :
    Reachable ltN demoSet ∧
      erase ltN demoSet 1 = some (eraseAll ltN demoSet [1]) ∧
      (eraseAll ltN demoSet [1]).nil_ = 1 ∧
      (eraseAll ltN demoSet [1]).parent (eraseAll ltN demoSet [1]).nil_ = 3 ∧
      (eraseAll ltN demoSet [1]).value 3 = 3 ∧
      ¬ ((eraseAll ltN demoSet [1]).left (eraseAll ltN demoSet [1]).nil_ =
          (eraseAll ltN demoSet [1]).nil_ ∧
        (eraseAll ltN demoSet [1]).right (eraseAll ltN demoSet [1]).nil_ =
          (eraseAll ltN demoSet [1]).nil_ ∧
        (eraseAll ltN demoSet [1]).parent (eraseAll ltN demoSet [1]).nil_ =
          (eraseAll ltN demoSet [1]).nil_) := by
  have he : erase ltN demoSet 1 = some (eraseAll ltN demoSet [1]) := by
    obtain ⟨s2, t2, e, -⟩ := erase_redBlack ltN 1 demoSet_shape demoTree_redBlack
    simp only [eraseAll, List.foldl_cons, List.foldl_nil, e, Option.getD_some]
  refine ⟨demoSet_reachable, he, by decide!, by decide!, by decide!, ?_⟩
  have h1 : (eraseAll ltN demoSet [1]).parent (eraseAll ltN demoSet [1]).nil_ = 3 := by decide!
  have h2 : (eraseAll ltN demoSet [1]).nil_ = 1 := by decide!
  rintro ⟨-, -, h3⟩
  rw [h1, h2] at h3
  cases h3

/-- C24, as it holds: `operator*` is unchecked, and for every reachable set
`operator*` applied to `end()` returns a value, the one stored in the sentinel
cell; no `insert` and no `erase` changes that value, and in a fresh set it is
the default value the sentinel was constructed with. -/
theorem deref_end_returns_sentinel_value (lt : α → α → Bool) (s : Set α) (h : Reachable lt s) :
    iterDeref s (end_ s) = s.value s.nil_ ∧
    (∀ v s2, insert lt s v = some s2 ∨ erase lt s v = some s2 →
      iterDeref s2 (end_ s2) = iterDeref s (end_ s)) ∧
    ∀ dflt : α, iterDeref (Set.new dflt) (end_ (Set.new dflt)) = dflt := by
  obtain ⟨t, ht⟩ := h.inv0
  refine ⟨rfl, fun v s2 e => ?_, fun dflt => rfl⟩
  rcases e with e | e
  · exact (insert_value_nil lt v ht.shape ht.rb e).2
  · exact (erase_value_nil lt v ht.shape ht.rb e).2

set_option maxRecDepth 100000 in
theorem deref_end_returns_sentinel_value_witness :
    iterDeref demoSet (end_ demoSet) = demoSet.value demoSet.nil_ ∧
    (∀ v s2, insert ltN demoSet v = some s2 ∨ erase ltN demoSet v = some s2 →
      iterDeref s2 (end_ s2) = iterDeref demoSet (end_ demoSet)) ∧
    ∀ dflt : Nat, iterDeref (Set.new dflt) (end_ (Set.new dflt)) = dflt :=
  deref_end_returns_sentinel_value ltN demoSet demoSet_reachable

set_option maxRecDepth 100000 in
/-- C24 fails as stated: on the reachable set `demoSet`, which holds 1, 3, 4,
5, 7, 8 and 9, `operator*` applied to `end()` returns 0, the default value of
the sentinel, and 0 is not a stored value: `find(0)` is `end()`. -/
theorem deref_end_counterexample :
    Reachable ltN demoSet ∧ traversal demoSet = some [1, 3, 4, 5, 7, 8, 9] ∧
      find ltN demoSet 0 = some (end_ demoSet) ∧ iterDeref demoSet (end_ demoSet) = 0 :=
  ⟨demoSet_reachable, by decide!, by decide!, by decide!⟩

/-- C25: in a state that stores a valid red-black tree with a RED leaf `z` hung
into one of its empty places, at the end of the path `p`, the loop of
`RBInsertFixup` returns, after at most one iteration for every two levels of
`p`, and so does `RBInsertFixup`.  Every record of the run is an application of
the loop body; an iteration that finds the uncle RED moves `z_node` to its
grandparent and rotates nothing; an iteration that finds the uncle BLACK
rotates at most twice, leaves the parent of `z_node` BLACK, so that the loop
condition fails, and is the last iteration.  The run rotates at most twice in
all, and so does the run that `insert` performs on any state that stores a
red-black tree. -/
theorem insert_fixup_terminates {s : Set α} {p : Path α} {z : Nat} {v : α}
    (hz : Zip s p (Tree.node z Color.RED Tree.leaf v Tree.leaf))
    (hrb : (plug p Tree.leaf).RedBlack) :
    (∃ s2 log, RBInsertFixupRun s.next s z = some (s2, log) ∧
      RBInsertFixup s z = some (PaintBlack s2 s2.root_) ∧ 2 * log.length ≤ p.length ∧
      (∀ it ∈ log, RBInsertFixupStep it.pre it.node = some (it.post, it.next, it.events) ∧
        (RedFlag it.pre (uncleOf it.pre it.node) = true →
          it.next = it.pre.parent (it.pre.parent it.node) ∧ rotationCount it.events = 0) ∧
        (RedFlag it.pre (uncleOf it.pre it.node) = false →
          rotationCount it.events ≤ 2 ∧ BlackFlag it.post (it.post.parent it.next) = true ∧
          RBInsertFixupStep it.post it.next = none)) ∧
      (∀ init it rest, log = init ++ it :: rest →
        RedFlag it.pre (uncleOf it.pre it.node) = false → rest = []) ∧
      (log.map fun it => rotationCount it.events).sum ≤ 2) ∧
    ∀ (lt : α → α → Bool) (s0 : Set α) (t0 : Tree α) (w : α), s0.Shape t0 → t0.RedBlack →
      ∃ s2 log, insert lt s0 w = some s2 ∧ insertLog lt s0 w = some log ∧
        (log.map fun it => rotationCount it.events).sum ≤ 2 := by
  constructor
  · have hb := hz.budget
    simp only [Tree.height] at hb
    have hrb2 := (plug_rb p Tree.leaf).mp ⟨hrb.2.1, hrb.2.2, fun _ => hrb.1⟩
    obtain ⟨s2, log, e, o, n⟩ := RBInsertFixupRun_spec p.length p s z _ _ v s.next (le_refl _)
      (by omega) hz (by simpa using hrb2.1) (by simp) (by simp)
    refine ⟨s2, log, e, RBInsertFixup_of_run e, n, fun it hit => ?_,
      fun init it rest hl hu => o.last hl hu, o.rotations_ins⟩
    obtain ⟨-, -, -, -, -, m6⟩ := o.mem_ins it hit
    refine ⟨RBInsertFixupRun_mem _ _ _ _ _ e it hit, fun hu => ?_, fun hu => ?_⟩
    · rcases m6 with ⟨-, a2, a3⟩ | ⟨b1, -⟩
      · exact ⟨a2, a3⟩
      · rw [hu] at b1; cases b1
    · rcases m6 with ⟨a1, -⟩ | ⟨-, -, b3, b4⟩
      · rw [hu] at a1; cases a1
      · exact ⟨b3, b4, RBInsertFixupStep_of_black b4⟩
  · intro lt s0 t0 w h0 hrb0
    obtain ⟨s2, t2, e2, -⟩ := insert_redBlack lt w h0 hrb0
    obtain ⟨log, el, ol⟩ := insertLog_spec lt w h0 hrb0
    exact ⟨s2, log, e2, el, ol.rotations_ins⟩

set_option maxRecDepth 100000 in
theorem insert_fixup_terminates_witness :
    ∃ (s : Set Nat) (p : Path Nat),
      s = RBInsertLink ltN (demoSet.alloc 0).1 9
        (pathPtr (demoSet.alloc 0).1.nil_ (insPath ltN 0 demoTree [])) ∧
      p = insPath ltN 0 demoTree [] ∧ p.length = 3 ∧
      Zip s p (Tree.node 9 Color.RED Tree.leaf 0 Tree.leaf) ∧ (plug p Tree.leaf).RedBlack ∧
      (RBInsertFixupRun s.next s 9).map (fun r => r.2.length) = some 1 ∧
      (∃ s2 log, RBInsertFixupRun s.next s 9 = some (s2, log) ∧
        RBInsertFixup s 9 = some (PaintBlack s2 s2.root_) ∧ 2 * log.length ≤ p.length ∧
        (∀ it ∈ log, RBInsertFixupStep it.pre it.node = some (it.post, it.next, it.events) ∧
          (RedFlag it.pre (uncleOf it.pre it.node) = true →
            it.next = it.pre.parent (it.pre.parent it.node) ∧ rotationCount it.events = 0) ∧
          (RedFlag it.pre (uncleOf it.pre it.node) = false →
            rotationCount it.events ≤ 2 ∧ BlackFlag it.post (it.post.parent it.next) = true ∧
            RBInsertFixupStep it.post it.next = none)) ∧
        (∀ init it rest, log = init ++ it :: rest →
          RedFlag it.pre (uncleOf it.pre it.node) = false → rest = []) ∧
        (log.map fun it => rotationCount it.events).sum ≤ 2) :=
  have hrb : (plug (insPath ltN 0 demoTree []) Tree.leaf).RedBlack := by
    rw [insPath_plug]; exact demoTree_redBlack
  ⟨_, _, rfl, rfl, by decide, demoSet_attach, hrb, by decide!,
    (insert_fixup_terminates demoSet_attach hrb).1⟩

/-- C26: in a state that stores a valid red-black tree, for every node `z` of the
tree, the splice phase of `RBDelete` returns, and when the colour it records is
BLACK the loop of `RBDeleteFixup`, started in the state it leaves at the
`x_node` it hands over, returns, and so does `RBDeleteFixup`.  With `q` the
path from the place of `x_node` up to the root, whose length is the depth of
`x_node`, the loop makes at most `q.length` iterations (so at most the depth
plus one).  Every record of the run is an application of the loop body; an
iteration moves `x_node` to its parent, or it ends with `x_node` at `root_`,
where the loop condition fails; an iteration that is not the last one moves
`x_node` to its parent and rotates nothing.  The run rotates at most three
times in all, and so does the run that `RBDelete` performs, which returns. -/
theorem delete_fixup_terminates {s : Set α} {t : Tree α} {z : Nat} (h : s.Shape t)
    (hrb : t.RedBlack) (hz : z ∈ t.addrs) :
    (∃ s1 x oc, RBDeleteSplice s z = some (s1, x, oc) ∧
      (oc = Color.BLACK →
        ∃ (s2 : Set α) (x2 : Nat) (log : List (Iteration α)) (q : Path α) (X : Tree α),
          RBDeleteFixupRun s1.next s1 x = some (s2, x2, log) ∧
          RBDeleteFixup s1 x = some (PaintBlack s2 x2) ∧
          Zip s1 q X ∧ x = X.ptr s1.nil_ ∧ s1.parent x = pathPtr s1.nil_ q ∧
          log.length ≤ q.length ∧
          (∀ it ∈ log, RBDeleteFixupStep it.pre it.node = some (it.post, it.next, it.events) ∧
            (it.next = it.pre.parent it.node ∨
              (it.next = it.post.root_ ∧ RBDeleteFixupStep it.post it.next = none))) ∧
          (∀ init it rest, log = init ++ it :: rest → rest ≠ [] →
            it.next = it.pre.parent it.node ∧ rotationCount it.events = 0) ∧
          (log.map fun it => rotationCount it.events).sum ≤ 3)) ∧
    ∃ s3 log, RBDelete s z = some s3 ∧ RBDeleteLog s z = some log ∧
      (log.map fun it => rotationCount it.events).sum ≤ 3 := by
  obtain ⟨p, zc, l, v, r, zz, hp⟩ := h.focus_mem hz
  have hrb2 : (plug p (Tree.node z zc l v r)).RedBlack := by rw [hp]; exact hrb
  constructor
  · obtain ⟨s1, x, oc, q, X, e, hxX, m, z1, hpar, hfuel, hB, -⟩ := RBDeleteSplice_spec zz hrb2
    refine ⟨s1, x, oc, e, fun ho => ?_⟩
    obtain ⟨s2, x2, log, e2, o2, n2⟩ := RBDeleteFixupRun_spec q.length q s1 x s1.next
      (le_refl _) hfuel (hB ho)
    refine ⟨s2, x2, log, q, X, e2, RBDeleteFixup_of_run e2, z1, hxX, hpar, n2,
      fun it hit => ?_, fun init it rest hl hr => o2.init hl hr, o2.rotations_del⟩
    obtain ⟨-, -, -, -, -, m6⟩ := o2.mem_del it hit
    refine ⟨RBDeleteFixupRun_mem _ _ _ _ _ _ e2 it hit, ?_⟩
    rcases m6 with m6 | m6
    · exact Or.inl m6
    · exact Or.inr ⟨m6, by rw [m6]; exact RBDeleteFixupStep_root _⟩
  · obtain ⟨s3, t3, e3, -⟩ := RBDelete_spec zz hrb2
    obtain ⟨log, el, ol⟩ := RBDeleteLog_spec zz hrb2
    exact ⟨s3, log, e3, el, ol.rotations_del⟩

set_option maxRecDepth 100000 in
theorem delete_fixup_terminates_witness :
    (RBDeleteSplice smallSet 4).map (fun r => (r.2.1, r.2.2)) = some (1, Color.BLACK) ∧
    (RBDeleteLog smallSet 4).map (fun log => log.map fun it => rotationCount it.events) =
      some [1] ∧
    (∃ s1 x oc, RBDeleteSplice smallSet 4 = some (s1, x, oc) ∧
      (oc = Color.BLACK →
        ∃ (s2 : Set Nat) (x2 : Nat) (log : List (Iteration Nat)) (q : Path Nat) (X : Tree Nat),
          RBDeleteFixupRun s1.next s1 x = some (s2, x2, log) ∧
          RBDeleteFixup s1 x = some (PaintBlack s2 x2) ∧
          Zip s1 q X ∧ x = X.ptr s1.nil_ ∧ s1.parent x = pathPtr s1.nil_ q ∧
          log.length ≤ q.length ∧
          (∀ it ∈ log, RBDeleteFixupStep it.pre it.node = some (it.post, it.next, it.events) ∧
            (it.next = it.pre.parent it.node ∨
              (it.next = it.post.root_ ∧ RBDeleteFixupStep it.post it.next = none))) ∧
          (∀ init it rest, log = init ++ it :: rest → rest ≠ [] →
            it.next = it.pre.parent it.node ∧ rotationCount it.events = 0) ∧
          (log.map fun it => rotationCount it.events).sum ≤ 3)) ∧
    ∃ s3 log, RBDelete smallSet 4 = some s3 ∧ RBDeleteLog smallSet 4 = some log ∧
      (log.map fun it => rotationCount it.events).sum ≤ 3 :=
  ⟨by decide!, by decide!,
    delete_fixup_terminates smallSet_shape smallTree_redBlack (by decide)⟩

/-- C27: in a state that stores a tree, for a node `z` of the tree whose two
children are not the sentinel, the splice phase of `RBDelete` returns; with `y`
the node `MinValueNode` finds in the right subtree of `z`, which is the node
`Successor` finds for `z`, it records the colour of `y` and hands the former
right child of `y` to `RBDeleteFixup` as `x_node`, and in the state it leaves
`y` stands where `z` stood: the parent link of `y` is the former parent link
of `z`; `root_` is `y` when `z` was the root, and else the former parent of
`z` points to `y` on the side on which it pointed to `z`; the left child of
`y` is the former left child of `z`, whose parent link points to `y`; the
colour of `y` is the former colour of `z`.  The place `y` left holds the
former right child of `y`: when `y` was the right child of `z` it is still the
right child of `y`; otherwise `y` was the left child of its parent, that
parent now has it as left child, and `y` has taken over the right child of
`z`; when it is not the sentinel its parent link points to the node it now
hangs from. -/
theorem erase_two_children_splice {s : Set α} {t : Tree α} {z : Nat} (h : s.Shape t)
    (hz : z ∈ t.addrs) (hl : s.left z ≠ s.nil_) (hr : s.right z ≠ s.nil_) :
    ∃ s1 x oc y, RBDeleteSplice s z = some (s1, x, oc) ∧
      MinValueNode s (s.right z) = some y ∧ Successor s z = some y ∧
      y ≠ s.nil_ ∧ y ≠ z ∧ s.left y = s.nil_ ∧ x = s.right y ∧ oc = s.color y ∧
      s1.parent y = s.parent z ∧
      (s.root_ = z → s1.root_ = y) ∧
      (s.root_ ≠ z → (s.left (s.parent z) = z → s1.left (s.parent z) = y) ∧
        (s.right (s.parent z) = z → s1.right (s.parent z) = y) ∧
        (s.left (s.parent z) = z ∨ s.right (s.parent z) = z)) ∧
      s1.left y = s.left z ∧ s1.parent (s.left z) = y ∧ s1.color y = s.color z ∧
      (s.parent y = z → s1.right y = s.right y) ∧
      (s.parent y ≠ z → s.left (s.parent y) = y ∧ s1.left (s.parent y) = s.right y ∧
        s1.right y = s.right z ∧ s1.parent (s.right z) = y) ∧
      (s.right y ≠ s.nil_ →
        s1.parent (s.right y) = if s.parent y = z then y else s.parent y) :=
  erase_two_children_links h hz hl hr

set_option maxRecDepth 100000 in
theorem erase_two_children_splice_witness :
    demoSet.root_ = 2 ∧ demoSet.left 2 = 3 ∧ demoSet.right 2 = 4 ∧ demoSet.nil_ = 1 ∧
    (RBDeleteSplice demoSet 2).map (fun r => (r.2.1, r.2.2)) = some (1, Color.RED) ∧
    ∃ s1 x oc y, RBDeleteSplice demoSet 2 = some (s1, x, oc) ∧
      MinValueNode demoSet (demoSet.right 2) = some y ∧ Successor demoSet 2 = some y ∧
      y ≠ demoSet.nil_ ∧ y ≠ 2 ∧ demoSet.left y = demoSet.nil_ ∧ x = demoSet.right y ∧
      oc = demoSet.color y ∧ s1.parent y = demoSet.parent 2 ∧
      (demoSet.root_ = 2 → s1.root_ = y) ∧
      (demoSet.root_ ≠ 2 → (demoSet.left (demoSet.parent 2) = 2 → s1.left (demoSet.parent 2) = y) ∧
        (demoSet.right (demoSet.parent 2) = 2 → s1.right (demoSet.parent 2) = y) ∧
        (demoSet.left (demoSet.parent 2) = 2 ∨ demoSet.right (demoSet.parent 2) = 2)) ∧
      s1.left y = demoSet.left 2 ∧ s1.parent (demoSet.left 2) = y ∧
      s1.color y = demoSet.color 2 ∧
      (demoSet.parent y = 2 → s1.right y = demoSet.right y) ∧
      (demoSet.parent y ≠ 2 → demoSet.left (demoSet.parent y) = y ∧
        s1.left (demoSet.parent y) = demoSet.right y ∧
        s1.right y = demoSet.right 2 ∧ s1.parent (demoSet.right 2) = y) ∧
      (demoSet.right y ≠ demoSet.nil_ →
        s1.parent (demoSet.right y) = if demoSet.parent y = 2 then y else demoSet.parent y) :=
  ⟨by decide!, by decide!, by decide!, by decide!, by decide!,
    erase_two_children_splice demoSet_shape (by decide) (by decide!) (by decide!)⟩

/-- C28: in a state that stores a valid red-black tree, for every node `z` of the
tree, the splice phase of `RBDelete` returns, and when the colour it records is
RED, `RBDelete` does not run `RBDeleteFixup` (it returns the state the splice
phase leaves, with `size_` and the freed cell updated, and the run of the
fixup loop has no record), and the state the splice phase leaves stores a tree
with a BLACK root, no RED node with a RED child, and the same number of BLACK
nodes on every path from the root to a sentinel.  The recorded colour is the
colour of `z` when one of its children is the sentinel, and else the colour of
the node `MinValueNode` finds in the right subtree of `z`. -/
theorem red_splice_needs_no_fixup {s : Set α} {t : Tree α} {z : Nat} (h : s.Shape t)
    (hrb : t.RedBlack) (hz : z ∈ t.addrs) :
    ∃ s1 x oc, RBDeleteSplice s z = some (s1, x, oc) ∧
      (s.left z = s.nil_ ∨ s.right z = s.nil_ → oc = s.color z) ∧
      (s.left z ≠ s.nil_ → s.right z ≠ s.nil_ →
        ∃ y, MinValueNode s (s.right z) = some y ∧ oc = s.color y) ∧
      (oc = Color.RED →
        RBDelete s z = some { s1 with
          size_ := (if s1.size_ = 0 then SIZE_WRAP - 1 else s1.size_ - 1),
          freed := z :: s1.freed } ∧
        RBDeleteLog s z = some [] ∧
        ∃ t1, s1.Shape t1 ∧ t1.color = Color.BLACK ∧ t1.NoRedRed ∧ t1.Balanced) := by
  obtain ⟨p, zc, l, v, r, zz, hp⟩ := h.focus_mem hz
  obtain ⟨s1, x, oc, e, hred⟩ := RBDelete_red zz (by rw [hp]; exact hrb)
  refine ⟨s1, x, oc, e, ?_, ?_, hred⟩
  · intro hc
    unfold RBDeleteSplice at e
    dsimp only at e
    rcases hc with hc | hc
    · rw [if_pos hc] at e
      injection e with e
      injection e with e1 e
      injection e with e2 e3
      exact e3.symm
    · by_cases hl : s.left z = s.nil_
      · rw [if_pos hl] at e
        injection e with e
        injection e with e1 e
        injection e with e2 e3
        exact e3.symm
      · rw [if_neg hl, if_pos hc] at e
        injection e with e
        injection e with e1 e
        injection e with e2 e3
        exact e3.symm
  · intro hl hr
    obtain ⟨s1b, xb, ocb, y, e2, f1, -, -, -, -, -, f6, -⟩ :=
      erase_two_children_links h hz hl hr
    rw [e] at e2
    injection e2 with e2
    injection e2 with e3 e2
    injection e2 with e4 e5
    subst e5
    exact ⟨y, f1, f6⟩

set_option maxRecDepth 100000 in
theorem red_splice_needs_no_fixup_witness :
    (RBDeleteSplice smallSet 5).map (fun r => r.2.2) = some Color.RED ∧
    ∃ s1 x oc, RBDeleteSplice smallSet 5 = some (s1, x, oc) ∧
      (smallSet.left 5 = smallSet.nil_ ∨ smallSet.right 5 = smallSet.nil_ →
        oc = smallSet.color 5) ∧
      (smallSet.left 5 ≠ smallSet.nil_ → smallSet.right 5 ≠ smallSet.nil_ →
        ∃ y, MinValueNode smallSet (smallSet.right 5) = some y ∧ oc = smallSet.color y) ∧
      (oc = Color.RED →
        RBDelete smallSet 5 = some { s1 with
          size_ := (if s1.size_ = 0 then SIZE_WRAP - 1 else s1.size_ - 1),
          freed := 5 :: s1.freed } ∧
        RBDeleteLog smallSet 5 = some [] ∧
        ∃ t1, s1.Shape t1 ∧ t1.color = Color.BLACK ∧ t1.NoRedRed ∧ t1.Balanced) :=
  ⟨by decide!, red_splice_needs_no_fixup smallSet_shape smallTree_redBlack (by decide)⟩

/-- C29: every reachable set stores a tree `t` (its nodes are the addresses of
`t`) such that the parent link of the root is the sentinel, and for every node
`n` of the tree: `n` is not the sentinel; a left or right child of `n` that is
not the sentinel is a node of the tree whose parent link points to `n`; the
parent link of `n` is the sentinel exactly when `n` is the root; and when `n`
is not the root, its parent link points to a node of the tree that has `n` as
its left or right child, which is what the upward walks of `Successor` and
`Predecessor` follow. -/
theorem parent_links_consistent (lt : α → α → Bool) (s : Set α) (h : Reachable lt s) :
    ∃ t, s.Shape t ∧ s.parent s.root_ = s.nil_ ∧
      ∀ n ∈ t.addrs, n ≠ s.nil_ ∧
        (s.left n ≠ s.nil_ → s.left n ∈ t.addrs ∧ s.parent (s.left n) = n) ∧
        (s.right n ≠ s.nil_ → s.right n ∈ t.addrs ∧ s.parent (s.right n) = n) ∧
        (n = s.root_ ↔ s.parent n = s.nil_) ∧
        (n ≠ s.root_ → s.parent n ∈ t.addrs ∧
          (s.left (s.parent n) = n ∨ s.right (s.parent n) = n)) := by
  obtain ⟨t, ht⟩ := h.inv0
  exact ⟨t, ht.shape, ht.root_parent, fun n hn => ht.shape.links hn⟩

set_option maxRecDepth 100000 in
theorem parent_links_consistent_witness :
    demoSet.Shape demoTree ∧ demoTree.addrs = [5, 3, 6, 2, 7, 4, 8] ∧
    ∃ t, demoSet.Shape t ∧ demoSet.parent demoSet.root_ = demoSet.nil_ ∧
      ∀ n ∈ t.addrs, n ≠ demoSet.nil_ ∧
        (demoSet.left n ≠ demoSet.nil_ →
          demoSet.left n ∈ t.addrs ∧ demoSet.parent (demoSet.left n) = n) ∧
        (demoSet.right n ≠ demoSet.nil_ →
          demoSet.right n ∈ t.addrs ∧ demoSet.parent (demoSet.right n) = n) ∧
        (n = demoSet.root_ ↔ demoSet.parent n = demoSet.nil_) ∧
        (n ≠ demoSet.root_ → demoSet.parent n ∈ t.addrs ∧
          (demoSet.left (demoSet.parent n) = n ∨ demoSet.right (demoSet.parent n) = n)) :=
  ⟨demoSet_shape, by decide, parent_links_consistent ltN demoSet demoSet_reachable⟩

/-- C30: in a state that stores a valid red-black tree, for all values `v` and
`w`: the run of the loop of `RBDeleteFixup` that `erase(w)` performs returns,
every record of it is an application of the loop body, the first event of
every iteration is the assignment of the sibling of `x_node` to `w_node`, no
node assigned to `w_node`, at first or after a rotation, is the sentinel, and
every `LeftRotate` and `RightRotate` is applied to a node that is not the
sentinel and whose pivot child (the right child for `LeftRotate`, the left
child for `RightRotate`) is not the sentinel; the run of the loop of
`RBInsertFixup` that `insert(v)` performs returns, every record of it is an
application of the loop body, and its rotations are applied to nodes that are
not the sentinel and whose pivot child is not the sentinel. -/
theorem fixup_never_touches_sentinel (lt : α → α → Bool) {s : Set α} {t : Tree α} (v w : α)
    (h : s.Shape t) (hrb : t.RedBlack) :
    (∃ log, eraseLog lt s w = some log ∧
      ∀ it ∈ log, RBDeleteFixupStep it.pre it.node = some (it.post, it.next, it.events) ∧
        it.pre.nil_ = s.nil_ ∧
        (∃ rest, it.events = Event.sibling
          (if it.node = it.pre.left (it.pre.parent it.node)
            then it.pre.right (it.pre.parent it.node)
            else it.pre.left (it.pre.parent it.node)) :: rest) ∧
        (∀ a, Event.sibling a ∈ it.events → a ≠ s.nil_) ∧
        (∀ a b, Event.leftRotate a b ∈ it.events → a ≠ s.nil_ ∧ b ≠ s.nil_) ∧
        (∀ a b, Event.rightRotate a b ∈ it.events → a ≠ s.nil_ ∧ b ≠ s.nil_)) ∧
    (∃ log, insertLog lt s v = some log ∧
      ∀ it ∈ log, RBInsertFixupStep it.pre it.node = some (it.post, it.next, it.events) ∧
        it.pre.nil_ = s.nil_ ∧
        (∀ a b, Event.leftRotate a b ∈ it.events → a ≠ s.nil_ ∧ b ≠ s.nil_) ∧
        (∀ a b, Event.rightRotate a b ∈ it.events → a ≠ s.nil_ ∧ b ≠ s.nil_)) := by
  constructor
  · obtain ⟨log, el, ol⟩ := eraseLog_spec lt w h hrb
    refine ⟨log, el, fun it hit => ?_⟩
    obtain ⟨m1, m2, -⟩ := ol.mem_del it hit
    have hstep := eraseLog_mem lt el it hit
    exact ⟨hstep, m2, RBDeleteFixupStep_head hstep, fun a ha => m1 _ ha,
      fun a b ha => m1 _ ha, fun a b ha => m1 _ ha⟩
  · obtain ⟨log, el, ol⟩ := insertLog_spec lt v h hrb
    refine ⟨log, el, fun it hit => ?_⟩
    obtain ⟨m1, m2, -⟩ := ol.mem_ins it hit
    exact ⟨insertLog_mem lt el it hit, m2, fun a b ha => m1 _ ha, fun a b ha => m1 _ ha⟩

set_option maxRecDepth 100000 in
theorem fixup_never_touches_sentinel_witness :
    (eraseLog ltN smallSet 8).map (fun log => log.map fun it => it.events) =
      some [[Event.sibling 3, Event.setColor 3 Color.BLACK, Event.paintBlack 2,
        Event.paintBlack 5, Event.rightRotate 2 3]] ∧
    (insertLog ltN smallSet 0).map (fun log => log.map fun it => it.events) =
      some [[Event.paintBlack 5, Event.paintRed 3, Event.rightRotate 3 5]] ∧
    (∃ log, eraseLog ltN smallSet 8 = some log ∧
      ∀ it ∈ log, RBDeleteFixupStep it.pre it.node = some (it.post, it.next, it.events) ∧
        it.pre.nil_ = smallSet.nil_ ∧
        (∃ rest, it.events = Event.sibling
          (if it.node = it.pre.left (it.pre.parent it.node)
            then it.pre.right (it.pre.parent it.node)
            else it.pre.left (it.pre.parent it.node)) :: rest) ∧
        (∀ a, Event.sibling a ∈ it.events → a ≠ smallSet.nil_) ∧
        (∀ a b, Event.leftRotate a b ∈ it.events → a ≠ smallSet.nil_ ∧ b ≠ smallSet.nil_) ∧
        (∀ a b, Event.rightRotate a b ∈ it.events → a ≠ smallSet.nil_ ∧ b ≠ smallSet.nil_)) ∧
    (∃ log, insertLog ltN smallSet 0 = some log ∧
      ∀ it ∈ log, RBInsertFixupStep it.pre it.node = some (it.post, it.next, it.events) ∧
        it.pre.nil_ = smallSet.nil_ ∧
        (∀ a b, Event.leftRotate a b ∈ it.events → a ≠ smallSet.nil_ ∧ b ≠ smallSet.nil_) ∧
        (∀ a b, Event.rightRotate a b ∈ it.events → a ≠ smallSet.nil_ ∧ b ≠ smallSet.nil_)) :=
  ⟨by decide!, by decide!,
    fixup_never_touches_sentinel ltN 0 8 smallSet_shape smallTree_redBlack⟩

end RBSet

namespace RBSet
variable {α : Type}

/-! ## A rotation and the rotation back -/

/-- Two cells with the same five fields are the same cell. -/
theorem Node.eq_of_fields {a b : Node α} (h1 : a.value_ = b.value_) (h2 : a.left_ = b.left_)
    (h3 : a.right_ = b.right_) (h4 : a.parent_ = b.parent_) (h5 : a.color_ = b.color_) :
    a = b := by
  cases a; cases b; simp_all

/-- Two states with the same cells and the same members are the same state. -/
theorem Set.eq_of_heap {s t : Set α} (h : ∀ n, s.heap n = t.heap n) (hr : s.root_ = t.root_)
    (hn : s.nil_ = t.nil_) (hs : s.size_ = t.size_) (hx : s.next = t.next)
    (hf : s.freed = t.freed) : s = t := by
  cases s; cases t
  simp only [Set.mk.injEq]
  exact ⟨funext h, hr, hn, hs, hx, hf⟩

/-- The cells a left rotation writes, cell by cell. -/
theorem LeftRotate_heap {s : Set α} {p : Path α} {x y : Nat} {cx cy : Color} {a b d : Tree α}
    {vx vy : α} (h : Zip s p (Tree.node x cx a vx (Tree.node y cy b vy d))) :
    (LeftRotate s x).heap x = { s.heap x with right_ := b.ptr s.nil_, parent_ := y } ∧
    (LeftRotate s x).heap y = { s.heap y with left_ := x, parent_ := pathPtr s.nil_ p } ∧
    (b ≠ Tree.leaf →
      (LeftRotate s x).heap (b.ptr s.nil_) = { s.heap (b.ptr s.nil_) with parent_ := x }) ∧
    (p ≠ [] → s.left (pathPtr s.nil_ p) = x →
      (LeftRotate s x).heap (pathPtr s.nil_ p) = { s.heap (pathPtr s.nil_ p) with left_ := y }) ∧
    (p ≠ [] → s.left (pathPtr s.nil_ p) ≠ x →
      (LeftRotate s x).heap (pathPtr s.nil_ p) = { s.heap (pathPtr s.nil_ p) with right_ := y }) ∧
    (p = [] → (LeftRotate s x).root_ = y) ∧ (p ≠ [] → (LeftRotate s x).root_ = s.root_) := by
  obtain ⟨hp, hs, hn, hf, h0⟩ := id h
  have hn2 := hn
  rcases p with _ | ⟨f, p⟩
  rotate_left
  cases f
  rotate_left
  rotate_left
  all_goals
    cases b
    all_goals
      simp only [Repr, ptr_node, ptr_leaf, pathPtr_cons, pathPtr_nil, addr_left, addr_right] at hs
      simp only [ReprPath, ptr_node] at hp
      try have hq0 := Ne.symm hp.1
      simp only [addrs_node, addrs_leaf, pathAddrs_cons, pathAddrs_nil, addr_left, sib_left,
        addr_right, sib_right, List.nodup_append, List.nodup_cons, List.mem_append,
        nmem_cons, not_or, List.disjoint_append_left, List.disjoint_append_right,
        List.disjoint_cons_left, List.disjoint_cons_right] at hn2
      have hx0 : ¬ s.nil_ = x := fun e => hs.1 e.symm
      have hy0 : ¬ s.nil_ = y := fun e => hs.2.2.2.2.2.2.2.1 e.symm
      try have hb0 := Ne.symm hs.2.2.2.2.2.2.2.2.2.2.2.2.2.1.1
      refine ⟨?_, ?_, ?_, ?_, ?_, ?_, ?_⟩
      all_goals
        simp [LeftRotate, eq_ptr_false, ptr_eq_false, *]
/-- The cells a right rotation writes, cell by cell. -/
theorem RightRotate_heap {s : Set α} {p : Path α} {x y : Nat} {cx cy : Color} {a b d : Tree α}
    {vx vy : α} (h : Zip s p (Tree.node x cx (Tree.node y cy a vy b) vx d)) :
    (RightRotate s x).heap x = { s.heap x with left_ := b.ptr s.nil_, parent_ := y } ∧
    (RightRotate s x).heap y = { s.heap y with right_ := x, parent_ := pathPtr s.nil_ p } ∧
    (b ≠ Tree.leaf →
      (RightRotate s x).heap (b.ptr s.nil_) = { s.heap (b.ptr s.nil_) with parent_ := x }) ∧
    (p ≠ [] → s.left (pathPtr s.nil_ p) = x →
      (RightRotate s x).heap (pathPtr s.nil_ p) = { s.heap (pathPtr s.nil_ p) with left_ := y }) ∧
    (p ≠ [] → s.left (pathPtr s.nil_ p) ≠ x →
      (RightRotate s x).heap (pathPtr s.nil_ p) = { s.heap (pathPtr s.nil_ p) with right_ := y }) ∧
    (p = [] → (RightRotate s x).root_ = y) ∧ (p ≠ [] → (RightRotate s x).root_ = s.root_) := by
  obtain ⟨hp, hs, hn, hf, h0⟩ := id h
  have hn2 := hn
  rcases p with _ | ⟨f, p⟩
  rotate_left
  cases f
  rotate_left
  rotate_left
  all_goals
    cases b
    all_goals
      simp only [Repr, ptr_node, ptr_leaf, pathPtr_cons, pathPtr_nil, addr_left, addr_right] at hs
      simp only [ReprPath, ptr_node] at hp
      try have hq0 := Ne.symm hp.1
      simp only [addrs_node, addrs_leaf, pathAddrs_cons, pathAddrs_nil, addr_left, sib_left,
        addr_right, sib_right, List.nodup_append, List.nodup_cons, List.mem_append,
        nmem_cons, not_or, List.disjoint_append_left, List.disjoint_append_right,
        List.disjoint_cons_left, List.disjoint_cons_right] at hn2
      have hx0 : ¬ s.nil_ = x := fun e => hs.1 e.symm
      have hy0 : ¬ s.nil_ = y := fun e => hs.2.2.2.2.2.2.1.1 e.symm
      try have hb0 := Ne.symm hs.2.2.2.2.2.2.1.2.2.2.2.2.2.2.1
      refine ⟨?_, ?_, ?_, ?_, ?_, ?_, ?_⟩
      all_goals
        simp [RightRotate, eq_ptr_false, ptr_eq_false, *]

/-- A right rotation at the pivot undoes a left rotation. -/
theorem LeftRotate_RightRotate {s : Set α} {p : Path α} {x y : Nat} {cx cy : Color}
    {a b d : Tree α} {vx vy : α} (h : Zip s p (Tree.node x cx a vx (Tree.node y cy b vy d))) :
    RightRotate (LeftRotate s x) y = s := by
  obtain ⟨L1, L2, L3, L4, L5, L6, L7⟩ := LeftRotate_heap h
  obtain ⟨R1, R2, R3, R4, R5, R6, R7⟩ := RightRotate_heap h.rotateLeft
  have LF := (LeftRotate_frame h).2.2.2.2.2.2.2.2.2.2.2.2
  have RF := (RightRotate_frame h.rotateLeft).2.2.2.2.2.2.2.2.2.2.2.2
  obtain ⟨hp, hs, hn, hf, h0⟩ := id h
  have hn2 := hn
  rcases p with _ | ⟨(⟨q, cq, vq, rq⟩ | ⟨q, cq, lq, vq⟩), p⟩ <;>
    rcases b with _ | ⟨β, cβ, bl, bv, br⟩
  all_goals
    simp only [Repr, ptr_node, ptr_leaf, pathPtr_cons, pathPtr_nil, addr_left, addr_right] at hs
    simp only [ReprPath, ptr_node] at hp
    try have hq0 := Ne.symm hp.1
    simp only [addrs_node, addrs_leaf, pathAddrs_cons, pathAddrs_nil, addr_left, sib_left,
      addr_right, sib_right, List.nodup_append, List.nodup_cons, List.mem_append,
      nmem_cons, not_or, List.disjoint_append_left, List.disjoint_append_right,
      List.disjoint_cons_left, List.disjoint_cons_right] at hn2
    have hx0 : ¬ s.nil_ = x := fun e => hs.1 e.symm
    have hy0 : ¬ s.nil_ = y := fun e => hs.2.2.2.2.2.2.2.1 e.symm
    try have hb0 := Ne.symm hs.2.2.2.2.2.2.2.2.2.2.2.2.2.1.1
    simp only [Set.left, Set.right, Set.parent] at hs hp
    simp only [ptr_node, ptr_leaf, pathPtr_cons, pathPtr_nil, addr_left, addr_right,
      nil_LeftRotate, ne_eq, not_false_eq_true, not_true_eq_false, List.cons_ne_nil,
      reduceCtorEq, forall_true_left, false_implies, true_implies]
      at L1 L2 L3 L4 L5 R1 R2 R3 R4 R5
    refine Set.eq_of_heap (fun n => ?_) ?_ (by simp) (by simp) (by simp) (by simp)
    · by_cases e1 : n = x
      · subst e1
        rw [R2, L1]
        apply Node.eq_of_fields <;> simp [*]
      · by_cases e2 : n = y
        · subst e2
          rw [R1, L2]
          apply Node.eq_of_fields <;> simp [*]
        · by_cases e0 : n = s.nil_
          · rw [RF n e2 e1 (Or.inl (by simp [e0])), LF n e1 e2 (Or.inl e0)]
          · first
              | (by_cases e3 : n = β
                 · subst e3
                   rw [R3, L3]
                   apply Node.eq_of_fields <;> simp [*]
                 · first
                     | (by_cases e4 : n = q
                        · subst e4
                          first
                            | (have k1 : s.left n = x := by simp [Set.left, *]
                               have k2 : (LeftRotate s x).left n = y := by rw [Set.left, L4 k1]
                               rw [R4 k2, L4 k1]
                               apply Node.eq_of_fields <;> simp [*])
                            | (have k1 : ¬s.left n = x := by simp [Set.left, eq_ptr_false, ptr_eq_false, *]
                               have k2 : ¬(LeftRotate s x).left n = y := by
                                 rw [Set.left, L5 k1]
                                 simp [Set.left, eq_ptr_false, ptr_eq_false, *]
                               rw [R5 k2, L5 k1]
                               apply Node.eq_of_fields <;> simp [*])
                        · rw [RF n e2 e1 (Or.inr (by simp [Set.right, Set.parent, L1, L2, *])),
                            LF n e1 e2 (Or.inr (by simp [Set.left, Set.parent, *]))])
                     | rw [RF n e2 e1 (Or.inr (by simp [Set.right, Set.parent, L1, L2, *])),
                         LF n e1 e2 (Or.inr (by simp [Set.left, Set.parent, *]))])
              | (by_cases e4 : n = q
                 · subst e4
                   first
                     | (have k1 : s.left n = x := by simp [Set.left, *]
                        have k2 : (LeftRotate s x).left n = y := by rw [Set.left, L4 k1]
                        rw [R4 k2, L4 k1]
                        apply Node.eq_of_fields <;> simp [*])
                     | (have k1 : ¬s.left n = x := by simp [Set.left, eq_ptr_false, ptr_eq_false, *]
                        have k2 : ¬(LeftRotate s x).left n = y := by
                          rw [Set.left, L5 k1]
                          simp [Set.left, eq_ptr_false, ptr_eq_false, *]
                        rw [R5 k2, L5 k1]
                        apply Node.eq_of_fields <;> simp [*])
                 · rw [RF n e2 e1 (Or.inr (by simp [Set.right, Set.parent, L1, L2, *])),
                     LF n e1 e2 (Or.inr (by simp [Set.left, Set.parent, *]))])
              | rw [RF n e2 e1 (Or.inr (by simp [Set.right, Set.parent, L1, L2, *])),
                  LF n e1 e2 (Or.inr (by simp [Set.left, Set.parent, *]))]
    · first
        | rw [R6 rfl]; exact hp.symm
        | rw [R7 (by simp), L7 (by simp)]
/-- A left rotation at the pivot undoes a right rotation. -/
theorem RightRotate_LeftRotate {s : Set α} {p : Path α} {x y : Nat} {cx cy : Color}
    {a b d : Tree α} {vx vy : α} (h : Zip s p (Tree.node x cx (Tree.node y cy a vy b) vx d)) :
    LeftRotate (RightRotate s x) y = s := by
  obtain ⟨L1, L2, L3, L4, L5, L6, L7⟩ := RightRotate_heap h
  obtain ⟨R1, R2, R3, R4, R5, R6, R7⟩ := LeftRotate_heap h.rotateRight
  have LF := (RightRotate_frame h).2.2.2.2.2.2.2.2.2.2.2.2
  have RF := (LeftRotate_frame h.rotateRight).2.2.2.2.2.2.2.2.2.2.2.2
  obtain ⟨hp, hs, hn, hf, h0⟩ := id h
  have hn2 := hn
  rcases p with _ | ⟨(⟨q, cq, vq, rq⟩ | ⟨q, cq, lq, vq⟩), p⟩ <;>
    rcases b with _ | ⟨β, cβ, bl, bv, br⟩
  all_goals
    simp only [Repr, ptr_node, ptr_leaf, pathPtr_cons, pathPtr_nil, addr_left, addr_right] at hs
    simp only [ReprPath, ptr_node] at hp
    try have hq0 := Ne.symm hp.1
    simp only [addrs_node, addrs_leaf, pathAddrs_cons, pathAddrs_nil, addr_left, sib_left,
      addr_right, sib_right, List.nodup_append, List.nodup_cons, List.mem_append,
      nmem_cons, not_or, List.disjoint_append_left, List.disjoint_append_right,
      List.disjoint_cons_left, List.disjoint_cons_right] at hn2
    have hx0 : ¬ s.nil_ = x := fun e => hs.1 e.symm
    have hy0 : ¬ s.nil_ = y := fun e => hs.2.2.2.2.2.2.1.1 e.symm
    try have hb0 := Ne.symm hs.2.2.2.2.2.2.1.2.2.2.2.2.2.2.1
    simp only [Set.left, Set.right, Set.parent] at hs hp
    simp only [ptr_node, ptr_leaf, pathPtr_cons, pathPtr_nil, addr_left, addr_right,
      nil_RightRotate, ne_eq, not_false_eq_true, not_true_eq_false, List.cons_ne_nil,
      reduceCtorEq, forall_true_left, false_implies, true_implies]
      at L1 L2 L3 L4 L5 R1 R2 R3 R4 R5
    refine Set.eq_of_heap (fun n => ?_) ?_ (by simp) (by simp) (by simp) (by simp)
    · by_cases e1 : n = x
      · subst e1
        rw [R2, L1]
        apply Node.eq_of_fields <;> simp [*]
      · by_cases e2 : n = y
        · subst e2
          rw [R1, L2]
          apply Node.eq_of_fields <;> simp [*]
        · by_cases e0 : n = s.nil_
          · rw [RF n e2 e1 (Or.inl (by simp [e0])), LF n e1 e2 (Or.inl e0)]
          · first
              | (by_cases e3 : n = β
                 · subst e3
                   rw [R3, L3]
                   apply Node.eq_of_fields <;> simp [*]
                 · first
                     | (by_cases e4 : n = q
                        · subst e4
                          first
                            | (have k1 : s.left n = x := by simp [Set.left, *]
                               have k2 : (RightRotate s x).left n = y := by rw [Set.left, L4 k1]
                               rw [R4 k2, L4 k1]
                               apply Node.eq_of_fields <;> simp [*])
                            | (have k1 : ¬s.left n = x := by simp [Set.left, eq_ptr_false, ptr_eq_false, *]
                               have k2 : ¬(RightRotate s x).left n = y := by
                                 rw [Set.left, L5 k1]
                                 simp [Set.left, eq_ptr_false, ptr_eq_false, *]
                               rw [R5 k2, L5 k1]
                               apply Node.eq_of_fields <;> simp [*])
                        · rw [RF n e2 e1 (Or.inr (by simp [Set.left, Set.right, Set.parent, L1, L2, *])),
                            LF n e1 e2 (Or.inr (by simp [Set.left, Set.right, Set.parent, *]))])
                     | rw [RF n e2 e1 (Or.inr (by simp [Set.left, Set.right, Set.parent, L1, L2, *])),
                         LF n e1 e2 (Or.inr (by simp [Set.left, Set.right, Set.parent, *]))])
              | (by_cases e4 : n = q
                 · subst e4
                   first
                     | (have k1 : s.left n = x := by simp [Set.left, *]
                        have k2 : (RightRotate s x).left n = y := by rw [Set.left, L4 k1]
                        rw [R4 k2, L4 k1]
                        apply Node.eq_of_fields <;> simp [*])
                     | (have k1 : ¬s.left n = x := by simp [Set.left, eq_ptr_false, ptr_eq_false, *]
                        have k2 : ¬(RightRotate s x).left n = y := by
                          rw [Set.left, L5 k1]
                          simp [Set.left, eq_ptr_false, ptr_eq_false, *]
                        rw [R5 k2, L5 k1]
                        apply Node.eq_of_fields <;> simp [*])
                 · rw [RF n e2 e1 (Or.inr (by simp [Set.left, Set.right, Set.parent, L1, L2, *])),
                     LF n e1 e2 (Or.inr (by simp [Set.left, Set.right, Set.parent, *]))])
              | rw [RF n e2 e1 (Or.inr (by simp [Set.left, Set.right, Set.parent, L1, L2, *])),
                  LF n e1 e2 (Or.inr (by simp [Set.left, Set.right, Set.parent, *]))]
    · first
        | rw [R6 rfl]; exact hp.symm
        | rw [R7 (by simp), L7 (by simp)]

end RBSet

namespace RBSet
variable {α : Type}

/-! ## Stepping an iterator forth and back -/

/-- The positions of a well-formed state, counted from `begin()`: the position
after `k` increments, what `operator++` and `operator--` give there, and that
each undoes the other. -/
theorem iter_round_trip {s : Set α} {t : Tree α} (h : s.Shape t) (k : Nat)
    (hk : k ≤ t.cells.length) :
    iterAdvance s k (headAddr s.nil_ t.cells) = some (headAddr s.nil_ (t.cells.drop k)) ∧
    (headAddr s.nil_ (t.cells.drop k) = s.nil_ ↔ k = t.cells.length) ∧
    (k < t.cells.length →
      iterNext s (headAddr s.nil_ (t.cells.drop k)) =
          some (headAddr s.nil_ (t.cells.drop (k + 1))) ∧
        iterPrev s (headAddr s.nil_ (t.cells.drop (k + 1))) =
          some (headAddr s.nil_ (t.cells.drop k))) ∧
    (0 < k →
      iterPrev s (headAddr s.nil_ (t.cells.drop k)) =
          some (headAddr s.nil_ (t.cells.drop (k - 1))) ∧
        iterNext s (headAddr s.nil_ (t.cells.drop (k - 1))) =
          some (headAddr s.nil_ (t.cells.drop k))) := by
  have step : ∀ j, j < t.cells.length →
      iterNext s (headAddr s.nil_ (t.cells.drop j)) =
          some (headAddr s.nil_ (t.cells.drop (j + 1))) ∧
        iterPrev s (headAddr s.nil_ (t.cells.drop (j + 1))) =
          some (headAddr s.nil_ (t.cells.drop j)) := by
    intro j hj
    obtain ⟨c, e1⟩ : ∃ c, t.cells.drop j = c :: t.cells.drop (j + 1) := ⟨t.cells[j], by simp⟩
    have hc : t.cells = t.cells.take j ++ c :: t.cells.drop (j + 1) := by
      rw [← e1, List.take_append_drop]
    rw [e1]
    generalize t.cells.drop (j + 1) = B at hc
    generalize t.cells.take j = A at hc
    refine ⟨by simpa [headAddr] using iterNext_cell h hc, ?_⟩
    rcases B with _ | ⟨c2, B2⟩
    · have := iterPrev_end h
      rw [hc, lastAddr_append_singleton] at this
      simpa [headAddr, end_] using this
    · have hc2 : t.cells = (A ++ [c]) ++ c2 :: B2 := by
        rw [List.append_assoc]; exact hc
      have := iterPrev_cell h hc2
      rw [lastAddr_append_singleton] at this
      simpa [headAddr] using this
  refine ⟨?_, ?_, step k, fun h0 => ?_⟩
  · exact iterAdvance_cells h k [] t.cells rfl hk
  · rw [headAddr_eq_nil_iff h (List.take_append_drop k t.cells).symm]
    simp
    omega
  · obtain ⟨j, rfl⟩ : ∃ j, k = j + 1 := ⟨k - 1, by omega⟩
    have := step j (by omega)
    exact ⟨this.2, this.1⟩

end RBSet

namespace RBSet
variable {α : Type}

/-! ## The copy assignment -/

/-- `ClearAll` at the root of a stored subtree frees exactly the addresses of
the subtree and changes nothing else. -/
theorem ClearAll_repr (t : Tree α) :
    ∀ (s : Set α) (par fuel : Nat), t ≠ Tree.leaf → Repr s t par → t.height ≤ fuel →
      ∃ F : List Nat, ClearAll fuel s (t.ptr s.nil_) = some { s with freed := F ++ s.freed } ∧
        ∀ x, x ∈ F ↔ x ∈ t.addrs := by
  induction t with
  | leaf => intro s par fuel h; exact absurd rfl h
  | node a c l v r ihl ihr =>
    intro s par fuel _ hr hf
    simp only [Repr] at hr
    obtain ⟨h1, h2, h3, h4, h5, h6, h7, h8⟩ := hr
    simp only [Tree.height] at hf
    obtain ⟨k, rfl⟩ : ∃ k, fuel = k + 1 := ⟨fuel - 1, by omega⟩
    have hL : ∃ F1 : List Nat,
        (if s.left a ≠ s.nil_ then ClearAll k s (s.left a) else some s) =
          some { s with freed := F1 ++ s.freed } ∧ ∀ x, x ∈ F1 ↔ x ∈ l.addrs := by
      cases l with
      | leaf => exact ⟨[], by simp [h4], by simp⟩
      | node la lc ll lv lr =>
        obtain ⟨F1, e1, m1⟩ := ihl s a k (by simp) h7 (by omega)
        have hne : s.left a ≠ s.nil_ := by rw [h4]; exact h7.1
        refine ⟨F1, ?_, m1⟩
        rw [if_pos hne, h4]
        exact e1
    obtain ⟨F1, e1, m1⟩ := hL
    have hR : ∃ F2 : List Nat,
        (if s.right a ≠ s.nil_ then
            ClearAll k { s with freed := F1 ++ s.freed } (s.right a)
          else some { s with freed := F1 ++ s.freed }) =
          some { s with freed := F2 ++ (F1 ++ s.freed) } ∧ ∀ x, x ∈ F2 ↔ x ∈ r.addrs := by
      cases r with
      | leaf => exact ⟨[], by simp [h5], by simp⟩
      | node ra rc rl rv rr =>
        have h8c : Repr ({ s with freed := F1 ++ s.freed } : Set α)
            (Tree.node ra rc rl rv rr) a :=
          @Repr.congr α s { s with freed := F1 ++ s.freed } rfl rfl _ _ h8
        obtain ⟨F2, e2, m2⟩ := ihr { s with freed := F1 ++ s.freed } a k (by simp) h8c (by omega)
        have hne : s.right a ≠ s.nil_ := by rw [h5]; exact h8.1
        refine ⟨F2, ?_, m2⟩
        rw [if_pos hne, h5]
        exact e2
    obtain ⟨F2, e2, m2⟩ := hR
    refine ⟨a :: (F2 ++ F1), ?_, fun x => ?_⟩
    · simp only [ptr_node, ClearAll, e1]
      have e3 : ({ s with freed := F1 ++ s.freed } : Set α).right a = s.right a := rfl
      have e4 : ({ s with freed := F1 ++ s.freed } : Set α).nil_ = s.nil_ := rfl
      simp only [e3, e4, e2]
      simp
    · simp only [List.mem_cons, List.mem_append, m1, m2, addrs_node]
      tauto

/-- `ClearAll` at the sentinel of a well-formed state frees the sentinel. -/
theorem ClearAll_sentinel {s : Set α} (h : NilOK s) (fuel : Nat) :
    ClearAll (fuel + 1) s s.nil_ = some { s with freed := s.nil_ :: s.freed } := by
  simp [ClearAll, h.left, h.right]

/-- `insert` on a state that stores a red-black tree with an ascending in-order
sequence, whatever `size_` and the links of the sentinel are: the value joins
the sequence, which stays ascending. -/
theorem insert_sorted {lt : α → α → Bool} (hlt : StrictTotal lt) {s : Set α} {t : Tree α}
    (h : s.Shape t) (hrb : t.RedBlack) (hasc : Ascending lt t.inorder) (v : α) :
    ∃ s2 t2, insert lt s v = some s2 ∧ s2.Shape t2 ∧ t2.RedBlack ∧ Ascending lt t2.inorder ∧
      (∀ x, x ∈ t2.inorder ↔ x = v ∨ x ∈ t.inorder) ∧ s2.nil_ = s.nil_ ∧
      s2.freed = s.freed := by
  rcases present_or_absent lt v t.inorder with ⟨e, he, hev⟩ | habs
  · have e1 := insert_found lt v h (zoom_node_of_present hlt.trans v hasc he hev)
    refine ⟨s, t, e1, h, hrb, hasc, fun x => ⟨Or.inr, ?_⟩, rfl, rfl⟩
    rintro (rfl | hx)
    · rw [← hlt.eq_of_equal hev]; exact he
    · exact hx
  · have hf := zoom_leaf_of_absent lt v habs
    obtain ⟨s2, t2, e, sh, rb, hc, -, hnil, -, hfr, -⟩ := RBSet.insert_absent lt v h hrb hf
    obtain ⟨hL, hR⟩ := zoom_bounds hlt.trans v t [] ((bst_iff_ascending hlt.trans t).mpr hasc)
      (by simp [cellsL]) (by simp [cellsR])
    have ht := inorder_zoom lt v t
    rw [hf] at ht
    simp only [Tree.inorder, List.append_nil] at ht
    have ht2 : t2.inorder = (cellsL (zoom lt v t []).1).map Prod.snd ++
        v :: (cellsR (zoom lt v t []).1).map Prod.snd := by
      rw [inorder_eq_cells, hc, cells_plug]; simp
    have hL2 : ∀ x ∈ (cellsL (zoom lt v t []).1).map Prod.snd, lt x v = true := by
      intro x hx
      obtain ⟨c, hc, rfl⟩ := List.mem_map.mp hx
      exact hL c hc
    have hR2 : ∀ x ∈ (cellsR (zoom lt v t []).1).map Prod.snd, lt v x = true := by
      intro x hx
      obtain ⟨c, hc, rfl⟩ := List.mem_map.mp hx
      exact hR c hc
    refine ⟨s2, t2, e, sh, rb, ?_, fun x => ?_, hnil, hfr⟩
    · have ha := hasc
      rw [ht] at ha
      rw [ht2]
      simp only [Ascending, List.pairwise_append, List.pairwise_cons, List.mem_cons] at ha ⊢
      refine ⟨ha.1, ⟨hR2, ha.2.1⟩, ?_⟩
      rintro x hx y (rfl | hy)
      · exact hL2 x hx
      · exact ha.2.2 x hx y hy
    · rw [ht2, ht]
      simp only [List.mem_append, List.mem_cons]
      tauto

/-- The inserts of a list of values in turn, under the same conditions. -/
theorem rangeLoop_sorted {lt : α → α → Bool} (hlt : StrictTotal lt) (vs : List α) :
    ∀ {s : Set α} {t : Tree α}, s.Shape t → t.RedBlack → Ascending lt t.inorder →
      ∃ s2 t2, rangeLoop lt s vs = some s2 ∧ s2.Shape t2 ∧ t2.RedBlack ∧
        Ascending lt t2.inorder ∧ (∀ x, x ∈ t2.inorder ↔ x ∈ t.inorder ∨ x ∈ vs) ∧
        s2.nil_ = s.nil_ ∧ s2.freed = s.freed := by
  induction vs with
  | nil => intro s t h hrb hasc; exact ⟨s, t, rfl, h, hrb, hasc, by simp, rfl, rfl⟩
  | cons v vs ih =>
    intro s t h hrb hasc
    obtain ⟨s1, t1, e1, h1, rb1, a1, m1, n1, f1⟩ := insert_sorted hlt h hrb hasc v
    obtain ⟨s2, t2, e2, h2, rb2, a2, m2, n2, f2⟩ := ih h1 rb1 a1
    refine ⟨s2, t2, by simp [rangeLoop, e1, e2], h2, rb2, a2, fun x => ?_, by rw [n2, n1],
      by rw [f2, f1]⟩
    rw [m2, m1]
    simp only [List.mem_cons]
    tauto

/-- The loop of `operator=` from a cursor of the right-hand side inserts the
values of its cells in turn. -/
theorem assignLoop_cursor (lt : α → α → Bool) {rhs : Set α} (n : Nat) :
    ∀ (cs : List (Nat × α)) (fuel : Nat) (s : Set α), cs.length = n → Cursor rhs cs →
      n + 1 ≤ fuel →
      assignLoop lt rhs fuel s (headAddr rhs.nil_ cs) = rangeLoop lt s (cs.map Prod.snd) := by
  induction n with
  | zero =>
    intro cs fuel s hl _ hf
    obtain ⟨k, rfl⟩ : ∃ k, fuel = k + 1 := ⟨fuel - 1, by omega⟩
    have : cs = [] := List.length_eq_zero.mp hl
    subst this
    simp [assignLoop, headAddr, end_, rangeLoop]
  | succ n ih =>
    intro cs fuel s hl hc hf
    obtain ⟨k, rfl⟩ : ∃ k, fuel = k + 1 := ⟨fuel - 1, by omega⟩
    rcases hc with rfl | ⟨p, a, c, l, v, r, hz, rfl⟩
    · simp at hl
    · have hs := hz.sub
      simp only [Repr] at hs
      have h1 := Successor_spec hz
      rw [show headAddr rhs.nil_ ((a, v) :: (r.cells ++ cellsR p)) = a from rfl]
      simp only [assignLoop, end_, ne_eq, hz.ptr_ne_nil, not_false_eq_true, if_true, iterNext,
        h1, iterDeref, hs.2.1, List.map_cons, rangeLoop]
      cases hi : insert lt s v with
      | none => rfl
      | some s2 =>
        exact ih (r.cells ++ cellsR p) k s2 (by simpa using hl) (Cursor.next hz) (by omega)

/-- No insert and no erase frees the sentinel. -/
theorem Reachable.sentinel_live {lt : α → α → Bool} {s : Set α} (h : Reachable lt s) :
    s.nil_ ∉ s.freed := by
  induction h with
  | new dflt => simp [Set.new, Set.setLeft, Set.setRight, Set.setParent, Set.setRoot]
  | @insert s s2 v hs e ih =>
    obtain ⟨t, ht⟩ := hs.inv0
    by_cases hf : (zoom lt v t []).2 = Tree.leaf
    · obtain ⟨s3, t3, e3, -, -, -, -, hnil, -, hfr, -⟩ := insert_absent lt v ht.shape ht.rb hf
      rw [e3] at e
      cases e
      rw [hnil, hfr]
      exact ih
    · rw [insert_found lt v ht.shape hf] at e
      cases e
      exact ih
  | @erase s s2 v hs e ih =>
    obtain ⟨t, ht⟩ := hs.inv0
    rcases hq : (zoom lt v t []).2 with _ | ⟨z, zc, l, w, r⟩
    · rw [erase_absent lt v ht.shape hq] at e
      cases e
      exact ih
    · obtain ⟨s3, t3, e3, -, -, -, -, hnil, -, hfr, -⟩ := erase_found lt v ht.shape ht.rb hq
      rw [e3] at e
      cases e
      have hz := ht.shape.zoom lt v
      rw [hq] at hz
      rw [hnil, hfr]
      simp only [List.mem_cons, not_or]
      exact ⟨fun e => hz.ptr_ne_nil e.symm, ih⟩

/-- What the copy assignment does to a left-hand side that stores a tree: when
the tree is not empty it frees the cells of the tree and nothing else, and the
inserts rebuild the traversal of the right-hand side; when it is empty it frees
the sentinel. -/
theorem assign_spec {lt : α → α → Bool} (hlt : StrictTotal lt) {s rhs : Set α}
    {t u : Tree α} (h : s.Shape t) (hu : rhs.Shape u) (hasc : Ascending lt u.inorder) :
    ∃ s2 t2 F, Set.assign lt s rhs false = some s2 ∧ s2.Shape t2 ∧ t2.RedBlack ∧
      t2.inorder = u.inorder ∧ s2.size_ = rhs.size_ ∧ s2.nil_ = s.nil_ ∧
      s2.freed = F ++ s.freed ∧
      (t ≠ Tree.leaf → ∀ x, x ∈ F ↔ x ∈ t.addrs) ∧ (t = Tree.leaf → F = [s.nil_]) := by
  have hb := length_lt_of_nodup h.nodup h.fresh h.repr.nil_not_mem h.nil.lt_next
  rw [addrs_eq_cells, List.length_map, ← count_eq_cells] at hb
  have hh := height_le_count t
  obtain ⟨F, e1, m1, m2⟩ : ∃ F : List Nat,
      ClearAll s.next s s.root_ = some { s with freed := F ++ s.freed } ∧
      (t ≠ Tree.leaf → ∀ x, x ∈ F ↔ x ∈ t.addrs) ∧ (t = Tree.leaf → F = [s.nil_]) := by
    by_cases hl : t = Tree.leaf
    · subst hl
      obtain ⟨k, hk⟩ : ∃ k, s.next = k + 1 := ⟨s.next - 1, by omega⟩
      have hr := h.root
      simp only [ptr_leaf] at hr
      have e : ClearAll s.next s s.root_ = ClearAll (k + 1) s s.nil_ := by rw [hk, hr]
      exact ⟨[s.nil_], e.trans (ClearAll_sentinel h.nil k), fun hc => absurd rfl hc,
        fun _ => rfl⟩
    · obtain ⟨F, e, m⟩ := ClearAll_repr t s s.nil_ s.next hl h.repr (by omega)
      rw [← h.root] at e
      exact ⟨F, e, fun _ => m, fun hc => absurd hc hl⟩
  have h1 : Set.Shape (({ s with freed := F ++ s.freed } : Set α).setRoot s.nil_) Tree.leaf := by
    refine ⟨rfl, trivial, List.nodup_nil, fun a ha => by simp at ha, ?_⟩
    obtain ⟨n1, n2, n3, n4⟩ := h.nil
    exact ⟨n1, n2, n3, n4⟩
  have hcur : Cursor rhs u.cells := by simpa [cellsR] using Cursor.tree hu.zip
  have hlen := length_lt_of_nodup hu.nodup hu.fresh hu.repr.nil_not_mem hu.nil.lt_next
  rw [addrs_eq_cells, List.length_map] at hlen
  have e2 := assignLoop_cursor lt u.cells.length u.cells rhs.next
    (({ s with freed := F ++ s.freed } : Set α).setRoot s.nil_) rfl hcur hlen
  obtain ⟨s2, t2, e3, sh2, rb2, a2, mem2, n2, f2⟩ := rangeLoop_sorted hlt (u.cells.map Prod.snd)
    h1 ⟨rfl, trivial, trivial⟩ (by simp [Ascending, Tree.inorder])
  have hin : t2.inorder = u.inorder := by
    refine ascending_ext hlt a2 hasc (fun x => ?_)
    rw [mem2, inorder_eq_cells u]
    simp [Tree.inorder]
  refine ⟨{ s2 with size_ := rhs.size_ }, t2, F, ?_, sh2.setSize _, rb2, hin, rfl, n2, f2, m1, m2⟩
  simp only [Set.assign, Bool.false_eq_true, if_false, e1, begin_eq hu]
  have e4 : (({ s with freed := F ++ s.freed } : Set α).nil_) = s.nil_ := rfl
  rw [e4, e2, e3]

end RBSet

namespace TupleModel

theorem less_iff_someLess (Args : List Elem) (a b : Tuple Args) :
    Tuple.less Args a b = true ↔ SomeLess Args a b := by
  induction Args with
  | nil => simp [Tuple.less, SomeLess]
  | cons Head Tail ih => simp [Tuple.less, SomeLess, ih]

theorem lexLess_someLess (Args : List Elem) (a b : Tuple Args) (h : LexLess Args a b) :
    SomeLess Args a b := by
  induction Args with
  | nil => exact h
  | cons Head Tail ih =>
    rcases h with h | ⟨-, h⟩
    · exact Or.inl h
    · exact Or.inr (ih _ _ h)

theorem intElem_total : intElem.Total := by
  refine ⟨fun a => by simp [intElem], fun a b c h1 h2 => ?_, fun a b h1 h2 => ?_, fun a b => by simp [gt_iff_lt]⟩
  · have h3 : (a : Int) < b := by simpa using h1
    have h4 : (b : Int) < c := by simpa using h2
    have h5 : (a : Int) < c := lt_trans h3 h4
    simpa using h5
  · have h3 : ¬ (a : Int) < b := by simpa using h1
    have h4 : ¬ (b : Int) < a := by simpa using h2
    exact le_antisymm (not_lt.mp h4) (not_lt.mp h3)

end TupleModel

namespace HashMapModel
variable {K V : Type}

theorem bucket_eq {m : HashMap K V} {i : Nat} {b : List (K × V)} (h : m.table_[i]? = some b) :
    m.bucket i = b := by
  simp [HashMap.bucket, List.getD_eq_getElem?_getD, h]

theorem bucket_getElem {m : HashMap K V} {i : Nat} (h : i < m.table_.length) :
    m.table_[i]? = some (m.bucket i) := by
  simp [HashMap.bucket, List.getD_eq_getElem?_getD, List.getElem?_eq_getElem h]

theorem mem_flatten_iff {T : List (List (K × V))} {item : K × V} :
    item ∈ T.flatten ↔ ∃ (i : Nat) (b : List (K × V)), T[i]? = some b ∧ item ∈ b := by
  rw [List.mem_flatten]
  constructor
  · rintro ⟨l, hl, hi⟩
    obtain ⟨n, hn⟩ := List.mem_iff_getElem?.mp hl
    exact ⟨n, l, hn, hi⟩
  · rintro ⟨i, b, hb, hi⟩
    exact ⟨b, List.mem_iff_getElem?.mpr ⟨i, hb⟩, hi⟩

/-- A stored pair sits in the bucket of its key. -/
theorem WF.mem_bucket {m : HashMap K V} (h : WF m) {item : K × V}
    (hi : item ∈ m.table_.flatten) : item ∈ m.bucket (m.hash_ item.1 % m.table_.length) := by
  obtain ⟨i, b, hb, hm⟩ := mem_flatten_iff.mp hi
  rw [h.place i b hb item hm, bucket_eq hb]
  exact hm

theorem mem_of_mem_bucket {m : HashMap K V} {i : Nat} {item : K × V} (hi : item ∈ m.bucket i) :
    item ∈ m.table_.flatten := by
  by_cases hl : i < m.table_.length
  · exact mem_flatten_iff.mpr ⟨i, _, bucket_getElem hl, hi⟩
  · simp [HashMap.bucket, List.getD_eq_getElem?_getD, List.getElem?_eq_none (not_lt.mp hl)] at hi

/-- No two pairs of a bucket have the same key. -/
theorem WF.bucket_nodup {m : HashMap K V} (h : WF m) (i : Nat) :
    ((m.bucket i).map Prod.fst).Nodup := by
  by_cases hl : i < m.table_.length
  · have hb := bucket_getElem hl
    have hmem : m.bucket i ∈ m.table_ := List.mem_iff_getElem?.mpr ⟨i, hb⟩
    have hs : (m.bucket i).Sublist m.table_.flatten := List.sublist_flatten_of_mem hmem
    exact (hs.map Prod.fst).nodup h.nodup
  · simp [HashMap.bucket, List.getD_eq_getElem?_getD, List.getElem?_eq_none (not_lt.mp hl)]

/-- Two stored pairs with the same key are the same pair. -/
theorem WF.key_unique {m : HashMap K V} (h : WF m) {k : K} {v w : V}
    (hv : (k, v) ∈ m.table_.flatten) (hw : (k, w) ∈ m.table_.flatten) : v = w := by
  have h1 := h.nodup
  have := List.inj_on_of_nodup_map h1 hv hw rfl
  exact (Prod.mk.inj this).2

theorem findLoop_none [DecidableEq K] (key : K) (b : List (K × V)) (pos : Nat) :
    findLoop key b pos = none ↔ ∀ item ∈ b, item.1 ≠ key := by
  induction b generalizing pos with
  | nil => simp [findLoop]
  | cons item rest ih =>
    by_cases hk : item.1 = key
    · simp [findLoop, hk]
    · simp [findLoop, hk, ih]

theorem findLoop_some [DecidableEq K] (key : K) (b : List (K × V)) (pos p : Nat)
    (h : findLoop key b pos = some p) :
    ∃ q item, p = pos + q ∧ b[q]? = some item ∧ item.1 = key := by
  induction b generalizing pos with
  | nil => simp [findLoop] at h
  | cons item rest ih =>
    by_cases hk : item.1 = key
    · simp only [findLoop, hk, if_true, Option.some.injEq] at h
      exact ⟨0, item, by omega, by simp, hk⟩
    · simp only [findLoop, hk, if_false] at h
      obtain ⟨q, it2, h1, h2, h3⟩ := ih (pos + 1) h
      exact ⟨q + 1, it2, by omega, by simpa using h2, h3⟩

/-- What `find` returns on a well-formed map: `end()` exactly when no pair has
the key, and else an iterator that stands at the pair with the key. -/
theorem find_spec [DecidableEq K] {m : HashMap K V} (h : WF m) (key : K) :
    ((find m key).equal (end_ m) = true ↔ ∀ v, (key, v) ∉ m.table_.flatten) ∧
    (∀ v, (key, v) ∈ m.table_.flatten → deref m (find m key) = some (key, v)) ∧
    ((find m key).equal (end_ m) = false → ∃ v, (key, v) ∈ m.table_.flatten) := by
  have hidx : m.hash_ key % m.table_.length < m.table_.length := Nat.mod_lt _ h.pos
  rcases hf : findLoop key (m.bucket (m.hash_ key % m.table_.length)) 0 with _ | p
  · have hnone := (findLoop_none key _ 0).mp hf
    have habs : ∀ v, (key, v) ∉ m.table_.flatten := by
      intro v hv
      exact hnone _ (h.mem_bucket hv) rfl
    have he : find m key = end_ m := by simp [find, hf]
    refine ⟨?_, fun v hv => absurd hv (habs v), ?_⟩
    · rw [he]
      simp [Iterator.equal, habs]
    · rw [he]
      simp [Iterator.equal]
  · obtain ⟨q, item, hp, hq, hk⟩ := findLoop_some key _ 0 p hf
    have hp2 : p = q := by omega
    subst hp2
    have he : find m key =
        { table_iter_ := m.hash_ key % m.table_.length,
          list_iter_ := (m.hash_ key % m.table_.length, p) } := by simp [find, hf]
    have hne : (find m key).equal (end_ m) = false := by
      rw [he]
      simp only [Iterator.equal, end_, Bool.and_eq_false_imp, beq_iff_eq]
      intro e
      omega
    have hmem : item ∈ m.table_.flatten :=
      mem_of_mem_bucket (List.mem_iff_getElem?.mpr ⟨p, hq⟩)
    obtain ⟨k2, v2⟩ := item
    simp only at hk
    subst hk
    refine ⟨?_, fun v hv => ?_, fun _ => ⟨v2, hmem⟩⟩
    · rw [hne]
      simp only [Bool.false_eq_true, false_iff, not_forall, not_not]
      exact ⟨v2, hmem⟩
    · rw [he]
      simp only [deref, hq]
      rw [h.key_unique hmem hv]

end HashMapModel

namespace HashMapModel
variable {K V : Type}

/-! ### `push_front` into a bucket and `rehash` -/

theorem pushFront_cons_succ (b : List (K × V)) (T : List (List (K × V))) (i : Nat) (x : K × V) :
    pushFront (b :: T) (i + 1) x = b :: pushFront T i x := by
  simp [pushFront]

theorem pushFront_length (T : List (List (K × V))) (i : Nat) (x : K × V) :
    (pushFront T i x).length = T.length := by
  simp [pushFront]

theorem pushFront_perm (T : List (List (K × V))) (i : Nat) (x : K × V) (hi : i < T.length) :
    (pushFront T i x).flatten.Perm (x :: T.flatten) := by
  induction T generalizing i with
  | nil => simp at hi
  | cons b T ih =>
    cases i with
    | zero => simp [pushFront]
    | succ i =>
      rw [pushFront_cons_succ]
      simp only [List.flatten_cons]
      have := ih i (by simpa using hi)
      exact (List.Perm.append_left b this).trans List.perm_middle

theorem pushFront_getElem (T : List (List (K × V))) (i j : Nat) (x : K × V) (hi : i < T.length) :
    (pushFront T i x)[j]? = if i = j then some (x :: T.getD i []) else T[j]? := by
  simp [pushFront, List.getElem?_set, hi]

theorem Placed.pushFront {hash : K → Nat} {T : List (List (K × V))} (h : Placed hash T)
    (x : K × V) (hp : 0 < T.length) : Placed hash (pushFront T (hash x.1 % T.length) x) := by
  intro i b hb item hm
  have hi := Nat.mod_lt (hash x.1) hp
  rw [pushFront_getElem _ _ _ _ hi] at hb
  rw [pushFront_length]
  by_cases e : hash x.1 % T.length = i
  · rw [if_pos e] at hb
    cases hb
    rcases List.mem_cons.mp hm with rfl | hm2
    · exact e
    · subst e
      have hg : T[hash x.1 % T.length]? = some (T.getD (hash x.1 % T.length) []) := by
        simp [List.getD_eq_getElem?_getD, List.getElem?_eq_getElem hi]
      exact h _ _ hg item hm2
  · rw [if_neg e] at hb
    exact h i b hb item hm

theorem foldl_items (hash : K → Nat) (L : List (K × V)) :
    ∀ T : List (List (K × V)), 0 < T.length →
      (L.foldl (fun tbl item => pushFront tbl (hash item.1 % tbl.length) item) T).length =
          T.length ∧
        (L.foldl (fun tbl item => pushFront tbl (hash item.1 % tbl.length) item) T).flatten.Perm
          (L ++ T.flatten) ∧
        (Placed hash T →
          Placed hash (L.foldl (fun tbl item => pushFront tbl (hash item.1 % tbl.length) item) T)) := by
  induction L with
  | nil => intro T _; exact ⟨rfl, List.Perm.refl _, id⟩
  | cons x L ih =>
    intro T hp
    have hl := pushFront_length T (hash x.1 % T.length) x
    obtain ⟨h1, h2, h3⟩ := ih (pushFront T (hash x.1 % T.length) x) (by rw [hl]; exact hp)
    refine ⟨by rw [List.foldl_cons, h1, hl], ?_, fun hpl => ?_⟩
    · rw [List.foldl_cons]
      refine h2.trans ?_
      have := pushFront_perm T (hash x.1 % T.length) x (Nat.mod_lt _ hp)
      exact (List.Perm.append_left L this).trans List.perm_middle
    · rw [List.foldl_cons]
      exact h3 (hpl.pushFront x hp)

theorem foldl_buckets {β : Type} (f : β → K × V → β) (Ts : List (List (K × V))) :
    ∀ T : β, Ts.foldl (fun tbl list => list.foldl f tbl) T = Ts.flatten.foldl f T := by
  induction Ts with
  | nil => intro T; rfl
  | cons b Ts ih => intro T; simp [List.foldl_append, ih]

theorem flatten_replicate_nil (n : Nat) :
    (List.replicate n ([] : List (K × V))).flatten = [] := by
  induction n with
  | zero => rfl
  | succ n ih => simp [List.replicate_succ, ih]

/-- `rehash` to a positive number of buckets keeps the pairs and puts every one
into the bucket of its hash value. -/
theorem rehash_spec (m : HashMap K V) (n : Nat) (hn : 0 < n)
    (hnd : (m.table_.flatten.map Prod.fst).Nodup) :
    WF (rehash m n) ∧ (rehash m n).hash_ = m.hash_ ∧ (rehash m n).size_ = m.size_ ∧
      (rehash m n).table_.length = n ∧
      ∀ item, item ∈ (rehash m n).table_.flatten ↔ item ∈ m.table_.flatten := by
  have h0 : 0 < (List.replicate n ([] : List (K × V))).length := by simpa using hn
  obtain ⟨h1, h2, h3⟩ := foldl_items m.hash_ m.table_.flatten _ h0
  have e : (rehash m n).table_ = m.table_.flatten.foldl
      (fun tbl item => pushFront tbl (m.hash_ item.1 % tbl.length) item)
      (List.replicate n []) := by
    simp only [rehash]
    exact foldl_buckets _ _ _
  rw [flatten_replicate_nil, List.append_nil] at h2
  have hpl : Placed m.hash_ (List.replicate n ([] : List (K × V))) := by
    intro i b hb item hm
    rw [List.getElem?_replicate] at hb
    split at hb
    · cases hb; simp at hm
    · cases hb
  refine ⟨⟨?_, ?_, ?_⟩, rfl, rfl, ?_, fun item => ?_⟩
  · rw [e, h1]; exact h0
  · rw [e]; exact h3 hpl
  · rw [e]; exact ((h2.map Prod.fst).nodup_iff).mpr hnd
  · rw [e, h1]; simp
  · rw [e]; exact h2.mem_iff

end HashMapModel

namespace HashMapModel
variable {K V : Type}

/-! ### The mutating members keep the map well-formed -/

theorem WF.new_wf (hash : K → Nat) : WF (HashMap.new hash : HashMap K V) := by
  refine ⟨by simp [HashMap.new, table_size], ?_, ?_⟩
  · intro i b hb item hm
    simp only [HashMap.new, List.getElem?_replicate] at hb
    split at hb
    · cases hb; simp at hm
    · cases hb
  · simp [HashMap.new, flatten_replicate_nil]

/-- The state after `push_front` of a pair with a new key and `++size_`. -/
theorem WF.push {m : HashMap K V} (h : WF m) (pair : K × V)
    (habs : ∀ v, (pair.1, v) ∉ m.table_.flatten) :
    WF { m with table_ := pushFront m.table_ (m.hash_ pair.1 % m.table_.length) pair,
                size_ := m.size_ + 1 } ∧
      ∀ item, item ∈ (pushFront m.table_ (m.hash_ pair.1 % m.table_.length) pair).flatten ↔
        item = pair ∨ item ∈ m.table_.flatten := by
  have hi := Nat.mod_lt (m.hash_ pair.1) h.pos
  have hp := pushFront_perm m.table_ _ pair hi
  refine ⟨⟨?_, ?_, ?_⟩, fun item => ?_⟩
  · simp only [pushFront_length]; exact h.pos
  · exact Placed.pushFront h.place pair h.pos
  · refine ((hp.map Prod.fst).nodup_iff).mpr ?_
    simp only [List.map_cons, List.nodup_cons]
    refine ⟨fun hm => ?_, h.nodup⟩
    obtain ⟨⟨k, v⟩, hkv, e⟩ := List.mem_map.mp hm
    simp only at e
    subst e
    exact habs v hkv
  · rw [hp.mem_iff]; simp

/-- `insert` of a pair whose key is stored changes nothing. -/
theorem insert_present_key [DecidableEq K] {m : HashMap K V} (pair : K × V)
    (hf : (find m pair.1).equal (end_ m) = false) : insert m pair = m := by
  simp [insert, hf]

/-- `insert` of a pair whose key is not stored: the pair joins the stored pairs,
with or without a `rehash`. -/
theorem insert_absent_key [DecidableEq K] {m : HashMap K V} (h : WF m) (pair : K × V)
    (hf : (find m pair.1).equal (end_ m) = true) :
    WF (insert m pair) ∧ (insert m pair).hash_ = m.hash_ ∧
      (insert m pair).size_ = m.size_ + 1 ∧
      (∀ item, item ∈ (insert m pair).table_.flatten ↔ item = pair ∨ item ∈ m.table_.flatten) ∧
      (insert m pair).table_.length =
        (if 2 * (m.size_ + 1) > m.table_.length then 2 * m.table_.length
          else m.table_.length) := by
  have habs := ((find_spec h pair.1).1).mp hf
  obtain ⟨w1, w2⟩ := h.push pair habs
  by_cases hr : 2 * (m.size_ + 1) > m.table_.length
  · have e : insert m pair =
        rehash { m with table_ := pushFront m.table_ (m.hash_ pair.1 % m.table_.length) pair,
                        size_ := m.size_ + 1 } (2 * m.table_.length) := by
      simp [insert, hf, pushFront_length, hr]
    obtain ⟨r1, r2, r3, r4, r5⟩ := rehash_spec
      { m with table_ := pushFront m.table_ (m.hash_ pair.1 % m.table_.length) pair,
               size_ := m.size_ + 1 } (2 * m.table_.length) (by have := h.pos; omega) w1.nodup
    rw [e]
    refine ⟨r1, r2, r3, fun item => ?_, ?_⟩
    · rw [r5]; exact w2 item
    · rw [r4, if_pos hr]
  · have e : insert m pair =
        { m with table_ := pushFront m.table_ (m.hash_ pair.1 % m.table_.length) pair,
                 size_ := m.size_ + 1 } := by
      simp [insert, hf, pushFront_length, hr]
    rw [e]
    exact ⟨w1, rfl, rfl, w2, by simp [pushFront_length, hr]⟩

theorem WF.insert_wf [DecidableEq K] {m : HashMap K V} (h : WF m) (pair : K × V) :
    WF (insert m pair) ∧ (insert m pair).hash_ = m.hash_ := by
  cases hf : (find m pair.1).equal (end_ m) with
  | true => exact ⟨(insert_absent_key h pair hf).1, (insert_absent_key h pair hf).2.1⟩
  | false => rw [insert_present_key pair hf]; exact ⟨h, rfl⟩

theorem WF.subscript_wf [DecidableEq K] {m : HashMap K V} (h : WF m) (key : K) (dflt : V) :
    WF (subscript m key dflt).1 ∧ (subscript m key dflt).1.hash_ = m.hash_ := by
  cases hf : (find m key).equal (end_ m) with
  | false => simp [subscript, hf, h]
  | true =>
    have habs := ((find_spec h key).1).mp hf
    obtain ⟨w1, -⟩ := h.push (key, dflt) habs
    by_cases hr : 2 * (m.size_ + 1) ≥ m.table_.length
    · obtain ⟨r1, r2, -⟩ := rehash_spec
        { m with table_ := pushFront m.table_ (m.hash_ key % m.table_.length) (key, dflt),
                 size_ := m.size_ + 1 } (2 * m.table_.length) (by have := h.pos; omega) w1.nodup
      simp only [subscript, hf, Bool.not_true, Bool.false_eq_true, if_false, pushFront_length,
        hr, if_true]
      exact ⟨r1, r2⟩
    · simp only [subscript, hf, Bool.not_true, Bool.false_eq_true, if_false, pushFront_length,
        hr]
      exact ⟨w1, trivial⟩

theorem eraseLoop_sublist [DecidableEq K] (key : K) (b l : List (K × V))
    (h : eraseLoop key b = some l) : l.Sublist b := by
  induction b generalizing l with
  | nil => simp [eraseLoop] at h
  | cons item rest ih =>
    by_cases hk : item.1 = key
    · simp only [eraseLoop, hk, if_true, Option.some.injEq] at h
      subst h
      exact List.sublist_cons_self _ _
    · simp only [eraseLoop, hk, if_false] at h
      cases he : eraseLoop key rest with
      | none => rw [he] at h; cases h
      | some r2 =>
        rw [he] at h
        cases h
        exact (ih r2 he).cons₂ item

theorem flatten_set_sublist (T : List (List (K × V))) (i : Nat) (l : List (K × V))
    (hl : l.Sublist (T.getD i [])) : (T.set i l).flatten.Sublist T.flatten := by
  induction T generalizing i with
  | nil => simp
  | cons b T ih =>
    cases i with
    | zero =>
      simp only [List.set_cons_zero, List.flatten_cons]
      exact List.Sublist.append hl (List.Sublist.refl _)
    | succ i =>
      simp only [List.set_cons_succ, List.flatten_cons]
      exact List.Sublist.append (List.Sublist.refl _) (ih i (by simpa using hl))

theorem WF.erase_wf [DecidableEq K] {m : HashMap K V} (h : WF m) (key : K) :
    WF (erase m key) ∧ (erase m key).hash_ = m.hash_ := by
  cases he : eraseLoop key (m.bucket (m.hash_ key % m.table_.length)) with
  | none => simp [erase, he, h]
  | some l =>
    have hs := eraseLoop_sublist key _ l he
    have hi := Nat.mod_lt (m.hash_ key) h.pos
    simp only [erase, he]
    refine ⟨⟨by simpa using h.pos, ?_, ?_⟩, trivial⟩
    · intro i b hb item hm
      simp only [List.getElem?_set, hi, if_true] at hb
      simp only [List.length_set]
      by_cases e : m.hash_ key % m.table_.length = i
      · rw [if_pos e] at hb
        cases hb
        subst e
        exact h.place _ _ (bucket_getElem hi) item (hs.subset hm)
      · rw [if_neg e] at hb
        exact h.place i b hb item hm
    · exact ((flatten_set_sublist m.table_ _ l hs).map Prod.fst).nodup h.nodup

theorem map_fst_set (b : List (K × V)) (pos : Nat) (item : K × V) (value : V)
    (h : b[pos]? = some item) : (b.set pos (item.1, value)).map Prod.fst = b.map Prod.fst := by
  induction b generalizing pos with
  | nil => simp
  | cons x b ih =>
    cases pos with
    | zero =>
      simp only [List.getElem?_cons_zero, Option.some.injEq] at h
      subst h
      simp
    | succ pos =>
      simp only [List.getElem?_cons_succ] at h
      simp [ih pos h]

theorem flatten_set_keys (T : List (List (K × V))) (i : Nat) (l : List (K × V))
    (hl : l.map Prod.fst = (T.getD i []).map Prod.fst) :
    (T.set i l).flatten.map Prod.fst = T.flatten.map Prod.fst := by
  induction T generalizing i with
  | nil => simp
  | cons b T ih =>
    cases i with
    | zero =>
      simp only [List.set_cons_zero, List.flatten_cons, List.map_append]
      rw [hl]
      simp
    | succ i =>
      simp only [List.set_cons_succ, List.flatten_cons, List.map_append]
      rw [ih i (by simpa using hl)]

theorem WF.store_wf {m : HashMap K V} (h : WF m) (it : Iterator) (value : V) :
    WF (store m it value) ∧ (store m it value).hash_ = m.hash_ := by
  cases hd : (m.bucket it.list_iter_.1)[it.list_iter_.2]? with
  | none => simp [store, hd, h]
  | some item =>
    have hk := map_fst_set _ _ item value hd
    simp only [store, hd]
    refine ⟨⟨by simpa using h.pos, ?_, ?_⟩, trivial⟩
    · intro i b hb x hm
      simp only [List.length_set]
      by_cases hi : it.list_iter_.1 < m.table_.length
      · simp only [List.getElem?_set, hi, if_true] at hb
        by_cases e : it.list_iter_.1 = i
        · rw [if_pos e] at hb
          cases hb
          have hx : x.1 ∈ (m.bucket it.list_iter_.1).map Prod.fst := by
            rw [← hk]; exact List.mem_map_of_mem _ hm
          obtain ⟨y, hy, e2⟩ := List.mem_map.mp hx
          rw [← e2, ← e]
          exact h.place _ _ (bucket_getElem hi) y hy
        · rw [if_neg e] at hb
          exact h.place i b hb x hm
      · rw [List.set_eq_of_length_le (not_lt.mp hi)] at hb
        exact h.place i b hb x hm
    · rw [flatten_set_keys _ _ _ hk]
      exact h.nodup

/-- Every reachable map is well-formed and keeps its hash function. -/
theorem ReachableMap.wf [DecidableEq K] {hash : K → Nat} {dflt : V} {m : HashMap K V}
    (h : ReachableMap hash dflt m) : WF m ∧ m.hash_ = hash := by
  induction h with
  | new => exact ⟨WF.new_wf hash, rfl⟩
  | insert pair _ ih => exact ⟨(ih.1.insert_wf pair).1, (ih.1.insert_wf pair).2.trans ih.2⟩
  | erase key _ ih => exact ⟨(ih.1.erase_wf key).1, (ih.1.erase_wf key).2.trans ih.2⟩
  | subscript key _ ih =>
    exact ⟨(ih.1.subscript_wf key dflt).1, (ih.1.subscript_wf key dflt).2.trans ih.2⟩
  | @assign m0 key value _ ih =>
    have h1 := ih.1.subscript_wf key dflt
    have h2 := h1.1.store_wf (HashMapModel.subscript m0 key dflt).2 value
    exact ⟨h2.1, h2.2.trans (h1.2.trans ih.2)⟩

end HashMapModel

namespace HashMapModel
variable {K V : Type}

/-- The maps `buildMap` constructs are reachable. -/
theorem ReachableMap.of_buildMap (hash : Nat → Nat) (keys : List Nat) :
    ReachableMap hash 0 (buildMap hash keys) := by
  have : ∀ (ks : List Nat) (m : HashMap Nat Nat), ReachableMap hash 0 m →
      ReachableMap hash 0 (ks.foldl (fun m k => HashMapModel.insert m (k, 10 * k)) m) := by
    intro ks
    induction ks with
    | nil => intro m hm; exact hm
    | cons k ks ih => intro m hm; exact ih _ (ReachableMap.insert (k, 10 * k) hm)
  exact this keys _ ReachableMap.new

/-- Two well-formed maps whose stored pairs with a key are the same give the
same result for `find` of that key: `end()` for both or the same pair. -/
theorem find_congr [DecidableEq K] {m m2 : HashMap K V} (h : WF m) (h2 : WF m2) (key : K)
    (hmem : ∀ v, (key, v) ∈ m2.table_.flatten ↔ (key, v) ∈ m.table_.flatten) :
    (find m2 key).equal (end_ m2) = (find m key).equal (end_ m) ∧
      ((find m key).equal (end_ m) = false → deref m2 (find m2 key) = deref m (find m key)) := by
  obtain ⟨a1, a2, a3⟩ := find_spec h key
  obtain ⟨b1, b2, b3⟩ := find_spec h2 key
  cases hf : (find m key).equal (end_ m) with
  | true =>
    refine ⟨?_, fun hc => Bool.noConfusion hc⟩
    rw [b1]
    intro v hv
    exact (a1.mp hf) v ((hmem v).mp hv)
  | false =>
    obtain ⟨v, hv⟩ := a3 hf
    have hv2 := (hmem v).mpr hv
    refine ⟨?_, fun _ => by rw [a2 v hv, b2 v hv2]⟩
    cases hf2 : (find m2 key).equal (end_ m2) with
    | false => rfl
    | true => exact absurd hv2 ((b1.mp hf2) v)

end HashMapModel

namespace ImmutableVector
variable {T : Type}

/-! ### The bits of an index -/

theorem CountBitsLoop_eq (number left : Nat) (fuel : Nat) :
    ∀ result, CountBitsLoop number left fuel (left + fuel) result =
      result * 2 ^ fuel + (number / 2 ^ left) % 2 ^ fuel := by
  induction fuel with
  | zero => intro result; simp [CountBitsLoop, Nat.mod_one]
  | succ fuel ih =>
    intro result
    have h1 : left < left + (fuel + 1) := by omega
    have h2 : left + (fuel + 1) - 1 = left + fuel := by omega
    simp only [CountBitsLoop, h1, if_true, h2, ih]
    rw [Nat.and_one_is_mod, Nat.shiftRight_eq_div_pow, Nat.mod_pow_succ, pow_add,
      ← Nat.div_div_eq_div_mul, pow_succ]
    ring

/-- `CountBits(number, left, left + kNumOfBits)` is the base-32 digit of `number`
at the position `left / kNumOfBits`. -/
theorem levelBits_eq (number level : Nat) :
    levelBits number level = (number / 32 ^ level) % 32 := by
  have h := CountBitsLoop_eq number (kNumOfBits * level) kNumOfBits 0
  have e : kNumOfBits * level + kNumOfBits - kNumOfBits * level = kNumOfBits := by omega
  simp only [levelBits, CountBits, e, h]
  simp only [kNumOfBits, Nat.zero_mul, Nat.zero_add, pow_mul]
  norm_num

theorem levelBits_lt (number level : Nat) : levelBits number level < 32 := by
  rw [levelBits_eq]
  exact Nat.mod_lt _ (by norm_num)

/-- Two numbers with the same digits at the levels `0 .. L` agree modulo `32 ^ (L + 1)`. -/
theorem mod_eq_of_levelBits (i j : Nat) (L : Nat)
    (h : ∀ l, l ≤ L → levelBits j l = levelBits i l) : j % 32 ^ (L + 1) = i % 32 ^ (L + 1) := by
  induction L with
  | zero =>
    have := h 0 (le_refl _)
    simpa [levelBits_eq] using this
  | succ L ih =>
    have h1 := ih (fun l hl => h l (by omega))
    have h2 := h (L + 1) (le_refl _)
    rw [levelBits_eq, levelBits_eq] at h2
    rw [Nat.mod_pow_succ, Nat.mod_pow_succ (x := i), h1, h2]

/-- Two different indices below `2 ^ kStartingBit` differ in the digit of some level. -/
theorem exists_levelBits_ne {i j : Nat} (hi : i < 2 ^ 30) (hj : j < 2 ^ 30) (hne : j ≠ i) :
    ∃ l, l ≤ kRootLevel ∧ levelBits j l ≠ levelBits i l := by
  by_contra hc
  simp only [not_exists, not_and, not_not] at hc
  have := mod_eq_of_levelBits i j kRootLevel hc
  have e : (32 : Nat) ^ (kRootLevel + 1) = 2 ^ 30 := by norm_num [kRootLevel]
  rw [e, Nat.mod_eq_of_lt hi, Nat.mod_eq_of_lt hj] at this
  exact hne this

end ImmutableVector

namespace ImmutableVector
variable {T : Type}

/-! ### Tries in the heap -/

theorem Stored.weaken {h : Heap T} {A B : Nat → Prop} (hAB : ∀ b, A b → B b) (l : Nat) :
    ∀ a, Stored h A l a → Stored h B l a := by
  induction l with
  | zero => intro a hs; exact ⟨hs.1, hAB _ hs.2.1, hs.2.2⟩
  | succ l ih =>
    intro a hs
    obtain ⟨h1, h2, cs, h3, h4⟩ := hs
    exact ⟨h1, hAB _ h2, cs, h3, fun c hc => ih c (h4 c hc)⟩

/-- A change of the heap outside the region leaves the trie as it is. -/
theorem Stored.of_cells_eq {h h2 : Heap T} {A : Nat → Prop}
    (hc : ∀ b, A b → h2.cells b = h.cells b) (l : Nat) :
    ∀ a, Stored h A l a → Stored h2 A l a := by
  induction l with
  | zero =>
    intro a hs
    obtain ⟨h1, h2a, vs, h3⟩ := hs
    exact ⟨h1, h2a, vs, by rw [hc a h2a]; exact h3⟩
  | succ l ih =>
    intro a hs
    obtain ⟨h1, h2a, cs, h3, h4⟩ := hs
    exact ⟨h1, h2a, cs, by rw [hc a h2a]; exact h3, fun c hm => ih c (h4 c hm)⟩

/-- A change of the heap outside the region leaves every read of the trie as it is. -/
theorem GetLoop_congr {h h2 : Heap T} {A : Nat → Prop}
    (hc : ∀ b, A b → h2.cells b = h.cells b) (index : Nat) (l : Nat) :
    ∀ a, Stored h A l a → GetLoop h2 index l a = GetLoop h index l a := by
  induction l with
  | zero =>
    intro a hs
    obtain ⟨h1, h2a, vs, h3⟩ := hs
    simp [GetLoop, Heap.value, h1, hc a h2a]
  | succ l ih =>
    intro a hs
    obtain ⟨h1, h2a, cs, h3, h4⟩ := hs
    simp only [GetLoop, Heap.children, h1, if_false, hc a h2a, h3]
    cases hq : cs[levelBits index (l + 1)]? with
    | none => rfl
    | some c => exact ih c (h4 c (List.mem_iff_getElem?.mpr ⟨_, hq⟩))

theorem Heap.value_of_cells {h : Heap T} {a : Nat} {vs : List T} (h0 : a ≠ 0)
    (hc : h.cells a = Node.ValueNode vs) : h.value a = some vs := by
  simp [Heap.value, h0, hc]

theorem Heap.children_of_cells {h : Heap T} {a : Nat} {cs : List Nat} (h0 : a ≠ 0)
    (hc : h.cells a = Node.PtrNode cs) : h.children a = some cs := by
  simp [Heap.children, h0, hc]

/-- `Change` along the path of an index that can be read: it returns, writes only
to cells it allocates, and the trie it returns reads as the old one except on
that path, where it reads `value`. -/
theorem Change_spec (i : Nat) (x : T) (l : Nat) :
    ∀ (node : Nat) (h : Heap T) (A : Nat → Prop), (∀ b, A b → b < h.next) → Stored h A l node →
      (∃ y, GetLoop h i l node = some y) →
      ∃ h2 a, Change i x l node h = some (h2, a) ∧ h.next ≤ h2.next ∧
        (∀ b, b < h.next → h2.cells b = h.cells b) ∧
        Stored h2 (fun b => A b ∨ (h.next ≤ b ∧ b < h2.next)) l a ∧
        (∀ j, (∀ l2, l2 ≤ l → levelBits j l2 = levelBits i l2) → GetLoop h2 j l a = some x) ∧
        (∀ j l2, l2 ≤ l → levelBits j l2 ≠ levelBits i l2 →
          GetLoop h2 j l a = GetLoop h j l node) := by
  induction l with
  | zero =>
    intro node h A hA hs hy
    obtain ⟨h0, hAn, vs, hc⟩ := hs
    obtain ⟨y, hy⟩ := hy
    have hv := Heap.value_of_cells h0 hc
    simp only [GetLoop, hv] at hy
    have hlt : levelBits i 0 < vs.length := by
      by_contra hcon
      rw [List.getElem?_eq_none (not_lt.mp hcon)] at hy
      cases hy
    have hn0 : h.next ≠ 0 := by have := hA _ hAn; omega
    refine ⟨_, _, by simp only [Change, hv]; rfl, by simp [Heap.alloc, Heap.write], ?_, ?_, ?_, ?_⟩
    · intro b hb
      have : b ≠ h.next := by omega
      simp [Heap.alloc, Heap.write, this]
    · exact ⟨hn0, Or.inr ⟨le_refl _, by simp [Heap.alloc, Heap.write]⟩,
        vs.set (levelBits i 0) x, by simp [Heap.alloc, Heap.write]⟩
    · intro j hj
      have e := hj 0 (le_refl _)
      simp [GetLoop, Heap.value, Heap.alloc, Heap.write, hn0, e, List.getElem?_set, hlt]
    · intro j l2 hl2 hne
      have e : l2 = 0 := by omega
      subst e
      simp only [GetLoop, hv]
      simp [Heap.value, Heap.alloc, Heap.write, hn0, List.getElem?_set, Ne.symm hne]
  | succ l ih =>
    intro node h A hA hs hy
    obtain ⟨h0, hAn, cs, hc, hch⟩ := hs
    obtain ⟨y, hy⟩ := hy
    have hv := Heap.children_of_cells h0 hc
    simp only [GetLoop, hv] at hy
    have hn0 : h.next ≠ 0 := by have := hA _ hAn; omega
    cases hq : cs[levelBits i (l + 1)]? with
    | none => rw [hq] at hy; cases hy
    | some c =>
      rw [hq] at hy
      have hlt : levelBits i (l + 1) < cs.length := by
        by_contra hcon
        rw [List.getElem?_eq_none (not_lt.mp hcon)] at hq
        cases hq
      have hcm : c ∈ cs := List.mem_iff_getElem?.mpr ⟨_, hq⟩
      -- the heap after the allocation of the new node
      have hal : ∀ b, A b → (h.alloc (Node.PtrNode [])).1.cells b = h.cells b := by
        intro b hb
        have : b ≠ h.next := by have := hA b hb; omega
        simp [Heap.alloc, this]
      have hs1 : Stored (h.alloc (Node.PtrNode [])).1 A l c := Stored.of_cells_eq hal l c (hch c hcm)
      have hy1 : ∃ y, GetLoop (h.alloc (Node.PtrNode [])).1 i l c = some y :=
        ⟨y, by rw [GetLoop_congr hal i l c (hch c hcm)]; exact hy⟩
      obtain ⟨h2, c2, e2, n2, f2, s2, g2, k2⟩ := ih c (h.alloc (Node.PtrNode [])).1 A
        (fun b hb => by have := hA b hb; simp only [Heap.alloc]; omega) hs1 hy1
      have hnx : (h.alloc (Node.PtrNode [])).1.next = h.next + 1 := rfl
      rw [hnx] at n2 f2 s2
      -- the final write goes to the new node only
      have hw : ∀ b, b ≠ h.next →
          (h2.write h.next (Node.PtrNode (cs.set (levelBits i (l + 1)) c2))).cells b =
            h2.cells b := by
        intro b hb
        simp [Heap.write, hb]
      have hold : ∀ b, A b →
          (h2.write h.next (Node.PtrNode (cs.set (levelBits i (l + 1)) c2))).cells b =
            h.cells b := by
        intro b hb
        have h1 := hA b hb
        rw [hw b (by omega), f2 b (by omega), hal b hb]
      have hnew : ∀ b, (A b ∨ (h.next + 1 ≤ b ∧ b < h2.next)) →
          (h2.write h.next (Node.PtrNode (cs.set (levelBits i (l + 1)) c2))).cells b =
            h2.cells b := by
        intro b hb
        refine hw b ?_
        rcases hb with hb | hb
        · have := hA b hb; omega
        · omega
      refine ⟨h2.write h.next (Node.PtrNode (cs.set (levelBits i (l + 1)) c2)), h.next, ?_,
        by simp only [Heap.write]; omega, ?_, ?_, ?_, ?_⟩
      · simp only [Change, hv, hq]
        have : (h.alloc (Node.PtrNode [])).2 = h.next := rfl
        rw [e2, this]
      · intro b hb
        have : b ≠ h.next := by omega
        rw [hw b this, f2 b (by omega)]
        simp [Heap.alloc, this]
      · refine ⟨hn0, Or.inr ⟨le_refl _, by simp only [Heap.write]; omega⟩,
          cs.set (levelBits i (l + 1)) c2, by simp [Heap.write], fun d hd => ?_⟩
        rcases List.mem_or_eq_of_mem_set hd with hd | rfl
        · refine Stored.weaken (fun b hb => Or.inl hb) l d ?_
          exact Stored.of_cells_eq hold l d (hch d hd)
        · refine Stored.weaken ?_ l d (Stored.of_cells_eq hnew l d s2)
          intro b hb
          rcases hb with hb | hb
          · exact Or.inl hb
          · exact Or.inr ⟨by omega, by simpa [Heap.write] using hb.2⟩
      · intro j hj
        have e := hj (l + 1) (le_refl _)
        simp only [GetLoop, Heap.children, hn0, if_false, Heap.write, if_true, e,
          List.getElem?_set, hlt]
        have := GetLoop_congr hnew j l c2 s2
        simp only [Heap.write] at this
        rw [this]
        exact g2 j (fun l2 hl2 => hj l2 (by omega))
      · intro j l2 hl2 hne
        simp only [GetLoop, hv]
        by_cases eq : levelBits j (l + 1) = levelBits i (l + 1)
        · have hl3 : l2 ≤ l := by
            rcases Nat.lt_or_ge l l2 with hlt2 | hge
            · have : l2 = l + 1 := by omega
              subst this
              exact absurd eq hne
            · exact hge
          simp only [Heap.children, hn0, if_false, Heap.write, if_true, eq, List.getElem?_set,
            hlt, hq]
          have := GetLoop_congr hnew j l c2 s2
          simp only [Heap.write] at this
          rw [this, k2 j l2 hl3 hne]
          exact GetLoop_congr hal j l c (hch c hcm)
        · simp only [Heap.children, hn0, if_false, Heap.write, if_true, List.getElem?_set,
            Ne.symm eq]
          cases hd : cs[levelBits j (l + 1)]? with
          | none => rfl
          | some d =>
            have := GetLoop_congr hold j l d (hch d (List.mem_iff_getElem?.mpr ⟨_, hd⟩))
            simp only [Heap.write] at this
            exact this

end ImmutableVector

namespace ImmutableVector
variable {T : Type}

theorem checkStored_sound (h : Heap T) (n : Nat) (l : Nat) :
    ∀ a, checkStored h n l a = true → Stored h (fun b => b < n) l a := by
  induction l with
  | zero =>
    intro a hc
    simp only [checkStored, Bool.and_eq_true, bne_iff_ne, ne_eq, decide_eq_true_eq] at hc
    obtain ⟨⟨h1, h2⟩, h3⟩ := hc
    cases hn : h.cells a with
    | ValueNode vs => exact ⟨h1, h2, vs, hn⟩
    | PtrNode cs => rw [hn] at h3; cases h3
  | succ l ih =>
    intro a hc
    simp only [checkStored, Bool.and_eq_true, bne_iff_ne, ne_eq, decide_eq_true_eq] at hc
    obtain ⟨⟨h1, h2⟩, h3⟩ := hc
    cases hn : h.cells a with
    | ValueNode vs => rw [hn] at h3; cases h3
    | PtrNode cs =>
      rw [hn] at h3
      simp only [List.all_eq_true] at h3
      exact ⟨h1, h2, cs, hn, fun c hm => ih c (h3 c hm)⟩

end ImmutableVector

namespace ImmutableVector
variable {T : Type}

/-! ### The layout of the values in a trie -/

theorem cap_pos (l : Nat) : 0 < cap l := by
  simp [cap, kWidth]

theorem cap_zero : cap 0 = 32 := by
  simp [cap, kWidth]

theorem cap_succ (l : Nat) : cap (l + 1) = 32 * cap l := by
  simp only [cap, kWidth]
  ring

theorem cap_eq (l : Nat) : cap l = 32 ^ (l + 1) := rfl

theorem chunk_get (xs : List T) (W j t : Nat) :
    (chunk xs W j)[t]? = if t < W then xs[j * W + t]? else none := by
  simp [chunk, List.getElem?_take, List.getElem?_drop]

theorem chunk_length (xs : List T) (W j : Nat) :
    (chunk xs W j).length = min W (xs.length - j * W) := by
  simp [chunk, List.length_take, List.length_drop]

/-- The index at a level splits into the child index and the index below it. -/
theorem mod_cap_succ (i l : Nat) :
    i % cap (l + 1) = levelBits i (l + 1) * cap l + i % cap l := by
  rw [levelBits_eq, cap_eq, cap_eq, Nat.mod_pow_succ]
  ring

theorem mod_cap_zero (i : Nat) : i % cap 0 = levelBits i 0 := by
  rw [levelBits_eq, cap_zero]
  simp

theorem Holds.length_le {h : Heap T} {A : Nat → Prop} (l : Nat) :
    ∀ {a : Nat} {xs : List T}, Holds h A l a xs → xs.length ≤ cap l := by
  cases l with
  | zero =>
    intro a xs hs
    rw [cap_zero]
    exact hs.2.2.2
  | succ l =>
    intro a xs hs
    obtain ⟨-, -, cs, -, -, h2, h3, -⟩ := hs
    rw [cap_succ]
    simp only [kWidth] at h2
    calc xs.length ≤ cs.length * cap l := h3
      _ ≤ 32 * cap l := Nat.mul_le_mul_right _ h2

/-- A change of the heap outside the region leaves the trie as it is, also in a
larger region. -/
theorem Holds.frame {h h2 : Heap T} {A B : Nat → Prop}
    (hc : ∀ c, A c → h2.cells c = h.cells c) (hAB : ∀ c, A c → B c) (l : Nat) :
    ∀ {a : Nat} {xs : List T}, Holds h A l a xs → Holds h2 B l a xs := by
  induction l with
  | zero =>
    intro a xs hs
    obtain ⟨h0, h1, h3, h4⟩ := hs
    exact ⟨h0, hAB a h1, by rw [hc a h1]; exact h3, h4⟩
  | succ l ih =>
    intro a xs hs
    obtain ⟨h0, h1, cs, h3, h4, h5, h6, h7, h8⟩ := hs
    exact ⟨h0, hAB a h1, cs, by rw [hc a h1]; exact h3, h4, h5, h6, h7,
      fun j c hj => ih (h8 j c hj)⟩

/-- `Get` on a trie in the layout reads the list of its values. -/
theorem GetLoop_holds {h : Heap T} {A : Nat → Prop} (i : Nat) (l : Nat) :
    ∀ {a : Nat} {xs : List T}, Holds h A l a xs → GetLoop h i l a = xs[i % cap l]? := by
  induction l with
  | zero =>
    intro a xs hs
    obtain ⟨h0, h1, h3, h4⟩ := hs
    simp only [GetLoop, Heap.value_of_cells h0 h3, mod_cap_zero]
  | succ l ih =>
    intro a xs hs
    obtain ⟨h0, h1, cs, h3, h4, h5, h6, h7, h8⟩ := hs
    simp only [GetLoop, Heap.children_of_cells h0 h3]
    cases hq : cs[levelBits i (l + 1)]? with
    | none =>
      have hle : cs.length ≤ levelBits i (l + 1) := List.getElem?_eq_none_iff.mp hq
      symm
      apply List.getElem?_eq_none
      rw [mod_cap_succ]
      calc xs.length ≤ cs.length * cap l := h6
        _ ≤ levelBits i (l + 1) * cap l := Nat.mul_le_mul_right _ hle
        _ ≤ _ := Nat.le_add_right _ _
    | some c =>
      simp only
      rw [ih (h8 _ c hq), chunk_get, if_pos (Nat.mod_lt _ (cap_pos l)), mod_cap_succ]

end ImmutableVector

namespace ImmutableVector
variable {T : Type}

theorem chunk_set_same (xs : List T) {W : Nat} (j t : Nat) (x : T) (ht : t < W) :
    chunk (xs.set (j * W + t) x) W j = (chunk xs W j).set t x := by
  apply List.ext_getElem?
  intro n
  rw [chunk_get, List.getElem?_set, List.getElem?_set, chunk_get, chunk_length]
  by_cases hn : n < W
  · simp only [hn, if_true]
    by_cases e : t = n
    · subst e
      simp only [if_true]
      by_cases hl : j * W + t < xs.length
      · have : t < min W (xs.length - j * W) := by
          rw [lt_min_iff]; exact ⟨ht, by omega⟩
        simp [hl, this]
      · have : ¬ t < min W (xs.length - j * W) := by
          rw [lt_min_iff]; omega
        simp [hl, this]
    · have : ¬ j * W + t = j * W + n := by omega
      simp [e, this]
  · have e : ¬ t = n := by omega
    simp [hn, e]

theorem chunk_set_other (xs : List T) {W : Nat} (j j2 t : Nat) (x : T) (ht : t < W)
    (hne : j2 ≠ j) : chunk (xs.set (j * W + t) x) W j2 = chunk xs W j2 := by
  apply List.ext_getElem?
  intro n
  rw [chunk_get, chunk_get, List.getElem?_set]
  by_cases hn : n < W
  · have : ¬ j * W + t = j2 * W + n := by
      intro e
      rcases Nat.lt_or_gt_of_ne hne with hlt | hgt
      · have : (j2 + 1) * W ≤ j * W := Nat.mul_le_mul_right _ hlt
        rw [Nat.add_mul] at this
        omega
      · have : (j + 1) * W ≤ j2 * W := Nat.mul_le_mul_right _ hgt
        rw [Nat.add_mul] at this
        omega
    simp [hn, this]
  · simp [hn]

/-- `Change` on a trie in the layout: it returns, writes only to cells it
allocates, and the trie it returns holds the list with the entry at the index
replaced. -/
theorem Change_holds (i : Nat) (x : T) (l : Nat) :
    ∀ (a : Nat) (xs : List T) (h : Heap T) (A : Nat → Prop), (∀ b, A b → b < h.next) →
      Holds h A l a xs →
      ∃ h2 a2, Change i x l a h = some (h2, a2) ∧ h.next ≤ h2.next ∧
        (∀ b, b < h.next → h2.cells b = h.cells b) ∧
        Holds h2 (fun b => A b ∨ (h.next ≤ b ∧ b < h2.next)) l a2 (xs.set (i % cap l) x) := by
  induction l with
  | zero =>
    intro a xs h A hA hs
    obtain ⟨h0, hAa, hc, hlen⟩ := hs
    have hv := Heap.value_of_cells h0 hc
    have hn0 : h.next ≠ 0 := by have := hA _ hAa; omega
    refine ⟨_, _, by simp only [Change, hv]; rfl, by simp [Heap.alloc, Heap.write], ?_, ?_⟩
    · intro b hb
      have : b ≠ h.next := by omega
      simp [Heap.alloc, Heap.write, this]
    · exact ⟨hn0, Or.inr ⟨le_refl _, by simp [Heap.alloc, Heap.write]⟩,
        by simp [Heap.alloc, Heap.write, mod_cap_zero], by simpa using hlen⟩
  | succ l ih =>
    intro a xs h A hA hs
    obtain ⟨h0, hAa, cs, hc, hk0, hk1, hle, hlast, hch⟩ := hs
    have hv := Heap.children_of_cells h0 hc
    have hn0 : h.next ≠ 0 := by have := hA _ hAa; omega
    have hal : ∀ b, A b → (h.alloc (Node.PtrNode [])).1.cells b = h.cells b := by
      intro b hb
      have : b ≠ h.next := by have := hA b hb; omega
      simp [Heap.alloc, this]
    cases hq : cs[levelBits i (l + 1)]? with
    | none =>
      have hge : cs.length ≤ levelBits i (l + 1) := List.getElem?_eq_none_iff.mp hq
      have hset : xs.set (i % cap (l + 1)) x = xs := by
        apply List.set_eq_of_length_le
        rw [mod_cap_succ]
        calc xs.length ≤ cs.length * cap l := hle
          _ ≤ levelBits i (l + 1) * cap l := Nat.mul_le_mul_right _ hge
          _ ≤ _ := Nat.le_add_right _ _
      have hold : ∀ b, A b →
          ((h.alloc (Node.PtrNode [])).1.write h.next (Node.PtrNode cs)).cells b = h.cells b := by
        intro b hb
        have : b ≠ h.next := by have := hA b hb; omega
        simp [Heap.alloc, Heap.write, this]
      refine ⟨(h.alloc (Node.PtrNode [])).1.write h.next (Node.PtrNode cs), h.next, ?_,
        by simp [Heap.alloc, Heap.write], ?_, ?_⟩
      · simp only [Change, hv, hq]
        rfl
      · intro b hb
        have : b ≠ h.next := by omega
        simp [Heap.alloc, Heap.write, this]
      · rw [hset]
        refine ⟨hn0, Or.inr ⟨le_refl _, by simp [Heap.alloc, Heap.write]⟩, cs,
          by simp [Heap.write], hk0, hk1, hle, hlast, fun j c hj => ?_⟩
        exact Holds.frame hold (fun b hb => Or.inl hb) l (hch j c hj)
    | some c =>
      have hlt : levelBits i (l + 1) < cs.length := by
        by_contra hcon
        rw [List.getElem?_eq_none (not_lt.mp hcon)] at hq
        cases hq
      have hs1 : Holds (h.alloc (Node.PtrNode [])).1 A l c
          (chunk xs (cap l) (levelBits i (l + 1))) :=
        Holds.frame hal (fun b hb => hb) l (hch _ c hq)
      obtain ⟨h2, c2, e2, n2, f2, s2⟩ := ih c _ (h.alloc (Node.PtrNode [])).1 A
        (fun b hb => by have := hA b hb; simp only [Heap.alloc]; omega) hs1
      have hnx : (h.alloc (Node.PtrNode [])).1.next = h.next + 1 := rfl
      rw [hnx] at n2 f2 s2
      have hw : ∀ b, b ≠ h.next →
          (h2.write h.next (Node.PtrNode (cs.set (levelBits i (l + 1)) c2))).cells b =
            h2.cells b := by
        intro b hb
        simp [Heap.write, hb]
      have hold : ∀ b, A b →
          (h2.write h.next (Node.PtrNode (cs.set (levelBits i (l + 1)) c2))).cells b =
            h.cells b := by
        intro b hb
        have h1 := hA b hb
        rw [hw b (by omega), f2 b (by omega), hal b hb]
      have hnew : ∀ b, (A b ∨ (h.next + 1 ≤ b ∧ b < h2.next)) →
          (h2.write h.next (Node.PtrNode (cs.set (levelBits i (l + 1)) c2))).cells b =
            h2.cells b := by
        intro b hb
        refine hw b ?_
        rcases hb with hb | hb
        · have := hA b hb; omega
        · omega
      refine ⟨h2.write h.next (Node.PtrNode (cs.set (levelBits i (l + 1)) c2)), h.next, ?_,
        by simp only [Heap.write]; omega, ?_, ?_⟩
      · simp only [Change, hv, hq]
        have : (h.alloc (Node.PtrNode [])).2 = h.next := rfl
        rw [e2, this]
      · intro b hb
        have : b ≠ h.next := by omega
        rw [hw b this, f2 b (by omega)]
        simp [Heap.alloc, this]
      · refine ⟨hn0, Or.inr ⟨le_refl _, by simp only [Heap.write]; omega⟩,
          cs.set (levelBits i (l + 1)) c2, by simp [Heap.write], by simpa using hk0,
          by simpa using hk1, by simpa using hle, by simpa using hlast, fun j d hd => ?_⟩
        rw [mod_cap_succ]
        rw [List.getElem?_set] at hd
        by_cases e : levelBits i (l + 1) = j
        · rw [if_pos e, if_pos hlt] at hd
          cases hd
          subst e
          rw [chunk_set_same xs _ _ x (Nat.mod_lt _ (cap_pos l))]
          refine Holds.frame hnew ?_ l s2
          intro b hb
          rcases hb with hb | hb
          · exact Or.inl hb
          · exact Or.inr ⟨by omega, by simpa [Heap.write] using hb.2⟩
        · rw [if_neg e] at hd
          rw [chunk_set_other xs _ j _ x (Nat.mod_lt _ (cap_pos l)) (Ne.symm e)]
          exact Holds.frame hold (fun b hb => Or.inl hb) l (hch j d hd)

end ImmutableVector

namespace ImmutableVector
variable {T : Type}

theorem chunk_append_full (xs ys : List T) {W j : Nat} (h : (j + 1) * W ≤ xs.length) :
    chunk (xs ++ ys) W j = chunk xs W j := by
  apply List.ext_getElem?
  intro n
  rw [chunk_get, chunk_get]
  by_cases hn : n < W
  · rw [if_pos hn, if_pos hn, List.getElem?_append_left]
    rw [Nat.add_mul] at h
    omega
  · rw [if_neg hn, if_neg hn]

theorem chunk_append_last (xs : List T) (x : T) {W j : Nat} (h1 : j * W ≤ xs.length)
    (h2 : xs.length < (j + 1) * W) : chunk (xs ++ [x]) W j = chunk xs W j ++ [x] := by
  rw [Nat.add_mul] at h2
  apply List.ext_getElem?
  intro n
  have hl : (chunk xs W j).length = xs.length - j * W := by
    rw [chunk_length]
    omega
  simp only [chunk_get, List.getElem?_append, hl]
  by_cases hn : n < xs.length - j * W
  · have h3 : n < W := by omega
    have h4 : j * W + n < xs.length := by omega
    simp [hn, h3, h4]
  · by_cases e : n = xs.length - j * W
    · have h3 : n < W := by omega
      have h4 : ¬ j * W + n < xs.length := by omega
      have h5 : j * W + n - xs.length = 0 := by omega
      have h6 : n - (xs.length - j * W) = 0 := by omega
      rw [if_pos h3, if_neg h4, if_neg hn, h5, h6]
    · have h4 : ¬ j * W + n < xs.length := by omega
      have h5 : j * W + n - xs.length = (n - (xs.length - j * W) - 1) + 1 := by omega
      have h6 : n - (xs.length - j * W) = (n - (xs.length - j * W) - 1) + 1 := by omega
      by_cases h3 : n < W
      · rw [if_pos h3, if_neg hn, if_neg h4, h5, h6]
        simp
      · rw [if_neg h3, if_neg hn, h6]
        simp

theorem chunk_eq_nil (xs : List T) {W j : Nat} (h : xs.length ≤ j * W) : chunk xs W j = [] := by
  apply List.eq_nil_of_length_eq_zero
  rw [chunk_length]
  omega

theorem chunk_zero_of_le (xs : List T) {W : Nat} (h : xs.length ≤ W) : chunk xs W 0 = xs := by
  simp [chunk, List.take_of_length_le h]

/-- `AddValue` below a node that was just created without values or children, at
a position whose lower digits are zero: it returns, and the node holds the one
value in the layout; the nodes it creates are new. -/
theorem AddValue_fresh (pos : Nat) (x : T) (l : Nat) :
    ∀ (a : Nat) (h : Heap T), a ≠ 0 → a < h.next →
      h.cells a = (if l = 0 then Node.ValueNode [] else Node.PtrNode []) → pos % cap l = 0 →
      ∃ h2, AddValue pos x l a h = some h2 ∧ h.next ≤ h2.next ∧
        (∀ b, b < h.next → b ≠ a → h2.cells b = h.cells b) ∧
        Holds h2 (fun b => b = a ∨ (h.next ≤ b ∧ b < h2.next)) l a [x] := by
  induction l with
  | zero =>
    intro a h h0 ha hc hp
    simp only [if_true] at hc
    refine ⟨h.write a (Node.ValueNode [x]), ?_, le_refl _, ?_, ?_⟩
    · simp [AddValue, Heap.value_of_cells h0 hc]
    · intro b _ hb
      simp [Heap.write, hb]
    · exact ⟨h0, Or.inl rfl, by simp [Heap.write], by simp [kWidth]⟩
  | succ l ih =>
    intro a h h0 ha hc hp
    simp only [Nat.succ_ne_zero, if_false] at hc
    have hsplit := mod_cap_succ pos l
    rw [hp] at hsplit
    have hb0 : levelBits pos (l + 1) = 0 := by
      rcases Nat.eq_zero_or_pos (levelBits pos (l + 1)) with e | e
      · exact e
      · have := Nat.mul_pos e (cap_pos l)
        omega
    have hp0 : pos % cap l = 0 := by omega
    have hne : h.next ≠ a := by omega
    obtain ⟨h2, e2, n2, f2, s2⟩ := ih h.next
      ((h.alloc (if l = 0 then Node.ValueNode [] else Node.PtrNode [])).1.write a
        (Node.PtrNode ([] ++ [h.next])))
      (by omega) (by simp [Heap.alloc, Heap.write]) (by simp [Heap.alloc, Heap.write, hne]) hp0
    have hnx : ((h.alloc (if l = 0 then Node.ValueNode [] else Node.PtrNode [])).1.write a
        (Node.PtrNode ([] ++ [h.next]))).next = h.next + 1 := rfl
    rw [hnx] at n2 f2 s2
    refine ⟨h2, ?_, by omega, ?_, ?_⟩
    · simp only [AddValue, Heap.children_of_cells h0 hc, hb0, List.length_nil, if_true]
      exact e2
    · intro b hb hba
      rw [f2 b (by omega) (by omega)]
      have : b ≠ h.next := by omega
      simp [Heap.alloc, Heap.write, hba, this]
    · refine ⟨h0, Or.inl rfl, [h.next], ?_, by simp, by simp [kWidth], ?_, by simp, ?_⟩
      · rw [f2 a (by omega) (by omega)]
        simp [Heap.write]
      · have := cap_pos l
        simp only [List.length_singleton]
        omega
      · intro j c hj
        have hj0 : j = 0 := by
          rcases j with _ | j
          · rfl
          · simp at hj
        subst hj0
        simp only [List.getElem?_cons_zero, Option.some.injEq] at hj
        subst hj
        rw [chunk_zero_of_le [x] (by have := cap_pos l; simp only [List.length_singleton]; omega)]
        refine Holds.frame (fun _ _ => rfl) ?_ l s2
        intro b hb
        rcases hb with hb | hb
        · exact Or.inr ⟨by omega, by omega⟩
        · exact Or.inr ⟨by omega, hb.2⟩

end ImmutableVector

namespace ImmutableVector
variable {T : Type}

/-- `AddNewValue` on a trie in the layout that is not full, at the position after
its last value: it returns, writes only to cells it allocates, and the trie it
returns holds the list with the value appended. -/
theorem AddNewValue_holds (pos : Nat) (x : T) (l : Nat) :
    ∀ (a : Nat) (xs : List T) (h : Heap T) (A : Nat → Prop), (∀ b, A b → b < h.next) →
      Holds h A l a xs → xs.length < cap l → pos % cap l = xs.length →
      ∃ h2 a2, AddNewValue pos x l a h = some (h2, a2) ∧ h.next ≤ h2.next ∧
        (∀ b, b < h.next → h2.cells b = h.cells b) ∧
        Holds h2 (fun b => A b ∨ (h.next ≤ b ∧ b < h2.next)) l a2 (xs ++ [x]) := by
  induction l with
  | zero =>
    intro a xs h A hA hs hlt hp
    obtain ⟨h0, hAa, hc, hlen⟩ := hs
    have hn0 : h.next ≠ 0 := by have := hA _ hAa; omega
    rw [cap_zero] at hlt
    refine ⟨_, _, by simp only [AddNewValue, Heap.value_of_cells h0 hc]; rfl, by simp [Heap.alloc],
      ?_, ?_⟩
    · intro b hb
      have : b ≠ h.next := by omega
      simp [Heap.alloc, this]
    · exact ⟨hn0, Or.inr ⟨le_refl _, by simp [Heap.alloc]⟩, by simp [Heap.alloc],
        by simp only [List.length_append, List.length_singleton, kWidth]; omega⟩
  | succ l ih =>
    intro a xs h A hA hs hlt hp
    obtain ⟨h0, hAa, cs, hc, hk0, hk1, hle, hlast, hch⟩ := hs
    have hv := Heap.children_of_cells h0 hc
    have hn0 : h.next ≠ 0 := by have := hA _ hAa; omega
    have hW := cap_pos l
    have hsplit := mod_cap_succ pos l
    rw [hp] at hsplit
    have hm : pos % cap l < cap l := Nat.mod_lt _ hW
    rw [cap_succ] at hlt
    simp only [kWidth] at hk1
    by_cases hk : cs.length = levelBits pos (l + 1)
    · -- the last child is full: a new child takes the value
      have hfull : xs.length = cs.length * cap l := by
        rw [hk] at hle ⊢
        omega
      have hp0 : pos % cap l = 0 := by
        rw [hk] at hfull
        omega
      have hk2 : cs.length < 32 := by
        rw [hfull] at hlt
        exact Nat.lt_of_mul_lt_mul_right hlt
      obtain ⟨h2, e2, n2, f2, s2⟩ := AddValue_fresh pos x l (h.next + 1)
        (((h.alloc (Node.PtrNode cs)).1.alloc
          (if l = 0 then Node.ValueNode [] else Node.PtrNode [])).1.write h.next
            (Node.PtrNode (cs ++ [h.next + 1])))
        (by omega) (by simp [Heap.alloc, Heap.write]) (by simp [Heap.alloc, Heap.write]) hp0
      have hnx : (((h.alloc (Node.PtrNode cs)).1.alloc
          (if l = 0 then Node.ValueNode [] else Node.PtrNode [])).1.write h.next
            (Node.PtrNode (cs ++ [h.next + 1]))).next = h.next + 2 := rfl
      rw [hnx] at n2 f2 s2
      have hold : ∀ b, b < h.next → h2.cells b = h.cells b := by
        intro b hb
        rw [f2 b (by omega) (by omega)]
        have e1 : b ≠ h.next := by omega
        have e3 : b ≠ h.next + 1 := by omega
        simp [Heap.alloc, Heap.write, e1, e3]
      refine ⟨h2, h.next, ?_, by omega, hold, ?_⟩
      · simp only [AddNewValue, hv, hk, if_true]
        have e1 : (h.alloc (Node.PtrNode cs)).2 = h.next := rfl
        have e3 : ((h.alloc (Node.PtrNode cs)).1.alloc
          (if l = 0 then Node.ValueNode [] else Node.PtrNode [])).2 = h.next + 1 := rfl
        rw [e1, e3, e2]
      · refine ⟨hn0, Or.inr ⟨le_refl _, by omega⟩, cs ++ [h.next + 1], ?_, by simp, ?_, ?_, ?_, ?_⟩
        · rw [f2 h.next (by omega) (by omega)]
          simp [Heap.write]
        · simp only [List.length_append, List.length_singleton, kWidth]
          omega
        · simp only [List.length_append, List.length_singleton, Nat.add_mul]
          omega
        · intro _
          simp only [List.length_append, List.length_singleton, Nat.add_sub_cancel]
          omega
        · intro j c hj
          rw [List.getElem?_append] at hj
          by_cases hjl : j < cs.length
          · rw [if_pos hjl] at hj
            have : (j + 1) * cap l ≤ xs.length := by
              rw [hfull]
              exact Nat.mul_le_mul_right _ hjl
            rw [chunk_append_full xs [x] this]
            exact Holds.frame (fun b hb => hold b (hA b hb)) (fun b hb => Or.inl hb) l
              (hch j c hj)
          · rw [if_neg hjl] at hj
            have hj0 : j = cs.length := by
              rcases Nat.lt_or_ge cs.length j with hgt | hge
              · have : j - cs.length = (j - cs.length - 1) + 1 := by omega
                rw [this] at hj
                simp at hj
              · omega
            subst hj0
            simp only [Nat.sub_self, List.getElem?_cons_zero, Option.some.injEq] at hj
            subst hj
            rw [chunk_append_last xs x (le_of_eq hfull.symm) (by rw [Nat.add_mul]; omega),
              chunk_eq_nil xs (le_of_eq hfull), List.nil_append]
            refine Holds.frame (fun _ _ => rfl) ?_ l s2
            intro b hb
            rcases hb with hb | hb
            · exact Or.inr ⟨by omega, by omega⟩
            · exact Or.inr ⟨by omega, hb.2⟩
    · -- the last child has room: the value goes below it
      have hcb1 : levelBits pos (l + 1) ≤ cs.length := by
        have : levelBits pos (l + 1) * cap l ≤ cs.length * cap l := by omega
        exact Nat.le_of_mul_le_mul_right this hW
      have hcb2 : cs.length ≤ levelBits pos (l + 1) + 1 := by
        rcases Nat.lt_or_ge 1 cs.length with h1 | h1
        · have h3 := hlast h1
          have : (cs.length - 1) * cap l < (levelBits pos (l + 1) + 1) * cap l := by
            rw [Nat.add_mul]
            omega
          have := Nat.lt_of_mul_lt_mul_right this
          omega
        · omega
      have hke : cs.length = levelBits pos (l + 1) + 1 := by omega
      have hq : ∃ back, cs[levelBits pos (l + 1)]? = some back :=
        ⟨cs[levelBits pos (l + 1)], List.getElem?_eq_getElem (by omega)⟩
      obtain ⟨back, hq⟩ := hq
      have hgl : cs.getLast? = some back := by
        rw [List.getLast?_eq_getElem?, hke, Nat.add_sub_cancel]
        exact hq
      have hal : ∀ b, A b → (h.alloc (Node.PtrNode cs)).1.cells b = h.cells b := by
        intro b hb
        have : b ≠ h.next := by have := hA b hb; omega
        simp [Heap.alloc, this]
      have hX : (chunk xs (cap l) (levelBits pos (l + 1))).length = pos % cap l := by
        rw [chunk_length]
        omega
      have hs1 : Holds (h.alloc (Node.PtrNode cs)).1 A l back
          (chunk xs (cap l) (levelBits pos (l + 1))) :=
        Holds.frame hal (fun b hb => hb) l (hch _ back hq)
      obtain ⟨h2, c2, e2, n2, f2, s2⟩ := ih back _ (h.alloc (Node.PtrNode cs)).1 A
        (fun b hb => by have := hA b hb; simp only [Heap.alloc]; omega) hs1
        (by rw [hX]; exact hm) hX.symm
      have hnx : (h.alloc (Node.PtrNode cs)).1.next = h.next + 1 := rfl
      rw [hnx] at n2 f2 s2
      have hw : ∀ b, b ≠ h.next →
          (h2.write h.next (Node.PtrNode (cs.dropLast ++ [c2]))).cells b = h2.cells b := by
        intro b hb
        simp [Heap.write, hb]
      have hold : ∀ b, A b →
          (h2.write h.next (Node.PtrNode (cs.dropLast ++ [c2]))).cells b = h.cells b := by
        intro b hb
        have h1 := hA b hb
        rw [hw b (by omega), f2 b (by omega), hal b hb]
      have hnew : ∀ b, (A b ∨ (h.next + 1 ≤ b ∧ b < h2.next)) →
          (h2.write h.next (Node.PtrNode (cs.dropLast ++ [c2]))).cells b = h2.cells b := by
        intro b hb
        refine hw b ?_
        rcases hb with hb | hb
        · have := hA b hb; omega
        · omega
      refine ⟨h2.write h.next (Node.PtrNode (cs.dropLast ++ [c2])), h.next, ?_,
        by simp only [Heap.write]; omega, ?_, ?_⟩
      · simp only [AddNewValue, hv, hk, if_false, hgl]
        have : (h.alloc (Node.PtrNode cs)).2 = h.next := rfl
        rw [e2, this]
      · intro b hb
        have : b ≠ h.next := by omega
        rw [hw b this, f2 b (by omega)]
        simp [Heap.alloc, this]
      · have hlen : (cs.dropLast ++ [c2]).length = cs.length := by
          simp only [List.length_append, List.length_dropLast, List.length_singleton]
          omega
        refine ⟨hn0, Or.inr ⟨le_refl _, by simp only [Heap.write]; omega⟩,
          cs.dropLast ++ [c2], by simp [Heap.write], by rw [hlen]; exact hk0,
          by rw [hlen]; exact hk1, ?_, ?_, ?_⟩
        · rw [hlen, hke, Nat.add_mul]
          simp only [List.length_append, List.length_singleton]
          omega
        · intro _
          rw [hlen, hke, Nat.add_sub_cancel]
          simp only [List.length_append, List.length_singleton]
          omega
        · intro j d hd
          rw [List.getElem?_append, List.length_dropLast, hke, Nat.add_sub_cancel] at hd
          by_cases hjl : j < levelBits pos (l + 1)
          · rw [if_pos hjl, List.getElem?_dropLast, hke, Nat.add_sub_cancel, if_pos hjl] at hd
            have : (j + 1) * cap l ≤ xs.length := by
              have h5 : (j + 1) * cap l ≤ levelBits pos (l + 1) * cap l :=
                Nat.mul_le_mul_right _ hjl
              omega
            rw [chunk_append_full xs [x] this]
            exact Holds.frame hold (fun b hb => Or.inl hb) l (hch j d hd)
          · rw [if_neg hjl] at hd
            have hj0 : j = levelBits pos (l + 1) := by
              rcases Nat.lt_or_ge (levelBits pos (l + 1)) j with hgt | hge
              · have : j - levelBits pos (l + 1) = (j - levelBits pos (l + 1) - 1) + 1 := by
                  omega
                rw [this] at hd
                simp at hd
              · omega
            subst hj0
            simp only [Nat.sub_self, List.getElem?_cons_zero, Option.some.injEq] at hd
            subst hd
            rw [chunk_append_last xs x (by omega) (by rw [Nat.add_mul]; omega)]
            refine Holds.frame hnew ?_ l s2
            intro b hb
            rcases hb with hb | hb
            · exact Or.inl hb
            · exact Or.inr ⟨by omega, by simpa [Heap.write] using hb.2⟩

end ImmutableVector

namespace ImmutableVector
variable {T : Type}

theorem chunk_dropLast_full (xs : List T) {W j : Nat} (h : (j + 1) * W ≤ xs.length - 1) :
    chunk xs.dropLast W j = chunk xs W j := by
  rw [Nat.add_mul] at h
  apply List.ext_getElem?
  intro n
  rw [chunk_get, chunk_get, List.getElem?_dropLast]
  by_cases hn : n < W
  · have : j * W + n < xs.length - 1 := by omega
    simp only [hn, this, if_true]
  · simp only [hn, if_false]

theorem chunk_dropLast_last (xs : List T) {W j : Nat} (h1 : j * W < xs.length)
    (h2 : xs.length ≤ (j + 1) * W) : chunk xs.dropLast W j = (chunk xs W j).dropLast := by
  rw [Nat.add_mul] at h2
  have hl : (chunk xs W j).length = xs.length - j * W := by
    rw [chunk_length]
    omega
  apply List.ext_getElem?
  intro n
  rw [chunk_get, List.getElem?_dropLast, List.getElem?_dropLast, hl, chunk_get]
  by_cases hn : n < xs.length - j * W - 1
  · have h3 : n < W := by omega
    have h4 : j * W + n < xs.length - 1 := by omega
    rw [if_pos h3, if_pos h4, if_pos hn, if_pos h3]
  · have h4 : ¬ j * W + n < xs.length - 1 := by omega
    rw [if_neg hn, if_neg h4]
    simp

theorem Holds.ne_zero {h : Heap T} {A : Nat → Prop} {l a : Nat} {xs : List T}
    (hs : Holds h A l a xs) : a ≠ 0 := by
  cases l with
  | zero => exact hs.1
  | succ l => exact hs.1

/-- `PopValue` on a trie in the layout that holds a value, with a position not
below the index of its last value: it returns and writes only to cells it
allocates; it returns `nullptr` exactly when the trie holds one value and the
position is not zero, and else a trie that holds the list without its last
value. -/
theorem PopValue_holds (pos : Nat) (l : Nat) :
    ∀ (a : Nat) (xs : List T) (h : Heap T) (A : Nat → Prop), (∀ b, A b → b < h.next) →
      Holds h A l a xs → xs ≠ [] → xs.length ≤ pos + 1 →
      ∃ h2 a2, PopValue pos l a h = some (h2, a2) ∧ h.next ≤ h2.next ∧
        (∀ b, b < h.next → h2.cells b = h.cells b) ∧
        ((a2 = 0 ∧ xs.length = 1 ∧ pos ≠ 0) ∨
          (¬ (xs.length = 1 ∧ pos ≠ 0) ∧
            Holds h2 (fun b => A b ∨ (h.next ≤ b ∧ b < h2.next)) l a2 xs.dropLast)) := by
  induction l with
  | zero =>
    intro a xs h A hA hs hne hpos
    obtain ⟨h0, hAa, hc, hlen⟩ := hs
    have hn0 : h.next ≠ 0 := by have := hA _ hAa; omega
    by_cases hone : xs.length = 1 ∧ pos ≠ 0
    · exact ⟨h, 0, by simp only [PopValue, Heap.value_of_cells h0 hc]; rw [if_pos hone],
        le_refl _, fun _ _ => rfl, Or.inl ⟨rfl, hone⟩⟩
    · refine ⟨(h.alloc (Node.ValueNode xs.dropLast)).1, h.next, ?_, by simp [Heap.alloc], ?_,
        Or.inr ⟨hone, ?_⟩⟩
      · simp only [PopValue, Heap.value_of_cells h0 hc]
        rw [if_neg hone]
        rfl
      · intro b hb
        have : b ≠ h.next := by omega
        simp [Heap.alloc, this]
      · exact ⟨hn0, Or.inr ⟨le_refl _, by simp [Heap.alloc]⟩, by simp [Heap.alloc],
          by simp only [List.length_dropLast]; omega⟩
  | succ l ih =>
    intro a xs h A hA hs hne hpos
    obtain ⟨h0, hAa, cs, hc, hk0, hk1, hle, hlast, hch⟩ := hs
    have hv := Heap.children_of_cells h0 hc
    have hn0 : h.next ≠ 0 := by have := hA _ hAa; omega
    have hW := cap_pos l
    have hxl : 0 < xs.length := List.length_pos.mpr hne
    obtain ⟨k, hk⟩ : ∃ k, cs.length = k + 1 := ⟨cs.length - 1, by omega⟩
    rw [hk] at hle hlast hk1
    rw [Nat.add_mul] at hle
    simp only [Nat.add_sub_cancel, Nat.lt_add_left_iff_pos, Nat.one_mul] at hlast hle
    have hkW : k * cap l < xs.length := by
      rcases Nat.eq_zero_or_pos k with e | e
      · rw [e]; omega
      · exact hlast e
    have hq : ∃ back, cs[k]? = some back := ⟨cs[k], List.getElem?_eq_getElem (by omega)⟩
    obtain ⟨back, hq⟩ := hq
    have hgl : cs.getLast? = some back := by
      rw [List.getLast?_eq_getElem?, hk, Nat.add_sub_cancel]
      exact hq
    have hX : (chunk xs (cap l) k).length = xs.length - k * cap l := by
      rw [chunk_length]
      omega
    have hXne : chunk xs (cap l) k ≠ [] := by
      intro e
      rw [e] at hX
      simp only [List.length_nil] at hX
      omega
    have hal : ∀ b, A b → (h.alloc (Node.PtrNode cs)).1.cells b = h.cells b := by
      intro b hb
      have : b ≠ h.next := by have := hA b hb; omega
      simp [Heap.alloc, this]
    have hs1 : Holds (h.alloc (Node.PtrNode cs)).1 A l back (chunk xs (cap l) k) :=
      Holds.frame hal (fun b hb => hb) l (hch _ back hq)
    obtain ⟨h2, c2, e2, n2, f2, d2⟩ := ih back _ (h.alloc (Node.PtrNode cs)).1 A
      (fun b hb => by have := hA b hb; simp only [Heap.alloc]; omega) hs1 hXne
      (by rw [hX]; omega)
    have hnx : (h.alloc (Node.PtrNode cs)).1.next = h.next + 1 := rfl
    have hr2 : (h.alloc (Node.PtrNode cs)).2 = h.next := rfl
    rw [hnx] at n2 f2 d2
    have hfr : ∀ b, b < h.next → h2.cells b = h.cells b := by
      intro b hb
      have : b ≠ h.next := by omega
      rw [f2 b (by omega)]
      simp [Heap.alloc, this]
    have hw : ∀ (N : Node T) (b : Nat), b ≠ h.next → (h2.write h.next N).cells b = h2.cells b := by
      intro N b hb
      simp [Heap.write, hb]
    have hold : ∀ (N : Node T) (b : Nat), A b → (h2.write h.next N).cells b = h.cells b := by
      intro N b hb
      have h1 := hA b hb
      rw [hw N b (by omega), hfr b h1]
    have hnew : ∀ (N : Node T) (b : Nat), (A b ∨ (h.next + 1 ≤ b ∧ b < h2.next)) →
        (h2.write h.next N).cells b = h2.cells b := by
      intro N b hb
      refine hw N b ?_
      rcases hb with hb | hb
      · have := hA b hb; omega
      · omega
    rcases d2 with ⟨hc0, hX1, hp0⟩ | ⟨hnot, s2⟩
    · -- the last child held one value and is dropped
      rw [hX] at hX1
      by_cases hk1' : k = 0
      · refine ⟨h2, 0, ?_, by omega, hfr, Or.inl ⟨rfl, ?_, hp0⟩⟩
        · simp only [PopValue, hv, hgl, e2, hc0, if_true, hk, hk1']
        · rw [hk1'] at hX1
          omega
      · have hkp : 0 < k := Nat.pos_of_ne_zero hk1'
        refine ⟨h2.write h.next (Node.PtrNode cs.dropLast), h.next, ?_,
          by simp only [Heap.write]; omega, ?_, Or.inr ⟨?_, ?_⟩⟩
        · simp only [PopValue, hv, hgl, e2, hc0, if_true, hk, hr2]
          rw [if_neg (by omega)]
        · intro b hb
          rw [hw _ b (by omega), hfr b hb]
        · rintro ⟨h1, -⟩
          have : 1 * cap l ≤ k * cap l := Nat.mul_le_mul_right _ hkp
          omega
        · have hlen : cs.dropLast.length = k := by
            rw [List.length_dropLast, hk, Nat.add_sub_cancel]
          refine ⟨hn0, Or.inr ⟨le_refl _, by simp only [Heap.write]; omega⟩, cs.dropLast,
            by simp [Heap.write], by rw [hlen]; exact hkp, by rw [hlen]; omega, ?_, ?_, ?_⟩
          · rw [hlen, List.length_dropLast]
            omega
          · intro h1
            rw [hlen, List.length_dropLast]
            obtain ⟨k2, rfl⟩ : ∃ k2, k = k2 + 1 := ⟨k - 1, by omega⟩
            rw [Nat.add_mul] at hX1
            rw [Nat.add_sub_cancel]
            omega
          · intro j c hj
            rw [List.getElem?_dropLast, hk, Nat.add_sub_cancel] at hj
            by_cases hjl : j < k
            · rw [if_pos hjl] at hj
              have h5 : (j + 1) * cap l ≤ k * cap l := Nat.mul_le_mul_right _ hjl
              rw [chunk_dropLast_full xs (by omega)]
              exact Holds.frame (hold _) (fun b hb => Or.inl hb) l (hch j c hj)
            · rw [if_neg hjl] at hj
              cases hj
    · -- the last child loses its last value
      have hc2 : c2 ≠ 0 := s2.ne_zero
      rw [hX] at hnot
      have hlen : (cs.dropLast ++ [c2]).length = k + 1 := by
        simp only [List.length_append, List.length_dropLast, List.length_singleton, hk,
          Nat.add_sub_cancel]
      refine ⟨h2.write h.next (Node.PtrNode (cs.dropLast ++ [c2])), h.next, ?_,
        by simp only [Heap.write]; omega, ?_, Or.inr ⟨?_, ?_⟩⟩
      · simp only [PopValue, hv, hgl, e2, hr2]
        rw [if_neg hc2]
      · intro b hb
        rw [hw _ b (by omega), hfr b hb]
      · rintro ⟨h1, hp⟩
        apply hnot
        refine ⟨?_, hp⟩
        rcases Nat.eq_zero_or_pos k with e | e
        · rw [e]; omega
        · have : 1 * cap l ≤ k * cap l := Nat.mul_le_mul_right _ e
          omega
      · refine ⟨hn0, Or.inr ⟨le_refl _, by simp only [Heap.write]; omega⟩,
          cs.dropLast ++ [c2], by simp [Heap.write], by rw [hlen]; omega,
          by rw [hlen]; exact hk1, ?_, ?_, ?_⟩
        · rw [hlen, List.length_dropLast, Nat.add_mul]
          omega
        · intro h1
          rw [hlen, Nat.add_sub_cancel, List.length_dropLast]
          have hkp : 0 < k := by rw [hlen] at h1; omega
          have h5 : 1 * cap l ≤ k * cap l := Nat.mul_le_mul_right _ hkp
          by_contra hcon
          apply hnot
          refine ⟨by omega, ?_⟩
          omega
        · intro j d hd
          rw [List.getElem?_append, List.length_dropLast, hk, Nat.add_sub_cancel] at hd
          by_cases hjl : j < k
          · rw [if_pos hjl, List.getElem?_dropLast, hk, Nat.add_sub_cancel, if_pos hjl] at hd
            have h5 : (j + 1) * cap l ≤ k * cap l := Nat.mul_le_mul_right _ hjl
            rw [chunk_dropLast_full xs (by omega)]
            exact Holds.frame (hold _) (fun b hb => Or.inl hb) l (hch j d hd)
          · rw [if_neg hjl] at hd
            have hj0 : j = k := by
              rcases Nat.lt_or_ge k j with hgt | hge
              · have : j - k = (j - k - 1) + 1 := by omega
                rw [this] at hd
                simp at hd
              · omega
            subst hj0
            simp only [Nat.sub_self, List.getElem?_cons_zero, Option.some.injEq] at hd
            subst hd
            rw [chunk_dropLast_last xs hkW (by rw [Nat.add_mul]; omega)]
            refine Holds.frame (hnew _) ?_ l s2
            intro b hb
            rcases hb with hb | hb
            · exact Or.inl hb
            · exact Or.inr ⟨by omega, by simpa [Heap.write] using hb.2⟩

end ImmutableVector

namespace ImmutableVector
variable {T : Type}

/-! ### The vectors built from the empty one -/

theorem cap_root : cap kRootLevel = 2 ^ kStartingBit := by
  norm_num [cap, kRootLevel, kWidth, kStartingBit]

theorem levelBits_zero (l : Nat) : levelBits 0 l = 0 := by
  rw [levelBits_eq]
  simp

/-- `CreateNodePartial` for the number zero builds, in new cells, a trie that
holds no value. -/
theorem CreateNodePartial_zero (l : Nat) :
    ∀ (h : Heap T), 0 < h.next →
      (CreateNodePartial 0 l h).2 = h.next ∧ h.next < (CreateNodePartial 0 l h).1.next ∧
      (∀ b, b < h.next → (CreateNodePartial 0 l h).1.cells b = h.cells b) ∧
      Holds (CreateNodePartial 0 l h).1
        (fun b => h.next ≤ b ∧ b < (CreateNodePartial 0 l h).1.next) l h.next [] := by
  induction l with
  | zero =>
    intro h hp
    refine ⟨rfl, by simp [CreateNodePartial, Heap.alloc], ?_, ?_⟩
    · intro b hb
      have : b ≠ h.next := by omega
      simp [CreateNodePartial, Heap.alloc, this]
    · exact ⟨by omega, ⟨le_refl _, by simp [CreateNodePartial, Heap.alloc]⟩,
        by simp [CreateNodePartial, Heap.alloc], by simp⟩
  | succ l ih =>
    intro h hp
    obtain ⟨i1, i2, i3, i4⟩ := ih (h.alloc (Node.PtrNode [])).1 (by simp [Heap.alloc])
    have hnx : (h.alloc (Node.PtrNode [])).1.next = h.next + 1 := rfl
    rw [hnx] at i1 i2 i3 i4
    have hcell : (CreateNodePartial 0 l (h.alloc (Node.PtrNode [])).1).1.cells h.next =
        Node.PtrNode [] := by
      rw [i3 h.next (by omega)]
      simp [Heap.alloc]
    have e : CreateNodePartial 0 (l + 1) h =
        ((CreateNodePartial 0 l (h.alloc (Node.PtrNode [])).1).1.write h.next
          (Node.PtrNode [h.next + 1]), h.next) := by
      simp only [CreateNodePartial, levelBits_zero, pushChildren]
      have hr2 : (h.alloc (Node.PtrNode [])).2 = h.next := rfl
      rw [hr2, i1]
      simp only [Heap.pushBack, hcell, List.nil_append]
    rw [e]
    refine ⟨rfl, by simp only [Heap.write]; omega, ?_, ?_⟩
    · intro b hb
      have : b ≠ h.next := by omega
      simp only [Heap.write, this, if_false]
      rw [i3 b (by omega)]
      simp [Heap.alloc, this]
    · refine ⟨by omega, ⟨le_refl _, by simp only [Heap.write]; omega⟩, [h.next + 1],
        by simp [Heap.write], by simp, by simp [kWidth], by simp, by simp, ?_⟩
      intro j c hj
      have hj0 : j = 0 := by
        rcases j with _ | j
        · rfl
        · simp at hj
      subst hj0
      simp only [List.getElem?_cons_zero, Option.some.injEq] at hj
      subst hj
      rw [chunk_eq_nil [] (by simp)]
      refine Holds.frame ?_ ?_ l i4
      · intro b hb
        have : b ≠ h.next := by omega
        simp [Heap.write, this]
      · intro b hb
        exact ⟨by omega, by simpa [Heap.write] using hb.2⟩

theorem Rep.new_rep (h : Heap T) (hp : 0 < h.next) :
    Rep (Vector.new h).1 (Vector.new h).2 [] := by
  obtain ⟨i1, i2, i3, i4⟩ := CreateNodePartial_zero kRootLevel h hp
  refine ⟨?_, rfl⟩
  simp only [Vector.new, i1]
  exact Holds.frame (fun _ _ => rfl) (fun b hb => hb.2) kRootLevel i4

/-- A vector stays what it is when the heap grows. -/
theorem Rep.later {h h2 : Heap T} {v : Vector} {xs : List T} (hr : Rep h v xs)
    (hn : h.next ≤ h2.next) (hf : ∀ b, b < h.next → h2.cells b = h.cells b) : Rep h2 v xs :=
  ⟨Holds.frame hf (fun _ hb => lt_of_lt_of_le hb hn) kRootLevel hr.1, hr.2⟩

theorem Rep.get {h : Heap T} {v : Vector} {xs : List T} (hr : Rep h v xs) (i : Nat) :
    Vector.Get h v i = xs[i % 2 ^ kStartingBit]? := by
  rw [← cap_root]
  exact GetLoop_holds i kRootLevel hr.1

theorem Rep.size_le {h : Heap T} {v : Vector} {xs : List T} (hr : Rep h v xs) :
    v.size_ ≤ 2 ^ kStartingBit := by
  rw [hr.2, ← cap_root]
  exact Holds.length_le kRootLevel hr.1

theorem Rep.set_rep {h : Heap T} {v : Vector} {xs : List T} (hr : Rep h v xs) (i : Nat) (x : T) :
    ∃ h2 w, Vector.Set h v i x = some (h2, w) ∧ h.next ≤ h2.next ∧
      (∀ b, b < h.next → h2.cells b = h.cells b) ∧
      Rep h2 w (xs.set (i % 2 ^ kStartingBit) x) := by
  obtain ⟨h2, a2, e, n2, f2, s2⟩ :=
    Change_holds i x kRootLevel v.root_ xs h (fun b => b < h.next) (fun b hb => hb) hr.1
  refine ⟨h2, { root_ := a2, size_ := v.size_ }, by simp [Vector.Set, e], n2, f2, ?_, ?_⟩
  · rw [← cap_root]
    refine Holds.frame (fun _ _ => rfl) ?_ kRootLevel s2
    intro b hb
    rcases hb with hb | hb
    · exact lt_of_lt_of_le hb n2
    · exact hb.2
  · simp [hr.2]

theorem Rep.push_rep {h : Heap T} {v : Vector} {xs : List T} (hr : Rep h v xs)
    (hlt : v.size_ < 2 ^ kStartingBit) (x : T) :
    ∃ h2 w, Vector.PushBack h v x = some (h2, w) ∧ h.next ≤ h2.next ∧
      (∀ b, b < h.next → h2.cells b = h.cells b) ∧ Rep h2 w (xs ++ [x]) := by
  have hl : xs.length < cap kRootLevel := by rw [cap_root, ← hr.2]; exact hlt
  obtain ⟨h2, a2, e, n2, f2, s2⟩ :=
    AddNewValue_holds v.size_ x kRootLevel v.root_ xs h (fun b => b < h.next) (fun b hb => hb)
      hr.1 hl (by rw [hr.2]; exact Nat.mod_eq_of_lt hl)
  refine ⟨h2, { root_ := a2, size_ := (v.size_ + 1) % VEC_SIZE_WRAP },
    by simp [Vector.PushBack, e], n2, f2, ?_, ?_⟩
  · refine Holds.frame (fun _ _ => rfl) ?_ kRootLevel s2
    intro b hb
    rcases hb with hb | hb
    · exact lt_of_lt_of_le hb n2
    · exact hb.2
  · have : v.size_ + 1 < VEC_SIZE_WRAP := by
      simp only [kStartingBit] at hlt
      simp only [VEC_SIZE_WRAP]
      omega
    show (v.size_ + 1) % VEC_SIZE_WRAP = (xs ++ [x]).length
    rw [Nat.mod_eq_of_lt this, hr.2]
    simp

theorem Rep.pop_rep {h : Heap T} {v : Vector} {xs : List T} (hr : Rep h v xs)
    (hpos : 0 < v.size_) :
    ∃ h2 w, Vector.PopBack h v = some (h2, w) ∧ h.next ≤ h2.next ∧
      (∀ b, b < h.next → h2.cells b = h.cells b) ∧ Rep h2 w xs.dropLast := by
  have hle := hr.size_le
  have hlast : (v.size_ + VEC_SIZE_WRAP - 1) % VEC_SIZE_WRAP = v.size_ - 1 := by
    have e : v.size_ + VEC_SIZE_WRAP - 1 = (v.size_ - 1) + VEC_SIZE_WRAP := by omega
    rw [e, Nat.add_mod_right]
    apply Nat.mod_eq_of_lt
    simp only [kStartingBit] at hle
    simp only [VEC_SIZE_WRAP]
    omega
  have hne : xs ≠ [] := by
    intro e
    rw [hr.2, e] at hpos
    simp at hpos
  obtain ⟨h2, a2, e, n2, f2, d2⟩ :=
    PopValue_holds (v.size_ - 1) kRootLevel v.root_ xs h (fun b => b < h.next) (fun b hb => hb)
      hr.1 hne (by rw [hr.2]; omega)
  rcases d2 with ⟨-, h1, h3⟩ | ⟨-, s2⟩
  · rw [hr.2] at h3
    omega
  · refine ⟨h2, { root_ := a2, size_ := v.size_ - 1 }, by simp [Vector.PopBack, hlast, e],
      n2, f2, ?_, ?_⟩
    · refine Holds.frame (fun _ _ => rfl) ?_ kRootLevel s2
      intro b hb
      rcases hb with hb | hb
      · exact lt_of_lt_of_le hb n2
      · exact hb.2
    · simp [hr.2]

end ImmutableVector

namespace ImmutableVector
variable {T : Type}

/-! ### The count constructor -/

theorem chunk_replicate (v : T) (n W j : Nat) :
    chunk (List.replicate n v) W j = List.replicate (min W (n - j * W)) v := by
  simp [chunk, List.drop_replicate, List.take_replicate]

/-- The loop that pushes `n` children made by `mk` to the node: each child is a
new trie that holds `ys`; only the node and new cells are written. -/
theorem pushChildren_spec {mk : Heap T → Heap T × Nat} {l : Nat} {ys : List T}
    (hmk : ∀ h : Heap T, 0 < h.next →
      (mk h).2 = h.next ∧ h.next < (mk h).1.next ∧
      (∀ b, b < h.next → (mk h).1.cells b = h.cells b) ∧
      Holds (mk h).1 (fun b => h.next ≤ b ∧ b < (mk h).1.next) l h.next ys) (n : Nat) :
    ∀ (h : Heap T) (node : Nat) (cs : List Nat), node ≠ 0 → node < h.next →
      h.cells node = Node.PtrNode cs →
      h.next ≤ (pushChildren mk n h node).next ∧
      (∀ b, b < h.next → b ≠ node → (pushChildren mk n h node).cells b = h.cells b) ∧
      ∃ new : List Nat, new.length = n ∧
        (pushChildren mk n h node).cells node = Node.PtrNode (cs ++ new) ∧
        ∀ c ∈ new, Holds (pushChildren mk n h node)
          (fun b => h.next ≤ b ∧ b < (pushChildren mk n h node).next) l c ys := by
  induction n with
  | zero =>
    intro h node cs h0 hlt hc
    exact ⟨le_refl _, fun _ _ _ => rfl, [], rfl, by simpa [pushChildren] using hc,
      fun c hc => by cases hc⟩
  | succ n ih =>
    intro h node cs h0 hlt hc
    obtain ⟨m1, m2, m3, m4⟩ := hmk h (by omega)
    have hcn : (mk h).1.cells node = Node.PtrNode cs := by rw [m3 node hlt]; exact hc
    have e1 : (mk h).1.pushBack node (mk h).2 =
        (mk h).1.write node (Node.PtrNode (cs ++ [h.next])) := by
      simp only [Heap.pushBack, hcn, m1]
    have hn1 : ((mk h).1.write node (Node.PtrNode (cs ++ [h.next]))).next = (mk h).1.next := rfl
    obtain ⟨i1, i2, new, i3, i4, i5⟩ := ih ((mk h).1.write node (Node.PtrNode (cs ++ [h.next])))
      node (cs ++ [h.next]) h0 (by rw [hn1]; omega) (by simp [Heap.write])
    rw [hn1] at i1 i2 i5
    have e : pushChildren mk (n + 1) h node =
        pushChildren mk n ((mk h).1.write node (Node.PtrNode (cs ++ [h.next]))) node := by
      simp only [pushChildren, e1]
    rw [e]
    refine ⟨by omega, ?_, h.next :: new, by simp [i3], by simpa using i4, ?_⟩
    · intro b hb hbn
      rw [i2 b (by omega) hbn]
      simp only [Heap.write, hbn, if_false]
      exact m3 b hb
    · intro c hc
      rcases List.mem_cons.mp hc with rfl | hc
      · refine Holds.frame ?_ ?_ l m4
        · intro b hb
          have : b ≠ node := by omega
          rw [i2 b hb.2 this]
          simp [Heap.write, this]
        · intro b hb
          exact ⟨hb.1, by omega⟩
      · exact Holds.frame (fun _ _ => rfl) (fun b hb => ⟨by omega, hb.2⟩) l (i5 c hc)

/-- `CreateNodeWithValue` builds, in new cells, a full trie of copies of the value. -/
theorem CreateNodeWithValue_spec (v : T) (l : Nat) :
    ∀ h : Heap T, 0 < h.next →
      (CreateNodeWithValue v l h).2 = h.next ∧ h.next < (CreateNodeWithValue v l h).1.next ∧
      (∀ b, b < h.next → (CreateNodeWithValue v l h).1.cells b = h.cells b) ∧
      Holds (CreateNodeWithValue v l h).1
        (fun b => h.next ≤ b ∧ b < (CreateNodeWithValue v l h).1.next) l h.next
        (List.replicate (cap l) v) := by
  induction l with
  | zero =>
    intro h hp
    refine ⟨rfl, by simp [CreateNodeWithValue, Heap.alloc], ?_, ?_⟩
    · intro b hb
      have : b ≠ h.next := by omega
      simp [CreateNodeWithValue, Heap.alloc, this]
    · exact ⟨by omega, ⟨le_refl _, by simp [CreateNodeWithValue, Heap.alloc]⟩,
        by simp [CreateNodeWithValue, Heap.alloc, cap_zero, kWidth], by simp [cap_zero, kWidth]⟩
  | succ l ih =>
    intro h hp
    obtain ⟨p1, p2, new, p3, p4, p5⟩ := pushChildren_spec ih kWidth
      (h.alloc (Node.PtrNode [])).1 h.next [] (by omega) (by simp [Heap.alloc])
      (by simp [Heap.alloc])
    have hnx : (h.alloc (Node.PtrNode [])).1.next = h.next + 1 := rfl
    rw [hnx] at p1 p2 p5
    have e : CreateNodeWithValue v (l + 1) h =
        (pushChildren (CreateNodeWithValue v l) kWidth (h.alloc (Node.PtrNode [])).1 h.next,
          h.next) := rfl
    rw [e]
    have hW := cap_pos l
    refine ⟨rfl, by simp only; omega, ?_, ?_⟩
    · intro b hb
      have : b ≠ h.next := by omega
      simp only
      rw [p2 b (by omega) this]
      simp [Heap.alloc, this]
    · simp only [List.nil_append] at p4
      simp only [kWidth] at p3
      refine ⟨by omega, ⟨le_refl _, by simp only; omega⟩, new, p4, by omega,
        by simp only [kWidth]; omega, ?_, ?_, ?_⟩
      · rw [p3, List.length_replicate, cap_succ]
      · intro _
        rw [p3, List.length_replicate, cap_succ]
        omega
      · intro j c hj
        have hjl : j < 32 := by
          rw [← p3]
          by_contra hcon
          rw [List.getElem?_eq_none (not_lt.mp hcon)] at hj
          cases hj
        have hm : min (cap l) (cap (l + 1) - j * cap l) = cap l := by
          rw [cap_succ]
          have : (j + 1) * cap l ≤ 32 * cap l := Nat.mul_le_mul_right _ hjl
          rw [Nat.add_mul] at this
          omega
        rw [chunk_replicate, hm]
        exact Holds.frame (fun _ _ => rfl) (fun b hb => ⟨by omega, hb.2⟩) l
          (p5 c (List.mem_iff_getElem?.mpr ⟨j, hj⟩))

theorem mod_cap_ne_zero {number : Nat} (h : number % kWidth ≠ 0) (l : Nat) :
    number % cap l ≠ 0 := by
  intro e
  apply h
  have hd : kWidth ∣ cap l := by
    rw [cap, pow_succ]
    exact Dvd.intro_left _ rfl
  rw [← Nat.mod_mod_of_dvd number hd, e]
  simp

/-- `CreateNodePartialWithValue` for a number that is not a multiple of `kWidth`,
or whose digits up to the level are all zero, builds, in new cells, a trie in
the layout with as many copies of the value as the digits of the number up to
the level say. -/
theorem CreateNodePartialWithValue_spec (v : T) (number : Nat) (l : Nat) :
    (number % kWidth ≠ 0 ∨ number % cap l = 0) → ∀ h : Heap T, 0 < h.next →
      (CreateNodePartialWithValue v number l h).2 = h.next ∧
      h.next < (CreateNodePartialWithValue v number l h).1.next ∧
      (∀ b, b < h.next → (CreateNodePartialWithValue v number l h).1.cells b = h.cells b) ∧
      Holds (CreateNodePartialWithValue v number l h).1
        (fun b => h.next ≤ b ∧ b < (CreateNodePartialWithValue v number l h).1.next) l h.next
        (List.replicate (number % cap l) v) := by
  induction l with
  | zero =>
    intro _ h hp
    have hlt : number % cap 0 < 32 := by rw [cap_zero]; exact Nat.mod_lt _ (by norm_num)
    refine ⟨rfl, by simp [CreateNodePartialWithValue, Heap.alloc], ?_, ?_⟩
    · intro b hb
      have : b ≠ h.next := by omega
      simp [CreateNodePartialWithValue, Heap.alloc, this]
    · exact ⟨by omega, ⟨le_refl _, by simp [CreateNodePartialWithValue, Heap.alloc]⟩,
        by simp [CreateNodePartialWithValue, Heap.alloc, mod_cap_zero],
        by simp only [List.length_replicate, kWidth]; omega⟩
  | succ l ih =>
    intro hnum h hp
    have hW := cap_pos l
    have hsp := mod_cap_succ number l
    have hnum2 : number % kWidth ≠ 0 ∨ number % cap l = 0 := by
      rcases hnum with hnum | hnum
      · exact Or.inl hnum
      · exact Or.inr (by omega)
    have hlast : 0 < levelBits number (l + 1) → 0 < number % cap l := by
      intro hd
      rcases hnum with hnum | hnum
      · exact Nat.pos_of_ne_zero (mod_cap_ne_zero hnum l)
      · have := Nat.mul_pos hd hW
        omega
    obtain ⟨p1, p2, new, p3, p4, p5⟩ := pushChildren_spec (CreateNodeWithValue_spec v l)
      (levelBits number (l + 1)) (h.alloc (Node.PtrNode [])).1 h.next [] (by omega)
      (by simp [Heap.alloc]) (by simp [Heap.alloc])
    have hnx : (h.alloc (Node.PtrNode [])).1.next = h.next + 1 := rfl
    rw [hnx] at p1 p2 p5
    simp only [List.nil_append] at p4
    have e0 : CreateNodePartialWithValue v number (l + 1) h =
        ((CreateNodePartialWithValue v number l (pushChildren (CreateNodeWithValue v l)
          (levelBits number (l + 1)) (h.alloc (Node.PtrNode [])).1 h.next)).1.pushBack h.next
            (CreateNodePartialWithValue v number l (pushChildren (CreateNodeWithValue v l)
              (levelBits number (l + 1)) (h.alloc (Node.PtrNode [])).1 h.next)).2, h.next) := rfl
    rw [e0]
    generalize pushChildren (CreateNodeWithValue v l) (levelBits number (l + 1))
      (h.alloc (Node.PtrNode [])).1 h.next = g at p1 p2 p4 p5 ⊢
    obtain ⟨i1, i2, i3, i4⟩ := ih hnum2 g (by omega)
    have hcell : (CreateNodePartialWithValue v number l g).1.cells h.next = Node.PtrNode new := by
      rw [i3 h.next (by omega)]
      exact p4
    have e : (CreateNodePartialWithValue v number l g).1.pushBack h.next
        (CreateNodePartialWithValue v number l g).2 =
          (CreateNodePartialWithValue v number l g).1.write h.next
            (Node.PtrNode (new ++ [g.next])) := by
      simp only [Heap.pushBack, hcell, i1]
    rw [e]
    have hd := levelBits_lt number (l + 1)
    have hm : number % cap l < cap l := Nat.mod_lt _ hW
    refine ⟨rfl, by simp only [Heap.write]; omega, ?_, ?_⟩
    · intro b hb
      have : b ≠ h.next := by omega
      simp only [Heap.write, this, if_false]
      rw [i3 b (by omega), p2 b (by omega) this]
      simp [Heap.alloc, this]
    · refine ⟨by omega, ⟨le_refl _, by simp only [Heap.write]; omega⟩, new ++ [g.next],
        by simp [Heap.write], by simp, ?_, ?_, ?_, ?_⟩
      · simp only [List.length_append, List.length_singleton, p3, kWidth]
        omega
      · simp only [List.length_append, List.length_singleton, p3, List.length_replicate,
          mod_cap_succ, Nat.add_mul]
        omega
      · intro h1
        simp only [List.length_append, List.length_singleton, p3] at h1
        have := hlast (by omega)
        simp only [List.length_append, List.length_singleton, p3, List.length_replicate,
          mod_cap_succ, Nat.add_sub_cancel]
        omega
      · intro j c hj
        rw [List.getElem?_append, p3] at hj
        rw [chunk_replicate, mod_cap_succ]
        by_cases hjl : j < levelBits number (l + 1)
        · rw [if_pos hjl] at hj
          have h5 : (j + 1) * cap l ≤ levelBits number (l + 1) * cap l :=
            Nat.mul_le_mul_right _ hjl
          rw [Nat.add_mul] at h5
          have hmin : min (cap l) (levelBits number (l + 1) * cap l + number % cap l - j * cap l) =
              cap l := by omega
          rw [hmin]
          refine Holds.frame ?_ ?_ l (p5 c (List.mem_iff_getElem?.mpr ⟨j, hj⟩))
          · intro b hb
            have : b ≠ h.next := by omega
            simp only [Heap.write, this, if_false]
            exact i3 b hb.2
          · intro b hb
            exact ⟨by omega, by simp only [Heap.write]; omega⟩
        · rw [if_neg hjl] at hj
          have hj0 : j = levelBits number (l + 1) := by
            rcases Nat.lt_or_ge (levelBits number (l + 1)) j with hgt | hge
            · have : j - levelBits number (l + 1) = (j - levelBits number (l + 1) - 1) + 1 := by
                omega
              rw [this] at hj
              simp at hj
            · omega
          subst hj0
          simp only [Nat.sub_self, List.getElem?_cons_zero, Option.some.injEq] at hj
          subst hj
          have hmin : min (cap l)
              (levelBits number (l + 1) * cap l + number % cap l -
                levelBits number (l + 1) * cap l) = number % cap l := by omega
          rw [hmin]
          refine Holds.frame ?_ ?_ l i4
          · intro b hb
            have : b ≠ h.next := by omega
            simp [Heap.write, this]
          · intro b hb
            exact ⟨by omega, by simpa [Heap.write] using hb.2⟩

theorem Rep.count_rep (h : Heap T) (hp : 0 < h.next) (count : Nat) (value : T)
    (hc : count % kWidth ≠ 0 ∨ count = 0) (hlt : count < 2 ^ kStartingBit) :
    Rep (Vector.ofCount h count value).1 (Vector.ofCount h count value).2
      (List.replicate count value) := by
  have hm : count % cap kRootLevel = count := by
    rw [cap_root]
    exact Nat.mod_eq_of_lt hlt
  obtain ⟨i1, i2, i3, i4⟩ := CreateNodePartialWithValue_spec value count kRootLevel
    (by
      rcases hc with hc | hc
      · exact Or.inl hc
      · exact Or.inr (by rw [hm]; exact hc)) h hp
  rw [hm] at i4
  refine ⟨?_, by simp [Vector.ofCount]⟩
  simp only [Vector.ofCount, i1]
  exact Holds.frame (fun _ _ => rfl) (fun b hb => hb.2) kRootLevel i4

end ImmutableVector

namespace ImmutableVector
variable {T : Type}

/-- Every vector built by the constructors and calls of `Built` holds a list of
values in the layout. -/
theorem Built.rep {r : Heap T × Vector} (hb : Built r) : ∃ xs, Rep r.1 r.2 xs := by
  induction hb with
  | new h hp => exact ⟨[], Rep.new_rep h hp⟩
  | count h count value hp hc hlt => exact ⟨_, Rep.count_rep h hp count value hc hlt⟩
  | set index value _ e ih =>
    obtain ⟨xs, hr⟩ := ih
    obtain ⟨h2, w, e2, -, -, r2⟩ := hr.set_rep index value
    rw [e2] at e
    cases e
    exact ⟨_, r2⟩
  | push value _ hlt e ih =>
    obtain ⟨xs, hr⟩ := ih
    obtain ⟨h2, w, e2, -, -, r2⟩ := hr.push_rep hlt value
    rw [e2] at e
    cases e
    exact ⟨_, r2⟩
  | pop _ hpos e ih =>
    obtain ⟨xs, hr⟩ := ih
    obtain ⟨h2, w, e2, -, -, r2⟩ := hr.pop_rep hpos
    rw [e2] at e
    cases e
    exact ⟨_, r2⟩

theorem Built.after_push {r : Heap T × Vector} (hb : Built r)
    (hlt : r.2.Size < 2 ^ kStartingBit) (x : T) :
    Built (ImmutableVector.afterPush r x) ∧
      (ImmutableVector.afterPush r x).2.Size = r.2.Size + 1 := by
  obtain ⟨xs, hr⟩ := hb.rep
  obtain ⟨h2, w, e2, -, -, r2⟩ := hr.push_rep hlt x
  have e : ImmutableVector.afterPush r x = (h2, w) := by simp [ImmutableVector.afterPush, e2]
  rw [e]
  exact ⟨@Built.push T r.1 r.2 (h2, w) x hb hlt e2, by
    simp only [Vector.Size]; rw [r2.2, hr.2]; simp⟩

theorem Built.after_pop {r : Heap T × Vector} (hb : Built r) (hpos : 0 < r.2.Size) :
    Built (ImmutableVector.afterPop r) := by
  obtain ⟨xs, hr⟩ := hb.rep
  obtain ⟨h2, w, e2, -, -, r2⟩ := hr.pop_rep hpos
  have e : ImmutableVector.afterPop r = (h2, w) := by simp [ImmutableVector.afterPop, e2]
  rw [e]
  exact @Built.pop T r.1 r.2 (h2, w) hb hpos e2

theorem Built.push_all (values : List T) :
    ∀ {r : Heap T × Vector}, Built r → r.2.Size + values.length ≤ 2 ^ kStartingBit →
      Built (ImmutableVector.pushAll r values) := by
  induction values with
  | nil => intro r hb _; exact hb
  | cons x rest ih =>
    intro r hb hle
    simp only [List.length_cons] at hle
    obtain ⟨b1, b2⟩ := hb.after_push (by omega) x
    exact ih b1 (by rw [b2]; omega)

end ImmutableVector

namespace RBSet
variable {α : Type}

/-! ## The claims about the inverse rotations, the iterator steps and the copy assignment -/

/-- C31: in every well-formed state and for every node `x` of the tree, when the
right child `y` of `x` is not the sentinel, `LeftRotate(x)` followed by
`RightRotate(y)` gives back the state it started from: every cell of the heap
(links, colors and values, the cell of the sentinel included), `root_`, `nil_`
and `size_` are what they were; and when the left child `y` of `x` is not the
sentinel, `RightRotate(x)` followed by `LeftRotate(y)` gives back the state
likewise. -/
theorem rotations_mutually_inverse {s : Set α} {t : Tree α} {x : Nat} (h : s.Shape t)
    (hx : x ∈ t.addrs) :
    (s.right x ≠ s.nil_ → RightRotate (LeftRotate s x) (s.right x) = s) ∧
    (s.left x ≠ s.nil_ → LeftRotate (RightRotate s x) (s.left x) = s) := by
  obtain ⟨p, cx, l, v, r, hz, -⟩ := h.focus_mem hx
  have hs := hz.sub
  simp only [Repr] at hs
  obtain ⟨-, -, -, hl, hr, -⟩ := hs
  constructor
  · intro hne
    cases r with
    | leaf => simp [hr] at hne
    | node y cy b vy d =>
      rw [hr]
      exact LeftRotate_RightRotate hz
  · intro hne
    cases l with
    | leaf => simp [hl] at hne
    | node y cy a vy b =>
      rw [hl]
      exact RightRotate_LeftRotate hz

set_option maxRecDepth 100000 in
theorem rotations_mutually_inverse_witness :
    demoSet.right 2 = 4 ∧ demoSet.left 2 = 3 ∧ demoSet.nil_ = 1 ∧
    (LeftRotate demoSet 2).root_ = 4 ∧ (RightRotate demoSet 2).root_ = 3 ∧
    ((demoSet.right 2 ≠ demoSet.nil_ →
        RightRotate (LeftRotate demoSet 2) (demoSet.right 2) = demoSet) ∧
      (demoSet.left 2 ≠ demoSet.nil_ →
        LeftRotate (RightRotate demoSet 2) (demoSet.left 2) = demoSet)) :=
  ⟨by decide!, by decide!, by decide!, by decide!, by decide!,
    rotations_mutually_inverse demoSet_shape (by decide)⟩

/-- C32: for every set reachable from the empty set by `insert` and `erase`
calls, `begin()` returns, and the position `k` increments after `begin()` exists
for every `k ≤ size()`; it is `end()` exactly when `k = size()`. At every
position before `end()` (`k < size()`) `operator++` returns the position
`k + 1` and `operator--` there returns the position `k`, so `--(++it) == it`,
at the maximum too; at every position after `begin()` (`0 < k`) `operator--`
returns the position `k - 1` and `operator++` there returns the position `k`,
so `++(--it) == it`, at `end()` too. -/
theorem increment_decrement_inverse (lt : α → α → Bool) (s : Set α) (hs : Reachable lt s) :
    ∃ b, begin_ s = some b ∧ ∀ k, k ≤ size s →
      ∃ it, iterAdvance s k b = some it ∧ (it = end_ s ↔ k = size s) ∧
        (k < size s → ∃ nx, iterNext s it = some nx ∧ iterPrev s nx = some it ∧
          iterAdvance s (k + 1) b = some nx) ∧
        (0 < k → ∃ pv, iterPrev s it = some pv ∧ iterNext s pv = some it ∧
          iterAdvance s (k - 1) b = some pv) := by
  obtain ⟨t, ht⟩ := hs.inv0
  have hsz : size s = t.cells.length := by rw [size, ht.size, count_eq_cells]
  refine ⟨_, begin_eq ht.shape, fun k hk => ?_⟩
  rw [hsz] at hk
  obtain ⟨h1, h2, h3, h4⟩ := iter_round_trip ht.shape k hk
  refine ⟨_, h1, by rw [hsz]; exact h2, fun hlt => ?_, fun h0 => ?_⟩
  · rw [hsz] at hlt
    exact ⟨_, (h3 hlt).1, (h3 hlt).2, (iter_round_trip ht.shape (k + 1) hlt).1⟩
  · exact ⟨_, (h4 h0).1, (h4 h0).2, (iter_round_trip ht.shape (k - 1) (by omega)).1⟩

set_option maxRecDepth 100000 in
theorem increment_decrement_inverse_witness :
    size demoSet = 7 ∧ begin_ demoSet = some 5 ∧ end_ demoSet = 1 ∧
    iterAdvance demoSet 6 5 = some 8 ∧ iterNext demoSet 8 = some 1 ∧
    iterPrev demoSet 1 = some 8 ∧
    ∃ b, begin_ demoSet = some b ∧ ∀ k, k ≤ size demoSet →
      ∃ it, iterAdvance demoSet k b = some it ∧ (it = end_ demoSet ↔ k = size demoSet) ∧
        (k < size demoSet → ∃ nx, iterNext demoSet it = some nx ∧
          iterPrev demoSet nx = some it ∧ iterAdvance demoSet (k + 1) b = some nx) ∧
        (0 < k → ∃ pv, iterPrev demoSet it = some pv ∧ iterNext demoSet pv = some it ∧
          iterAdvance demoSet (k - 1) b = some pv) :=
  ⟨by decide!, by decide!, by decide!, by decide!, by decide!, by decide!,
    increment_decrement_inverse ltN demoSet demoSet_reachable⟩

/-- C33, what the code does: for reachable sets `a` and `b` in distinct objects
the copy assignment `a = b` returns; `b` is only read. When `a` is not empty
before the call, `a` has the ascending traversal of `b` and `size() == b.size()`
afterwards, and its sentinel is the one it had and is live. When `a` is empty
before the call, `ClearAll(root_)` is called with the sentinel and deletes it:
afterwards the sentinel of `a` is a deleted cell, which the inserts that follow
and every later member read and write. -/
theorem copy_assignment_effect (lt : α → α → Bool) (hlt : StrictTotal lt) (a b : Set α)
    (ha : Reachable lt a) (hb : Reachable lt b) :
    ∃ a2, Set.assign lt a b false = some a2 ∧
      traversal a2 = traversal b ∧ size a2 = size b ∧ a2.nil_ = a.nil_ ∧
      (empty a = false → a2.nil_ ∉ a2.freed) ∧
      (empty a = true →
        ClearAll a.next a a.root_ = some { a with freed := a.nil_ :: a.freed } ∧
        a2.nil_ ∈ a2.freed) := by
  obtain ⟨t, ht⟩ := ha.inv hlt
  obtain ⟨u, hu⟩ := hb.inv hlt
  obtain ⟨a2, t2, F, e, h2, -, hin, hsz, hnil, hfr, hF1, hF2⟩ :=
    assign_spec hlt ht.shape hu.shape hu.asc
  refine ⟨a2, e, ?_, hsz, hnil, fun hne => ?_, fun hem => ?_⟩
  · rw [traversal_eq h2, traversal_eq hu.shape, hin]
  · have hne2 : t ≠ Tree.leaf := by
      rintro rfl
      simp [empty, ht.size, Tree.count] at hne
    rw [hfr, hnil, List.mem_append, not_or]
    refine ⟨fun hm => ?_, ha.sentinel_live⟩
    exact ht.shape.repr.nil_not_mem ((hF1 hne2 _).mp hm)
  · have hl : t = Tree.leaf := by
      cases t with
      | leaf => rfl
      | node x c l v r => simp [empty, ht.size, Tree.count] at hem
    subst hl
    have hr : a.root_ = a.nil_ := by simpa using ht.shape.root
    obtain ⟨k, hk⟩ : ∃ k, a.next = k + 1 :=
      ⟨a.next - 1, by have := ht.shape.nil.lt_next; omega⟩
    refine ⟨?_, ?_⟩
    · have e2 : ClearAll a.next a a.root_ = ClearAll (k + 1) a a.nil_ := by rw [hk, hr]
      exact e2.trans (ClearAll_sentinel ht.shape.nil k)
    · rw [hfr, hF2 rfl, hnil]
      simp

set_option maxRecDepth 100000 in
theorem copy_assignment_effect_witness :
    empty smallSet = false ∧ traversal demoSet = some [1, 3, 4, 5, 7, 8, 9] ∧
    ∃ a2, Set.assign ltN smallSet demoSet false = some a2 ∧
      traversal a2 = traversal demoSet ∧ size a2 = size demoSet ∧ a2.nil_ = smallSet.nil_ ∧
      (empty smallSet = false → a2.nil_ ∉ a2.freed) ∧
      (empty smallSet = true →
        ClearAll smallSet.next smallSet smallSet.root_ =
          some { smallSet with freed := smallSet.nil_ :: smallSet.freed } ∧
        a2.nil_ ∈ a2.freed) :=
  ⟨by decide!, by decide!,
    copy_assignment_effect ltN strictTotal_ltN smallSet demoSet smallSet_reachable
      demoSet_reachable⟩

set_option maxRecDepth 100000 in
/-- C33 fails for the code: after `Set<int> a; Set<int> b{1}; a = b;` the
sentinel of `a`, the cell 1, is among the deleted cells, though `a` has the
traversal and the size of `b`. -/
theorem copy_assignment_counterexample :
    empty (Set.new 0 : Set Nat) = true ∧
    (Set.assign ltN (Set.new 0) (build ltN 0 [1]) false).map
      (fun a2 => (a2.nil_, a2.freed, traversal a2, size a2)) =
        some (1, [1], some [1], 1) ∧
    ¬ (∃ a2, Set.assign ltN (Set.new 0) (build ltN 0 [1]) false = some a2 ∧
        a2.nil_ ∉ a2.freed) := by
  have h : (Set.assign ltN (Set.new 0) (build ltN 0 [1]) false).map
      (fun a2 => (a2.nil_, a2.freed, traversal a2, size a2)) =
        some (1, [1], some [1], 1) := by decide!
  refine ⟨by decide!, h, ?_⟩
  rintro ⟨a2, e, hn⟩
  rw [e] at h
  simp only [Option.map_some', Option.some.injEq, Prod.mk.injEq] at h
  rw [h.1, h.2.1] at hn
  simp at hn

end RBSet

namespace ImmutableVector
variable {T : Type}

/-- C34, as it holds: for every vector `v` that designates a trie of the heap,
every index `i` below `2 ^ 30` at which `v.Get(i)` returns a value, and every
value `x`: `v.Set(i, x)` returns a vector `w` with `w.Size() == v.Size()`
and `w.Get(i) == x`; for every index `j` below `2 ^ 30` other than `i`,
`w.Get(j)` is what `v.Get(j)` was, a value or no value; `v` is unchanged: the
call writes to no cell that existed before it, only to cells it allocates, and
`v.Get(k)` is what it was for every `k`; `w` designates a trie of the heap
again. -/
theorem set_get_below_capacity (h : Heap T) (v : Vector) (i : Nat) (x : T)
    (hv : v.Valid h) (hi : i < 2 ^ 30) (hg : ∃ y, Vector.Get h v i = some y) :
    ∃ h2 w, Vector.Set h v i x = some (h2, w) ∧ w.Size = v.Size ∧
      Vector.Get h2 w i = some x ∧
      (∀ j, j < 2 ^ 30 → j ≠ i → Vector.Get h2 w j = Vector.Get h v j) ∧
      (∀ b, b < h.next → h2.cells b = h.cells b) ∧ h.next ≤ h2.next ∧
      (∀ k, Vector.Get h2 v k = Vector.Get h v k) ∧ v.Valid h2 ∧ w.Valid h2 := by
  obtain ⟨h2, a, e, n2, f2, s2, g2, k2⟩ :=
    Change_spec i x kRootLevel v.root_ h (fun b => b < h.next) (fun b hb => hb) hv hg
  refine ⟨h2, { root_ := a, size_ := v.size_ }, by simp [Vector.Set, e], rfl,
    g2 i (fun _ _ => rfl), fun j hj hne => ?_, f2, n2,
    fun k => GetLoop_congr f2 k kRootLevel v.root_ hv, ?_, ?_⟩
  · obtain ⟨l, hl, hd⟩ := exists_levelBits_ne hi hj hne
    exact k2 j l hl hd
  · exact Stored.weaken (fun b hb => lt_of_lt_of_le hb n2) _ _
      (Stored.of_cells_eq f2 kRootLevel v.root_ hv)
  · refine Stored.weaken ?_ _ _ s2
    intro b hb
    rcases hb with hb | hb
    · exact lt_of_lt_of_le hb n2
    · exact hb.2

set_option maxRecDepth 100000 in
theorem set_get_below_capacity_witness :
    smallVector.2.Size = 3 ∧
    (Vector.Set smallVector.1 smallVector.2 1 9).map
      (fun r => (List.range 4).map (Vector.Get r.1 r.2)) =
        some [some 7, some 9, some 7, none] ∧
    ∃ h2 w, Vector.Set smallVector.1 smallVector.2 1 9 = some (h2, w) ∧
      w.Size = smallVector.2.Size ∧ Vector.Get h2 w 1 = some 9 ∧
      (∀ j, j < 2 ^ 30 → j ≠ 1 → Vector.Get h2 w j = Vector.Get smallVector.1 smallVector.2 j) ∧
      (∀ b, b < smallVector.1.next → h2.cells b = smallVector.1.cells b) ∧
      smallVector.1.next ≤ h2.next ∧
      (∀ k, Vector.Get h2 smallVector.2 k = Vector.Get smallVector.1 smallVector.2 k) ∧
      smallVector.2.Valid h2 ∧ w.Valid h2 :=
  ⟨by decide!, by decide!,
    set_get_below_capacity smallVector.1 smallVector.2 1 9
      (checkStored_sound _ _ _ _ (by decide!)) (by norm_num) ⟨7, by decide!⟩⟩

set_option maxRecDepth 100000 in
/-- C34 fails as stated: `Vector<int> v(1073741825, 0)` has `Size()` equal to
`2 ^ 30 + 1`; for the index `i = 2 ^ 30`, which is below `Size()`, and `x = 5`
the vector `w = v.Set(i, 5)` has `w.Get(0) == 5`, while `v.Get(0) == 0`. -/
theorem set_get_counterexample :
    bigVector.2.Valid bigVector.1 ∧ bigVector.2.Size = 2 ^ 30 + 1 ∧
    2 ^ 30 < bigVector.2.Size ∧ 0 < bigVector.2.Size ∧ (0 : Nat) ≠ 2 ^ 30 ∧
    Vector.Get bigVector.1 bigVector.2 0 = some 0 ∧
    (Vector.Set bigVector.1 bigVector.2 (2 ^ 30) 5).map
      (fun r => (r.2.Size, Vector.Get r.1 r.2 (2 ^ 30), Vector.Get r.1 r.2 0)) =
        some (2 ^ 30 + 1, some 5, some 5) ∧
    ¬ (∃ h2 w, Vector.Set bigVector.1 bigVector.2 (2 ^ 30) 5 = some (h2, w) ∧
        ∀ j, j < bigVector.2.Size → j ≠ 2 ^ 30 →
          Vector.Get h2 w j = Vector.Get bigVector.1 bigVector.2 j) := by
  have h1 : Vector.Get bigVector.1 bigVector.2 0 = some 0 := by decide!
  have h2 : (Vector.Set bigVector.1 bigVector.2 (2 ^ 30) 5).map
      (fun r => (r.2.Size, Vector.Get r.1 r.2 (2 ^ 30), Vector.Get r.1 r.2 0)) =
        some (2 ^ 30 + 1, some 5, some 5) := by decide!
  have h3 : bigVector.2.Size = 2 ^ 30 + 1 := by decide!
  refine ⟨checkStored_sound _ _ _ _ (by decide!), h3, by rw [h3]; norm_num,
    by rw [h3]; norm_num, by norm_num, h1, h2, ?_⟩
  rintro ⟨g, w, e, hj⟩
  have h4 := hj 0 (by rw [h3]; norm_num) (by norm_num)
  rw [e] at h2
  simp only [Option.map_some', Option.some.injEq, Prod.mk.injEq] at h2
  rw [h2.2.2, h1] at h4
  cases h4

set_option maxRecDepth 100000 in
/-- C35 fails for the code: `Vector<int> v(32, 0)` and `Vector<int> v{0, 1, .., 31}`
are built by constructors with a size that is a multiple of 32; `u = v.PopBack()`
has `Size()` equal to 31, and `u.PushBack(99)` has `Size()` equal to 32 and
`Get(31)` equal to the old last element, `0` or `31`, not to `99`; the elements
at the indices below 31 are as in `u`. -/
theorem push_back_counterexample :
    fullLeafVector.2.Size = 32 ∧
    (Vector.PopBack fullLeafVector.1 fullLeafVector.2).map (fun r => r.2.Size) = some 31 ∧
    (popThenPush fullLeafVector 99).map
      (fun r => (r.2.Size, Vector.Get r.1 r.2 31, Vector.Get r.1 r.2 30)) =
        some (32, some 0, some 0) ∧
    listVector.map (fun r => (r.2.Size, Vector.Get r.1 r.2 31)) = some (32, some 31) ∧
    (listVector.bind (fun r => Vector.PopBack r.1 r.2)).map (fun r => r.2.Size) = some 31 ∧
    (listVector.bind (fun r => popThenPush r 99)).map
      (fun r => (r.2.Size, Vector.Get r.1 r.2 31, Vector.Get r.1 r.2 30)) =
        some (32, some 31, some 30) := by
  exact ⟨by decide!, by decide!, by decide!, by decide!, by decide!, by decide!⟩

end ImmutableVector

namespace HashMapModel
variable {K V : Type}

/-- C36: for every hash function and every map `m` built from an empty one by
calls of `insert`, `erase` and `operator[]` (and assignments through the
references `operator[]` returns), and every pair `(k, v)`: both `m` and the map
after `insert((k, v))` have a bucket; after the call `find(k)` is not `end()`;
when `k` was absent, `find(k)` stands at the pair `(k, v)`, `size()` has grown
by one, and the vector of buckets has doubled by `rehash` exactly when twice the
new size exceeds its length; when `k` was present, `find(k)` stands at the same
pair as before and `size()` is unchanged; and for every other key `find` is
`end()` after the call exactly when it was before, and else stands at the same
pair, with the same mapped value, as before. -/
theorem insert_keeps_finite_function [DecidableEq K] (hash : K → Nat) (dflt : V)
    (m : HashMap K V) (hm : ReachableMap hash dflt m) (k : K) (v : V) :
    0 < m.table_.length ∧ 0 < (insert m (k, v)).table_.length ∧
    (find (insert m (k, v)) k).equal (end_ (insert m (k, v))) = false ∧
    ((find m k).equal (end_ m) = true →
      deref (insert m (k, v)) (find (insert m (k, v)) k) = some (k, v) ∧
      size (insert m (k, v)) = size m + 1 ∧
      (insert m (k, v)).table_.length =
        (if 2 * (size m + 1) > m.table_.length then 2 * m.table_.length
          else m.table_.length)) ∧
    ((find m k).equal (end_ m) = false →
      deref (insert m (k, v)) (find (insert m (k, v)) k) = deref m (find m k) ∧
      size (insert m (k, v)) = size m) ∧
    ∀ k2, k2 ≠ k →
      (find (insert m (k, v)) k2).equal (end_ (insert m (k, v))) =
          (find m k2).equal (end_ m) ∧
        ((find m k2).equal (end_ m) = false →
          deref (insert m (k, v)) (find (insert m (k, v)) k2) = deref m (find m k2)) := by
  obtain ⟨hw, -⟩ := hm.wf
  cases hf : (find m k).equal (end_ m) with
  | false =>
    have e := insert_present_key (k, v) hf
    simp only at e
    rw [e]
    exact ⟨hw.pos, hw.pos, hf, fun hc => Bool.noConfusion hc, fun _ => ⟨rfl, rfl⟩,
      fun k2 _ => ⟨rfl, fun _ => rfl⟩⟩
  | true =>
    obtain ⟨w2, -, hsz, hmem, hlen⟩ := insert_absent_key hw (k, v) hf
    obtain ⟨b1, b2, -⟩ := find_spec w2 k
    have hin : (k, v) ∈ (insert m (k, v)).table_.flatten := (hmem (k, v)).mpr (Or.inl rfl)
    have c3 : (find (insert m (k, v)) k).equal (end_ (insert m (k, v))) = false := by
      cases hf2 : (find (insert m (k, v)) k).equal (end_ (insert m (k, v))) with
      | false => rfl
      | true => exact absurd hin ((b1.mp hf2) v)
    have c6 : ∀ k2, k2 ≠ k →
        (find (insert m (k, v)) k2).equal (end_ (insert m (k, v))) =
            (find m k2).equal (end_ m) ∧
          ((find m k2).equal (end_ m) = false →
            deref (insert m (k, v)) (find (insert m (k, v)) k2) = deref m (find m k2)) := by
      intro k2 hk
      refine find_congr hw w2 k2 (fun w => ?_)
      rw [hmem]
      constructor
      · rintro (e | hx)
        · exact absurd (Prod.mk.inj e).1 hk
        · exact hx
      · exact Or.inr
    exact ⟨hw.pos, w2.pos, c3, fun _ => ⟨b2 v hin, hsz, hlen⟩, fun hc => Bool.noConfusion hc, c6⟩

set_option maxRecDepth 100000 in
theorem insert_keeps_finite_function_witness :
    size (buildMap (fun k => k % 5) (List.range 32)) = 32 ∧
    (buildMap (fun k => k % 5) (List.range 32)).table_.length = 64 ∧
    (insert (buildMap (fun k => k % 5) (List.range 32)) (32, 7)).table_.length = 128 ∧
    (deref (buildMap (fun k => k % 5) (List.range 32))
      (find (buildMap (fun k => k % 5) (List.range 32)) 17)) = some (17, 170) ∧
    (0 < (buildMap (fun k => k % 5) (List.range 32)).table_.length ∧
    0 < (insert (buildMap (fun k => k % 5) (List.range 32)) (32, 7)).table_.length ∧
    (find (insert (buildMap (fun k => k % 5) (List.range 32)) (32, 7)) 32).equal
      (end_ (insert (buildMap (fun k => k % 5) (List.range 32)) (32, 7))) = false ∧
    ((find (buildMap (fun k => k % 5) (List.range 32)) 32).equal
        (end_ (buildMap (fun k => k % 5) (List.range 32))) = true →
      deref (insert (buildMap (fun k => k % 5) (List.range 32)) (32, 7))
        (find (insert (buildMap (fun k => k % 5) (List.range 32)) (32, 7)) 32) = some (32, 7) ∧
      size (insert (buildMap (fun k => k % 5) (List.range 32)) (32, 7)) =
        size (buildMap (fun k => k % 5) (List.range 32)) + 1 ∧
      (insert (buildMap (fun k => k % 5) (List.range 32)) (32, 7)).table_.length =
        (if 2 * (size (buildMap (fun k => k % 5) (List.range 32)) + 1) >
            (buildMap (fun k => k % 5) (List.range 32)).table_.length
          then 2 * (buildMap (fun k => k % 5) (List.range 32)).table_.length
          else (buildMap (fun k => k % 5) (List.range 32)).table_.length)) ∧
    ((find (buildMap (fun k => k % 5) (List.range 32)) 32).equal
        (end_ (buildMap (fun k => k % 5) (List.range 32))) = false →
      deref (insert (buildMap (fun k => k % 5) (List.range 32)) (32, 7))
        (find (insert (buildMap (fun k => k % 5) (List.range 32)) (32, 7)) 32) =
        deref (buildMap (fun k => k % 5) (List.range 32))
          (find (buildMap (fun k => k % 5) (List.range 32)) 32) ∧
      size (insert (buildMap (fun k => k % 5) (List.range 32)) (32, 7)) =
        size (buildMap (fun k => k % 5) (List.range 32))) ∧
    ∀ k2, k2 ≠ 32 →
      (find (insert (buildMap (fun k => k % 5) (List.range 32)) (32, 7)) k2).equal
          (end_ (insert (buildMap (fun k => k % 5) (List.range 32)) (32, 7))) =
          (find (buildMap (fun k => k % 5) (List.range 32)) k2).equal
            (end_ (buildMap (fun k => k % 5) (List.range 32))) ∧
        ((find (buildMap (fun k => k % 5) (List.range 32)) k2).equal
            (end_ (buildMap (fun k => k % 5) (List.range 32))) = false →
          deref (insert (buildMap (fun k => k % 5) (List.range 32)) (32, 7))
            (find (insert (buildMap (fun k => k % 5) (List.range 32)) (32, 7)) k2) =
          deref (buildMap (fun k => k % 5) (List.range 32))
            (find (buildMap (fun k => k % 5) (List.range 32)) k2))) :=
  ⟨by decide!, by decide!, by decide!, by decide!,
    insert_keeps_finite_function (fun k => k % 5) 0 (buildMap (fun k => k % 5) (List.range 32))
      (ReachableMap.of_buildMap _ _) 32 7⟩

end HashMapModel

namespace TupleModel

/-- C37, what the code computes: `a < b` holds exactly when some element of `a`
is less than the element of `b` at the same index, whatever stands at the
indices before it; every pair that the lexicographic order relates is related
by `operator<`, and on tuples of one element the two agree. -/
theorem tuple_less_is_some_index_less (Args : List Elem) (a b : Tuple Args) :
    (Tuple.less Args a b = true ↔ SomeLess Args a b) ∧
    (LexLess Args a b → Tuple.less Args a b = true) ∧
    (Args.length = 1 → (Tuple.less Args a b = true ↔ LexLess Args a b)) := by
  refine ⟨less_iff_someLess Args a b,
    fun h => (less_iff_someLess Args a b).mpr (lexLess_someLess Args a b h), fun hl => ?_⟩
  match Args, a, b, hl with
  | [Head], a, b, _ => simp [Tuple.less, LexLess]

theorem tuple_less_is_some_index_less_witness :
    LexLess [intElem, intElem] (makeTuple2 1 2) (makeTuple2 1 3) ∧
    ((Tuple.less [intElem, intElem] (makeTuple2 1 2) (makeTuple2 1 3) = true ↔
        SomeLess [intElem, intElem] (makeTuple2 1 2) (makeTuple2 1 3)) ∧
      (LexLess [intElem, intElem] (makeTuple2 1 2) (makeTuple2 1 3) →
        Tuple.less [intElem, intElem] (makeTuple2 1 2) (makeTuple2 1 3) = true) ∧
      (([intElem, intElem] : List Elem).length = 1 →
        (Tuple.less [intElem, intElem] (makeTuple2 1 2) (makeTuple2 1 3) = true ↔
          LexLess [intElem, intElem] (makeTuple2 1 2) (makeTuple2 1 3)))) :=
  ⟨by simp [LexLess, makeTuple2, Tuple.head_, Tuple.tail_, intElem],
    tuple_less_is_some_index_less [intElem, intElem] (makeTuple2 1 2) (makeTuple2 1 3)⟩

/-- C37 fails for the code: over the totally ordered element type `int`, for
`a = (1, 2)` and `b = (2, 1)` both `a < b` and `b < a` hold, and `b < a` holds
although at the first index where the two differ the element of `b` is the
greater one. -/
theorem tuple_less_counterexample :
    intElem.Total ∧
    Tuple.less [intElem, intElem] (makeTuple2 1 2) (makeTuple2 2 1) = true ∧
    Tuple.less [intElem, intElem] (makeTuple2 2 1) (makeTuple2 1 2) = true ∧
    ¬ LexLess [intElem, intElem] (makeTuple2 2 1) (makeTuple2 1 2) ∧
    ¬ (Tuple.less [intElem, intElem] (makeTuple2 2 1) (makeTuple2 1 2) = true ↔
        LexLess [intElem, intElem] (makeTuple2 2 1) (makeTuple2 1 2)) := by
  have h3 : ¬ LexLess [intElem, intElem] (makeTuple2 2 1) (makeTuple2 1 2) := by
    simp [LexLess, makeTuple2, Tuple.head_, Tuple.tail_, intElem]
  have h2 : Tuple.less [intElem, intElem] (makeTuple2 2 1) (makeTuple2 1 2) = true := by decide
  exact ⟨intElem_total, by decide, h2, h3, fun h => h3 (h.mp h2)⟩

end TupleModel

namespace ImmutableVector
variable {T : Type}

/-- C35, where the code does what the claim says: for every vector `v` obtained
from the constructor `Vector()`, or from the constructor `Vector(count, value)`
with a count below `2 ^ 30` that is zero or not a multiple of 32, by calls of
`Set`, of `PushBack` below the capacity `2 ^ 30` of the trie, and of `PopBack`
on a vector that is not empty, with `v.Size() < 2 ^ 30`, and for every value
`x`: `v.PushBack(x)` returns a vector `w` with `w.Size() == v.Size() + 1` and
`w.Get(v.Size()) == x`; for every `j < v.Size()`, `v.Get(j)` returns a value
and `w.Get(j)` returns the same; and `v` reads after the call as before.  The
count constructor with a count that is a multiple of 32, and the range and
initializer-list constructors, are not among the constructors here. -/
theorem push_back_appends (r : Heap T × Vector) (hb : Built r)
    (hlt : r.2.Size < 2 ^ kStartingBit) (x : T) :
    ∃ h2 w, Vector.PushBack r.1 r.2 x = some (h2, w) ∧ w.Size = r.2.Size + 1 ∧
      Vector.Get h2 w r.2.Size = some x ∧
      (∀ j, j < r.2.Size →
        (∃ y, Vector.Get r.1 r.2 j = some y) ∧ Vector.Get h2 w j = Vector.Get r.1 r.2 j) ∧
      (∀ k, Vector.Get h2 r.2 k = Vector.Get r.1 r.2 k) := by
  obtain ⟨xs, hr⟩ := hb.rep
  obtain ⟨h2, w, e2, n2, f2, r2⟩ := hr.push_rep hlt x
  have hsz : r.2.Size = xs.length := hr.2
  refine ⟨h2, w, e2, ?_, ?_, ?_, ?_⟩
  · show w.size_ = r.2.size_ + 1
    rw [r2.2, hr.2]
    simp
  · rw [r2.get, Nat.mod_eq_of_lt hlt, hsz]
    exact List.getElem?_concat_length xs x
  · intro j hj
    have hj2 : j < 2 ^ kStartingBit := lt_trans hj hlt
    rw [hsz] at hj
    rw [r2.get, hr.get, Nat.mod_eq_of_lt hj2, List.getElem?_append_left hj]
    exact ⟨⟨xs[j], List.getElem?_eq_getElem hj⟩, rfl⟩
  · intro k
    rw [(hr.later n2 f2).get, hr.get]

set_option maxRecDepth 100000 in
theorem push_back_appends_witness :
    leafBoundary.2.Size = 31 ∧ countBoundary.2.Size = 31 ∧
    (Vector.PushBack leafBoundary.1 leafBoundary.2 99).map
      (fun r => (r.2.Size, Vector.Get r.1 r.2 31, Vector.Get r.1 r.2 30)) =
        some (32, some 99, some 30) ∧
    (Vector.PushBack countBoundary.1 countBoundary.2 99).map
      (fun r => (r.2.Size, Vector.Get r.1 r.2 31, Vector.Get r.1 r.2 30)) =
        some (32, some 99, some 0) ∧
    (∃ h2 w, Vector.PushBack leafBoundary.1 leafBoundary.2 99 = some (h2, w) ∧
      w.Size = leafBoundary.2.Size + 1 ∧
      Vector.Get h2 w leafBoundary.2.Size = some 99 ∧
      (∀ j, j < leafBoundary.2.Size →
        (∃ y, Vector.Get leafBoundary.1 leafBoundary.2 j = some y) ∧
          Vector.Get h2 w j = Vector.Get leafBoundary.1 leafBoundary.2 j) ∧
      (∀ k, Vector.Get h2 leafBoundary.2 k = Vector.Get leafBoundary.1 leafBoundary.2 k)) ∧
    ∃ h2 w, Vector.PushBack countBoundary.1 countBoundary.2 99 = some (h2, w) ∧
      w.Size = countBoundary.2.Size + 1 ∧
      Vector.Get h2 w countBoundary.2.Size = some 99 ∧
      (∀ j, j < countBoundary.2.Size →
        (∃ y, Vector.Get countBoundary.1 countBoundary.2 j = some y) ∧
          Vector.Get h2 w j = Vector.Get countBoundary.1 countBoundary.2 j) ∧
      (∀ k, Vector.Get h2 countBoundary.2 k = Vector.Get countBoundary.1 countBoundary.2 k) :=
  ⟨by decide!, by decide!, by decide!, by decide!,
    push_back_appends leafBoundary
      (Built.after_pop (Built.after_pop
        (Built.push_all (List.range 33) (Built.new Heap.empty (by decide)) (by decide!))
        (by decide!)) (by decide!))
      (by decide!) 99,
    push_back_appends countBoundary
      (Built.after_pop (Built.after_pop
        (Built.count Heap.empty 33 0 (by decide) (by decide) (by decide!))
        (by decide!)) (by decide!))
      (by decide!) 99⟩

end ImmutableVector

